import Mathlib

/-!
# seal-io/tap: the JSON-pointer patch engine

A shallow embedding of `pkg/tap/operate_with_json_pointer.go`, `pkg/tap/operate.go`,
`pkg/tap/apply.go`, the loader of `pkg/tap/load.go`, `mergeBody` of
`pkg/terraform/load_overrider.go`, `extractChdirOption` of `pkg/workingdir/helper.go`, the
expression generator `staging/hcl/hclwrite/generate_expr.go`, `AppendHCLBody` of
`staging/hcl/hclwrite/ast_body_ext.go` and the declaration sections of `Write` of
`pkg/terraform/write.go`.

Conventions of the embedding.

* Go strings are byte strings; they are embedded as Lean `String`s and processed as
  lists of characters.  The only bytes the tokenizer inspects are the ASCII bytes `/`, `~`,
  `0` and `1`, which never occur inside a multi-byte UTF-8 sequence, so splitting and replacing
  per character agrees with splitting and replacing per byte on every valid UTF-8 string.
* The library functions `strings.Split`, `strings.NewReplacer(...).Replace` and
  `strconv.ParseInt` are embedded from their documented behaviour.
* A Go call either returns normally, returns an error value, or panics at run time
  (index out of range, failed type assertion).  The three outcomes are kept apart.
* `int` is taken to be 64 bits wide, so `int(idx)` of an `int64` is the identity.
* A Go map `map[string]*Attribute` is an association list with at most one entry per name;
  where the Go code ranges over a map, the list order stands for the iteration order.
* Pointers into the tree are locations: `Search` returns the node it reached together with
  the place of that node in the resource body, an in-place mutation of the node is the
  replacement of the node at that place.  The tree is taken to be free of sharing, as the
  parser builds it.
* Error values are told apart by their message format, not by their text.
-/

namespace Tap

/-! ## Path tokenizer -/

/-- Go `strings.Split(s, "/")`: the pieces of `s` between consecutive occurrences of `/`.
A string with `n` separators yields `n + 1` pieces; in particular the empty string yields
the single empty piece. -/
def splitSlash : List Char → List (List Char)
  | [] => [[]]
  | c :: cs =>
    if c = '/' then [] :: splitSlash cs
    else
      match splitSlash cs with
      | [] => [[c]]
      | p :: ps => (c :: p) :: ps

/-- Go `strings.NewReplacer("~1", "/", "~0", "~").Replace`: one left-to-right scan; at every
position the first matching old string is replaced and the scan resumes after the match, so
replacements are never rescanned (RFC 6901, section 4). -/
def decReplace : List Char → List Char
  | [] => []
  | [c] => [c]
  | c :: d :: cs =>
    if c = '~' ∧ d = '1' then '/' :: decReplace cs
    else if c = '~' ∧ d = '0' then '~' :: decReplace cs
    else c :: decReplace (d :: cs)

/-- A token of a JSON pointer path: the raw segment and the decoded segment. -/
structure JSONPointerPathToken where
  Raw : String
  Value : String
deriving DecidableEq, Repr

/-- A path operator is the list of the tokens of its path. -/
abbrev JSONPointerPathOperator := List JSONPointerPathToken

/-- Go `TokenizeJSONPointerPath`: split on `/`, drop the piece before the first `/`, decode
every remaining piece.  A path without any `/` has fewer than two pieces and yields no
token. -/
def TokenizeJSONPointerPath (path : String) : List JSONPointerPathToken :=
  let ps := splitSlash path.toList
  if ps.length < 2 then []
  else (ps.drop 1).map (fun p => ⟨String.mk p, String.mk (decReplace p)⟩)

/-- The kinds of error value returned by the patch engine, one per message format. -/
inductive Failure where
  /-- Message `invalid path: %s` -/
  | invalidPath
  /-- Message `invalid resource type: %T` -/
  | invalidResourceType
  /-- Message `invalid target type: %s: %T` -/
  | invalidTarget
  /-- Message `path not found: %s` -/
  | pathNotFound
  /-- Message `invalid indexer path: %s` -/
  | invalidIndexer
  /-- Message `illegal indexer path: %s` -/
  | illegalIndexer
  /-- Message `path already exists: %s` -/
  | alreadyExists
  /-- Message `attribute %s already exists: %s` -/
  | attributeAlreadyExists (name : String)
  /-- Message `want patch attribute but got patch block` -/
  | wantAttribute
  /-- Message `want patch block but got patch attribute` -/
  | wantBlock
  /-- Message `failed to search target: %w` -/
  | searchFailed (cause : Failure)
deriving DecidableEq, Repr

/-- Run-time panics of the Go code. -/
inductive Panic where
  /-- An index or slice expression out of range. -/
  | indexOutOfRange
  /-- A failed type assertion `x.(T)`. -/
  | typeAssertion
deriving DecidableEq, Repr

/-- The outcome of a Go call that returns `(value, error)`: a value, an error value, or a
run-time panic. -/
inductive Result (α : Type) where
  | ok (a : α)
  | err (e : Failure)
  | panic (p : Panic)
deriving DecidableEq, Repr

/-- Go `NewJSONPointerPathOperator`: the tokens of the path, or `invalid path` when there are
none. -/
def NewJSONPointerPathOperator (path : String) : Result JSONPointerPathOperator :=
  let tks := TokenizeJSONPointerPath path
  if tks.length = 0 then .err .invalidPath else .ok tks

/-- Replace every occurrence of the character `c` by the characters `r`. -/
def replaceChar (c : Char) (r : List Char) (s : List Char) : List Char :=
  s.flatMap (fun x => if x = c then r else [x])

/-- Segment encoding of RFC 6901 as the specification words it (there is no encoder in the
source): first every `~` becomes `~0`, then every `/` becomes `~1`. -/
def encodeSegment (s : String) : String :=
  String.mk (replaceChar '/' ['~', '1'] (replaceChar '~' ['~', '0'] s.toList))


/-! ## Document tree -/

/-- Go `hcl.Range`, reduced to the file name and the start line (the two components the
writer orders declarations by).  The patch engine only copies ranges. -/
structure Range where
  Filename : String
  Line : Nat
deriving DecidableEq, Repr, Inhabited

/-- The key expression of an object item (`hclsyntax.ObjectConsKeyExpr`), as far as
`hcl.AbsTraversalForExpr` distinguishes keys: either the key is an absolute traversal
(a bare identifier `k`, or a dotted `k.a.b`), and then the call succeeds with a traversal
whose root is named `rootName`; or it is any other expression (a quoted string, a template,
a parenthesised expression), and then the call returns an error. -/
inductive KeyExpr where
  | traversal (rootName : String) (rest : List String)
  | other (src : String)
deriving DecidableEq, Repr

/-- The name the engine compares a segment with: `tr[0].(hcl.TraverseRoot).Name` when
`hcl.AbsTraversalForExpr` succeeds with a non-relative traversal. -/
def KeyExpr.rootName? : KeyExpr → Option String
  | .traversal n _ => some n
  | .other _ => none

/-- Go `hclsyntax.ObjectConsItem` over the expression type `E`. -/
structure ObjectConsItem (E : Type) where
  KeyExpr : KeyExpr
  ValueExpr : E
deriving Repr

/-- Go `hclsyntax.Expression`.  The engine distinguishes object constructors, tuple
constructors and everything else (literals, templates, traversals, calls, ...). -/
inductive Expression where
  | ObjectConsExpr (Items : List (ObjectConsItem Expression))
  | TupleConsExpr (Exprs : List Expression)
  | other (src : String)
deriving Repr

/-- Go `hclsyntax.Attribute`. -/
structure Attribute where
  Name : String
  Expr : Expression
  SrcRange : Range
  NameRange : Range
deriving Repr

/-- Go `hclsyntax.Block` over the body type `B`. -/
structure BlockOf (B : Type) where
  Type_ : String
  Labels : List String
  Body : B
  TypeRange : Range
  LabelRanges : List Range
deriving Repr

/-- Go `hclsyntax.Body`: the attribute map and the block list.  The Go map
`map[string]*Attribute` is embedded as an association list with at most one entry per name;
a name is looked up with `List.lookup`, a fresh name is added at the end. -/
structure Body where
  Attributes : List (String × Attribute)
  Blocks : List (BlockOf Body)

/-- Go `hclsyntax.Block`. -/
abbrev Block := BlockOf Body

/-- Go `hcl.Attribute`, the inline `value = ...` of an operation. -/
structure HclAttribute where
  Name : String
  Expr : Expression
  Range : Tap.Range
  NameRange : Tap.Range

/-- Go `hcl.Block`, the nested `value { ... }` of an operation; its body is an
`*hclsyntax.Body`. -/
structure HclBlock where
  Type_ : String
  Labels : List String
  Body : Tap.Body
  TypeRange : Tap.Range
  LabelRanges : List Tap.Range

/-- Go `Value`: each of the two pointers may be nil. -/
structure Value where
  Attribute : Option HclAttribute
  Block : Option HclBlock

/-- The `hcl.Body` behind `resource.Config`: an `*hclsyntax.Body` or any other
implementation of the interface. -/
inductive ConfigBody where
  | native (b : Body)
  | foreign

/-- Go `configs.Resource`, reduced to the fields the patch engine reads. -/
structure Resource where
  Type_ : String
  Name : String
  Config : ConfigBody

/-- The dynamic values a `target any` of `Search` can hold. -/
inductive Node where
  /-- Go `*hclsyntax.Body` -/
  | body (b : Body)
  /-- An `hclsyntax.Expression` -/
  | expr (e : Expression)
  /-- Go `[]*hclsyntax.Body`, a block group -/
  | bodies (bs : List Body)

def dynamicBlockType : String := "dynamic"

/-! ## Integer segments -/

/-- The decimal digits of `strconv.ParseUint(s, 10, 64)`, accumulated left to right; any
other character is a syntax error. -/
def parseDigits : List Char → Nat → Option Nat
  | [], acc => some acc
  | c :: cs, acc =>
    if '0' ≤ c ∧ c ≤ '9' then parseDigits cs (acc * 10 + (c.toNat - '0'.toNat)) else none

/-- Go `strconv.ParseInt(s, 10, 64)`, `none` standing for a non-nil error: an optional sign,
then at least one decimal digit, and a value within the range of `int64`. -/
def ParseInt (s : String) : Option Int :=
  match s.toList with
  | [] => none
  | c :: cs =>
    let ds := if c = '+' ∨ c = '-' then cs else c :: cs
    match ds with
    | [] => none
    | d :: ds' =>
      match parseDigits (d :: ds') 0 with
      | none => none
      | some un =>
        if c = '-' then
          if 2 ^ 63 < un then none else some (-(un : Int))
        else
          if 2 ^ 63 ≤ un then none else some (un : Int)

/-- The index idiom shared by the tuple and block-group cases, for a sequence of length `n`
and a parsed segment `i`:
`if idx == -1 { idx = len - 1 }; if len-1 < int(idx) { return path not found }; t[idx]`.
There is no lower-bound check, so an index that is still negative reaches the index
expression and panics. -/
def resolveIndex (n : Nat) (i : Int) : Result Nat :=
  let idx : Int := if i = -1 then (n : Int) - 1 else i
  if (n : Int) - 1 < idx then .err .pathNotFound
  else if idx < 0 then .panic .indexOutOfRange
  else .ok idx.toNat

/-! ## Search -/

/-- One step of a location inside a resource body. -/
inductive Step where
  /-- From a body to the expression of its attribute `name`. -/
  | attrExpr (name : String)
  /-- From a body to the group of bodies collected for the segment `seg`. -/
  | blocks (seg : String)
  /-- From an object constructor to the value expression of item `idx`. -/
  | item (idx : Nat)
  /-- From a tuple constructor to element `idx`. -/
  | element (idx : Nat)
  /-- From a block group to its body `idx`. -/
  | member (idx : Nat)
deriving DecidableEq, Repr

/-- A pointer into the tree is embedded as the node it points to together with the
location of that node, counted from the resource body. -/
abbrev Location := List Step

/-- The loop state of `Search`: `target` and `parent`, each with its location. -/
structure Cursor where
  target : Node
  parent : Option Node
  loc : Location
  parentLoc : Location

/-- The loop of the `*hclsyntax.Body` case of `Search` (lines 64-77), `bds` being the
slice built so far.  A `dynamic` block is looked at through its first label only, and
contributes the body of its first nested block. -/
def collectBodies (seg : String) : List Block → List Body → Result (List Body)
  | [], bds => .ok bds
  | blk :: rest, bds =>
    if blk.Type_ = dynamicBlockType then
      match blk.Labels with
      | [] => .panic .indexOutOfRange
      | l :: _ =>
        if l ≠ seg then collectBodies seg rest bds
        else
          match blk.Body.Blocks with
          | [] => .panic .indexOutOfRange
          | inner :: _ => collectBodies seg rest (bds ++ [inner.Body])
    else if blk.Type_ = seg then collectBodies seg rest (bds ++ [blk.Body])
    else collectBodies seg rest bds

/-- The index at which the scan `for ; idx < len(t.Items); idx++` stops: the first item
whose key is an absolute traversal rooted at `seg`, or the number of items. -/
def findItem (seg : String) : List (ObjectConsItem Expression) → Nat
  | [] => 0
  | it :: rest => if it.KeyExpr.rootName? = some seg then 0 else findItem seg rest + 1

/-- The body of the loop of `Search` (lines 51-132) for the segment `seg`. -/
def searchStep (c : Cursor) (seg : String) : Result Cursor :=
  match c.target with
  | .body t =>
    match t.Attributes.lookup seg with
    | some attr => .ok ⟨.expr attr.Expr, some (.body t), c.loc ++ [.attrExpr seg], c.loc⟩
    | none =>
      match collectBodies seg t.Blocks [] with
      | .panic p => .panic p
      | .err e => .err e
      | .ok bds =>
        if bds.length = 0 then .err .pathNotFound
        else .ok ⟨.bodies bds, some (.body t), c.loc ++ [.blocks seg], c.loc⟩
  | .expr (.ObjectConsExpr items) =>
    let idx := findItem seg items
    if idx = items.length then .err .pathNotFound
    else
      match items[idx]? with
      | none => .panic .indexOutOfRange
      | some it =>
        .ok ⟨.expr it.ValueExpr, some (.expr (.ObjectConsExpr items)), c.loc ++ [.item idx], c.loc⟩
  | .expr (.TupleConsExpr exprs) =>
    match ParseInt seg with
    | none => .err .invalidIndexer
    | some i =>
      match resolveIndex exprs.length i with
      | .err e => .err e
      | .panic p => .panic p
      | .ok idx =>
        match exprs[idx]? with
        | none => .panic .indexOutOfRange
        | some e =>
          .ok ⟨.expr e, some (.expr (.TupleConsExpr exprs)), c.loc ++ [.element idx], c.loc⟩
  | .bodies t =>
    match ParseInt seg with
    | none => .err .invalidIndexer
    | some i =>
      match resolveIndex t.length i with
      | .err e => .err e
      | .panic p => .panic p
      | .ok idx =>
        match t[idx]? with
        | none => .panic .indexOutOfRange
        | some b => .ok ⟨.body b, c.parent, c.loc ++ [.member idx], c.parentLoc⟩
  | .expr (.other _) => .err .invalidTarget

/-- The loop of `Search` over the values of all tokens but the last. -/
def searchLoop : List String → Cursor → Result Cursor
  | [], c => .ok c
  | seg :: rest, c =>
    match searchStep c seg with
    | .ok c' => searchLoop rest c'
    | .err e => .err e
    | .panic p => .panic p

/-- Go `JSONPointerPathOperator.Search`: the target reached after all tokens but the last,
and its parent. -/
def Search (op : JSONPointerPathOperator) (resource : Resource) : Result Cursor :=
  match resource.Config with
  | .foreign => .err .invalidResourceType
  | .native b => searchLoop (op.dropLast.map (fun tk => tk.Value)) ⟨.body b, none, [], []⟩

/-! ## Writing through a pointer

The Go code mutates the node a pointer refers to.  In the embedding the tree is a value,
and a mutation of the node at a location is the replacement of that node in the tree.
The tree is assumed free of sharing (no node is reachable along two locations), as
it is when it comes out of the parser. -/

/-- The assignment `t.Attributes[name].Expr = e`: the entry that `List.lookup` finds for
`name` gets the expression `e`. -/
def setAttributeExpr (name : String) (e : Expression) :
    List (String × Attribute) → List (String × Attribute)
  | [] => []
  | (k, a) :: rest =>
    if name = k then (k, { a with Expr := e }) :: rest
    else (k, a) :: setAttributeExpr name e rest

/-- The bodies of a group written back to the blocks they were collected from by
`collectBodies`: in block order, a block of type `seg` takes the next body as its own body,
a `dynamic` block labelled `seg` takes it as the body of its first nested block; a block
for which no body is left keeps its own. -/
def scatterBodies (seg : String) : List Block → List Body → List Block
  | [], _ => []
  | blk :: rest, bds =>
    if blk.Type_ = dynamicBlockType then
      match blk.Labels with
      | [] => blk :: scatterBodies seg rest bds
      | l :: _ =>
        if l ≠ seg then blk :: scatterBodies seg rest bds
        else
          match blk.Body.Blocks with
          | [] => blk :: scatterBodies seg rest bds
          | inner :: inners =>
            { blk with Body := { blk.Body with
                Blocks := { inner with Body := bds.headD inner.Body } :: inners } } ::
              scatterBodies seg rest bds.tail
    else if blk.Type_ = seg then
      { blk with Body := bds.headD blk.Body } :: scatterBodies seg rest bds.tail
    else blk :: scatterBodies seg rest bds

/-- The tree `root` with the node at location `loc` replaced by `new`.  A location that
does not exist in `root`, or a node of the wrong kind, leaves `root` as it is. -/
def Node.put : Location → Node → Node → Node
  | [], _, new => new
  | .attrExpr name :: rest, .body b, new =>
    match b.Attributes.lookup name with
    | none => .body b
    | some a =>
      match Node.put rest (.expr a.Expr) new with
      | .expr e => .body { b with Attributes := setAttributeExpr name e b.Attributes }
      | _ => .body b
  | .blocks seg :: rest, .body b, new =>
    match collectBodies seg b.Blocks [] with
    | .ok bds =>
      match Node.put rest (.bodies bds) new with
      | .bodies bds' => .body { b with Blocks := scatterBodies seg b.Blocks bds' }
      | _ => .body b
    | _ => .body b
  | .item idx :: rest, .expr (.ObjectConsExpr items), new =>
    match items[idx]? with
    | none => .expr (.ObjectConsExpr items)
    | some it =>
      match Node.put rest (.expr it.ValueExpr) new with
      | .expr e => .expr (.ObjectConsExpr (items.set idx { it with ValueExpr := e }))
      | _ => .expr (.ObjectConsExpr items)
  | .element idx :: rest, .expr (.TupleConsExpr exprs), new =>
    match exprs[idx]? with
    | none => .expr (.TupleConsExpr exprs)
    | some x =>
      match Node.put rest (.expr x) new with
      | .expr e => .expr (.TupleConsExpr (exprs.set idx e))
      | _ => .expr (.TupleConsExpr exprs)
  | .member idx :: rest, .bodies bs, new =>
    match bs[idx]? with
    | none => .bodies bs
    | some x =>
      match Node.put rest (.body x) new with
      | .body b => .bodies (bs.set idx b)
      | _ => .bodies bs
  | _ :: _, root, _ => root

/-- The node one step below `n`, if the step exists in `n`. -/
def Node.child : Step → Node → Option Node
  | .attrExpr name, .body b => (b.Attributes.lookup name).map (fun a => .expr a.Expr)
  | .blocks seg, .body b =>
    match collectBodies seg b.Blocks [] with
    | .ok bds => some (.bodies bds)
    | _ => none
  | .item idx, .expr (.ObjectConsExpr items) => items[idx]?.map (fun it => .expr it.ValueExpr)
  | .element idx, .expr (.TupleConsExpr exprs) => exprs[idx]?.map (fun e => .expr e)
  | .member idx, .bodies bs => bs[idx]?.map (fun b => .body b)
  | _, _ => none

/-- The node at location `loc` of the tree `n`: what a pointer with that location refers
to. -/
def Node.get : Location → Node → Option Node
  | [], n => some n
  | st :: rest, n =>
    match Node.child st n with
    | some m => Node.get rest m
    | none => none

/-- Two nodes of the same dynamic type; two block groups also have the same length. -/
def Node.sameShape : Node → Node → Prop
  | .body _, .body _ => True
  | .expr _, .expr _ => True
  | .bodies a, .bodies b => a.length = b.length
  | _, _ => False

/-- The resource with the node at `loc` of its body replaced by `new`. -/
def Resource.put (r : Resource) (loc : Location) (new : Node) : Resource :=
  match r.Config with
  | .foreign => r
  | .native b =>
    match Node.put loc (.body b) new with
    | .body b' => { r with Config := .native b' }
    | _ => r

/-- What a call of `Add`, `Replace`, `Remove` or `Set` leaves behind: the resource tree as
it is when the call returns (the tree is mutated in place, also by a call that fails), and
whether the call returned a nil error, an error, or panicked. -/
structure Outcome where
  resource : Resource
  status : Result Unit

/-! ## Add -/

/-- The loop of lines 169-180: whether some block is of type `seg`, or is a `dynamic`
block whose first label is `seg`.  A `dynamic` block is looked at through its label only. -/
def blockExists (seg : String) : List Block → Result Bool
  | [] => .ok false
  | blk :: rest =>
    if blk.Type_ = dynamicBlockType then
      match blk.Labels with
      | [] => .panic .indexOutOfRange
      | l :: _ => if l = seg then .ok true else blockExists seg rest
    else if blk.Type_ = seg then .ok true
    else blockExists seg rest

/-- The loop of lines 250-260 over the attributes `src` of the value block, `dst` being
the attributes of the addressed body: every attribute is inserted until one is met whose
name is already present, which is then reported.  The attributes are visited in list
order (Go leaves the order of a map iteration open). -/
def spliceAttributes :
    List (String × Attribute) → List (String × Attribute) →
      List (String × Attribute) × Option String
  | [], dst => (dst, none)
  | (k, a) :: rest, dst =>
    if (dst.lookup k).isSome then (dst, some k)
    else spliceAttributes rest (dst ++ [(k, a)])

/-- Go `JSONPointerPathOperator.Add`. -/
def Add (op : JSONPointerPathOperator) (resource : Resource) (value : Value) : Outcome :=
  match Search op resource with
  | .err e => ⟨resource, .err (.searchFailed e)⟩
  | .panic p => ⟨resource, .panic p⟩
  | .ok c =>
    match op.getLast? with
    | none => ⟨resource, .panic .indexOutOfRange⟩
    | some tk =>
      let seg := tk.Value
      match c.target with
      | .body t =>
        match value.Attribute, value.Block with
        | some va, _ =>
          if (t.Attributes.lookup seg).isSome then ⟨resource, .err .alreadyExists⟩
          else
            ⟨resource.put c.loc (.body { t with
                Attributes := t.Attributes ++ [(seg, ⟨seg, va.Expr, va.Range, va.NameRange⟩)] }),
              .ok ()⟩
        | none, some vb =>
          match blockExists seg t.Blocks with
          | .panic p => ⟨resource, .panic p⟩
          | .err e => ⟨resource, .err e⟩
          | .ok true => ⟨resource, .err .alreadyExists⟩
          | .ok false =>
            ⟨resource.put c.loc (.body { t with
                Blocks := t.Blocks ++ [⟨seg, vb.Labels, vb.Body, vb.TypeRange, vb.LabelRanges⟩] }),
              .ok ()⟩
        | none, none => ⟨resource, .ok ()⟩
      | .expr (.ObjectConsExpr items) =>
        match value.Attribute with
        | none => ⟨resource, .err .wantAttribute⟩
        | some va =>
          if items.any (fun it => it.KeyExpr.rootName? = some seg) then
            ⟨resource, .err .alreadyExists⟩
          else
            ⟨resource.put c.loc
                (.expr (.ObjectConsExpr (items ++ [⟨.traversal seg [], va.Expr⟩]))),
              .ok ()⟩
      | .expr (.TupleConsExpr exprs) =>
        match value.Attribute with
        | none => ⟨resource, .err .wantAttribute⟩
        | some va =>
          match ParseInt seg with
          | none => ⟨resource, .err .invalidIndexer⟩
          | some idx =>
            if idx ≠ -1 then ⟨resource, .err .illegalIndexer⟩
            else ⟨resource.put c.loc (.expr (.TupleConsExpr (exprs ++ [va.Expr]))), .ok ()⟩
      | .bodies t =>
        match value.Block with
        | none => ⟨resource, .err .wantBlock⟩
        | some vb =>
          match ParseInt seg with
          | none => ⟨resource, .err .invalidIndexer⟩
          | some i =>
            match resolveIndex t.length i with
            | .err e => ⟨resource, .err e⟩
            | .panic p => ⟨resource, .panic p⟩
            | .ok idx =>
              match t[idx]? with
              | none => ⟨resource, .panic .indexOutOfRange⟩
              | some bd =>
                match spliceAttributes vb.Body.Attributes bd.Attributes with
                | (attrs, some k) =>
                  ⟨resource.put c.loc (.bodies (t.set idx { bd with Attributes := attrs })),
                    .err (.attributeAlreadyExists k)⟩
                | (attrs, none) =>
                  ⟨resource.put c.loc (.bodies (t.set idx ⟨attrs, bd.Blocks ++ vb.Body.Blocks⟩)),
                    .ok ()⟩
      | .expr (.other _) => ⟨resource, .err .invalidTarget⟩

/-! ## Replace -/

/-- The loop of lines 292-304 (and 527-539): the indexes, from `j` on, of the blocks of
type `seg` and of the `dynamic` blocks whose first label is `seg`, appended to `idxes`. -/
def matchingBlocks (seg : String) : List Block → Nat → List Nat → Result (List Nat)
  | [], _, idxes => .ok idxes
  | blk :: rest, j, idxes =>
    if blk.Type_ = dynamicBlockType then
      match blk.Labels with
      | [] => .panic .indexOutOfRange
      | l :: _ =>
        if l ≠ seg then matchingBlocks seg rest (j + 1) idxes
        else matchingBlocks seg rest (j + 1) (idxes ++ [j])
    else if blk.Type_ = seg then matchingBlocks seg rest (j + 1) (idxes ++ [j])
    else matchingBlocks seg rest (j + 1) idxes

/-- The loop of lines 310-317 (and 553-560): the body of every listed block is
overwritten, for a `dynamic` block the body of its first nested block. -/
def overwriteBlocks (new : Body) : List Nat → List Block → List Block × Result Unit
  | [], blks => (blks, .ok ())
  | j :: js, blks =>
    match blks[j]? with
    | none => (blks, .panic .indexOutOfRange)
    | some blk =>
      if blk.Type_ = dynamicBlockType then
        match blk.Body.Blocks with
        | [] => (blks, .panic .indexOutOfRange)
        | inner :: inners =>
          overwriteBlocks new js
            (blks.set j { blk with Body := { blk.Body with Blocks := { inner with Body := new } :: inners } })
      else overwriteBlocks new js (blks.set j { blk with Body := new })

/-- The loop of lines 326-332 (and 569-575): the index of the last item whose key is an
absolute traversal rooted at `seg`, starting from `idx` (`none` standing for `-1`). -/
def findLastItem (seg : String) : List (ObjectConsItem Expression) → Nat → Option Nat → Option Nat
  | [], _, idx => idx
  | it :: rest, i, idx =>
    if it.KeyExpr.rootName? = some seg then findLastItem seg rest (i + 1) (some i)
    else findLastItem seg rest (i + 1) idx

/-- Go `JSONPointerPathOperator.Replace`. -/
def Replace (op : JSONPointerPathOperator) (resource : Resource) (value : Value) : Outcome :=
  match Search op resource with
  | .err e => ⟨resource, .err (.searchFailed e)⟩
  | .panic p => ⟨resource, .panic p⟩
  | .ok c =>
    match op.getLast? with
    | none => ⟨resource, .panic .indexOutOfRange⟩
    | some tk =>
      let seg := tk.Value
      match c.target with
      | .body t =>
        match value.Attribute, value.Block with
        | some va, _ =>
          if (t.Attributes.lookup seg).isNone then ⟨resource, .err .pathNotFound⟩
          else
            ⟨resource.put c.loc (.body { t with
                Attributes := setAttributeExpr seg va.Expr t.Attributes }), .ok ()⟩
        | none, some vb =>
          match matchingBlocks seg t.Blocks 0 [] with
          | .panic p => ⟨resource, .panic p⟩
          | .err e => ⟨resource, .err e⟩
          | .ok blkIdxes =>
            if blkIdxes.length = 0 then ⟨resource, .err .pathNotFound⟩
            else
              match overwriteBlocks vb.Body blkIdxes t.Blocks with
              | (blks, st) => ⟨resource.put c.loc (.body { t with Blocks := blks }), st⟩
        | none, none => ⟨resource, .ok ()⟩
      | .expr (.ObjectConsExpr items) =>
        match value.Attribute with
        | none => ⟨resource, .err .wantAttribute⟩
        | some va =>
          match findLastItem seg items 0 none with
          | none => ⟨resource, .err .pathNotFound⟩
          | some idx =>
            match items[idx]? with
            | none => ⟨resource, .panic .indexOutOfRange⟩
            | some it =>
              ⟨resource.put c.loc
                  (.expr (.ObjectConsExpr (items.set idx { it with ValueExpr := va.Expr }))),
                .ok ()⟩
      | .expr (.TupleConsExpr exprs) =>
        match value.Attribute with
        | none => ⟨resource, .err .wantAttribute⟩
        | some va =>
          match ParseInt seg with
          | none => ⟨resource, .err .invalidIndexer⟩
          | some i =>
            match resolveIndex exprs.length i with
            | .err e => ⟨resource, .err e⟩
            | .panic p => ⟨resource, .panic p⟩
            | .ok idx =>
              ⟨resource.put c.loc (.expr (.TupleConsExpr (exprs.set idx va.Expr))), .ok ()⟩
      | .bodies t =>
        match value.Block with
        | none => ⟨resource, .err .wantBlock⟩
        | some vb =>
          match ParseInt seg with
          | none => ⟨resource, .err .invalidIndexer⟩
          | some i =>
            match resolveIndex t.length i with
            | .err e => ⟨resource, .err e⟩
            | .panic p => ⟨resource, .panic p⟩
            | .ok idx =>
              ⟨resource.put c.loc
                  (.bodies (t.set idx ⟨vb.Body.Attributes, vb.Body.Blocks⟩)), .ok ()⟩
      | .expr (.other _) => ⟨resource, .err .invalidTarget⟩

/-! ## Remove -/

/-- The loop of lines 406-417: the blocks that are kept, appended to `blks`; a block of
type `seg` and a `dynamic` block whose first label is `seg` are skipped. -/
def removeBlocks (seg : String) : List Block → List Block → Result (List Block)
  | [], blks => .ok blks
  | blk :: rest, blks =>
    if blk.Type_ = dynamicBlockType then
      match blk.Labels with
      | [] => .panic .indexOutOfRange
      | l :: _ =>
        if l = seg then removeBlocks seg rest blks
        else removeBlocks seg rest (blks ++ [blk])
    else if blk.Type_ = seg then removeBlocks seg rest blks
    else removeBlocks seg rest (blks ++ [blk])

/-- The loop of lines 468-484 over the blocks of the owning body.  The pointer comparison
with `t[idx]` is embedded by position: `k` counts the blocks met so far that
`collectBodies` collects for `pSeg`, and the body of such a block is `t[idx]` exactly when
`k = idx`.  The `switch` has no case for a block of any other type, so such a block is
not appended. -/
def removeMember (pSeg : String) (idx : Nat) : List Block → Nat → List Block → Result (List Block)
  | [], _, blks => .ok blks
  | blk :: rest, k, blks =>
    if blk.Type_ = dynamicBlockType then
      match blk.Labels with
      | [] => .panic .indexOutOfRange
      | l :: _ =>
        if l ≠ pSeg then removeMember pSeg idx rest k (blks ++ [blk])
        else
          match blk.Body.Blocks with
          | [] => .panic .indexOutOfRange
          | _ :: _ =>
            if k ≠ idx then removeMember pSeg idx rest (k + 1) (blks ++ [blk])
            else removeMember pSeg idx rest (k + 1) blks
    else if blk.Type_ = pSeg then
      if k ≠ idx then removeMember pSeg idx rest (k + 1) (blks ++ [blk])
      else removeMember pSeg idx rest (k + 1) blks
    else removeMember pSeg idx rest k blks

/-- Go `JSONPointerPathOperator.Remove`. -/
def Remove (op : JSONPointerPathOperator) (resource : Resource) : Outcome :=
  match Search op resource with
  | .err e => ⟨resource, .err (.searchFailed e)⟩
  | .panic p => ⟨resource, .panic p⟩
  | .ok c =>
    match op.getLast? with
    | none => ⟨resource, .panic .indexOutOfRange⟩
    | some tk =>
      let seg := tk.Value
      match c.target with
      | .body t =>
        if (t.Attributes.lookup seg).isSome then
          ⟨resource.put c.loc (.body { t with
              Attributes := t.Attributes.filter (fun p => p.1 ≠ seg) }), .ok ()⟩
        else
          match removeBlocks seg t.Blocks [] with
          | .panic p => ⟨resource, .panic p⟩
          | .err e => ⟨resource, .err e⟩
          | .ok blks => ⟨resource.put c.loc (.body { t with Blocks := blks }), .ok ()⟩
      | .expr (.ObjectConsExpr items) =>
        let idx := findItem seg items
        if idx = items.length then ⟨resource, .err .pathNotFound⟩
        else ⟨resource.put c.loc (.expr (.ObjectConsExpr (items.eraseIdx idx))), .ok ()⟩
      | .expr (.TupleConsExpr exprs) =>
        match ParseInt seg with
        | none => ⟨resource, .err .invalidIndexer⟩
        | some i =>
          match resolveIndex exprs.length i with
          | .err e => ⟨resource, .err e⟩
          | .panic p => ⟨resource, .panic p⟩
          | .ok idx =>
            ⟨resource.put c.loc (.expr (.TupleConsExpr (exprs.eraseIdx idx))), .ok ()⟩
      | .bodies t =>
        match ParseInt seg with
        | none => ⟨resource, .err .invalidIndexer⟩
        | some i =>
          match resolveIndex t.length i with
          | .err e => ⟨resource, .err e⟩
          | .panic p => ⟨resource, .panic p⟩
          | .ok idx =>
            match op.dropLast.getLast? with
            | none => ⟨resource, .panic .indexOutOfRange⟩
            | some ptk =>
              let pSeg := ptk.Value
              match c.parent with
              | some (.body p) =>
                match removeMember pSeg idx p.Blocks 0 [] with
                | .panic q => ⟨resource, .panic q⟩
                | .err e => ⟨resource, .err e⟩
                | .ok blks =>
                  ⟨resource.put c.parentLoc (.body { p with Blocks := blks }), .ok ()⟩
              | _ => ⟨resource, .panic .typeAssertion⟩
      | .expr (.other _) => ⟨resource, .err .invalidTarget⟩

/-! ## Set -/

/-- Go `JSONPointerPathOperator.Set`. -/
def Set (op : JSONPointerPathOperator) (resource : Resource) (value : Value) : Outcome :=
  match Search op resource with
  | .err e => ⟨resource, .err (.searchFailed e)⟩
  | .panic p => ⟨resource, .panic p⟩
  | .ok c =>
    match op.getLast? with
    | none => ⟨resource, .panic .indexOutOfRange⟩
    | some tk =>
      let seg := tk.Value
      match c.target with
      | .body t =>
        match value.Attribute, value.Block with
        | some va, _ =>
          if (t.Attributes.lookup seg).isNone then
            ⟨resource.put c.loc (.body { t with
                Attributes := t.Attributes ++ [(seg, ⟨seg, va.Expr, va.Range, va.NameRange⟩)] }),
              .ok ()⟩
          else
            ⟨resource.put c.loc (.body { t with
                Attributes := setAttributeExpr seg va.Expr t.Attributes }), .ok ()⟩
        | none, some vb =>
          match matchingBlocks seg t.Blocks 0 [] with
          | .panic p => ⟨resource, .panic p⟩
          | .err e => ⟨resource, .err e⟩
          | .ok blkIdxes =>
            if blkIdxes.length = 0 then
              ⟨resource.put c.loc (.body { t with
                  Blocks := t.Blocks ++ [⟨seg, vb.Labels, vb.Body, vb.TypeRange, vb.LabelRanges⟩] }),
                .ok ()⟩
            else
              match overwriteBlocks vb.Body blkIdxes t.Blocks with
              | (blks, st) => ⟨resource.put c.loc (.body { t with Blocks := blks }), st⟩
        | none, none => ⟨resource, .ok ()⟩
      | .expr (.ObjectConsExpr items) =>
        match value.Attribute with
        | none => ⟨resource, .err .wantAttribute⟩
        | some va =>
          match findLastItem seg items 0 none with
          | none =>
            ⟨resource.put c.loc
                (.expr (.ObjectConsExpr (items ++ [⟨.traversal seg [], va.Expr⟩]))),
              .ok ()⟩
          | some idx =>
            match items[idx]? with
            | none => ⟨resource, .panic .indexOutOfRange⟩
            | some it =>
              ⟨resource.put c.loc
                  (.expr (.ObjectConsExpr (items.set idx { it with ValueExpr := va.Expr }))),
                .ok ()⟩
      | .expr (.TupleConsExpr exprs) =>
        match value.Attribute with
        | none => ⟨resource, .err .wantAttribute⟩
        | some va =>
          match ParseInt seg with
          | none => ⟨resource, .err .invalidIndexer⟩
          | some i =>
            match resolveIndex exprs.length i with
            | .err _ =>
              ⟨resource.put c.loc (.expr (.TupleConsExpr (exprs ++ [va.Expr]))), .ok ()⟩
            | .panic p => ⟨resource, .panic p⟩
            | .ok idx =>
              ⟨resource.put c.loc (.expr (.TupleConsExpr (exprs.set idx va.Expr))), .ok ()⟩
      | .bodies t =>
        match value.Block with
        | none => ⟨resource, .err .wantBlock⟩
        | some vb =>
          match ParseInt seg with
          | none => ⟨resource, .err .invalidIndexer⟩
          | some i =>
            match resolveIndex t.length i with
            | .err e => ⟨resource, .err e⟩
            | .panic p => ⟨resource, .panic p⟩
            | .ok idx =>
              ⟨resource.put c.loc
                  (.bodies (t.set idx ⟨vb.Body.Attributes, vb.Body.Blocks⟩)), .ok ()⟩
      | .expr (.other _) => ⟨resource, .err .invalidTarget⟩

/-! ## Vocabulary of the specification -/

/-- A `dynamic` block as the glossary describes it: labelled with the type it stands in
for and wrapping a nested content block.  Blocks of any other type are unconstrained. -/
def BlockOf.WellFormed (blk : Block) : Prop :=
  blk.Type_ = dynamicBlockType → 0 < blk.Labels.length ∧ 0 < blk.Body.Blocks.length

/-- Every `dynamic` block directly under the body is well formed. -/
def Body.DynamicsWellFormed (b : Body) : Prop :=
  ∀ blk ∈ b.Blocks, BlockOf.WellFormed blk

/-- Every `dynamic` block directly under the body carries at least one label. -/
def Body.DynamicsLabelled (b : Body) : Prop :=
  ∀ blk ∈ b.Blocks, blk.Type_ = dynamicBlockType → 0 < blk.Labels.length

/-- The body a block contributes to the group of the segment `s`, if any: a `dynamic`
block is addressed by its first label and contributes the body of its first nested block,
any other block is addressed by its type and contributes its own body. -/
def memberBody? (s : String) (blk : Block) : Option Body :=
  if blk.Type_ = dynamicBlockType then
    if blk.Labels.head? = some s then blk.Body.Blocks.head?.map (fun inner => inner.Body)
    else none
  else if blk.Type_ = s then some blk.Body
  else none

/-- The block group of the segment `s`, in block-list order. -/
def groupOf (s : String) (blocks : List Block) : List Body :=
  blocks.filterMap (memberBody? s)

/-- The contribution of a block to the group of `s` in the wording of the resolver rule:
the body of a block whose type is `s`, the nested content body of a block of type
`dynamic` whose first label is `s`. -/
def memberBodyAsStated? (s : String) (blk : Block) : Option Body :=
  if blk.Type_ = s then some blk.Body
  else if blk.Type_ = dynamicBlockType ∧ blk.Labels.head? = some s then
    blk.Body.Blocks.head?.map (fun inner => inner.Body)
  else none

/-- The block group of `s` in the wording of the resolver rule. -/
def groupAsStated (s : String) (blocks : List Block) : List Body :=
  blocks.filterMap (memberBodyAsStated? s)

/-- Whether the block occupies the block slot `seg`: a `dynamic` block by its first
label, any other block by its type. -/
def occupies (seg : String) (blk : Block) : Bool :=
  if blk.Type_ = dynamicBlockType then blk.Labels.head? = some seg else blk.Type_ = seg

/-- Whether the block occupies the slot `seg` in the wording of the Add rule: its type is
`seg`, or it is a `dynamic` block whose first label is `seg`. -/
def occupiesAsStated (seg : String) (blk : Block) : Bool :=
  blk.Type_ = seg ∨ (blk.Type_ = dynamicBlockType ∧ blk.Labels.head? = some seg)

/-- The indexes, counted from `j`, of the blocks that occupy the slot `seg`. -/
def occupiedIndexes (seg : String) : List Block → Nat → List Nat
  | [], _ => []
  | blk :: rest, j =>
    if occupies seg blk then j :: occupiedIndexes seg rest (j + 1)
    else occupiedIndexes seg rest (j + 1)

/-- A block after the value body `new` has been written to the slot `seg`: a block that
occupies the slot gets `new` as its body, a `dynamic` one as the body of its first nested
block; any other block is unchanged. -/
def overwriteOne (seg : String) (new : Body) (blk : Block) : Block :=
  if occupies seg blk then
    if blk.Type_ = dynamicBlockType then
      match blk.Body.Blocks with
      | [] => blk
      | inner :: inners =>
        { blk with Body := { blk.Body with Blocks := { inner with Body := new } :: inners } }
    else { blk with Body := new }
  else blk

/-- The decimal digit `d < 10` as a character. -/
def digitChar (d : Nat) : Char := Char.ofNat (48 + d)

/-- The decimal digits of `n`, least significant first; `fuel` bounds their number. -/
def decimalRev : Nat → Nat → List Char
  | 0, _ => []
  | fuel + 1, n => digitChar (n % 10) :: (if n / 10 = 0 then [] else decimalRev fuel (n / 10))

/-- The decimal segment of the specification: the decimal numeral of `n`, without sign or
leading zeros. -/
def decimal (n : Nat) : String := String.mk (decimalRev (n + 1) n).reverse

/-- The length of a TupleExpression or BlockGroup node. -/
def Node.seqLength? : Node → Option Nat
  | .expr (.TupleConsExpr exprs) => some exprs.length
  | .bodies bs => some bs.length
  | _ => none

/-- The node kinds the resolver can walk through or operate on: Body, ObjectExpression,
TupleExpression and BlockGroup. -/
def Node.traversable : Node → Bool
  | .body _ => true
  | .expr (.ObjectConsExpr _) => true
  | .expr (.TupleConsExpr _) => true
  | .bodies _ => true
  | .expr (.other _) => false

/-! ## Sample documents -/

/-- A source range in `main.tf`. -/
def rng (line : Nat) : Range := ⟨"main.tf", line⟩

/-- A token whose raw and decoded texts coincide. -/
def tok (s : String) : JSONPointerPathToken := ⟨s, s⟩

/-- An attribute `name = src`. -/
def attr (name src : String) (line : Nat) : String × Attribute :=
  (name, ⟨name, .other src, rng line, rng line⟩)

/-- The block `content { }`. -/
def contentBlock : Block := ⟨"content", [], ⟨[attr "port" "80" 6], []⟩, rng 5, []⟩

/-- The block `dynamic "foo" { content { port = 80 } }`. -/
def dynamicFoo : Block := ⟨"dynamic", ["foo"], ⟨[], [contentBlock]⟩, rng 4, [rng 4]⟩

/-- The block `tags { team = "a" }`. -/
def tagsBlock : Block := ⟨"tags", [], ⟨[attr "team" "\"a\"" 3], []⟩, rng 2, []⟩

/-- The resource `widget.w` whose only content is the block `dynamic "foo"`. -/
def widgetDynamic : Resource := ⟨"widget", "w", .native ⟨[], [dynamicFoo]⟩⟩

/-- The body `size = 1`, `ports = [80, 443]`, `meta = { owner = ops }`, `tags { ... }`,
`dynamic "foo" { ... }`. -/
def widgetBody : Body :=
  ⟨[attr "size" "1" 1,
    ("ports", ⟨"ports", .TupleConsExpr [.other "80", .other "443"], rng 7, rng 7⟩),
    ("meta", ⟨"meta", .ObjectConsExpr [⟨.traversal "owner" [], .other "ops"⟩], rng 8, rng 8⟩)],
   [tagsBlock, dynamicFoo]⟩

/-- The resource `widget.w` with the body `widgetBody`. -/
def widget : Resource := ⟨"widget", "w", .native widgetBody⟩

/-- The inline value `value = "prod"`. -/
def prodValue : Value := ⟨some ⟨"value", .other "\"prod\"", rng 20, rng 20⟩, none⟩

/-- The nested value `value { env = "prod" }`. -/
def envBlockValue : Value :=
  ⟨none, some ⟨"value", [], ⟨[attr "env" "\"prod\"" 21], []⟩, rng 20, []⟩⟩

/-- The resource `widget.e` with the single attribute `list = []`. -/
def widgetEmptyList : Resource :=
  ⟨"widget", "e", .native ⟨[("list", ⟨"list", .TupleConsExpr [], rng 1, rng 1⟩)], []⟩⟩

/-- The block `tags { team = "b" }`. -/
def tagsBlockB : Block := ⟨"tags", [], ⟨[attr "team" "\"b\"" 11], []⟩, rng 10, []⟩

/-- The block `lifecycle { prevent_destroy = true }`. -/
def lifecycleBlock : Block :=
  ⟨"lifecycle", [], ⟨[attr "prevent_destroy" "true" 13], []⟩, rng 12, []⟩

/-- The resource `widget.t` with the blocks `tags { team = "a" }`, `tags { team = "b" }`
and `lifecycle { ... }`. -/
def widgetTwoTags : Resource :=
  ⟨"widget", "t", .native ⟨[], [tagsBlock, tagsBlockB, lifecycleBlock]⟩⟩

/-- The resource `widget.d` with the single attribute `meta = { owner = ops, owner = dev }`,
an object whose key `owner` occurs twice. -/
def widgetDupKeys : Resource :=
  ⟨"widget", "d", .native ⟨[("meta", ⟨"meta", .ObjectConsExpr
    [⟨.traversal "owner" [], .other "ops"⟩, ⟨.traversal "owner" [], .other "dev"⟩],
    rng 1, rng 1⟩)], []⟩⟩

/-- The number of elements of the tuple `ports` of a resource (`0` when it has none). -/
def portsLength (r : Resource) : Nat :=
  match Search [tok "ports", tok "x"] r with
  | .ok c =>
    match c.target with
    | .expr (.TupleConsExpr exprs) => exprs.length
    | _ => 0
  | _ => 0

/-- The resource `widget.p` with the single attribute `ports = [80, 443, 8080]`. -/
def widgetThreePorts : Resource :=
  ⟨"widget", "p", .native ⟨[("ports", ⟨"ports",
    .TupleConsExpr [.other "80", .other "443", .other "8080"], rng 1, rng 1⟩)], []⟩⟩


/-! ## Override merge

A shallow embedding of `mergeBody` of `pkg/terraform/load_overrider.go`.  The maps of the
bodies are taken to be non-nil, as the parser builds them; the function mutates the base
body in place and returns it, the embedding returns the merged body. -/

/-- The outcome of a Go call with the error type `ε`: a value, an error value, or a run-time
panic. -/
inductive Returned (ε α : Type) where
  | ok (a : α)
  | err (e : ε)
  | panic (p : Panic)
deriving DecidableEq, Repr

/-- Go `hcl.Body` as `mergeBody` tells its implementations apart: a `configs.MergeBody`
(by value or by pointer) with its base and its override, an `*hclsyntax.Body`, or any other
implementation. -/
inductive HclBody where
  | MergeBody (Base Override : HclBody)
  | native (b : Body)
  | foreign

/-- The diagnostics of `mergeBody`, one per summary. -/
inductive MergeDiagnostic where
  /-- Summary `Failed to merge body` -/
  | failedToMerge
  /-- Summary `Invalid merge body` -/
  | invalidMergeBody
deriving DecidableEq, Repr

/-- The map assignment `m[k] = v`: the entry of `k` gets the value `v`, a fresh key is
added. -/
def mapAssign {α : Type} (k : String) (v : α) : List (String × α) → List (String × α)
  | [] => [(k, v)]
  | (k', v') :: rest =>
    if k = k' then (k', v) :: rest else (k', v') :: mapAssign k v rest

/-- The loop `for n, attr := range ob.Attributes { bb.Attributes[n] = attr }` (lines
114-117), and any other loop that assigns the entries of one map to another; the entries of
`src` are visited in list order. -/
def assignAll {α : Type} (dst src : List (String × α)) : List (String × α) :=
  src.foldl (fun m e => mapAssign e.1 e.2 m) dst

/-- The loop of lines 125-131 over the blocks of the override: the set `obts` of the names
seen, as the list of its keys.  A `dynamic` block contributes its first label, any other
block its type. -/
def overrideTypes : List Block → List String → Returned MergeDiagnostic (List String)
  | [], obts => .ok obts
  | blk :: rest, obts =>
    if blk.Type_ = "dynamic" then
      match blk.Labels with
      | [] => .panic .indexOutOfRange
      | l :: _ => overrideTypes rest (obts ++ [l])
    else overrideTypes rest (obts ++ [blk.Type_])

/-- The loop of lines 133-143 over the blocks of the base, `blks` being the slice built so
far: a `dynamic` block whose first label is in `obts` is skipped, then any block whose type
is in `obts` is skipped, every other block is appended. -/
def keepBaseBlocks (obts : List String) :
    List Block → List Block → Returned MergeDiagnostic (List Block)
  | [], blks => .ok blks
  | blk :: rest, blks =>
    if blk.Type_ = "dynamic" then
      match blk.Labels with
      | [] => .panic .indexOutOfRange
      | l :: _ =>
        if l ∈ obts then keepBaseBlocks obts rest blks
        else if blk.Type_ ∈ obts then keepBaseBlocks obts rest blks
        else keepBaseBlocks obts rest (blks ++ [blk])
    else if blk.Type_ ∈ obts then keepBaseBlocks obts rest blks
    else keepBaseBlocks obts rest (blks ++ [blk])

/-- Lines 113-146 of `mergeBody`: the merge of the resolved override `ob` into the resolved
base `bb`. -/
def mergeInto (bb ob : Body) : Returned MergeDiagnostic HclBody :=
  let attrs := assignAll bb.Attributes ob.Attributes
  match overrideTypes ob.Blocks [] with
  | .panic p => .panic p
  | .err e => .err e
  | .ok obts =>
    match keepBaseBlocks obts bb.Blocks [] with
    | .panic p => .panic p
    | .err e => .err e
    | .ok blks => .ok (.native ⟨attrs, blks ++ ob.Blocks⟩)

/-- Go `mergeBody`: a body that is no `configs.MergeBody` is returned as it is; otherwise
the base and then the override are resolved, both must come out as `*hclsyntax.Body`, and
the override is merged into the base. -/
def mergeBody : HclBody → Returned MergeDiagnostic HclBody
  | .native b => .ok (.native b)
  | .foreign => .ok .foreign
  | .MergeBody base override =>
    match mergeBody base with
    | .panic p => .panic p
    | .err _ => .err .failedToMerge
    | .ok .foreign => .err .invalidMergeBody
    | .ok (.MergeBody _ _) => .err .invalidMergeBody
    | .ok (.native bb) =>
      match mergeBody override with
      | .panic p => .panic p
      | .err _ => .err .failedToMerge
      | .ok .foreign => .err .invalidMergeBody
      | .ok (.MergeBody _ _) => .err .invalidMergeBody
      | .ok (.native ob) => mergeInto bb ob

/-- The identity of a block in the override merge, as the specification words it: the first
label of a `dynamic` block, the type of any other block. -/
def blockIdentity (blk : Block) : Option String :=
  if blk.Type_ = "dynamic" then blk.Labels.head? else some blk.Type_

/-- The merged block list as the specification words it: the blocks of the base whose
identity does not occur among the blocks of the override, in the order of the base,
followed by all blocks of the override. -/
def mergedBlocksAsStated (base override : List Block) : List Block :=
  base.filter (fun blk => !(override.map blockIdentity).contains (blockIdentity blk)) ++ override

/-- Whether the loop over the base blocks (lines 133-143) skips the block: a `dynamic`
block whose first label is in `obts`, or any block whose type is in `obts`. -/
def skipped (obts : List String) (blk : Block) : Bool :=
  (decide (blk.Type_ = "dynamic") &&
      (match blk.Labels with
        | [] => false
        | l :: _ => decide (l ∈ obts))) ||
    decide (blk.Type_ ∈ obts)

/-- The block `dynamic "dynamic" { content { } }`. -/
def dynamicDynamic : Block :=
  ⟨"dynamic", ["dynamic"], ⟨[], [⟨"content", [], ⟨[], []⟩, rng 31, []⟩]⟩, rng 30, [rng 30]⟩

/-- The base body `size = 1`, `zone = "a"`, `tags { team = "a" }`, `lifecycle { ... }`. -/
def baseBody : Body :=
  ⟨[attr "size" "1" 1, attr "zone" "\"a\"" 2], [tagsBlock, lifecycleBlock]⟩

/-- The override body `size = 2`, `tier = "gold"`, `tags { team = "b" }`. -/
def overrideBody : Body :=
  ⟨[attr "size" "2" 41, attr "tier" "\"gold\"" 42], [tagsBlockB]⟩

/-! ## Dispatcher

A shallow embedding of `Operate` and `getPathOperator` of `pkg/tap/operate.go` and of
`Apply` of `pkg/tap/apply.go`.  A map `map[string]*configs.Resource` is an association list
with at most one entry per key, the list order standing for the iteration order.  The
resources are mutated in place through the pointers the maps share: what a call leaves
behind is the value every key refers to when the call returns, whatever it returns.

The value of an operation is stored by reference: `toHCLSyntaxExpression` and
`toHCLSyntaxBody` (lines 76-82) are type assertions, so every resource an operation is
applied to holds the same expression or body as the patch does.  The embedding works on
trees free of sharing and gives every resource a tree of its own.  It agrees with the
program for one pass of an operation over resources as the parser builds them, in which
the value is stored and never changed.  It does not follow what a later operation does to
a tuple, an object or a body that an earlier operation has stored: the program changes it
for every resource that holds it.  The theorems about `Operate` with respect to what its
operations leave behind are therefore stated for a patch with one operation. -/

/-- Go `Operation`. -/
structure Operation where
  Mode : String
  Path : String
  Value : Tap.Value

/-- Go `Patch`. -/
structure Patch where
  ContinueOnError : Bool
  ResourceMode : String
  ResourceTypes : List String
  ResourceNames : List String
  Operations : List Operation

/-- Go `Config`, the tap configuration. -/
structure Config where
  PathSyntax : String
  Patches : List Patch

/-- Go `TerraformResources`. -/
abbrev TerraformResources := List (String × Resource)

/-- The error values of the dispatcher, one per message format. -/
inductive DispatchError where
  /-- Message `unknown path syntax: %s` -/
  | unknownPathSyntax (name : String)
  /-- An error of `NewJSONPointerPathOperator` -/
  | pathOperator (cause : Failure)
  /-- Message `error getting path operator: %w` -/
  | gettingPathOperator (cause : DispatchError)
  /-- Message `unknown operation mode: %s` -/
  | unknownMode (mode : String)
  /-- Message `error %s on resource %s: %w` -/
  | onResource (mode rn : String) (cause : Failure)
  /-- Message `erorr operating on resources: %w` -/
  | operating (cause : DispatchError)
deriving DecidableEq, Repr

/-- Go `getPathOperator`. -/
def getPathOperator (path pathSyntax : String) :
    Returned DispatchError JSONPointerPathOperator :=
  if pathSyntax = "json_pointer" then
    match NewJSONPointerPathOperator path with
    | .ok po => .ok po
    | .err e => .err (.pathOperator e)
    | .panic p => .panic p
  else .err (.unknownPathSyntax pathSyntax)

/-- The `switch op.Mode` of `Operate` (lines 30-41): the call of the path operator for a
known mode, `none` for the `default` case. -/
def callMode (mode : String) (po : JSONPointerPathOperator) (r : Resource) (value : Value) :
    Option Outcome :=
  if mode = "add" then some (Add po r value)
  else if mode = "replace" then some (Replace po r value)
  else if mode = "remove" then some (Remove po r)
  else if mode = "set" then some (Set po r value)
  else none

/-- What a call of `Operate` leaves behind: the resources of the map as they are when the
call returns, and whether it returned a nil error, an error, or panicked. -/
structure Dispatch where
  resources : TerraformResources
  status : Returned DispatchError Unit

/-- The loop `for rn, r := range tfRess` of `Operate` (lines 27-50) for one operation,
`done` being the entries already visited. -/
def operateResources (continueOnError : Bool) (op : Operation) (po : JSONPointerPathOperator) :
    TerraformResources → TerraformResources → Dispatch
  | [], done => ⟨done, .ok ()⟩
  | (rn, r) :: rest, done =>
    match callMode op.Mode po r op.Value with
    | none => ⟨done ++ (rn, r) :: rest, .err (.unknownMode op.Mode)⟩
    | some out =>
      match out.status with
      | .panic p => ⟨done ++ (rn, out.resource) :: rest, .panic p⟩
      | .err e =>
        if !continueOnError then
          ⟨done ++ (rn, out.resource) :: rest, .err (.onResource op.Mode rn e)⟩
        else operateResources continueOnError op po rest (done ++ [(rn, out.resource)])
      | .ok _ => operateResources continueOnError op po rest (done ++ [(rn, out.resource)])

/-- The loop `for _, op := range patch.Operations` of `Operate` (lines 21-51). -/
def operateLoop (continueOnError : Bool) (pathSyntax : String) :
    List Operation → TerraformResources → Dispatch
  | [], tfRess => ⟨tfRess, .ok ()⟩
  | op :: ops, tfRess =>
    match getPathOperator op.Path pathSyntax with
    | .err e => ⟨tfRess, .err (.gettingPathOperator e)⟩
    | .panic p => ⟨tfRess, .panic p⟩
    | .ok po =>
      let d := operateResources continueOnError op po tfRess []
      match d.status with
      | .ok _ => operateLoop continueOnError pathSyntax ops d.resources
      | _ => d

/-- Go `Operate`. -/
def Operate (tfRess : TerraformResources) (patch : Option Patch) (pathSyntax : String) :
    Dispatch :=
  match patch with
  | none => ⟨tfRess, .ok ()⟩
  | some p => operateLoop p.ContinueOnError pathSyntax p.Operations tfRess

/-- Go `configs.Module`, reduced to the two resource maps. -/
structure Module where
  ManagedResources : TerraformResources
  DataResources : TerraformResources

/-- Go `configs.Config`, the Terraform configuration, reduced to its root module. -/
structure TerraformConfig where
  Module : Tap.Module

/-- The test of lines 33-40 of `Apply`: the resource is selected when its type is one of the
patch's types and the patch has no names or has the name of the resource. -/
def selected (p : Patch) (r : Resource) : Bool :=
  if !p.ResourceTypes.contains r.Type_ then false
  else if p.ResourceNames.length ≠ 0 ∧ !p.ResourceNames.contains r.Name then false
  else true

/-- The map the patch works on (lines 20-23): the data resources when the mode is `data`,
the managed resources otherwise. -/
def originalRess (p : Patch) (m : Module) : TerraformResources :=
  if p.ResourceMode = "data" then m.DataResources else m.ManagedResources

/-- The module with the map the patch works on replaced. -/
def withRess (p : Patch) (m : Module) (ress : TerraformResources) : Module :=
  if p.ResourceMode = "data" then { m with DataResources := ress }
  else { m with ManagedResources := ress }

/-- The body of the loop of `Apply` (lines 17-55) for one patch: the module when the
iteration ends, and how it ends. -/
def applyPatch (pathSyntax : String) (p : Patch) (m : Module) :
    Module × Returned DispatchError Unit :=
  let orig := originalRess p m
  if orig.length = 0 then (m, .ok ())
  else
    let selectedRess := orig.filter (fun e => selected p e.2)
    let d := Operate selectedRess (some p) pathSyntax
    let m' := withRess p m (assignAll orig d.resources)
    match d.status with
    | .ok _ => (m', .ok ())
    | .err e => (m', .err (.operating e))
    | .panic q => (m', .panic q)

/-- The loop of `Apply` over the patches. -/
def applyPatches (pathSyntax : String) :
    List Patch → Module → Module × Returned DispatchError Unit
  | [], m => (m, .ok ())
  | p :: ps, m =>
    let a := applyPatch pathSyntax p m
    match a.2 with
    | .ok _ => applyPatches pathSyntax ps a.1
    | _ => a

/-- What a call of `Apply` leaves behind: the Terraform configuration as it is when the call
returns, and whether the call returned a nil error, an error, or panicked. -/
structure Applied where
  config : TerraformConfig
  status : Returned DispatchError Unit

/-- The configuration `Apply` returns: `tfCfg` with a nil error, nil with an error. -/
def Applied.returned (a : Applied) : Option TerraformConfig :=
  match a.status with
  | .ok _ => some a.config
  | _ => none

/-- Go `Apply`. -/
def Apply (tfCfg : TerraformConfig) (cfg : Option Config) : Applied :=
  match cfg with
  | none => ⟨tfCfg, .ok ()⟩
  | some c =>
    match applyPatches c.PathSyntax c.Patches tfCfg.Module with
    | (m, st) => ⟨⟨m⟩, st⟩

/-- The resource maps of the specification are maps: no key occurs twice. -/
def Module.KeysDistinct (m : Module) : Prop :=
  (m.ManagedResources.map Prod.fst).Nodup ∧ (m.DataResources.map Prod.fst).Nodup

/-- Whether the resource matches the filters of the patch, as the specification words it:
its type is one of the patch's types, and the patch's names are empty or contain its
name. -/
def matchesAsStated (p : Patch) (r : Resource) : Bool :=
  decide (r.Type_ ∈ p.ResourceTypes) &&
    (decide (p.ResourceNames = []) || decide (r.Name ∈ p.ResourceNames))

/-- One application of an operation to a resource under the path syntax `json_pointer`:
the call `Operate` makes for this operation and this resource. -/
def applyOperation (op : Operation) (r : Resource) : Option Outcome :=
  callMode op.Mode (TokenizeJSONPointerPath op.Path) r op.Value

/-- The resource one application of an operation leaves behind, whether it succeeded or
failed. -/
def applied (op : Operation) (r : Resource) : Resource :=
  match applyOperation op r with
  | none => r
  | some out => out.resource

/-- Whether the call panicked. -/
def Outcome.panicked (o : Outcome) : Bool :=
  match o.status with
  | .panic _ => true
  | _ => false

/-- The operation has a known mode and a path with at least one token. -/
def Operation.Valid (op : Operation) : Prop :=
  (op.Mode = "add" ∨ op.Mode = "replace" ∨ op.Mode = "remove" ∨ op.Mode = "set") ∧
    TokenizeJSONPointerPath op.Path ≠ []

/-- The operation `add` of the attribute `extra` with the value `[1]`. -/
def tupleOperation : Operation :=
  ⟨"add", "/extra", ⟨some ⟨"value", .TupleConsExpr [.other "1"], rng 20, rng 20⟩, none⟩⟩

/-- The operation `add` at the end of the tuple `extra` (path segments `extra`, `-1`) with
the value `"prod"`. -/
def appendOperation : Operation := ⟨"add", "/extra/-1", prodValue⟩

/-- The resource `gadget.g` with the single attribute `size = 3`. -/
def gadget : Resource := ⟨"gadget", "g", .native ⟨[attr "size" "3" 1], []⟩⟩

/-- A module with the managed resources `widget.w` and `gadget.g` and the data resource
`data.widget.e`. -/
def sampleModule : Module :=
  ⟨[("widget.w", widget), ("gadget.g", gadget)], [("data.widget.e", widgetEmptyList)]⟩

/-- The operation `add { path = "/env", value = "prod" }`. -/
def envOperation : Operation := ⟨"add", "/env", prodValue⟩

/-- The patch `resource "widget" { add { path = "/env", value = "prod" } }`. -/
def envPatch : Patch := ⟨false, "resource", ["widget"], [], [envOperation]⟩

/-- The operation `add { path = "/list", value = "prod" }`. -/
def listOperation : Operation := ⟨"add", "/list", prodValue⟩

/-- Three resources of type `widget`; only the second one has the attribute `list`. -/
def threeWidgets : TerraformResources :=
  [("widget.w", widget), ("widget.e", widgetEmptyList), ("widget.p", widgetThreePorts)]

/-- The patch `resource "widget" { continue_on_error = true, add { path = "/list", ... } }`. -/
def lenientPatch : Patch := ⟨true, "resource", ["widget"], [], [listOperation]⟩

/-- The patch `resource "widget" { add { path = "/list", ... } }`, aborting on failure. -/
def strictPatch : Patch := ⟨false, "resource", ["widget"], [], [listOperation]⟩

/-- The error `Apply` returns for a path syntax it does not know. -/
def unknownSyntaxError (name : String) : DispatchError :=
  .operating (.gettingPathOperator (.unknownPathSyntax name))

/-- A module without managed resources and with the data resource `data.widget.e`. -/
def dataOnlyModule : Module := ⟨[], [("data.widget.e", widgetEmptyList)]⟩

/-! ## Value decoding

A shallow embedding of `buildValue` of `pkg/tap/load.go`.  The method `Content` of the HCL
library is embedded from its documented behaviour: it returns the attributes and blocks of
the body that the schema names, and an error diagnostic for every attribute and block the
schema does not name and for every block with more labels than its schema has. -/

/-- The `hcl.Body` left of an operation block once `path` has been decoded: its remaining
attributes by name, and its blocks. -/
structure RemainBody where
  Attributes : List (String × HclAttribute)
  Blocks : List HclBlock

/-- The error diagnostics of value decoding, one per summary. -/
inductive Diagnostic where
  /-- Summary `Unsupported argument` -/
  | unsupportedArgument (name : String)
  /-- Summary `Unsupported block type` -/
  | unsupportedBlockType (type : String)
  /-- Summary `Extraneous label for value` -/
  | extraneousLabel
  /-- Summary `Operation %q block requires either a value attribute or a value block` -/
  | valueRequired (mode : String)
deriving DecidableEq, Repr

/-- The diagnostics of `remain.Content` for the schema of `buildValue` (lines 307-318): an
optional attribute `value` and blocks of type `value` without labels. -/
def contentDiagnostics (remain : RemainBody) : List Diagnostic :=
  (remain.Attributes.filter (fun e => e.1 ≠ "value")).map (fun e => .unsupportedArgument e.1) ++
    remain.Blocks.flatMap (fun b =>
      if b.Type_ ≠ "value" then [.unsupportedBlockType b.Type_]
      else if b.Labels.length ≠ 0 then [.extraneousLabel]
      else [])

/-- Go `buildValue`: the operation with its value filled in, and the diagnostics (none on
success). -/
def buildValue (remain : RemainBody) (op : Operation) : Operation × List Diagnostic :=
  let diags := contentDiagnostics remain
  if diags.length ≠ 0 then (op, diags)
  else
    match remain.Attributes.lookup "value" with
    | some a => ({ op with Value := { op.Value with Attribute := some a } }, [])
    | none =>
      match remain.Blocks.filter (fun b => b.Type_ = "value") with
      | [b] => ({ op with Value := { op.Value with Block := some b } }, [])
      | _ => (op, [.valueRequired op.Mode])

/-- Whether exactly one of an inline `value` attribute or a nested `value` block is
present, as the specification words the condition of value decoding. -/
def exactlyOneValueAsStated (remain : RemainBody) : Bool :=
  xor (remain.Attributes.lookup "value").isSome
    (remain.Blocks.any (fun b => b.Type_ = "value"))

/-- The inline attribute `value = "prod"`. -/
def prodAttribute : HclAttribute := ⟨"value", .other "\"prod\"", rng 20, rng 20⟩

/-- The nested block `value { env = "prod" }`. -/
def envBlock : HclBlock := ⟨"value", [], ⟨[attr "env" "\"prod\"" 21], []⟩, rng 20, []⟩

/-- The operation `add` at the path `/env` as `buildOperations` hands it to `buildValue`. -/
def bareOperation : Operation := ⟨"add", "/env", ⟨none, none⟩⟩

/-- The nested value `value { env = "prod", team = "b" }`. -/
def mixedBlockValue : Value :=
  ⟨none, some ⟨"value", [], ⟨[attr "env" "\"prod\"" 21, attr "team" "\"b\"" 22], []⟩,
    rng 20, []⟩⟩

/-- A third layer: the body `zone = "b"`, `lifecycle { prevent_destroy = true }`. -/
def thirdBody : Body := ⟨[attr "zone" "\"b\"" 51], [lifecycleBlock]⟩

/-! ## The option `-chdir`

A shallow embedding of `extractChdirOption` of `pkg/workingdir/helper.go`. -/

/-- Go `strings.HasPrefix(s, pre)`. -/
def HasPrefix (s pre : String) : Bool := pre.toList.isPrefixOf s.toList

/-- The error of `extractChdirOption`: `must include an equals sign followed by a directory
path, like -chdir=example`. -/
inductive ChdirError where
  | missingDirectory
deriving DecidableEq, Repr

/-- The loop of `extractChdirOption` (lines 28-44) from the argument at index `i` on, the
state being `argPos` and `argValue`; `none` stands for the return with the error. -/
def scanChdir : List String → Nat → Nat × String → Option (Nat × String)
  | [], _, st => some st
  | arg :: rest, i, st =>
    if !HasPrefix arg "-" then some st
    else if arg = "-chdir" ∨ arg = "-chdir=" then none
    else if HasPrefix arg "-chdir=" then
      scanChdir rest (i + 1) (i, String.mk (arg.toList.drop "-chdir=".length))
    else scanChdir rest (i + 1) st

/-- Go `extractChdirOption`: the directory, the remaining arguments and the error. -/
def extractChdirOption (args : List String) : String × List String × Option ChdirError :=
  if args.length = 0 then ("", args, none)
  else
    match scanChdir args 0 (0, "") with
    | none => ("", args, some .missingDirectory)
    | some (argPos, argValue) =>
      if argValue = "" then ("", args, none)
      else if argPos = 0 then (argValue, args.drop 1, none)
      else (argValue, args.take argPos ++ args.drop (argPos + 1), none)

/-- The arguments that precede the first non-option argument. -/
def leadingOptions (args : List String) : List String :=
  args.takeWhile (fun a => HasPrefix a "-")

/-! ## Patch loader

A shallow embedding of `buildConfig`, `buildResourcePatches` and `buildOperations` of
`pkg/tap/load.go`, and of `Load` from the call of `buildConfig` on.  What the HCL library
returns for a body (`PartialContent`, `Content`, `Blocks.OfType`, `gohcl.DecodeBody`) is
part of the input: the blocks found, the decoded fields, and the error diagnostics. -/

/-- The error diagnostics of the loader. -/
inductive LoadDiagnostic where
  /-- A diagnostic of `Content` or `PartialContent` -/
  | content (summary : String)
  /-- A diagnostic of `gohcl.DecodeBody` -/
  | decode
  /-- A diagnostic of `buildValue` -/
  | value (d : Diagnostic)
  /-- Summary `Patch %q block requires at least one Operation block` -/
  | operationRequired (patch : String)
deriving DecidableEq, Repr

/-- A block `add`, `remove`, `replace` or `set` as `Content` returns it, with what
`gohcl.DecodeBody` makes of its body: the path and the remaining body, or `none` when it
reports errors. -/
structure OperationBlock where
  Type_ : String
  decoded : Option (String × RemainBody)

/-- The body `v.Remain` of a selector block: the diagnostics and the blocks that
`remain.Content` returns for the schema of `buildOperations`. -/
structure OperationsBody where
  Diagnostics : List LoadDiagnostic
  Blocks : List OperationBlock

/-- The fields `gohcl.DecodeBody` fills for a selector block. -/
structure SelectorFields where
  ContinueOnError : Option Bool
  TypeAlias : List String
  NameMatch : List String
  Remain : OperationsBody

/-- A block `resource` or `data` as `Content` returns it: its type, its label (the schema
asks for exactly one, so `b.Labels[0]` is this label), and what `gohcl.DecodeBody` makes of
its body, `none` when it reports errors. -/
structure SelectorBlock where
  Type_ : String
  Label : String
  decoded : Option SelectorFields

/-- The body `remain` of the tap configuration: the diagnostics and the blocks that
`remain.Content` returns for the schema of `buildResourcePatches`. -/
structure SelectorsBody where
  Diagnostics : List LoadDiagnostic
  Blocks : List SelectorBlock

/-- The body of the loop of `buildOperations` (lines 274-300) for one block. -/
def operationStep (b : OperationBlock) (rp : Patch) (diags : List LoadDiagnostic) :
    Patch × List LoadDiagnostic :=
  match b.decoded with
  | none => (rp, diags ++ [.decode])
  | some (path, remain) =>
    let op : Operation := ⟨b.Type_, path, ⟨none, none⟩⟩
    if b.Type_ ≠ "remove" then
      if (buildValue remain op).2.length ≠ 0 then
        (rp, diags ++ (buildValue remain op).2.map .value)
      else ({ rp with Operations := rp.Operations ++ [(buildValue remain op).1] }, diags)
    else ({ rp with Operations := rp.Operations ++ [op] }, diags)

/-- The loop of `buildOperations` (lines 273-301). -/
def operationsLoop : List OperationBlock → Patch → List LoadDiagnostic →
    Patch × List LoadDiagnostic
  | [], rp, diags => (rp, diags)
  | b :: rest, rp, diags =>
    operationsLoop rest (operationStep b rp diags).1 (operationStep b rp diags).2

/-- Go `buildOperations`: the patch with its operations, and the diagnostics. -/
def buildOperations (remain : OperationsBody) (rp : Patch) : Patch × List LoadDiagnostic :=
  if remain.Diagnostics.length ≠ 0 then (rp, remain.Diagnostics)
  else operationsLoop remain.Blocks rp remain.Diagnostics

/-- Go `pointer.BoolDeref`: the value the pointer refers to, the default when it is nil. -/
def BoolDeref (p : Option Bool) (d : Bool) : Bool :=
  match p with
  | some x => x
  | none => d

/-- The patch of a selector block before its operations are built (lines 217-222), `coe`
being the default of the tap block. -/
def newPatch (coe : Bool) (b : SelectorBlock) (v : SelectorFields) : Patch :=
  ⟨BoolDeref v.ContinueOnError coe, b.Type_, b.Label :: v.TypeAlias, v.NameMatch, []⟩

/-- The body of the loop of `buildResourcePatches` (lines 202-240) for one block. -/
def selectorStep (coe : Bool) (b : SelectorBlock) (cfg : Config) (diags : List LoadDiagnostic) :
    Config × List LoadDiagnostic :=
  match b.decoded with
  | none => (cfg, diags ++ [.decode])
  | some v =>
    let built := buildOperations v.Remain (newPatch coe b v)
    if built.2.length ≠ 0 then (cfg, diags ++ built.2)
    else
      ({ cfg with Patches := cfg.Patches ++ [built.1] },
        if built.1.Operations.length = 0 then
          diags ++ [.operationRequired (built.1.ResourceMode ++ " " ++
            built.1.ResourceTypes.headD "")]
        else diags)

/-- The loop of `buildResourcePatches` (lines 201-241). -/
def patchesLoop (coe : Bool) : List SelectorBlock → Config → List LoadDiagnostic →
    Config × List LoadDiagnostic
  | [], cfg, diags => (cfg, diags)
  | b :: rest, cfg, diags =>
    patchesLoop coe rest (selectorStep coe b cfg diags).1 (selectorStep coe b cfg diags).2

/-- Go `buildResourcePatches`: the configuration with its patches, and the diagnostics. -/
def buildResourcePatches (remain : SelectorsBody) (cfg : Config) (coe : Bool) :
    Config × List LoadDiagnostic :=
  if remain.Diagnostics.length ≠ 0 then (cfg, remain.Diagnostics)
  else patchesLoop coe remain.Blocks cfg remain.Diagnostics

/-- The fields `gohcl.DecodeBody` fills for the block `tap`. -/
structure TapFields where
  ContinueOnError : Bool
  PathSyntax : String

/-- A block `tap` as `PartialContent` returns it, with what `gohcl.DecodeBody` makes of its
body: the fields, or `none` when it reports errors. -/
structure TapBlock where
  decoded : Option TapFields

/-- The merged tap files as `buildConfig` sees them: the error diagnostics of
`PartialContent`, the blocks that `bc.Blocks.OfType("tap")` returns, and the remaining
body. -/
structure TapDocument where
  Diagnostics : List LoadDiagnostic
  tapBlocks : List TapBlock
  remain : SelectorsBody

/-- Go `buildConfig`: the configuration and the diagnostics it returns, or the panic.  The
library method `Blocks.OfType` returns a slice it makes with `make`, which is never nil, so
the test `b == nil` of line 153 is false for every document and is left out; a document
without a block `tap` reaches `b[0]` of line 163 with an empty slice. -/
def buildConfig (doc : TapDocument) : Except Panic (Option Config × List LoadDiagnostic) :=
  if doc.Diagnostics.length ≠ 0 then .ok (none, doc.Diagnostics)
  else
    match doc.tapBlocks with
    | [] => .error .indexOutOfRange
    | b :: _ =>
      match b.decoded with
      | none => .ok (none, [.decode])
      | some v =>
        let pathSyntax := if v.PathSyntax = "" then "json_pointer" else v.PathSyntax
        let built := buildResourcePatches doc.remain ⟨pathSyntax, []⟩ v.ContinueOnError
        .ok (some built.1, built.2)

/-- Go `Load`, from the call of `buildConfig` on (lines 132-137): the configuration, the
error that wraps the diagnostics, or the panic of `buildConfig`. -/
def Load (doc : TapDocument) : Returned (List LoadDiagnostic) (Option Config) :=
  match buildConfig doc with
  | .error p => .panic p
  | .ok built => if built.2.length ≠ 0 then .err built.2 else .ok built.1

/-- What the loader guarantees for a patch: it has an operation and comes from a selector
block, with the type of the block as resource mode, the label followed by the aliases as
resource types, the names of the block, and the block's own `continue_on_error` when it is
set, the default `coe` of the tap block otherwise. -/
def PatchFrom (coe : Bool) (blocks : List SelectorBlock) (p : Patch) : Prop :=
  p.Operations ≠ [] ∧ p.ResourceTypes ≠ [] ∧
    ∃ b ∈ blocks, ∃ v, b.decoded = some v ∧ p.ResourceMode = b.Type_ ∧
      p.ResourceTypes = b.Label :: v.TypeAlias ∧ p.ResourceNames = v.NameMatch ∧
      p.ContinueOnError = (match v.ContinueOnError with
        | some x => x
        | none => coe)

/-- The selector `resource "widget" { type_alias = ["gadget"], continue_on_error = true,
add { path = "/env", value = "prod" } }`. -/
def sampleSelector : SelectorBlock :=
  ⟨"resource", "widget", some ⟨some true, ["gadget"], [],
    ⟨[], [⟨"add", some ("/env", ⟨[("value", prodAttribute)], []⟩)⟩]⟩⟩⟩

/-- The selector `data "gadget" { }`, without operation block. -/
def emptySelector : SelectorBlock := ⟨"data", "gadget", some ⟨none, [], [], ⟨[], []⟩⟩⟩

/-- A tap configuration with the block `tap { }` and the selector `sampleSelector`. -/
def sampleDocument : TapDocument := ⟨[], [⟨some ⟨false, ""⟩⟩], ⟨[], [sampleSelector]⟩⟩

/-- A tap configuration with the block `tap { }` and the selectors `sampleSelector` and
`emptySelector`. -/
def emptySelectorDocument : TapDocument :=
  ⟨[], [⟨some ⟨false, ""⟩⟩], ⟨[], [sampleSelector, emptySelector]⟩⟩

/-- A tap configuration without a block `tap`, with the selector `emptySelector`. -/
def taplessDocument : TapDocument := ⟨[], [], ⟨[], [emptySelector]⟩⟩

/-- The patch that `sampleSelector` is loaded as. -/
def samplePatch : Patch :=
  ⟨true, "resource", ["widget", "gadget"], [], [⟨"add", "/env", ⟨some prodAttribute, none⟩⟩]⟩
/-! ## Expression tokens

A shallow embedding of `staging/hcl/hclwrite/generate_expr.go`.  The functions
`TokensForBinaryOpExpr`, `TokensForConditionalExpr`, ... and `tokensForExpression` call each
other; they are embedded as the arms of one function over the expression tree, each arm
named after the Go function it embeds.  The library functions `TokensForValue` and
`TokensForTraversal` of `hclwrite` are not part of the repository: a value and a traversal
carry the tokens the library returns for them. -/

/-- Go `hclsyntax.TokenType`, the token types the generator and the library helpers emit. -/
inductive HclSyntax.TokenType where
  | TokenOBrace | TokenCBrace | TokenOBrack | TokenCBrack | TokenOParen | TokenCParen
  | TokenOQuote | TokenCQuote
  | TokenStar | TokenSlash | TokenPlus | TokenMinus | TokenPercent
  | TokenEqual | TokenEqualOp | TokenNotEqual
  | TokenLessThan | TokenLessThanEq | TokenGreaterThan | TokenGreaterThanEq
  | TokenAnd | TokenOr | TokenBang
  | TokenDot | TokenComma | TokenEllipsis | TokenFatArrow
  | TokenQuestion | TokenColon
  | TokenTemplateInterp | TokenTemplateControl | TokenTemplateSeqEnd
  | TokenQuotedLit | TokenStringLit | TokenNumberLit | TokenIdent
  | TokenNewline
deriving DecidableEq, Repr

/-- Go `hclsyntax.Token`, without the source range (the generator leaves it zero). -/
structure HclSyntax.Token where
  Type_ : HclSyntax.TokenType
  Bytes : String
deriving DecidableEq, Repr

/-- Go `hclwrite.Token`. -/
structure Token where
  Type_ : HclSyntax.TokenType
  Bytes : String
  SpacesBefore : Nat
deriving DecidableEq, Repr

/-- Go `*hclsyntax.Operation`: a pointer that the generator compares with the operation
variables of the package; `other` is any pointer that is none of them. -/
inductive HclSyntax.Operation where
  | OpLogicalOr | OpLogicalAnd | OpLogicalNot
  | OpEqual | OpNotEqual
  | OpGreaterThan | OpGreaterThanOrEqual | OpLessThan | OpLessThanOrEqual
  | OpAdd | OpSubtract | OpMultiply | OpDivide | OpModulo | OpNegate
  | other
deriving DecidableEq, Repr

/-- Go `cty.Value` as far as the generator looks at it: whether `Val.Type() == cty.String`,
and the tokens the library function `TokensForValue` returns for the value. -/
structure CtyValue where
  isString : Bool
  tokens : List Token
deriving DecidableEq, Repr

/-- Go `hcl.Traversal` as far as the generator looks at it: the tokens the library function
`TokensForTraversal` returns for it. -/
structure Traversal where
  tokens : List Token
deriving DecidableEq, Repr

/-- Library function `hclwrite.TokensForValue`. -/
def TokensForValue (val : CtyValue) : List Token := val.tokens

/-- Library function `hclwrite.TokensForTraversal`. -/
def TokensForTraversal (traversal : Traversal) : List Token := traversal.tokens

/-- Go `hclsyntax.ObjectConsItem` of an object constructor whose keys are expressions. -/
structure HclSyntax.ObjectConsItem (E : Type) where
  KeyExpr : E
  ValueExpr : E

/-- Go `hclsyntax.Expression`, all node kinds of the package.  `nil` is the nil interface
value; `ExprSyntaxError` is the one kind `tokensForExpression` has no case for. -/
inductive HclSyntax.Expression where
  | nil
  | AnonSymbolExpr
  | BinaryOpExpr (LHS : HclSyntax.Expression) (Op : HclSyntax.Operation)
      (RHS : HclSyntax.Expression)
  | ConditionalExpr (Condition TrueResult FalseResult : HclSyntax.Expression)
  | ForExpr (KeyVar ValVar : String) (CollExpr KeyExpr ValExpr CondExpr : HclSyntax.Expression)
      (Group : Bool)
  | FunctionCallExpr (Name : String) (Args : List HclSyntax.Expression) (ExpandFinal : Bool)
  | IndexExpr (Collection Key : HclSyntax.Expression)
  | LiteralValueExpr (Val : CtyValue)
  | ObjectConsExpr (Items : List (HclSyntax.ObjectConsItem HclSyntax.Expression))
  | ObjectConsKeyExpr (Wrapped : HclSyntax.Expression) (ForceNonLiteral : Bool)
  | RelativeTraversalExpr (Source : HclSyntax.Expression) (Traversal : Traversal)
  | ScopeTraversalExpr (Traversal : Traversal)
  | SplatExpr (Source Each : HclSyntax.Expression)
  | TemplateExpr (Parts : List HclSyntax.Expression)
  | TemplateJoinExpr (Tuple : HclSyntax.Expression)
  | TemplateWrapExpr (Wrapped : HclSyntax.Expression)
  | TupleConsExpr (Exprs : List HclSyntax.Expression)
  | UnaryOpExpr (Op : HclSyntax.Operation) (Val : HclSyntax.Expression)
  | ParenthesesExpr (Expression : HclSyntax.Expression)
  | ExprSyntaxError

/-- Go `e == nil` for an expression. -/
def HclSyntax.Expression.isNil : HclSyntax.Expression → Bool
  | .nil => true
  | _ => false

/-- A token of the generator. -/
def tk (t : HclSyntax.TokenType) (bytes : String) : HclSyntax.Token := ⟨t, bytes⟩

/-- The operator `switch` of `TokensForBinaryOpExpr` (lines 72-138): the tokens it appends. -/
def binaryOpTokens : HclSyntax.Operation → List HclSyntax.Token
  | .OpLogicalOr => [tk .TokenOr "||"]
  | .OpLogicalAnd => [tk .TokenAnd "&&"]
  | .OpEqual => [tk .TokenEqualOp "=="]
  | .OpNotEqual => [tk .TokenNotEqual "!="]
  | .OpGreaterThan => [tk .TokenGreaterThan ">"]
  | .OpGreaterThanOrEqual => [tk .TokenGreaterThanEq ">="]
  | .OpLessThan => [tk .TokenLessThan "<"]
  | .OpLessThanOrEqual => [tk .TokenLessThanEq "<="]
  | .OpAdd => [tk .TokenPlus "+"]
  | .OpSubtract => [tk .TokenMinus "-"]
  | .OpMultiply => [tk .TokenStar "*"]
  | .OpDivide => [tk .TokenSlash "/"]
  | .OpModulo => [tk .TokenPercent "%"]
  | _ => []

/-- The operator `switch` of `TokensForUnaryOpExpr` (lines 570-606): the tokens it appends. -/
def unaryOpTokens : HclSyntax.Operation → List HclSyntax.Token
  | .OpLogicalNot => [tk .TokenBang "!"]
  | .OpEqual => [tk .TokenEqual "="]
  | .OpGreaterThan => [tk .TokenGreaterThan ">"]
  | .OpGreaterThanOrEqual => [tk .TokenGreaterThanEq ">="]
  | .OpLessThan => [tk .TokenLessThan "<"]
  | .OpLessThanOrEqual => [tk .TokenLessThanEq "<="]
  | .OpNegate => [tk .TokenMinus "-"]
  | _ => []

/-- The loop of `TokensForLiteralValueExpr` over the tokens `ss` of the value, from index `i`:
for a string value in a quoted context the first and the last token are skipped. -/
def literalValueLoop (quoted isString : Bool) (len : Nat) : List Token → Nat →
    List HclSyntax.Token
  | [], _ => []
  | s :: rest, i =>
    if quoted && isString && (i == 0 || i == len - 1) then
      literalValueLoop quoted isString len rest (i + 1)
    else
      tk s.Type_ s.Bytes :: literalValueLoop quoted isString len rest (i + 1)

/-- Go `TokensForLiteralValueExpr`. -/
def TokensForLiteralValueExpr (Val : CtyValue) (quoted : Bool) : List HclSyntax.Token :=
  let ss := TokensForValue Val
  literalValueLoop quoted Val.isString ss.length ss 0

/-- Go `TokensForScopeTraversalExpr`: the tokens of the traversal, copied one by one. -/
def TokensForScopeTraversalExpr (traversal : Traversal) : List HclSyntax.Token :=
  (TokensForTraversal traversal).map (fun s => tk s.Type_ s.Bytes)

mutual
/-- Go `tokensForExpression`: the type switch, each arm being the `TokensFor...` function it
calls.  A kind without a case, and the nil expression, give no tokens. -/
def tokensForExpression : HclSyntax.Expression → Bool → List HclSyntax.Token
  | .AnonSymbolExpr, _ => []
  -- TokensForBinaryOpExpr
  | .BinaryOpExpr LHS Op RHS, _ =>
    tokensForExpression LHS false ++ binaryOpTokens Op ++ tokensForExpression RHS false
  -- TokensForConditionalExpr
  | .ConditionalExpr Condition TrueResult FalseResult, _ =>
    tokensForExpression Condition false ++ [tk .TokenQuestion "?"]
      ++ tokensForExpression TrueResult false ++ [tk .TokenColon ":"]
      ++ tokensForExpression FalseResult false
  -- TokensForForExpr
  | .ForExpr KeyVar ValVar CollExpr KeyExpr ValExpr CondExpr Group, _ =>
    (if KeyExpr.isNil then [tk .TokenOBrack "["] else [tk .TokenOBrace "\x7b"])
      ++ [tk .TokenNewline "\n"]
      ++ [tk .TokenIdent "for", tk .TokenIdent KeyVar]
      ++ (if ValVar ≠ "" then [tk .TokenComma ",", tk .TokenIdent ValVar] else [])
      ++ [tk .TokenIdent "in"]
      ++ tokensForExpression CollExpr false
      ++ [tk .TokenColon ":"]
      ++ (if !KeyExpr.isNil then
            tokensForExpression KeyExpr false ++ [tk .TokenFatArrow "=>"]
          else [])
      ++ tokensForExpression ValExpr false
      ++ (if Group then [tk .TokenEllipsis "..."] else [])
      ++ (if !CondExpr.isNil then
            [tk .TokenNewline "\n", tk .TokenIdent "if"] ++ tokensForExpression CondExpr false
          else [])
      ++ [tk .TokenNewline "\n"]
      ++ (if KeyExpr.isNil then [tk .TokenCBrack "]"] else [tk .TokenCBrace "\x7d"])
  -- TokensForFunctionCallExpr
  | .FunctionCallExpr Name Args ExpandFinal, _ =>
    [tk .TokenIdent Name, tk .TokenOParen "("]
      ++ functionCallArgs ExpandFinal Args.length Args 0
      ++ [tk .TokenCParen ")"]
  -- TokensForIndexExpr
  | .IndexExpr Collection Key, _ =>
    tokensForExpression Collection true ++ [tk .TokenOBrack "["]
      ++ tokensForExpression Key false ++ [tk .TokenCBrack "]"]
  | .LiteralValueExpr Val, quoted => TokensForLiteralValueExpr Val quoted
  -- TokensForObjectConsExpr
  | .ObjectConsExpr Items, _ =>
    [tk .TokenOBrace "\x7b"]
      ++ objectConsItems Items
      ++ (if Items.length > 0 then [tk .TokenNewline "\n"] else [])
      ++ [tk .TokenCBrace "\x7d"]
  -- TokensForObjectConsKeyExpr
  | .ObjectConsKeyExpr Wrapped _, _ => tokensForExpression Wrapped false
  -- TokensForRelativeTraversalExpr
  | .RelativeTraversalExpr Source Traversal, _ =>
    tokensForExpression Source true
      ++ (TokensForTraversal Traversal).map (fun s => tk s.Type_ s.Bytes)
  | .ScopeTraversalExpr Traversal, _ => TokensForScopeTraversalExpr Traversal
  -- TokensForSplatExpr
  | .SplatExpr Source _, _ =>
    tokensForExpression Source true
      ++ [tk .TokenOBrack "[", tk .TokenIdent "*", tk .TokenCBrack "]"]
  -- TokensForTemplateExpr
  | .TemplateExpr Parts, quoted =>
    (if !quoted then [tk .TokenOQuote "\""] else [])
      ++ templateParts Parts
      ++ (if !quoted then [tk .TokenCQuote "\""] else [])
  -- TokensForTemplateJoinExpr
  | .TemplateJoinExpr Tuple, _ =>
    [tk .TokenOBrack "["] ++ tokensForExpression Tuple false ++ [tk .TokenCBrack "]"]
  -- TokensForTemplateWrapExpr
  | .TemplateWrapExpr Wrapped, _ =>
    [tk .TokenTemplateInterp "$\x7b"] ++ tokensForExpression Wrapped false
      ++ [tk .TokenTemplateSeqEnd "\x7d"]
  -- TokensForTupleConsExpr
  | .TupleConsExpr Exprs, _ =>
    [tk .TokenOBrack "["] ++ tupleConsExprs Exprs 0 ++ [tk .TokenCBrack "]"]
  -- TokensForUnaryOpExpr
  | .UnaryOpExpr Op Val, _ => unaryOpTokens Op ++ tokensForExpression Val false
  | .ParenthesesExpr Expression, quoted => tokensForExpression Expression quoted
  | .ExprSyntaxError, _ => []
  | .nil, _ => []
/-- The argument loop of `TokensForFunctionCallExpr` (lines 280-296), from index `i`. -/
def functionCallArgs (ExpandFinal : Bool) (len : Nat) :
    List HclSyntax.Expression → Nat → List HclSyntax.Token
  | [], _ => []
  | arg :: rest, i =>
    (if i > 0 then [tk .TokenComma ","] else [])
      ++ tokensForExpression arg false
      ++ (if ExpandFinal && i == len - 1 then [tk .TokenEllipsis "..."] else [])
      ++ functionCallArgs ExpandFinal len rest (i + 1)
/-- The item loop of `TokensForObjectConsExpr` (lines 348-362). -/
def objectConsItems :
    List (HclSyntax.ObjectConsItem HclSyntax.Expression) → List HclSyntax.Token
  | [] => []
  | ⟨KeyExpr, ValueExpr⟩ :: rest =>
    [tk .TokenNewline "\n"] ++ tokensForExpression KeyExpr false ++ [tk .TokenEqual "="]
      ++ tokensForExpression ValueExpr false ++ objectConsItems rest
/-- The element loop of `TokensForTupleConsExpr` (lines 550-559), from index `i`. -/
def tupleConsExprs : List HclSyntax.Expression → Nat → List HclSyntax.Token
  | [], _ => []
  | e :: rest, i =>
    (if i > 0 then [tk .TokenComma ","] else [])
      ++ tokensForExpression e false ++ tupleConsExprs rest (i + 1)
/-- The part loop of `TokensForTemplateExpr` (lines 435-500). -/
def templateParts : List HclSyntax.Expression → List HclSyntax.Token
  | [] => []
  | part :: rest => templatePart part ++ templateParts rest
/-- The type switch over one part of a template (lines 436-499): a literal, a scope traversal
and a conditional have a case, every other kind of part appends nothing. -/
def templatePart : HclSyntax.Expression → List HclSyntax.Token
  | .LiteralValueExpr Val => TokensForLiteralValueExpr Val true
  | .ScopeTraversalExpr Traversal =>
    [tk .TokenTemplateInterp "$\x7b"] ++ TokensForScopeTraversalExpr Traversal
      ++ [tk .TokenTemplateSeqEnd "\x7d"]
  | .ConditionalExpr Condition TrueResult FalseResult =>
    [tk .TokenTemplateControl "%\x7b", tk .TokenIdent "if"]
      ++ tokensForExpression Condition true
      ++ [tk .TokenTemplateSeqEnd "\x7d"]
      ++ tokensForExpression TrueResult true
      ++ (if !FalseResult.isNil then
            (if (tokensForExpression FalseResult true).length ≠ 0 then
              [tk .TokenTemplateControl "%\x7b", tk .TokenStringLit "else",
                tk .TokenTemplateSeqEnd "\x7d"] ++ tokensForExpression FalseResult true
            else [])
          else [])
      ++ [tk .TokenTemplateControl "%\x7b", tk .TokenStringLit "endif",
            tk .TokenTemplateSeqEnd "\x7d"]
  | _ => []
end

/-- Go `TokensForExpression`: the tokens of `tokensForExpression expr false`, copied into
writer tokens. -/
def TokensForExpression (expr : HclSyntax.Expression) : List Token :=
  (tokensForExpression expr false).map (fun t => ⟨t.Type_, t.Bytes, 0⟩)

/-! ### Vocabulary of the claims about the generator -/

/-- The literal text of the thirteen binary operators, as the specification lists them. -/
def operatorTextAsStated : HclSyntax.Operation → Option String
  | .OpLogicalOr => some "||"
  | .OpLogicalAnd => some "&&"
  | .OpEqual => some "=="
  | .OpNotEqual => some "!="
  | .OpGreaterThan => some ">"
  | .OpGreaterThanOrEqual => some ">="
  | .OpLessThan => some "<"
  | .OpLessThanOrEqual => some "<="
  | .OpAdd => some "+"
  | .OpSubtract => some "-"
  | .OpMultiply => some "*"
  | .OpDivide => some "/"
  | .OpModulo => some "%"
  | _ => none

/-- The token types of a list of generator tokens. -/
def HclSyntax.types (tks : List HclSyntax.Token) : List HclSyntax.TokenType :=
  tks.map (fun t => t.Type_)

/-- The token types of a list of writer tokens. -/
def types (tks : List Token) : List HclSyntax.TokenType := tks.map (fun t => t.Type_)

/-- The bracket pairs: `( )`, `[ ]`, `{ }`, and a template sequence, which starts with
the interpolation or the control token and ends with the sequence end token. -/
inductive Pair where
  | paren | brack | brace | template
deriving DecidableEq, Repr, Fintype

/-- The opening token types of a pair. -/
def opens : Pair → HclSyntax.TokenType → Bool
  | .paren, .TokenOParen => true
  | .brack, .TokenOBrack => true
  | .brace, .TokenOBrace => true
  | .template, .TokenTemplateInterp => true
  | .template, .TokenTemplateControl => true
  | _, _ => false

/-- The closing token type of a pair. -/
def closes : Pair → HclSyntax.TokenType → Bool
  | .paren, .TokenCParen => true
  | .brack, .TokenCBrack => true
  | .brace, .TokenCBrace => true
  | .template, .TokenTemplateSeqEnd => true
  | _, _ => false

/-- Number of opening tokens of the pair. -/
def opened (p : Pair) (ts : List HclSyntax.TokenType) : Nat := ts.countP (opens p)

/-- Number of closing tokens of the pair. -/
def closed (p : Pair) (ts : List HclSyntax.TokenType) : Nat := ts.countP (closes p)

/-- Balance with respect to one pair: as many closing as opening tokens, and no prefix with
more closing than opening tokens. -/
def BalancedFor (p : Pair) (ts : List HclSyntax.TokenType) : Prop :=
  closed p ts = opened p ts ∧
    ∀ n, n ≤ ts.length → closed p (ts.take n) ≤ opened p (ts.take n)

/-- Balance with respect to every pair. -/
def Balanced (ts : List HclSyntax.TokenType) : Prop := ∀ p : Pair, BalancedFor p ts

instance (p : Pair) (ts : List HclSyntax.TokenType) : Decidable (BalancedFor p ts) :=
  inferInstanceAs (Decidable (_ ∧ _))

instance (ts : List HclSyntax.TokenType) : Decidable (Balanced ts) :=
  inferInstanceAs (Decidable (∀ p : Pair, BalancedFor p ts))

mutual
/-- The assumption on the helpers, for one expression tree: for every literal value of the
tree the tokens of `TokensForLiteralValueExpr` are balanced, in a quoted context and outside
of one, and for every traversal of the tree the tokens of `TokensForTraversal` are. -/
def helpersBalanced : HclSyntax.Expression → Bool
  | .nil => true
  | .AnonSymbolExpr => true
  | .BinaryOpExpr LHS _ RHS => helpersBalanced LHS && helpersBalanced RHS
  | .ConditionalExpr Condition TrueResult FalseResult =>
    helpersBalanced Condition && helpersBalanced TrueResult && helpersBalanced FalseResult
  | .ForExpr _ _ CollExpr KeyExpr ValExpr CondExpr _ =>
    helpersBalanced CollExpr && helpersBalanced KeyExpr && helpersBalanced ValExpr
      && helpersBalanced CondExpr
  | .FunctionCallExpr _ Args _ => helpersBalancedAll Args
  | .IndexExpr Collection Key => helpersBalanced Collection && helpersBalanced Key
  | .LiteralValueExpr Val =>
    decide (Balanced (HclSyntax.types (TokensForLiteralValueExpr Val false)))
      && decide (Balanced (HclSyntax.types (TokensForLiteralValueExpr Val true)))
  | .ObjectConsExpr Items => helpersBalancedItems Items
  | .ObjectConsKeyExpr Wrapped _ => helpersBalanced Wrapped
  | .RelativeTraversalExpr Source Traversal =>
    helpersBalanced Source && decide (Balanced (types (TokensForTraversal Traversal)))
  | .ScopeTraversalExpr Traversal => decide (Balanced (types (TokensForTraversal Traversal)))
  | .SplatExpr Source Each => helpersBalanced Source && helpersBalanced Each
  | .TemplateExpr Parts => helpersBalancedAll Parts
  | .TemplateJoinExpr Tuple => helpersBalanced Tuple
  | .TemplateWrapExpr Wrapped => helpersBalanced Wrapped
  | .TupleConsExpr Exprs => helpersBalancedAll Exprs
  | .UnaryOpExpr _ Val => helpersBalanced Val
  | .ParenthesesExpr Expression => helpersBalanced Expression
  | .ExprSyntaxError => true
/-- The assumption on the helpers for every expression of a list. -/
def helpersBalancedAll : List HclSyntax.Expression → Bool
  | [] => true
  | e :: rest => helpersBalanced e && helpersBalancedAll rest
/-- The assumption on the helpers for the keys and the values of the items. -/
def helpersBalancedItems : List (HclSyntax.ObjectConsItem HclSyntax.Expression) → Bool
  | [] => true
  | ⟨KeyExpr, ValueExpr⟩ :: rest =>
    helpersBalanced KeyExpr && helpersBalanced ValueExpr && helpersBalancedItems rest
end

/-! ### Sample expressions -/

/-- The variable reference with the given root name. -/
def ident (name : String) : HclSyntax.Expression :=
  .ScopeTraversalExpr ⟨[⟨.TokenIdent, name, 0⟩]⟩

/-- The string literal with the given text, with the tokens the library renders it to. -/
def stringLit (s : String) : HclSyntax.Expression :=
  .LiteralValueExpr ⟨true, [⟨.TokenOQuote, "\"", 0⟩, ⟨.TokenQuotedLit, s, 0⟩,
    ⟨.TokenCQuote, "\"", 0⟩]⟩

/-- The call `upper(x)`. -/
def upperCall : HclSyntax.Expression := .FunctionCallExpr "upper" [ident "x"] false

/-- The template with the literal part `a-` and the interpolated call `upper(x)`. -/
def callTemplate : HclSyntax.Expression := .TemplateExpr [stringLit "a-", upperCall]

/-- The index expression `m["k"][0]`. -/
def indexSample : HclSyntax.Expression :=
  .IndexExpr (.IndexExpr (ident "m") (stringLit "k"))
    (.LiteralValueExpr ⟨false, [⟨.TokenNumberLit, "0", 0⟩]⟩)

/-- Running depth of a pair over a token list, from the depth `d`: an opening token adds
one, a closing token takes one off and fails at depth zero. -/
def scan (p : Pair) : Nat → List HclSyntax.TokenType → Option Nat
  | d, [] => some d
  | d, t :: ts =>
    if opens p t then scan p (d + 1) ts
    else if closes p t then
      if d = 0 then none else scan p (d - 1) ts
    else scan p d ts

/-! ## Writer

A shallow embedding of `AppendHCLBody` of `staging/hcl/hclwrite/ast_body_ext.go`, of
`fromHCLTokens` of `pkg/terraform/write_tokens.go` and of the seven declaration sections of
`Write` of `pkg/terraform/write.go` (lines 109-328).

* A writer body (`hclwrite.Body`) is the sequence of its items.  The library methods
  `AppendNewBlock`, `AppendNewline`, `AppendUnstructuredTokens`, `SetAttributeRaw` and
  `SetAttributeValue` are embedded from their documented behaviour: the first three add an
  item at the end, the last two replace the expression of the attribute of that name where
  it stands and add a new attribute at the end when the body has none of that name.
* The library function `sort.Slice` is embedded as an insertion sort.  It is documented to
  return the elements sorted by the comparator, in an unspecified order among elements that
  compare equal; the theorems below do not depend on what the sort does with such elements.
* Go compares strings byte by byte; on valid UTF-8 that is the lexicographic order of the
  code point sequences.
* The body of the block `terraform` (lines 21-107) is not embedded; `Write` takes it as an
  argument. -/

/-- Lexicographic comparison of two character sequences. -/
def charsLess : List Char → List Char → Bool
  | _, [] => false
  | [], _ :: _ => true
  | a :: as, b :: bs =>
    if a.toNat < b.toNat then true
    else if b.toNat < a.toNat then false
    else charsLess as bs

/-- Go `a < b` on strings. -/
def stringLess (a b : String) : Bool := charsLess a.toList b.toList

/-- The comparator of every `sort.Slice` call of the writer, on the two ranges compared. -/
def rangeLess (a b : Range) : Bool :=
  if a.Filename == b.Filename then decide (a.Line < b.Line)
  else stringLess a.Filename b.Filename

/-- Library function `sort.Slice`. -/
def sortSlice {α : Type} (less : α → α → Bool) (l : List α) : List α :=
  l.insertionSort (fun a b => less b a = false)

/-- An item of a writer body. -/
inductive WriteItem where
  | attr (Name : String) (tokens : List Token)
  | block (Type_ : String) (Labels : List String) (body : List WriteItem)
  | newline
  | tokens (tks : List Token)

/-- Go `hclwrite.Body`, as the sequence of its items. -/
abbrev WriteBody := List WriteItem

/-- Whether the item is the attribute of that name. -/
def WriteItem.isAttribute (name : String) : WriteItem → Bool
  | .attr n _ => n == name
  | _ => false

/-- Library method `Body.SetAttributeRaw`. -/
def SetAttributeRaw (b : WriteBody) (name : String) (tokens : List Token) : WriteBody :=
  if b.any (WriteItem.isAttribute name) then
    b.map (fun item => if item.isAttribute name then .attr name tokens else item)
  else b ++ [.attr name tokens]

/-- Library method `Body.SetAttributeValue`: the expression is the literal value. -/
def SetAttributeValue (b : WriteBody) (name : String) (val : CtyValue) : WriteBody :=
  SetAttributeRaw b name (TokensForValue val)

/-- Library method `Body.AppendNewline`. -/
def AppendNewline (b : WriteBody) : WriteBody := b ++ [.newline]

/-- Library method `Body.AppendUnstructuredTokens`. -/
def AppendUnstructuredTokens (b : WriteBody) (tks : List Token) : WriteBody :=
  b ++ [.tokens tks]

/-- Library method `Body.AppendNewBlock`, together with what the caller then writes into the
body of the new block. -/
def AppendNewBlock (b : WriteBody) (typeName : String) (labels : List String)
    (body : WriteBody) : WriteBody :=
  b ++ [.block typeName labels body]

/-- Library function `cty.StringVal`, with the tokens `TokensForValue` renders it to
(the escaping of the text is left out). -/
def StringVal (s : String) : CtyValue :=
  ⟨true, [⟨.TokenOQuote, "\"", 0⟩] ++ (if s = "" then [] else [⟨.TokenQuotedLit, s, 0⟩])
    ++ [⟨.TokenCQuote, "\"", 0⟩]⟩

/-- Go `hclsyntax.Attribute`, with the expression in full. -/
structure HclSyntax.Attribute where
  Name : String
  Expr : HclSyntax.Expression
  SrcRange : Range

/-- Go `hclsyntax.Block` over the body type `B`. -/
structure HclSyntax.BlockOf (B : Type) where
  Type_ : String
  Labels : List String
  Body : B

/-- Go `hclsyntax.Body`, as the writer reads it: the attribute map in its iteration order,
and the block list. -/
structure HclSyntax.Body where
  Attributes : List (String × HclSyntax.Attribute)
  Blocks : List (HclSyntax.BlockOf HclSyntax.Body)

/-- Go `hcl.Body`, as `AppendHCLBody` tells bodies apart: nil, an `*hclsyntax.Body`, or any
other implementation of the interface. -/
inductive HclBodyValue where
  | nil
  | native (bd : HclSyntax.Body)
  | foreign

/-- The attributes that `AppendHCLBody` collects from the map and sorts (lines 24-38). -/
def sortedAttributes (Attributes : List (String × HclSyntax.Attribute)) :
    List HclSyntax.Attribute :=
  sortSlice (fun a b => rangeLess a.SrcRange b.SrcRange) (Attributes.map Prod.snd)

/-- The loop over the sorted attributes (lines 39-41). -/
def setAttributes (b : WriteBody) (attrs : List HclSyntax.Attribute) : WriteBody :=
  attrs.foldl (fun b a => SetAttributeRaw b a.Name (TokensForExpression a.Expr)) b

mutual
/-- Go `AppendHCLBody` on an `*hclsyntax.Body`. -/
def appendSyntaxBody (b : WriteBody) : HclSyntax.Body → WriteBody
  | ⟨Attributes, Blocks⟩ => appendBlocks (setAttributes b (sortedAttributes Attributes)) Blocks
/-- The loop over the blocks (lines 43-46): a new block at the end of the receiver, whose
body receives the body of the source block. -/
def appendBlocks (b : WriteBody) : List (HclSyntax.BlockOf HclSyntax.Body) → WriteBody
  | [] => b
  | ⟨Type_, Labels, Body⟩ :: rest =>
    appendBlocks (AppendNewBlock b Type_ Labels (appendSyntaxBody [] Body)) rest
end

/-- Go `Body.AppendHCLBody`. -/
def AppendHCLBody (b : WriteBody) : HclBodyValue → WriteBody
  | .nil => b
  | .foreign => b
  | .native bd => appendSyntaxBody b bd

/-- The loop of `fromHCLTokens`, from index `i`. -/
def fromHCLTokensLoop (skipNewline : Bool) (len : Nat) : List HclSyntax.Token → Nat →
    List Token
  | [], _ => []
  | t :: rest, i =>
    if skipNewline && i == len - 1 && t.Type_ == .TokenNewline then
      fromHCLTokensLoop skipNewline len rest (i + 1)
    else ⟨t.Type_, t.Bytes, 0⟩ :: fromHCLTokensLoop skipNewline len rest (i + 1)

/-- Go `fromHCLTokens`. -/
def fromHCLTokens (tokens : List HclSyntax.Token) (skipNewline : Bool) : List Token :=
  fromHCLTokensLoop skipNewline tokens.length tokens 0

/-- Go `configs.VersionConstraint`: the required constraints. -/
structure Configs.VersionConstraint where
  Required : List String

/-- Library method `version.Constraints.String`. -/
def Configs.VersionConstraint.String (v : Configs.VersionConstraint) : String :=
  ",".intercalate v.Required

/-- Go `configs.Provider`, the fields the writer reads. -/
structure Configs.Provider where
  Name : String
  Alias : String
  Version : Configs.VersionConstraint
  Config : HclBodyValue
  DeclRange : Range

/-- Go `configs.Variable`, the fields the writer reads. -/
structure Configs.Variable where
  Name : String
  Tokens : List HclSyntax.Token
  DeclRange : Range

/-- Go `configs.Local`, the fields the writer reads. -/
structure Configs.Local where
  Name : String
  Tokens : List HclSyntax.Token
  DeclRange : Range

/-- Go `configs.Resource`, the fields the writer reads; `ProviderConfigRef` is the name of
the reference, or nil. -/
structure Configs.Resource where
  Type_ : String
  Name : String
  ProviderConfigRef : Option String
  Config : HclBodyValue
  DeclRange : Range

/-- Go `configs.ModuleCall`, the fields the writer reads. -/
structure Configs.ModuleCall where
  Name : String
  SourceSet : Bool
  SourceAddrRaw : String
  Version : Configs.VersionConstraint
  Config : HclBodyValue
  DeclRange : Range

/-- Go `configs.Output`, the fields the writer reads. -/
structure Configs.Output where
  Name : String
  Tokens : List HclSyntax.Token
  DeclRange : Range

/-- Go `configs.Module`, the seven maps of declarations, each in its iteration order. -/
structure Configs.Module where
  ProviderConfigs : List (String × Configs.Provider)
  Variables : List (String × Configs.Variable)
  Locals : List (String × Configs.Local)
  ManagedResources : List (String × Configs.Resource)
  DataResources : List (String × Configs.Resource)
  ModuleCalls : List (String × Configs.ModuleCall)
  Outputs : List (String × Configs.Output)

/-- The providers in the order `Write` emits them (lines 111-122). -/
def sortedProviders (m : Configs.Module) : List Configs.Provider :=
  sortSlice (fun a b => rangeLess a.DeclRange b.DeclRange) (m.ProviderConfigs.map Prod.snd)

/-- The variables in the order `Write` emits them (lines 142-153). -/
def sortedVariables (m : Configs.Module) : List Configs.Variable :=
  sortSlice (fun a b => rangeLess a.DeclRange b.DeclRange) (m.Variables.map Prod.snd)

/-- The locals in the order `Write` emits them (lines 174-185). -/
def sortedLocals (m : Configs.Module) : List Configs.Local :=
  sortSlice (fun a b => rangeLess a.DeclRange b.DeclRange) (m.Locals.map Prod.snd)

/-- The managed resources in the order `Write` emits them (lines 201-212). -/
def sortedResources (m : Configs.Module) : List Configs.Resource :=
  sortSlice (fun a b => rangeLess a.DeclRange b.DeclRange) (m.ManagedResources.map Prod.snd)

/-- The data resources in the order `Write` emits them (lines 231-242). -/
def sortedDatas (m : Configs.Module) : List Configs.Resource :=
  sortSlice (fun a b => rangeLess a.DeclRange b.DeclRange) (m.DataResources.map Prod.snd)

/-- The module calls in the order `Write` emits them (lines 261-272). -/
def sortedModules (m : Configs.Module) : List Configs.ModuleCall :=
  sortSlice (fun a b => rangeLess a.DeclRange b.DeclRange) (m.ModuleCalls.map Prod.snd)

/-- The outputs in the order `Write` emits them (lines 297-308). -/
def sortedOutputs (m : Configs.Module) : List Configs.Output :=
  sortSlice (fun a b => rangeLess a.DeclRange b.DeclRange) (m.Outputs.map Prod.snd)

/-- One pass of the provider loop (lines 125-137). -/
def writeProvider (wb : WriteBody) (p : Configs.Provider) : WriteBody :=
  let pBody : WriteBody := []
  let pBody := if p.Alias ≠ "" then SetAttributeValue pBody "alias" (StringVal p.Alias)
    else pBody
  let pBody :=
    if p.Version.Required.length ≠ 0 then
      SetAttributeValue pBody "version" (StringVal p.Version.String)
    else pBody
  let pBody := AppendHCLBody pBody p.Config
  AppendNewline (AppendNewBlock wb "provider" [p.Name] pBody)

/-- The two tokens that open a variable or an output (lines 157-166 and 312-321). -/
def headTokens (keyword name : String) : List Token :=
  [⟨.TokenIdent, keyword, 0⟩, ⟨.TokenIdent, "\"" ++ name ++ "\"", 0⟩]

/-- One pass of the variable loop (lines 156-169). -/
def writeVariable (wb : WriteBody) (v : Configs.Variable) : WriteBody :=
  AppendNewline
    (AppendUnstructuredTokens (AppendUnstructuredTokens wb (headTokens "variable" v.Name))
      (fromHCLTokens v.Tokens false))

/-- The locals section (lines 187-196). -/
def writeLocals (wb : WriteBody) (locals : List Configs.Local) : WriteBody :=
  if locals.length ≠ 0 then
    let lsBody :=
      locals.foldl (fun b l => SetAttributeRaw b l.Name (fromHCLTokens l.Tokens true)) []
    AppendNewline (AppendNewBlock wb "locals" [] lsBody)
  else wb

/-- One pass of the resource loop (lines 215-226) and of the data loop (lines 245-256),
which differ in the block type. -/
def writeResource (blockType : String) (wb : WriteBody) (r : Configs.Resource) : WriteBody :=
  let rBody : WriteBody := []
  let rBody :=
    match r.ProviderConfigRef with
    | some name => AppendNewline (SetAttributeValue rBody "provider" (StringVal name))
    | none => rBody
  let rBody := AppendHCLBody rBody r.Config
  AppendNewline (AppendNewBlock wb blockType [r.Type_, r.Name] rBody)

/-- One pass of the module loop (lines 275-292). -/
def writeModuleCall (wb : WriteBody) (m : Configs.ModuleCall) : WriteBody :=
  let mBody : WriteBody := []
  let mBody :=
    if m.SourceSet then AppendNewline (SetAttributeValue mBody "source" (StringVal m.SourceAddrRaw))
    else mBody
  let mBody :=
    if m.Version.Required.length ≠ 0 then
      AppendNewline (SetAttributeValue mBody "required_version" (StringVal m.Version.String))
    else mBody
  let mBody := AppendHCLBody mBody m.Config
  AppendNewline (AppendNewBlock wb "module" [m.Name] mBody)

/-- The output loop (lines 311-327), from index `i`: no newline after the last output. -/
def writeOutputs (len : Nat) : List Configs.Output → Nat → WriteBody → WriteBody
  | [], _, wb => wb
  | o :: rest, i, wb =>
    let wb := AppendUnstructuredTokens wb (headTokens "output" o.Name)
    let wb := AppendUnstructuredTokens wb (fromHCLTokens o.Tokens false)
    let wb := if i ≠ len - 1 then AppendNewline wb else wb
    writeOutputs len rest (i + 1) wb

/-- Go `Write`, the body of the file it writes: the block `terraform`, whose body is given,
then the seven sections. -/
def Write (terraformBody : WriteBody) (m : Configs.Module) : WriteBody :=
  let wb := AppendNewline (AppendNewBlock [] "terraform" [] terraformBody)
  let wb := (sortedProviders m).foldl writeProvider wb
  let wb := (sortedVariables m).foldl writeVariable wb
  let wb := writeLocals wb (sortedLocals m)
  let wb := (sortedResources m).foldl (writeResource "resource") wb
  let wb := (sortedDatas m).foldl (writeResource "data") wb
  let wb := (sortedModules m).foldl writeModuleCall wb
  writeOutputs (sortedOutputs m).length (sortedOutputs m) 0 wb

/-! ### Vocabulary of the claim about the order -/

/-- Non-decreasing order of two ranges: file name first, then start line. -/
def rangeLE (a b : Range) : Prop :=
  stringLess a.Filename b.Filename = true ∨ (a.Filename = b.Filename ∧ a.Line ≤ b.Line)

/-- The names of the attributes of a writer body, in the order of the body. -/
def attributeNames : WriteBody → List String
  | [] => []
  | .attr n _ :: rest => n :: attributeNames rest
  | _ :: rest => attributeNames rest

/-- The item `AppendHCLBody` writes for an attribute. -/
def attributeItem (a : HclSyntax.Attribute) : WriteItem :=
  .attr a.Name (TokensForExpression a.Expr)

/-- The item `AppendHCLBody` writes for a block. -/
def blockItem (blk : HclSyntax.BlockOf HclSyntax.Body) : WriteItem :=
  .block blk.Type_ blk.Labels (appendSyntaxBody [] blk.Body)

/-- The items of the outputs: a newline between two outputs, none after the last. -/
def outputItems : List Configs.Output → WriteBody
  | [] => []
  | [o] => [.tokens (headTokens "output" o.Name), .tokens (fromHCLTokens o.Tokens false)]
  | o :: rest =>
    [.tokens (headTokens "output" o.Name), .tokens (fromHCLTokens o.Tokens false), .newline]
      ++ outputItems rest

/-- The item the locals section writes for a local, when the block has none of that name. -/
def localItem (l : Configs.Local) : WriteItem :=
  .attr l.Name (fromHCLTokens l.Tokens true)

/-- The list `out` holds the elements of `input` in non-decreasing order of their ranges. -/
def InOrder {α : Type} (key : α → Range) (out input : List α) : Prop :=
  out.Pairwise (fun a b => rangeLE (key a) (key b)) ∧ out.Perm input

/-- The module `m'` has the declarations of `m`, each of the seven maps in another
iteration order. -/
def Configs.Module.Reordered (m m' : Configs.Module) : Prop :=
  m'.ProviderConfigs.Perm m.ProviderConfigs ∧ m'.Variables.Perm m.Variables ∧
    m'.Locals.Perm m.Locals ∧ m'.ManagedResources.Perm m.ManagedResources ∧
    m'.DataResources.Perm m.DataResources ∧ m'.ModuleCalls.Perm m.ModuleCalls ∧
    m'.Outputs.Perm m.Outputs

/-- Within each of the seven categories the declaration ranges are pairwise distinct. -/
def Configs.Module.RangesDistinct (m : Configs.Module) : Prop :=
  (m.ProviderConfigs.map (fun e => e.2.DeclRange)).Nodup ∧
    (m.Variables.map (fun e => e.2.DeclRange)).Nodup ∧
    (m.Locals.map (fun e => e.2.DeclRange)).Nodup ∧
    (m.ManagedResources.map (fun e => e.2.DeclRange)).Nodup ∧
    (m.DataResources.map (fun e => e.2.DeclRange)).Nodup ∧
    (m.ModuleCalls.map (fun e => e.2.DeclRange)).Nodup ∧
    (m.Outputs.map (fun e => e.2.DeclRange)).Nodup

/-! ### Sample configuration of the writer -/

/-- The attribute `ami = "x"` on line 3 of `main.tf`. -/
def amiAttribute : HclSyntax.Attribute := ⟨"ami", stringLit "x", ⟨"main.tf", 3⟩⟩

/-- The attribute `provider = aws` on line 5 of `main.tf`. -/
def providerAttribute : HclSyntax.Attribute := ⟨"provider", ident "aws", ⟨"main.tf", 5⟩⟩

/-- The attribute `size = n` on line 4 of `main.tf`. -/
def sizeAttribute : HclSyntax.Attribute := ⟨"size", ident "n", ⟨"main.tf", 4⟩⟩

/-- A resource body with `ami` on line 3 and `provider` on line 5, the map iterated with
`provider` first. -/
def instanceBody : HclSyntax.Body :=
  ⟨[("provider", providerAttribute), ("ami", amiAttribute)], []⟩

/-- A resource body with `ami` on line 3, `size` on line 4 and an empty block `tags`, the
map iterated with `size` first. -/
def plainBody : HclSyntax.Body :=
  ⟨[("size", sizeAttribute), ("ami", amiAttribute)], [⟨"tags", [], ⟨[], []⟩⟩]⟩

/-- The body `plainBody` with the map iterated with `ami` first. -/
def plainBodyReordered : HclSyntax.Body :=
  ⟨[("ami", amiAttribute), ("size", sizeAttribute)], [⟨"tags", [], ⟨[], []⟩⟩]⟩

/-- The resource `aws_instance.web` with a provider reference, declared on line 2. -/
def webInstance : Configs.Resource :=
  ⟨"aws_instance", "web", some "aws", .native instanceBody, ⟨"main.tf", 2⟩⟩

/-- The resource `aws_instance.db` without provider reference, declared on line 9. -/
def dbInstance : Configs.Resource :=
  ⟨"aws_instance", "db", none, .native plainBody, ⟨"main.tf", 9⟩⟩

/-- The resource `aws_instance.cache`, declared on line 1 of `cache.tf`. -/
def cacheInstance : Configs.Resource :=
  ⟨"aws_instance", "cache", none, .nil, ⟨"cache.tf", 1⟩⟩

/-- The output `id`, declared on line 20. -/
def idOutput : Configs.Output :=
  ⟨"id", [tk .TokenOBrace "\x7b", tk .TokenCBrace "\x7d"], ⟨"main.tf", 20⟩⟩

/-- A module with the two resources `db` and `cache`, the map iterated with `db` first, and
one output. -/
def writerModule : Configs.Module :=
  ⟨[], [], [], [("aws_instance.db", dbInstance), ("aws_instance.cache", cacheInstance)], [],
    [], [("id", idOutput)]⟩

/-- The module `writerModule` with the resource map iterated with `cache` first. -/
def writerModuleReordered : Configs.Module :=
  ⟨[], [], [], [("aws_instance.cache", cacheInstance), ("aws_instance.db", dbInstance)], [],
    [], [("id", idOutput)]⟩

/-! # Theorems -/
/-! ## Tokenizer lemmas -/

theorem splitSlash_of_not_mem (t : List Char) (h : '/' ∉ t) : splitSlash t = [t] := by
  induction t with
  | nil => rfl
  | cons c cs ih =>
    have hc : c ≠ '/' := fun e => h (by simp [e])
    have hcs : '/' ∉ cs := fun m => h (List.mem_cons_of_mem _ m)
    simp [splitSlash, hc, ih hcs]

theorem splitSlash_length_pos (t : List Char) : 0 < (splitSlash t).length := by
  induction t with
  | nil => simp [splitSlash]
  | cons c cs ih =>
    unfold splitSlash
    split
    · simp
    · split
      · simp
      · simp

theorem splitSlash_length_of_mem (t : List Char) (h : '/' ∈ t) : 2 ≤ (splitSlash t).length := by
  induction t with
  | nil => simp at h
  | cons c cs ih =>
    unfold splitSlash
    by_cases hc : c = '/'
    · have := splitSlash_length_pos cs
      simp [hc]; omega
    · have hcs : '/' ∈ cs := by
        rcases List.mem_cons.mp h with e | m
        · exact absurd e.symm hc
        · exact m
      have := ih hcs
      simp only [hc, if_false]
      split
      · rename_i e; rw [e] at this; simp at this
      · rename_i p ps e; rw [e] at this; simpa using this

theorem decReplace_cons_of_ne (c : Char) (t : List Char) (h : c ≠ '~') :
    decReplace (c :: t) = c :: decReplace t := by
  cases t with
  | nil => simp [decReplace]
  | cons d cs => simp [decReplace, h]

theorem decReplace_tilde_zero (t : List Char) :
    decReplace ('~' :: '0' :: t) = '~' :: decReplace t := by
  simp [decReplace]

theorem decReplace_tilde_one (t : List Char) :
    decReplace ('~' :: '1' :: t) = '/' :: decReplace t := by
  simp [decReplace]

/-- The two replacement passes of `encodeSegment`, unfolded at the head character. -/
theorem encode_cons (c : Char) (s : List Char) :
    replaceChar '/' ['~', '1'] (replaceChar '~' ['~', '0'] (c :: s)) =
      (if c = '~' then ['~', '0'] else if c = '/' then ['~', '1'] else [c]) ++
        replaceChar '/' ['~', '1'] (replaceChar '~' ['~', '0'] s) := by
  by_cases h1 : c = '~'
  · subst h1; simp [replaceChar, List.flatMap_cons, List.flatMap_append]
  · by_cases h2 : c = '/'
    · subst h2; simp [replaceChar, List.flatMap_cons, List.flatMap_append]
    · simp [replaceChar, List.flatMap_cons, List.flatMap_append, h1, h2]

theorem encode_no_slash (s : List Char) :
    '/' ∉ replaceChar '/' ['~', '1'] (replaceChar '~' ['~', '0'] s) := by
  induction s with
  | nil => simp [replaceChar]
  | cons c cs ih =>
    rw [encode_cons]
    by_cases h1 : c = '~'
    · simp [h1, ih]
    · by_cases h2 : c = '/'
      · simp [h2, ih]
      · simp [h1, h2, ih]; exact fun e => h2 e.symm

theorem decReplace_encode (s : List Char) :
    decReplace (replaceChar '/' ['~', '1'] (replaceChar '~' ['~', '0'] s)) = s := by
  induction s with
  | nil => simp [replaceChar, decReplace]
  | cons c cs ih =>
    rw [encode_cons]
    by_cases h1 : c = '~'
    · simp [h1, decReplace_tilde_zero, ih]
    · by_cases h2 : c = '/'
      · simp [h2, decReplace_tilde_one, ih]
      · simp [h1, h2, decReplace_cons_of_ne c _ h1, ih]

/-- C1. Decoding inverts the RFC 6901 segment encoding: for every segment `s`, the path
`"/" ++ enc s` tokenizes to exactly one token, whose raw text is `enc s` and whose decoded
value is `s`. -/
theorem TokenizeJSONPointerPath_encodeSegment (s : String) :
    TokenizeJSONPointerPath ("/" ++ encodeSegment s) = [⟨encodeSegment s, s⟩] := by
  have hl : ("/" ++ encodeSegment s).toList = '/' :: (encodeSegment s).toList := by
    simp [String.toList]
  have hns : '/' ∉ (encodeSegment s).toList := encode_no_slash s.toList
  have hsplit : splitSlash ("/" ++ encodeSegment s).toList = [[], (encodeSegment s).toList] := by
    rw [hl]
    show (if '/' = '/' then [] :: splitSlash (encodeSegment s).toList else _) = _
    rw [if_pos rfl, splitSlash_of_not_mem _ hns]
  have hdec : decReplace (encodeSegment s).toList = s.toList := decReplace_encode s.toList
  unfold TokenizeJSONPointerPath
  simp only [hsplit]
  have hraw : String.mk (encodeSegment s).toList = encodeSegment s := rfl
  have hval : String.mk (decReplace (encodeSegment s).toList) = s := by rw [hdec]; rfl
  show [JSONPointerPathToken.mk (String.mk (encodeSegment s).toList)
    (String.mk (decReplace (encodeSegment s).toList))] = _
  rw [hraw, hval]

/-- The function `TokenizeJSONPointerPath` yields no token exactly for the paths without a `/`. -/
theorem TokenizeJSONPointerPath_eq_nil_iff (path : String) :
    TokenizeJSONPointerPath path = [] ↔ '/' ∉ path.toList := by
  constructor
  · intro h hm
    have h2 := splitSlash_length_of_mem _ hm
    unfold TokenizeJSONPointerPath at h
    have hlt : ¬ (splitSlash path.toList).length < 2 := by omega
    simp only [if_neg hlt] at h
    have h3 := congrArg List.length h
    rw [List.length_map, List.length_drop, List.length_nil] at h3
    omega
  · intro h
    unfold TokenizeJSONPointerPath
    simp only [splitSlash_of_not_mem _ h]
    rfl

/-- C2 (as stated, refuted). The path `"/"` yields one token, the empty segment, and is
accepted by `NewJSONPointerPathOperator`. -/
theorem NewJSONPointerPathOperator_slash_accepted :
    TokenizeJSONPointerPath "/" = [⟨"", ""⟩] ∧
      NewJSONPointerPathOperator "/" = .ok [⟨"", ""⟩] ∧
      NewJSONPointerPathOperator "/" ≠ .err .invalidPath := by
  decide

/-- C2 (amended). `NewJSONPointerPathOperator` fails with `invalid path` exactly when the
path yields zero tokens, which happens exactly when the path contains no `/`; the empty
string is such a path. -/
theorem NewJSONPointerPathOperator_invalid_iff (path : String) :
    (NewJSONPointerPathOperator path = .err .invalidPath ↔ TokenizeJSONPointerPath path = []) ∧
      (TokenizeJSONPointerPath path = [] ↔ '/' ∉ path.toList) ∧
      NewJSONPointerPathOperator "" = .err .invalidPath := by
  refine ⟨?_, TokenizeJSONPointerPath_eq_nil_iff path, by decide⟩
  unfold NewJSONPointerPathOperator
  cases h : TokenizeJSONPointerPath path with
  | nil => simp
  | cons a l => simp


/-! ## Search lemmas -/

theorem searchLoop_append (xs : List String) (s : String) (c : Cursor) :
    searchLoop (xs ++ [s]) c =
      match searchLoop xs c with
      | .ok c' => searchStep c' s
      | .err e => .err e
      | .panic p => .panic p := by
  induction xs generalizing c with
  | nil =>
    simp only [List.nil_append, searchLoop]
    cases searchStep c s <;> rfl
  | cons x xs ih =>
    simp only [List.cons_append, searchLoop]
    cases searchStep c x with
    | ok c' => exact ih c'
    | err e => rfl
    | panic p => rfl

/-- Resolving one more non-terminal segment: the cursor of `pre ++ [tk, last]` is one step
from the cursor of `pre ++ [tk]`, the node reached before `tk` is consumed. -/
theorem Search_snoc (pre : List JSONPointerPathToken) (tk last : JSONPointerPathToken)
    (r : Resource) :
    Search (pre ++ [tk, last]) r =
      match Search (pre ++ [tk]) r with
      | .ok c => searchStep c tk.Value
      | .err e => .err e
      | .panic p => .panic p := by
  have h1 : (pre ++ [tk, last]).dropLast = pre ++ [tk] := by
    have : pre ++ [tk, last] = (pre ++ [tk]) ++ [last] := by simp
    rw [this, List.dropLast_concat]
  have h2 : (pre ++ [tk]).dropLast = pre := List.dropLast_concat
  unfold Search
  cases r.Config with
  | foreign => rfl
  | native b =>
    simp only [h1, h2, List.map_append, List.map_cons, List.map_nil]
    exact searchLoop_append _ _ _

theorem collectBodies_eq (s : String) (blocks : List Block) (acc : List Body)
    (hwf : ∀ blk ∈ blocks, BlockOf.WellFormed blk) :
    collectBodies s blocks acc = .ok (acc ++ groupOf s blocks) := by
  induction blocks generalizing acc with
  | nil => simp [collectBodies, groupOf]
  | cons blk rest ih =>
    have hrest : ∀ b ∈ rest, BlockOf.WellFormed b := fun b hb => hwf b (List.mem_cons_of_mem _ hb)
    have hblk : BlockOf.WellFormed blk := hwf blk (List.mem_cons_self _ _)
    unfold collectBodies
    by_cases hd : blk.Type_ = dynamicBlockType
    · obtain ⟨hl, hb⟩ := hblk hd
      simp only [hd, if_true]
      cases hlab : blk.Labels with
      | nil => rw [hlab] at hl; simp at hl
      | cons l ls =>
        by_cases hs : l = s
        · cases hblocks : blk.Body.Blocks with
          | nil => rw [hblocks] at hb; simp at hb
          | cons inner inners =>
            simp only [hs, ne_eq, not_true_eq_false, if_false]
            rw [ih _ hrest]
            simp [groupOf, List.filterMap_cons, memberBody?, hd, hlab, hs, hblocks]
        · simp only [ne_eq, hs, not_false_eq_true, if_true]
          rw [ih _ hrest]
          simp [groupOf, List.filterMap_cons, memberBody?, hd, hlab, hs]
    · simp only [hd, if_false]
      by_cases ht : blk.Type_ = s
      · simp only [ht, if_true]
        rw [ih _ hrest]
        have hd' : ¬ s = dynamicBlockType := ht ▸ hd
        simp [groupOf, List.filterMap_cons, memberBody?, ht, hd']
      · simp only [ht, if_false]
        rw [ih _ hrest]
        simp [groupOf, List.filterMap_cons, memberBody?, hd, ht]


/-! ## Reading after writing

The location a cursor carries stands for the pointer `Search` returns.  The lemmas below
relate `Search`, `Node.get` and `Node.put`: the node at the location of the cursor is its
target, and after a node of the same shape has been written there, `Search` along the
same path arrives at the node written. -/

theorem Node.sameShape_refl (n : Node) : Node.sameShape n n := by
  cases n <;> simp [Node.sameShape]

theorem Node.put_cons (st : Step) (rest : Location) (n m new : Node)
    (h : Node.child st n = some m) :
    Node.put (st :: rest) n new = Node.put [st] n (Node.put rest m new) := by
  cases st with
  | attrExpr name =>
    cases n with
    | body b =>
      simp only [Node.child, Option.map_eq_some'] at h
      obtain ⟨a, ha, hm⟩ := h
      subst hm
      simp only [Node.put, ha]
    | expr e => simp [Node.child] at h
    | bodies bs => simp [Node.child] at h
  | blocks seg =>
    cases n with
    | body b =>
      simp only [Node.child] at h
      cases hcol : collectBodies seg b.Blocks [] with
      | ok bds =>
        rw [hcol] at h
        simp only [Option.some.injEq] at h
        subst h
        simp only [Node.put, hcol]
      | err e => rw [hcol] at h; cases h
      | panic p => rw [hcol] at h; cases h
    | expr e => simp [Node.child] at h
    | bodies bs => simp [Node.child] at h
  | item idx =>
    cases n with
    | expr e =>
      cases e with
      | ObjectConsExpr items =>
        simp only [Node.child, Option.map_eq_some'] at h
        obtain ⟨it, hit, hm⟩ := h
        subst hm
        simp only [Node.put, hit]
      | TupleConsExpr exprs => simp [Node.child] at h
      | other src => simp [Node.child] at h
    | body b => simp [Node.child] at h
    | bodies bs => simp [Node.child] at h
  | element idx =>
    cases n with
    | expr e =>
      cases e with
      | TupleConsExpr exprs =>
        simp only [Node.child, Option.map_eq_some'] at h
        obtain ⟨x, hx, hm⟩ := h
        subst hm
        simp only [Node.put, hx]
      | ObjectConsExpr items => simp [Node.child] at h
      | other src => simp [Node.child] at h
    | body b => simp [Node.child] at h
    | bodies bs => simp [Node.child] at h
  | member idx =>
    cases n with
    | bodies bs =>
      simp only [Node.child, Option.map_eq_some'] at h
      obtain ⟨x, hx, hm⟩ := h
      subst hm
      simp only [Node.put, hx]
    | body b => simp [Node.child] at h
    | expr e => simp [Node.child] at h


theorem lookup_setAttributeExpr (name : String) (e : Expression)
    (attrs : List (String × Attribute)) (a : Attribute) (h : attrs.lookup name = some a) :
    (setAttributeExpr name e attrs).lookup name = some { a with Expr := e } := by
  induction attrs with
  | nil => simp [List.lookup] at h
  | cons p rest ih =>
    obtain ⟨k, a'⟩ := p
    unfold setAttributeExpr
    by_cases hk : name = k
    · subst hk
      simp only [List.lookup, beq_self_eq_true, Option.some.injEq] at h
      subst h
      simp [List.lookup]
    · have hb : (name == k) = false := by simpa using hk
      simp only [List.lookup, hb] at h
      simp only [hk, if_false, List.lookup, hb]
      exact ih h

theorem lookup_setAttributeExpr_ne (name k : String) (e : Expression)
    (attrs : List (String × Attribute)) (h : k ≠ name) :
    (setAttributeExpr name e attrs).lookup k = attrs.lookup k := by
  induction attrs with
  | nil => rfl
  | cons p rest ih =>
    obtain ⟨k', a'⟩ := p
    unfold setAttributeExpr
    by_cases hk : name = k'
    · subst hk
      have hb : (k == name) = false := by simpa using h
      simp [List.lookup, hb]
    · simp only [hk, if_false]
      by_cases hkk : k = k'
      · subst hkk; simp [List.lookup]
      · have hb : (k == k') = false := by simpa using hkk
        simp only [List.lookup, hb]
        exact ih

theorem setAttributeExpr_self (name : String) (attrs : List (String × Attribute))
    (a : Attribute) (h : attrs.lookup name = some a) :
    setAttributeExpr name a.Expr attrs = attrs := by
  induction attrs with
  | nil => rfl
  | cons p rest ih =>
    obtain ⟨k, a'⟩ := p
    unfold setAttributeExpr
    by_cases hk : name = k
    · subst hk
      simp only [List.lookup, beq_self_eq_true, Option.some.injEq] at h
      subst h
      simp
    · have hb : (name == k) = false := by simpa using hk
      simp only [List.lookup, hb] at h
      simp only [hk, if_false]
      rw [ih h]

/-- The accumulator of `collectBodies` is a prefix of its result. -/
theorem collectBodies_acc (seg : String) (blocks : List Block) (acc : List Body) :
    collectBodies seg blocks acc =
      match collectBodies seg blocks [] with
      | .ok bds => .ok (acc ++ bds)
      | .err e => .err e
      | .panic p => .panic p := by
  induction blocks generalizing acc with
  | nil => simp [collectBodies]
  | cons blk rest ih =>
    unfold collectBodies
    by_cases hd : blk.Type_ = dynamicBlockType
    · simp only [hd, if_true]
      cases hlab : blk.Labels with
      | nil => rfl
      | cons l ls =>
        by_cases hs : l = seg
        · simp only [hs, ne_eq, not_true_eq_false, if_false]
          cases hblocks : blk.Body.Blocks with
          | nil => rfl
          | cons inner inners =>
            simp only
            rw [ih (acc ++ [inner.Body]), ih ([] ++ [inner.Body])]
            cases collectBodies seg rest [] <;> simp
        · simp only [ne_eq, hs, not_false_eq_true, if_true]
          exact ih acc
    · simp only [hd, if_false]
      by_cases ht : blk.Type_ = seg
      · simp only [ht, if_true]
        rw [ih (acc ++ [blk.Body]), ih ([] ++ [blk.Body])]
        cases collectBodies seg rest [] <;> simp
      · simp only [ht, if_false]
        exact ih acc


theorem collectBodies_cons_ok (seg : String) (rest : List Block) (x : Body) (bds : List Body)
    (h : collectBodies seg rest ([] ++ [x]) = .ok bds) :
    ∃ r, collectBodies seg rest [] = .ok r ∧ bds = x :: r := by
  rw [collectBodies_acc] at h
  cases hr : collectBodies seg rest [] with
  | ok r =>
    rw [hr] at h
    simp only [List.nil_append, List.singleton_append, Result.ok.injEq] at h
    exact ⟨r, rfl, h.symm⟩
  | err e => rw [hr] at h; cases h
  | panic p => rw [hr] at h; cases h

/-- Collecting after scattering gives back the bodies scattered. -/
theorem collectBodies_scatterBodies (seg : String) (blocks : List Block) (bds bds' : List Body)
    (h : collectBodies seg blocks [] = .ok bds) (hlen : bds'.length = bds.length) :
    collectBodies seg (scatterBodies seg blocks bds') [] = .ok bds' := by
  induction blocks generalizing bds bds' with
  | nil =>
    simp only [collectBodies, Result.ok.injEq] at h
    subst h
    have : bds' = [] := List.length_eq_zero.mp (by simpa using hlen)
    subst this
    rfl
  | cons blk rest ih =>
    unfold collectBodies at h
    unfold scatterBodies
    by_cases hd : blk.Type_ = dynamicBlockType
    · simp only [hd, if_true] at h ⊢
      cases hlab : blk.Labels with
      | nil => rw [hlab] at h; cases h
      | cons l ls =>
        rw [hlab] at h
        by_cases hs : l = seg
        · simp only [hs, ne_eq, not_true_eq_false, if_false] at h ⊢
          cases hblocks : blk.Body.Blocks with
          | nil => rw [hblocks] at h; cases h
          | cons inner inners =>
            rw [hblocks] at h
            obtain ⟨r, hr, hbds⟩ := collectBodies_cons_ok seg rest inner.Body bds h
            subst hbds
            cases bds' with
            | nil => simp at hlen
            | cons bd bds'' =>
              have hlen' : bds''.length = r.length := by simpa using hlen
              simp only [List.headD_cons, List.tail_cons]
              unfold collectBodies
              simp only [hd, if_true, hlab, hs, ne_eq, not_true_eq_false, if_false]
              rw [collectBodies_acc, ih r bds'' hr hlen']
              rfl
        · simp only [ne_eq, hs, not_false_eq_true, if_true] at h ⊢
          unfold collectBodies
          simp only [hd, if_true, hlab, ne_eq, hs, not_false_eq_true]
          exact ih bds bds' h hlen
    · simp only [hd, if_false] at h ⊢
      by_cases ht : blk.Type_ = seg
      · simp only [ht, if_true] at h ⊢
        obtain ⟨r, hr, hbds⟩ := collectBodies_cons_ok seg rest blk.Body bds h
        subst hbds
        cases bds' with
        | nil => simp at hlen
        | cons bd bds'' =>
          have hlen' : bds''.length = r.length := by simpa using hlen
          have hd' : ¬ seg = dynamicBlockType := ht ▸ hd
          simp only [List.headD_cons, List.tail_cons]
          unfold collectBodies
          simp only [ht, hd', if_true, if_false]
          rw [collectBodies_acc, ih r bds'' hr hlen']
          rfl
      · simp only [ht, if_false] at h ⊢
        unfold collectBodies
        simp only [hd, ht, if_false]
        exact ih bds bds' h hlen


/-- Scattering the bodies just collected changes nothing. -/
theorem scatterBodies_self (seg : String) (blocks : List Block) (bds : List Body)
    (h : collectBodies seg blocks [] = .ok bds) : scatterBodies seg blocks bds = blocks := by
  induction blocks generalizing bds with
  | nil => rfl
  | cons blk rest ih =>
    unfold collectBodies at h
    unfold scatterBodies
    by_cases hd : blk.Type_ = dynamicBlockType
    · simp only [hd, if_true] at h ⊢
      cases hlab : blk.Labels with
      | nil => rw [hlab] at h; cases h
      | cons l ls =>
        rw [hlab] at h
        by_cases hs : l = seg
        · simp only [hs, ne_eq, not_true_eq_false, if_false] at h ⊢
          cases hblocks : blk.Body.Blocks with
          | nil => rw [hblocks] at h; cases h
          | cons inner inners =>
            rw [hblocks] at h
            obtain ⟨r, hr, hbds⟩ := collectBodies_cons_ok seg rest inner.Body bds h
            subst hbds
            simp only [List.headD_cons, List.tail_cons]
            rw [ih r hr]
            congr 1
            obtain ⟨ty, labels, body, tr, lr⟩ := blk
            obtain ⟨attrs, blks⟩ := body
            simp only at hblocks hd hlab
            subst hblocks
            subst hd
            subst hlab
            subst hs
            rfl
        · simp only [ne_eq, hs, not_false_eq_true, if_true] at h ⊢
          rw [ih bds h]
    · simp only [hd, if_false] at h ⊢
      by_cases ht : blk.Type_ = seg
      · simp only [ht, if_true] at h ⊢
        obtain ⟨r, hr, hbds⟩ := collectBodies_cons_ok seg rest blk.Body bds h
        subst hbds
        simp only [List.headD_cons, List.tail_cons]
        rw [ih r hr]
        subst ht
        rfl
      · simp only [ht, if_false] at h ⊢
        rw [ih bds h]

theorem findItem_of_keys (seg : String) (items items' : List (ObjectConsItem Expression))
    (h : items.map (fun it => it.KeyExpr) = items'.map (fun it => it.KeyExpr)) :
    findItem seg items = findItem seg items' := by
  induction items generalizing items' with
  | nil =>
    cases items' with
    | nil => rfl
    | cons x xs => simp at h
  | cons it rest ih =>
    cases items' with
    | nil => simp at h
    | cons x xs =>
      simp only [List.map_cons, List.cons.injEq] at h
      unfold findItem
      rw [h.1, ih xs h.2]

theorem map_key_set (items : List (ObjectConsItem Expression)) (idx : Nat)
    (it : ObjectConsItem Expression) (e : Expression) (h : items[idx]? = some it) :
    (items.set idx { it with ValueExpr := e }).map (fun x => x.KeyExpr) =
      items.map (fun x => x.KeyExpr) := by
  induction items generalizing idx with
  | nil => rfl
  | cons x xs ih =>
    cases idx with
    | zero =>
      simp only [List.getElem?_cons_zero, Option.some.injEq] at h
      subst h
      rfl
    | succ k =>
      simp only [List.getElem?_cons_succ] at h
      simp only [List.set_cons_succ, List.map_cons, ih k h]

/-- After a node of the same shape has been written one step below `n`, it is the node
found one step below. -/
theorem Node.child_put (st : Step) (n m m' : Node) (h : Node.child st n = some m)
    (hshape : Node.sameShape m m') :
    Node.child st (Node.put [st] n m') = some m' := by
  cases st with
  | attrExpr name =>
    cases n with
    | body b =>
      simp only [Node.child, Option.map_eq_some'] at h
      obtain ⟨a, ha, hm⟩ := h
      subst hm
      cases m' with
      | expr e =>
        simp only [Node.put, ha, Node.child, lookup_setAttributeExpr name e _ a ha]
        rfl
      | body b' => simp [Node.sameShape] at hshape
      | bodies bs => simp [Node.sameShape] at hshape
    | expr e => simp [Node.child] at h
    | bodies bs => simp [Node.child] at h
  | blocks seg =>
    cases n with
    | body b =>
      simp only [Node.child] at h
      cases hcol : collectBodies seg b.Blocks [] with
      | ok bds =>
        rw [hcol] at h
        simp only [Option.some.injEq] at h
        subst h
        cases m' with
        | bodies bds' =>
          simp only [Node.sameShape] at hshape
          simp only [Node.put, hcol, Node.child,
            collectBodies_scatterBodies seg _ bds bds' hcol hshape.symm]
        | body b' => simp [Node.sameShape] at hshape
        | expr e => simp [Node.sameShape] at hshape
      | err e => rw [hcol] at h; cases h
      | panic p => rw [hcol] at h; cases h
    | expr e => simp [Node.child] at h
    | bodies bs => simp [Node.child] at h
  | item idx =>
    cases n with
    | expr e =>
      cases e with
      | ObjectConsExpr items =>
        simp only [Node.child, Option.map_eq_some'] at h
        obtain ⟨it, hit, hm⟩ := h
        subst hm
        have hlt : idx < items.length := (List.getElem?_eq_some_iff.mp hit).1
        cases m' with
        | expr e' =>
          simp only [Node.put, hit, Node.child]
          simp [List.getElem?_set, hlt]
        | body b' => simp [Node.sameShape] at hshape
        | bodies bs => simp [Node.sameShape] at hshape
      | TupleConsExpr exprs => simp [Node.child] at h
      | other src => simp [Node.child] at h
    | body b => simp [Node.child] at h
    | bodies bs => simp [Node.child] at h
  | element idx =>
    cases n with
    | expr e =>
      cases e with
      | TupleConsExpr exprs =>
        simp only [Node.child, Option.map_eq_some'] at h
        obtain ⟨x, hx, hm⟩ := h
        subst hm
        have hlt : idx < exprs.length := (List.getElem?_eq_some_iff.mp hx).1
        cases m' with
        | expr e' =>
          simp only [Node.put, hx, Node.child]
          simp [List.getElem?_set, hlt]
        | body b' => simp [Node.sameShape] at hshape
        | bodies bs => simp [Node.sameShape] at hshape
      | ObjectConsExpr items => simp [Node.child] at h
      | other src => simp [Node.child] at h
    | body b => simp [Node.child] at h
    | bodies bs => simp [Node.child] at h
  | member idx =>
    cases n with
    | bodies bs =>
      simp only [Node.child, Option.map_eq_some'] at h
      obtain ⟨x, hx, hm⟩ := h
      subst hm
      have hlt : idx < bs.length := (List.getElem?_eq_some_iff.mp hx).1
      cases m' with
      | body b' =>
        simp only [Node.put, hx, Node.child]
        simp [List.getElem?_set, hlt]
      | expr e => simp [Node.sameShape] at hshape
      | bodies bs' => simp [Node.sameShape] at hshape
    | body b => simp [Node.child] at h
    | expr e => simp [Node.child] at h


theorem Node.sameShape_put_cons (st : Step) (rest : Location) (n new : Node) :
    Node.sameShape n (Node.put (st :: rest) n new) := by
  cases st with
  | attrExpr name =>
    cases n with
    | body b =>
      simp only [Node.put]
      split
      · trivial
      · split <;> trivial
    | expr e => simp [Node.put, Node.sameShape]
    | bodies bs => simp [Node.put, Node.sameShape]
  | blocks seg =>
    cases n with
    | body b =>
      simp only [Node.put]
      split
      · split <;> trivial
      · trivial
    | expr e => simp [Node.put, Node.sameShape]
    | bodies bs => simp [Node.put, Node.sameShape]
  | item idx =>
    cases n with
    | expr e =>
      cases e with
      | ObjectConsExpr items =>
        simp only [Node.put]
        split
        · trivial
        · split <;> trivial
      | TupleConsExpr exprs => simp [Node.put, Node.sameShape]
      | other src => simp [Node.put, Node.sameShape]
    | body b => simp [Node.put, Node.sameShape]
    | bodies bs => simp [Node.put, Node.sameShape]
  | element idx =>
    cases n with
    | expr e =>
      cases e with
      | TupleConsExpr exprs =>
        simp only [Node.put]
        split
        · trivial
        · split <;> trivial
      | ObjectConsExpr items => simp [Node.put, Node.sameShape]
      | other src => simp [Node.put, Node.sameShape]
    | body b => simp [Node.put, Node.sameShape]
    | bodies bs => simp [Node.put, Node.sameShape]
  | member idx =>
    cases n with
    | bodies bs =>
      simp only [Node.put]
      split
      · simp [Node.sameShape]
      · split <;> simp [Node.sameShape]
    | body b => simp [Node.put, Node.sameShape]
    | expr e => simp [Node.put, Node.sameShape]

/-- Writing a node of the same shape at a location keeps the shape of the tree. -/
theorem Node.sameShape_put (loc : Location) (n t new : Node)
    (hget : Node.get loc n = some t) (hshape : Node.sameShape t new) :
    Node.sameShape n (Node.put loc n new) := by
  cases loc with
  | nil =>
    simp only [Node.get, Option.some.injEq] at hget
    subst hget
    simpa [Node.put] using hshape
  | cons st rest => exact Node.sameShape_put_cons st rest n new


/-- One step of `Search` goes one step down the tree, and goes down the same step after
a node of the same shape has been written there. -/
theorem searchStep_put (n : Node) (p : Option Node) (l pl : Location) (seg : String)
    (c' : Cursor) (h : searchStep ⟨n, p, l, pl⟩ seg = .ok c') :
    ∃ st, c'.loc = l ++ [st] ∧ Node.child st n = some c'.target ∧
      ∀ (m' : Node) (p' : Option Node), Node.sameShape c'.target m' →
        ∃ q, searchStep ⟨Node.put [st] n m', p', l, pl⟩ seg = .ok ⟨m', q, c'.loc, c'.parentLoc⟩ := by
  cases n with
  | body b =>
    simp only [searchStep] at h
    cases hlook : b.Attributes.lookup seg with
    | some a =>
      rw [hlook] at h
      simp only [Result.ok.injEq] at h
      subst h
      refine ⟨.attrExpr seg, rfl, by simp [Node.child, hlook], ?_⟩
      intro m' p' hshape
      cases m' with
      | expr e =>
        refine ⟨some (Node.put [.attrExpr seg] (.body b) (.expr e)), ?_⟩
        simp only [Node.put, hlook, searchStep, lookup_setAttributeExpr seg e _ a hlook]
      | body b' => simp [Node.sameShape] at hshape
      | bodies bs => simp [Node.sameShape] at hshape
    | none =>
      rw [hlook] at h
      cases hcol : collectBodies seg b.Blocks [] with
      | err e => rw [hcol] at h; cases h
      | panic q => rw [hcol] at h; cases h
      | ok bds =>
        rw [hcol] at h
        simp only at h
        by_cases hlen : bds.length = 0
        · rw [if_pos hlen] at h; cases h
        · rw [if_neg hlen] at h
          simp only [Result.ok.injEq] at h
          subst h
          refine ⟨.blocks seg, rfl, by simp [Node.child, hcol], ?_⟩
          intro m' p' hshape
          cases m' with
          | bodies bds' =>
            simp only [Node.sameShape] at hshape
            refine ⟨some (Node.put [.blocks seg] (.body b) (.bodies bds')), ?_⟩
            have hlen' : ¬ bds'.length = 0 := by omega
            simp only [Node.put, hcol, searchStep, hlook,
              collectBodies_scatterBodies seg _ bds bds' hcol hshape.symm, if_neg hlen']
          | body b' => simp [Node.sameShape] at hshape
          | expr e => simp [Node.sameShape] at hshape
  | expr e =>
    cases e with
    | ObjectConsExpr items =>
      simp only [searchStep] at h
      by_cases hidx : findItem seg items = items.length
      · rw [if_pos hidx] at h; cases h
      · rw [if_neg hidx] at h
        cases hit : items[findItem seg items]? with
        | none => rw [hit] at h; cases h
        | some it =>
          rw [hit] at h
          simp only [Result.ok.injEq] at h
          subst h
          refine ⟨.item (findItem seg items), rfl, by simp [Node.child, hit], ?_⟩
          intro m' p' hshape
          cases m' with
          | expr e' =>
            have hkeys := map_key_set items _ it e' hit
            have hfind := findItem_of_keys seg _ _ hkeys
            have hlt : findItem seg items < items.length := (List.getElem?_eq_some_iff.mp hit).1
            refine ⟨some (Node.put [.item (findItem seg items)]
              (.expr (.ObjectConsExpr items)) (.expr e')), ?_⟩
            simp only [Node.put, hit, searchStep, hfind, List.length_set, if_neg hidx]
            simp [List.getElem?_set, hlt]
          | body b' => simp [Node.sameShape] at hshape
          | bodies bs => simp [Node.sameShape] at hshape
    | TupleConsExpr exprs =>
      simp only [searchStep] at h
      cases hp : ParseInt seg with
      | none => simp [hp] at h
      | some i =>
        simp only [hp] at h
        cases hr : resolveIndex exprs.length i with
        | err e => simp [hr] at h
        | panic q => simp [hr] at h
        | ok idx =>
          simp only [hr] at h
          cases hx : exprs[idx]? with
          | none => simp [hx] at h
          | some x =>
            simp only [hx] at h
            simp only [Result.ok.injEq] at h
            subst h
            refine ⟨.element idx, rfl, by simp [Node.child, hx], ?_⟩
            intro m' p' hshape
            cases m' with
            | expr e' =>
              have hlt : idx < exprs.length := (List.getElem?_eq_some_iff.mp hx).1
              refine ⟨some (Node.put [.element idx] (.expr (.TupleConsExpr exprs)) (.expr e')), ?_⟩
              simp only [Node.put, hx, searchStep, hp, List.length_set, hr]
              simp [List.getElem?_set, hlt]
            | body b' => simp [Node.sameShape] at hshape
            | bodies bs => simp [Node.sameShape] at hshape
    | other src =>
      simp only [searchStep] at h
      cases h
  | bodies t =>
    simp only [searchStep] at h
    cases hp : ParseInt seg with
    | none => simp [hp] at h
    | some i =>
      simp only [hp] at h
      cases hr : resolveIndex t.length i with
      | err e => simp [hr] at h
      | panic q => simp [hr] at h
      | ok idx =>
        simp only [hr] at h
        cases hx : t[idx]? with
        | none => simp [hx] at h
        | some x =>
          simp only [hx] at h
          simp only [Result.ok.injEq] at h
          subst h
          refine ⟨.member idx, rfl, by simp [Node.child, hx], ?_⟩
          intro m' p' hshape
          cases m' with
          | body b' =>
            have hlt : idx < t.length := (List.getElem?_eq_some_iff.mp hx).1
            refine ⟨p', ?_⟩
            simp only [Node.put, hx, searchStep, hp, List.length_set, hr]
            simp [List.getElem?_set, hlt]
          | expr e => simp [Node.sameShape] at hshape
          | bodies bs => simp [Node.sameShape] at hshape


/-- The loop of `Search`: the cursor it ends in points to its target, and after a node of
the same shape has been written to that location the loop ends in the node written. -/
theorem searchLoop_put (xs : List String) (n : Node) (p : Option Node) (l pl : Location)
    (c : Cursor) (h : searchLoop xs ⟨n, p, l, pl⟩ = .ok c) :
    ∃ rel, c.loc = l ++ rel ∧ Node.get rel n = some c.target ∧
      ∀ (new : Node) (p' : Option Node), Node.sameShape c.target new →
        ∃ q, searchLoop xs ⟨Node.put rel n new, p', l, pl⟩ = .ok ⟨new, q, c.loc, c.parentLoc⟩ := by
  induction xs generalizing n p l pl with
  | nil =>
    simp only [searchLoop, Result.ok.injEq] at h
    subst h
    exact ⟨[], by simp, rfl, fun new p' _ => ⟨p', rfl⟩⟩
  | cons x xs ih =>
    simp only [searchLoop] at h
    cases hstep : searchStep ⟨n, p, l, pl⟩ x with
    | err e => simp [hstep] at h
    | panic q => simp [hstep] at h
    | ok c1 =>
      simp only [hstep] at h
      obtain ⟨st, hloc1, hchild, hput1⟩ := searchStep_put n p l pl x c1 hstep
      obtain ⟨rel, hloc, hget, hput⟩ := ih c1.target c1.parent c1.loc c1.parentLoc h
      refine ⟨st :: rel, ?_, ?_, ?_⟩
      · rw [hloc, hloc1]; simp
      · simp only [Node.get, hchild, hget]
      · intro new p' hshape
        have hshape1 : Node.sameShape c1.target (Node.put rel c1.target new) :=
          Node.sameShape_put rel c1.target c.target new hget hshape
        obtain ⟨q1, hq1⟩ := hput1 (Node.put rel c1.target new) p' hshape1
        obtain ⟨q, hq⟩ := hput new q1 hshape
        refine ⟨q, ?_⟩
        rw [Node.put_cons st rel n c1.target new hchild]
        simp only [searchLoop, hq1]
        exact hq

/-- The location of the cursor of `Search` is where its target sits in the resource body. -/
theorem Search_get (op : JSONPointerPathOperator) (r : Resource) (b : Body) (c : Cursor)
    (hcfg : r.Config = .native b) (h : Search op r = .ok c) :
    Node.get c.loc (.body b) = some c.target := by
  unfold Search at h
  rw [hcfg] at h
  obtain ⟨rel, hloc, hget, _⟩ := searchLoop_put _ _ _ _ _ c h
  simp only [List.nil_append] at hloc
  rw [hloc]
  exact hget

/-- Reading after writing: when `Search` resolves a path to a cursor and a node of the
same shape is written to the location of that cursor, `Search` resolves the same path in
the resulting resource to the node written, at the same location. -/
theorem Search_put (op : JSONPointerPathOperator) (r : Resource) (c : Cursor) (new : Node)
    (h : Search op r = .ok c) (hshape : Node.sameShape c.target new) :
    ∃ q, Search op (r.put c.loc new) = .ok ⟨new, q, c.loc, c.parentLoc⟩ := by
  unfold Search at h
  cases hcfg : r.Config with
  | foreign => simp [hcfg] at h
  | native b =>
    simp only [hcfg] at h
    obtain ⟨rel, hloc, hget, hput⟩ := searchLoop_put _ _ _ _ _ c h
    simp only [List.nil_append] at hloc
    obtain ⟨q, hq⟩ := hput new none hshape
    have hs := Node.sameShape_put rel (.body b) c.target new hget hshape
    refine ⟨q, ?_⟩
    cases hn : Node.put rel (.body b) new with
    | body b' =>
      have hn2 : Node.put c.loc (Node.body b) new = Node.body b' :=
        (congrArg (fun l => Node.put l (Node.body b) new) hloc).trans hn
      rw [hn] at hq
      simp only [Resource.put, hcfg, hn2, Search]
      exact hq
    | expr e => rw [hn] at hs; simp [Node.sameShape] at hs
    | bodies bs => rw [hn] at hs; simp [Node.sameShape] at hs


/-! ## Writing back what was read, and writing twice -/

theorem set_getElem?_self {α : Type} (l : List α) (i : Nat) (x : α) (h : l[i]? = some x) :
    l.set i x = l := by
  induction l generalizing i with
  | nil => rfl
  | cons y ys ih =>
    cases i with
    | zero =>
      simp only [List.getElem?_cons_zero, Option.some.injEq] at h
      subst h
      rfl
    | succ k =>
      simp only [List.getElem?_cons_succ] at h
      simp only [List.set_cons_succ, ih k h]

theorem Node.put_child_self (st : Step) (n m : Node) (h : Node.child st n = some m) :
    Node.put [st] n m = n := by
  cases st with
  | attrExpr name =>
    cases n with
    | body b =>
      simp only [Node.child, Option.map_eq_some'] at h
      obtain ⟨a, ha, hm⟩ := h
      subst hm
      simp only [Node.put, ha, setAttributeExpr_self name _ a ha]
      cases b
      rfl
    | expr e => simp [Node.child] at h
    | bodies bs => simp [Node.child] at h
  | blocks seg =>
    cases n with
    | body b =>
      simp only [Node.child] at h
      cases hcol : collectBodies seg b.Blocks [] with
      | ok bds =>
        rw [hcol] at h
        simp only [Option.some.injEq] at h
        subst h
        simp only [Node.put, hcol, scatterBodies_self seg _ bds hcol]
        cases b
        rfl
      | err e => rw [hcol] at h; cases h
      | panic p => rw [hcol] at h; cases h
    | expr e => simp [Node.child] at h
    | bodies bs => simp [Node.child] at h
  | item idx =>
    cases n with
    | expr e =>
      cases e with
      | ObjectConsExpr items =>
        simp only [Node.child, Option.map_eq_some'] at h
        obtain ⟨it, hit, hm⟩ := h
        subst hm
        simp only [Node.put, hit, set_getElem?_self items idx it hit]
      | TupleConsExpr exprs => simp [Node.child] at h
      | other src => simp [Node.child] at h
    | body b => simp [Node.child] at h
    | bodies bs => simp [Node.child] at h
  | element idx =>
    cases n with
    | expr e =>
      cases e with
      | TupleConsExpr exprs =>
        simp only [Node.child, Option.map_eq_some'] at h
        obtain ⟨x, hx, hm⟩ := h
        subst hm
        simp only [Node.put, hx, set_getElem?_self exprs idx x hx]
      | ObjectConsExpr items => simp [Node.child] at h
      | other src => simp [Node.child] at h
    | body b => simp [Node.child] at h
    | bodies bs => simp [Node.child] at h
  | member idx =>
    cases n with
    | bodies bs =>
      simp only [Node.child, Option.map_eq_some'] at h
      obtain ⟨x, hx, hm⟩ := h
      subst hm
      simp only [Node.put, hx, set_getElem?_self bs idx x hx]
    | body b => simp [Node.child] at h
    | expr e => simp [Node.child] at h

/-- Writing back the node that is at a location leaves the tree as it is. -/
theorem Node.put_get_self (loc : Location) (n t : Node) (h : Node.get loc n = some t) :
    Node.put loc n t = n := by
  induction loc generalizing n with
  | nil =>
    simp only [Node.get, Option.some.injEq] at h
    subst h
    rfl
  | cons st rest ih =>
    simp only [Node.get] at h
    cases hchild : Node.child st n with
    | none => simp [hchild] at h
    | some m =>
      simp only [hchild] at h
      rw [Node.put_cons st rest n m t hchild, ih m h]
      exact Node.put_child_self st n m hchild

/-- Writing the target of `Search` back to its location leaves the resource as it is. -/
theorem Search_put_self (op : JSONPointerPathOperator) (r : Resource) (c : Cursor)
    (h : Search op r = .ok c) : r.put c.loc c.target = r := by
  cases hcfg : r.Config with
  | foreign => simp [Search, hcfg] at h
  | native b =>
    have hget := Search_get op r b c hcfg h
    simp only [Resource.put, hcfg, Node.put_get_self c.loc (.body b) c.target hget]
    obtain ⟨ty, name, cfg⟩ := r
    simp only at hcfg
    subst hcfg
    rfl


theorem setAttributeExpr_twice (name : String) (e1 e2 : Expression)
    (attrs : List (String × Attribute)) :
    setAttributeExpr name e2 (setAttributeExpr name e1 attrs) = setAttributeExpr name e2 attrs := by
  induction attrs with
  | nil => rfl
  | cons p rest ih =>
    obtain ⟨k, a⟩ := p
    by_cases hk : name = k
    · simp [setAttributeExpr, hk]
    · simp [setAttributeExpr, hk, ih]

theorem scatterBodies_cons_dynamic (seg : String) (blk : Block) (tail : List Block)
    (x : Body) (xs : List Body) (ls : List String) (inner : Block) (inners : List Block)
    (hd : blk.Type_ = dynamicBlockType) (hlab : blk.Labels = seg :: ls)
    (hblocks : blk.Body.Blocks = inner :: inners) :
    scatterBodies seg (blk :: tail) (x :: xs) =
      { blk with Body := { blk.Body with Blocks := { inner with Body := x } :: inners } } ::
        scatterBodies seg tail xs := by
  rw [scatterBodies]
  simp only [hd, if_true, hlab, ne_eq, not_true_eq_false, if_false, hblocks, List.headD_cons,
    List.tail_cons]

theorem scatterBodies_cons_typed (seg : String) (blk : Block) (tail : List Block)
    (x : Body) (xs : List Body) (hd : ¬ blk.Type_ = dynamicBlockType) (ht : blk.Type_ = seg) :
    scatterBodies seg (blk :: tail) (x :: xs) =
      { blk with Body := x } :: scatterBodies seg tail xs := by
  rw [scatterBodies]
  simp only [if_neg hd, if_pos ht, List.headD_cons, List.tail_cons]

theorem scatterBodies_cons_other_label (seg : String) (blk : Block) (tail : List Block)
    (xs : List Body) (l : String) (ls : List String)
    (hd : blk.Type_ = dynamicBlockType) (hlab : blk.Labels = l :: ls) (hs : ¬ l = seg) :
    scatterBodies seg (blk :: tail) xs = blk :: scatterBodies seg tail xs := by
  rw [scatterBodies]
  simp only [hd, if_true, hlab, ne_eq, hs, not_false_eq_true]

theorem scatterBodies_cons_other_type (seg : String) (blk : Block) (tail : List Block)
    (xs : List Body) (hd : ¬ blk.Type_ = dynamicBlockType) (ht : ¬ blk.Type_ = seg) :
    scatterBodies seg (blk :: tail) xs = blk :: scatterBodies seg tail xs := by
  rw [scatterBodies]
  simp only [if_neg hd, if_neg ht]

theorem scatterBodies_twice (seg : String) (blocks : List Block) (bds bds1 bds2 : List Body)
    (h : collectBodies seg blocks [] = .ok bds)
    (h1 : bds1.length = bds.length) (h2 : bds2.length = bds.length) :
    scatterBodies seg (scatterBodies seg blocks bds1) bds2 = scatterBodies seg blocks bds2 := by
  induction blocks generalizing bds bds1 bds2 with
  | nil => rfl
  | cons blk rest ih =>
    unfold collectBodies at h
    by_cases hd : blk.Type_ = dynamicBlockType
    · simp only [hd, if_true] at h
      cases hlab : blk.Labels with
      | nil => rw [hlab] at h; cases h
      | cons l ls =>
        rw [hlab] at h
        by_cases hs : l = seg
        · subst hs
          simp only [ne_eq, not_true_eq_false, if_false] at h
          cases hblocks : blk.Body.Blocks with
          | nil => rw [hblocks] at h; cases h
          | cons inner inners =>
            rw [hblocks] at h
            obtain ⟨r, hr, hbds⟩ := collectBodies_cons_ok l rest inner.Body bds h
            subst hbds
            cases bds1 with
            | nil => simp at h1
            | cons b1 r1 =>
              cases bds2 with
              | nil => simp at h2
              | cons b2 r2 =>
                have h1' : r1.length = r.length := by simpa using h1
                have h2' : r2.length = r.length := by simpa using h2
                have e3 := scatterBodies_cons_dynamic l
                  { blk with Body := { blk.Body with Blocks := { inner with Body := b1 } :: inners } }
                  (scatterBodies l rest r1) b2 r2 ls { inner with Body := b1 } inners hd hlab rfl
                rw [scatterBodies_cons_dynamic l blk rest b1 r1 ls inner inners hd hlab hblocks,
                  scatterBodies_cons_dynamic l blk rest b2 r2 ls inner inners hd hlab hblocks]
                refine e3.trans ?_
                rw [ih r r1 r2 hr h1' h2']
        · simp only [ne_eq, hs, not_false_eq_true, if_true] at h
          rw [scatterBodies_cons_other_label seg blk rest bds1 l ls hd hlab hs,
            scatterBodies_cons_other_label seg blk _ bds2 l ls hd hlab hs,
            scatterBodies_cons_other_label seg blk rest bds2 l ls hd hlab hs,
            ih bds bds1 bds2 h h1 h2]
    · simp only [hd, if_false] at h
      by_cases ht : blk.Type_ = seg
      · simp only [ht, if_true] at h
        obtain ⟨r, hr, hbds⟩ := collectBodies_cons_ok seg rest blk.Body bds h
        subst hbds
        cases bds1 with
        | nil => simp at h1
        | cons b1 r1 =>
          cases bds2 with
          | nil => simp at h2
          | cons b2 r2 =>
            have h1' : r1.length = r.length := by simpa using h1
            have h2' : r2.length = r.length := by simpa using h2
            have e3 := scatterBodies_cons_typed seg { blk with Body := b1 }
              (scatterBodies seg rest r1) b2 r2 hd ht
            rw [scatterBodies_cons_typed seg blk rest b1 r1 hd ht,
              scatterBodies_cons_typed seg blk rest b2 r2 hd ht]
            refine e3.trans ?_
            rw [ih r r1 r2 hr h1' h2']
      · simp only [ht, if_false] at h
        rw [scatterBodies_cons_other_type seg blk rest bds1 hd ht,
          scatterBodies_cons_other_type seg blk _ bds2 hd ht,
          scatterBodies_cons_other_type seg blk rest bds2 hd ht,
          ih bds bds1 bds2 h h1 h2]

theorem getElem?_set_same {α : Type} (l : List α) (i : Nat) (x : α) (h : i < l.length) :
    (l.set i x)[i]? = some x := by
  induction l generalizing i with
  | nil => simp at h
  | cons y ys ih =>
    cases i with
    | zero => simp only [List.set_cons_zero, List.getElem?_cons_zero]
    | succ k =>
      simp only [List.length_cons, Nat.add_lt_add_iff_right] at h
      simp only [List.set_cons_succ, List.getElem?_cons_succ]
      exact ih k h

theorem Node.put_put_child (st : Step) (n m m1 m2 : Node) (h : Node.child st n = some m)
    (h1 : Node.sameShape m m1) (h2 : Node.sameShape m m2) :
    Node.put [st] (Node.put [st] n m1) m2 = Node.put [st] n m2 := by
  cases st with
  | attrExpr name =>
    cases n with
    | body b =>
      simp only [Node.child, Option.map_eq_some'] at h
      obtain ⟨a, ha, hm⟩ := h
      subst hm
      cases m1 with
      | expr e1 =>
        cases m2 with
        | expr e2 =>
          simp only [Node.put, ha, lookup_setAttributeExpr name e1 _ a ha,
            setAttributeExpr_twice]
        | body b' => simp [Node.sameShape] at h2
        | bodies bs => simp [Node.sameShape] at h2
      | body b' => simp [Node.sameShape] at h1
      | bodies bs => simp [Node.sameShape] at h1
    | expr e => simp [Node.child] at h
    | bodies bs => simp [Node.child] at h
  | blocks seg =>
    cases n with
    | body b =>
      simp only [Node.child] at h
      cases hcol : collectBodies seg b.Blocks [] with
      | ok bds =>
        rw [hcol] at h
        simp only [Option.some.injEq] at h
        subst h
        cases m1 with
        | bodies bds1 =>
          cases m2 with
          | bodies bds2 =>
            simp only [Node.sameShape] at h1 h2
            simp only [Node.put, hcol,
              collectBodies_scatterBodies seg _ bds bds1 hcol h1.symm,
              scatterBodies_twice seg _ bds bds1 bds2 hcol h1.symm h2.symm]
          | body b' => simp [Node.sameShape] at h2
          | expr e => simp [Node.sameShape] at h2
        | body b' => simp [Node.sameShape] at h1
        | expr e => simp [Node.sameShape] at h1
      | err e => rw [hcol] at h; cases h
      | panic p => rw [hcol] at h; cases h
    | expr e => simp [Node.child] at h
    | bodies bs => simp [Node.child] at h
  | item idx =>
    cases n with
    | expr e =>
      cases e with
      | ObjectConsExpr items =>
        simp only [Node.child, Option.map_eq_some'] at h
        obtain ⟨it, hit, hm⟩ := h
        subst hm
        have hlt : idx < items.length := (List.getElem?_eq_some_iff.mp hit).1
        cases m1 with
        | expr e1 =>
          cases m2 with
          | expr e2 =>
            have hset : (items.set idx { it with ValueExpr := e1 })[idx]? =
                some { it with ValueExpr := e1 } := getElem?_set_same items idx _ hlt
            simp only [Node.put, hit, hset, List.set_set]
          | body b' => simp [Node.sameShape] at h2
          | bodies bs => simp [Node.sameShape] at h2
        | body b' => simp [Node.sameShape] at h1
        | bodies bs => simp [Node.sameShape] at h1
      | TupleConsExpr exprs => simp [Node.child] at h
      | other src => simp [Node.child] at h
    | body b => simp [Node.child] at h
    | bodies bs => simp [Node.child] at h
  | element idx =>
    cases n with
    | expr e =>
      cases e with
      | TupleConsExpr exprs =>
        simp only [Node.child, Option.map_eq_some'] at h
        obtain ⟨x, hx, hm⟩ := h
        subst hm
        have hlt : idx < exprs.length := (List.getElem?_eq_some_iff.mp hx).1
        cases m1 with
        | expr e1 =>
          cases m2 with
          | expr e2 =>
            have hset : (exprs.set idx e1)[idx]? = some e1 := getElem?_set_same exprs idx e1 hlt
            simp only [Node.put, hx, hset, List.set_set]
          | body b' => simp [Node.sameShape] at h2
          | bodies bs => simp [Node.sameShape] at h2
        | body b' => simp [Node.sameShape] at h1
        | bodies bs => simp [Node.sameShape] at h1
      | ObjectConsExpr items => simp [Node.child] at h
      | other src => simp [Node.child] at h
    | body b => simp [Node.child] at h
    | bodies bs => simp [Node.child] at h
  | member idx =>
    cases n with
    | bodies bs =>
      simp only [Node.child, Option.map_eq_some'] at h
      obtain ⟨x, hx, hm⟩ := h
      subst hm
      have hlt : idx < bs.length := (List.getElem?_eq_some_iff.mp hx).1
      cases m1 with
      | body b1 =>
        cases m2 with
        | body b2 =>
          have hset : (bs.set idx b1)[idx]? = some b1 := getElem?_set_same bs idx b1 hlt
          simp only [Node.put, hx, hset, List.set_set]
        | expr e => simp [Node.sameShape] at h2
        | bodies bs' => simp [Node.sameShape] at h2
      | expr e => simp [Node.sameShape] at h1
      | bodies bs' => simp [Node.sameShape] at h1
    | body b => simp [Node.child] at h
    | expr e => simp [Node.child] at h

/-- Writing twice to the same location is writing the second node. -/
theorem Node.put_put (loc : Location) (n t a b : Node) (h : Node.get loc n = some t)
    (ha : Node.sameShape t a) (hb : Node.sameShape t b) :
    Node.put loc (Node.put loc n a) b = Node.put loc n b := by
  induction loc generalizing n with
  | nil => rfl
  | cons st rest ih =>
    simp only [Node.get] at h
    cases hchild : Node.child st n with
    | none => simp [hchild] at h
    | some m =>
      simp only [hchild] at h
      have hsa : Node.sameShape m (Node.put rest m a) := Node.sameShape_put rest m t a h ha
      have hsb : Node.sameShape m (Node.put rest m b) := Node.sameShape_put rest m t b h hb
      have hchild' : Node.child st (Node.put [st] n (Node.put rest m a)) =
          some (Node.put rest m a) := Node.child_put st n m _ hchild hsa
      rw [Node.put_cons st rest n m a hchild, Node.put_cons st rest _ _ b hchild',
        Node.put_cons st rest n m b hchild, ih m h,
        Node.put_put_child st n m _ _ hchild hsa hsb]

/-- The node at a location after a node of the same shape has been written there. -/
theorem Node.get_put (loc : Location) (n t new : Node) (h : Node.get loc n = some t)
    (hshape : Node.sameShape t new) : Node.get loc (Node.put loc n new) = some new := by
  induction loc generalizing n with
  | nil => rfl
  | cons st rest ih =>
    simp only [Node.get] at h
    cases hchild : Node.child st n with
    | none => simp [hchild] at h
    | some m =>
      simp only [hchild] at h
      have hs : Node.sameShape m (Node.put rest m new) := Node.sameShape_put rest m t new h hshape
      rw [Node.put_cons st rest n m new hchild]
      simp only [Node.get, Node.child_put st n m _ hchild hs]
      exact ih m h


/-- Writing twice to the location of a cursor of `Search` is writing the second node. -/
theorem Resource.put_twice (op : JSONPointerPathOperator) (r : Resource) (c : Cursor)
    (a b : Node) (h : Search op r = .ok c)
    (ha : Node.sameShape c.target a) (hb : Node.sameShape c.target b) :
    (r.put c.loc a).put c.loc b = r.put c.loc b := by
  cases hcfg : r.Config with
  | foreign => simp [Search, hcfg] at h
  | native body =>
    have hget := Search_get op r body c hcfg h
    have hsa := Node.sameShape_put c.loc (.body body) c.target a hget ha
    have hsb := Node.sameShape_put c.loc (.body body) c.target b hget hb
    have hpp := Node.put_put c.loc (.body body) c.target a b hget ha hb
    cases hna : Node.put c.loc (.body body) a with
    | body ba =>
      cases hnb : Node.put c.loc (.body body) b with
      | body bb =>
        rw [hna, hnb] at hpp
        simp only [Resource.put, hcfg, hna, hnb, hpp]
      | expr e => rw [hnb] at hsb; simp [Node.sameShape] at hsb
      | bodies bs => rw [hnb] at hsb; simp [Node.sameShape] at hsb
    | expr e => rw [hna] at hsa; simp [Node.sameShape] at hsa
    | bodies bs => rw [hna] at hsa; simp [Node.sameShape] at hsa


/-! ## The resolver step on a body -/

theorem widgetBody_wellFormed : widgetBody.DynamicsWellFormed := by
  intro blk hblk
  simp only [widgetBody, List.mem_cons, List.mem_singleton, List.not_mem_nil, or_false] at hblk
  rcases hblk with h | h
  · subst h; intro hd; exact absurd hd (by decide)
  · subst h; intro _; decide

/-- A step of `searchStep` never yields an empty block group. -/
theorem searchStep_bodies_ne_nil (c c' : Cursor) (s : String) (bs : List Body)
    (h : searchStep c s = .ok c') (ht : c'.target = .bodies bs) : bs ≠ [] := by
  unfold searchStep at h
  split at h
  · split at h
    · cases h; cases ht
    · split at h
      · cases h
      · cases h
      · split at h
        · cases h
        · rename_i bds _ hlen
          cases h
          cases ht
          intro hnil
          exact hlen (by simp [hnil])
  · simp only at h
    split at h
    · cases h
    · split at h
      · cases h
      · cases h; cases ht
  · split at h
    · cases h
    · split at h
      · cases h
      · cases h
      · split at h
        · cases h
        · cases h; cases ht
  · split at h
    · cases h
    · split at h
      · cases h
      · cases h
      · split at h
        · cases h
        · cases h; cases ht
  · cases h

theorem searchLoop_bodies_ne_nil (xs : List String) (c c' : Cursor)
    (hc : ∀ bs, c.target = .bodies bs → bs ≠ [])
    (h : searchLoop xs c = .ok c') : ∀ bs, c'.target = .bodies bs → bs ≠ [] := by
  induction xs generalizing c with
  | nil =>
    simp only [searchLoop] at h
    cases h
    exact hc
  | cons x xs ih =>
    simp only [searchLoop] at h
    cases hstep : searchStep c x with
    | ok c1 =>
      rw [hstep] at h
      exact ih c1 (fun bs hbs => searchStep_bodies_ne_nil c c1 x bs hstep hbs) h
    | err e => rw [hstep] at h; cases h
    | panic p => rw [hstep] at h; cases h

/-- A block group produced by `Search` is never empty. -/
theorem Search_bodies_ne_nil (op : JSONPointerPathOperator) (r : Resource) (c : Cursor)
    (bs : List Body) (h : Search op r = .ok c) (ht : c.target = .bodies bs) : bs ≠ [] := by
  unfold Search at h
  cases hcfg : r.Config with
  | foreign => rw [hcfg] at h; cases h
  | native b =>
    rw [hcfg] at h
    exact searchLoop_bodies_ne_nil _ _ c (fun bs hbs => by cases hbs) h bs ht

/-- C3 (as stated, refuted). For the segment `dynamic` the body of `widgetDynamic` has no
attribute `dynamic` and one block whose type is `dynamic`, so the group as the rule words
it holds the body of that block; `Search` collects a `dynamic` block by its first label
only, finds nothing and fails with path-not-found. -/
theorem Search_dynamic_segment_by_label_only :
    widgetDynamic.Config = .native ⟨[], [dynamicFoo]⟩ ∧
      List.lookup "dynamic" ([] : List (String × Attribute)) = none ∧
      dynamicFoo.Type_ = "dynamic" ∧
      groupAsStated "dynamic" [dynamicFoo] = [dynamicFoo.Body] ∧
      Search [tok "dynamic", tok "0"] widgetDynamic = .err .pathNotFound ∧
      ∀ c, Search [tok "dynamic", tok "0"] widgetDynamic ≠ .ok c :=
  ⟨rfl, rfl, rfl, rfl, rfl, fun c h => by
    have h2 : Search [tok "dynamic", tok "0"] widgetDynamic = .err .pathNotFound := rfl
    rw [h2] at h
    cases h⟩

/-- C3 (amended). Resolver step on a body `b` whose `dynamic` blocks are well formed, with
a non-terminal segment `s`: if `b` has an attribute named `s`, `Search` descends into
that attribute's expression (whatever the blocks are) and records `b` as parent; otherwise
it produces the block group consisting, in block-list order, of exactly the bodies of the
blocks that are not of type `dynamic` and whose type is `s` together with the nested
content body of each `dynamic` block whose first label is `s` (a `dynamic` block is
addressed by its label only, also when `s` is `dynamic`); if that list is empty `Search`
fails with path-not-found, and no block group produced by `Search` is empty. -/
theorem Search_body_step (pre : List JSONPointerPathToken) (tk last : JSONPointerPathToken)
    (r : Resource) (c : Cursor) (b : Body)
    (hs : Search (pre ++ [tk]) r = .ok c) (hc : c.target = .body b)
    (hwf : b.DynamicsWellFormed) :
    (∀ a, b.Attributes.lookup tk.Value = some a →
        Search (pre ++ [tk, last]) r =
          .ok ⟨.expr a.Expr, some (.body b), c.loc ++ [.attrExpr tk.Value], c.loc⟩) ∧
      (b.Attributes.lookup tk.Value = none → groupOf tk.Value b.Blocks ≠ [] →
        Search (pre ++ [tk, last]) r =
          .ok ⟨.bodies (groupOf tk.Value b.Blocks), some (.body b),
            c.loc ++ [.blocks tk.Value], c.loc⟩) ∧
      (b.Attributes.lookup tk.Value = none → groupOf tk.Value b.Blocks = [] →
        Search (pre ++ [tk, last]) r = .err .pathNotFound) ∧
      (∀ op r' c' bs, Search op r' = .ok c' → c'.target = .bodies bs → bs ≠ []) := by
  have hstep : Search (pre ++ [tk, last]) r = searchStep c tk.Value := by
    rw [Search_snoc, hs]
  have hcol := collectBodies_eq tk.Value b.Blocks [] hwf
  rw [List.nil_append] at hcol
  refine ⟨?_, ?_, ?_, fun op r' c' bs h ht => Search_bodies_ne_nil op r' c' bs h ht⟩
  · intro a ha
    rw [hstep]
    unfold searchStep
    rw [hc]
    simp only [ha]
  · intro ha hne
    rw [hstep]
    unfold searchStep
    rw [hc]
    simp only [ha, hcol]
    have hlen : ¬ (groupOf tk.Value b.Blocks).length = 0 := by
      intro h0
      exact hne (List.length_eq_zero.mp h0)
    rw [if_neg hlen]
  · intro ha hnil
    rw [hstep]
    unfold searchStep
    rw [hc]
    simp only [ha, hcol, hnil]
    rfl

/-- C3, witness: in `widget`, the segment `foo` resolves to the group holding the content
body of the block `dynamic "foo"`. -/
theorem Search_body_step_witness :
    Search [tok "foo", tok "0"] widget =
      .ok ⟨.bodies [contentBlock.Body], some (.body widgetBody), [.blocks "foo"], []⟩ :=
  (Search_body_step [] (tok "foo") (tok "0") widget ⟨.body widgetBody, none, [], []⟩ widgetBody
    rfl rfl widgetBody_wellFormed).2.1 rfl (List.cons_ne_nil contentBlock.Body [])


/-! ## The index idiom -/

theorem resolveIndex_inRange (n : Nat) (i : Int) (h0 : 0 ≤ i) (hn : i < n) :
    resolveIndex n i = .ok i.toNat := by
  unfold resolveIndex
  have h1 : ¬ i = -1 := by omega
  simp only [h1, if_false]
  rw [if_neg (by omega), if_neg (by omega)]

theorem resolveIndex_last (n : Nat) (hn : 0 < n) : resolveIndex n (-1) = .ok (n - 1) := by
  unfold resolveIndex
  simp only [if_true]
  rw [if_neg (by omega), if_neg (by omega)]
  congr 1
  omega

theorem resolveIndex_beyond (n : Nat) (i : Int) (hn : (n : Int) ≤ i) :
    resolveIndex n i = .err .pathNotFound := by
  unfold resolveIndex
  have h1 : ¬ i = -1 := by omega
  simp only [h1, if_false]
  rw [if_pos (by omega)]

/-- Below `-1` the idiom has no check: the index expression is reached and panics. -/
theorem resolveIndex_negative (n : Nat) (i : Int) (hi : i < -1) :
    resolveIndex n i = .panic .indexOutOfRange := by
  unfold resolveIndex
  have h1 : ¬ i = -1 := by omega
  simp only [h1, if_false]
  rw [if_neg (by omega), if_pos (by omega)]

/-- On an empty sequence `-1` becomes `len - 1 = -1`, passes the check and panics. -/
theorem resolveIndex_last_empty : resolveIndex 0 (-1) = .panic .indexOutOfRange := by
  decide

theorem resolveIndex_ok_lt (n : Nat) (i : Int) (idx : Nat) (h : resolveIndex n i = .ok idx) :
    idx < n := by
  unfold resolveIndex at h
  by_cases h1 : (n : Int) - 1 < (if i = -1 then (n : Int) - 1 else i)
  · simp only [h1, if_true] at h
    cases h
  · by_cases h2 : (if i = -1 then (n : Int) - 1 else i) < 0
    · simp only [h1, h2, if_true, if_false] at h
      cases h
    · simp only [h1, h2, if_false] at h
      cases h
      omega

/-- The resolver step on a tuple of length `n` for a segment that parses as `i`: element
`i` for `0 ≤ i < n`, the last element for `-1` on a non-empty tuple, path-not-found for
`i ≥ n`; a panic for `i < -1` and for `-1` on the empty tuple. -/
theorem searchStep_tuple (c : Cursor) (exprs : List Expression) (s : String) (i : Int)
    (hc : c.target = .expr (.TupleConsExpr exprs)) (hp : ParseInt s = some i) :
    (∀ (k : Nat) (hk : k < exprs.length), (i = k ∨ (i = -1 ∧ k = exprs.length - 1)) →
        searchStep c s =
          .ok ⟨.expr (exprs.get ⟨k, hk⟩), some (.expr (.TupleConsExpr exprs)),
            c.loc ++ [.element k], c.loc⟩) ∧
      ((exprs.length : Int) ≤ i → searchStep c s = .err .pathNotFound) ∧
      (i < -1 ∨ (i = -1 ∧ exprs.length = 0) → searchStep c s = .panic .indexOutOfRange) := by
  refine ⟨?_, ?_, ?_⟩
  · intro k hk hi
    have hr : resolveIndex exprs.length i = .ok k := by
      rcases hi with h | ⟨h1, h2⟩
      · rw [h, resolveIndex_inRange _ _ (by omega) (by omega)]; simp
      · rw [h1, resolveIndex_last _ (by omega), h2]
    unfold searchStep
    rw [hc]
    simp only [hp, hr]
    rw [List.getElem?_eq_getElem hk]
    rfl
  · intro hi
    unfold searchStep
    rw [hc]
    simp only [hp, resolveIndex_beyond _ _ hi]
  · intro hi
    have hr : resolveIndex exprs.length i = .panic .indexOutOfRange := by
      rcases hi with h | ⟨h1, h2⟩
      · exact resolveIndex_negative _ _ h
      · rw [h1, h2]; exact resolveIndex_last_empty
    unfold searchStep
    rw [hc]
    simp only [hp, hr]

/-- The resolver step on a block group of length `n` for a segment that parses as `i`. -/
theorem searchStep_bodies (c : Cursor) (t : List Body) (s : String) (i : Int)
    (hc : c.target = .bodies t) (hp : ParseInt s = some i) :
    (∀ (k : Nat) (hk : k < t.length), (i = k ∨ (i = -1 ∧ k = t.length - 1)) →
        searchStep c s =
          .ok ⟨.body (t.get ⟨k, hk⟩), c.parent, c.loc ++ [.member k], c.parentLoc⟩) ∧
      ((t.length : Int) ≤ i → searchStep c s = .err .pathNotFound) ∧
      (i < -1 ∨ (i = -1 ∧ t.length = 0) → searchStep c s = .panic .indexOutOfRange) := by
  refine ⟨?_, ?_, ?_⟩
  · intro k hk hi
    have hr : resolveIndex t.length i = .ok k := by
      rcases hi with h | ⟨h1, h2⟩
      · rw [h, resolveIndex_inRange _ _ (by omega) (by omega)]; simp
      · rw [h1, resolveIndex_last _ (by omega), h2]
    unfold searchStep
    rw [hc]
    simp only [hp, hr]
    rw [List.getElem?_eq_getElem hk]
    rfl
  · intro hi
    unfold searchStep
    rw [hc]
    simp only [hp, resolveIndex_beyond _ _ hi]
  · intro hi
    have hr : resolveIndex t.length i = .panic .indexOutOfRange := by
      rcases hi with h | ⟨h1, h2⟩
      · exact resolveIndex_negative _ _ h
      · rw [h1, h2]; exact resolveIndex_last_empty
    unfold searchStep
    rw [hc]
    simp only [hp, hr]

/-- C4 (code at the failing inputs). A non-terminal segment below `-1` on a tuple or on a
block group, and `-1` on the empty tuple, pass the only bounds check there is
(`len - 1 < idx`) and reach the index expression: `Search` panics with an index out of
range instead of returning path-not-found. -/
theorem Search_negative_index_panics :
    ParseInt "-2" = some (-2) ∧
      Search [tok "ports", tok "-2", tok "x"] widget = .panic .indexOutOfRange ∧
      Search [tok "tags", tok "-2", tok "x"] widget = .panic .indexOutOfRange ∧
      ParseInt "-1" = some (-1) ∧
      Search [tok "list", tok "-1", tok "x"] widgetEmptyList = .panic .indexOutOfRange ∧
      Search [tok "ports", tok "-2", tok "x"] widget ≠ .err .pathNotFound :=
  ⟨by decide, rfl, rfl, by decide, rfl, fun h => by
    have h2 : Search [tok "ports", tok "-2", tok "x"] widget = .panic .indexOutOfRange := rfl
    rw [h2] at h
    cases h⟩


/-! ## Targets of an unsupported kind -/

theorem getLast?_snoc (pre : List JSONPointerPathToken) (tk : JSONPointerPathToken) :
    (pre ++ [tk]).getLast? = some tk := by
  simp

theorem not_traversable (n : Node) (h : n.traversable = false) :
    ∃ src, n = .expr (.other src) := by
  cases n with
  | body b => cases h
  | bodies bs => cases h
  | expr e =>
    cases e with
    | ObjectConsExpr items => cases h
    | TupleConsExpr exprs => cases h
    | other src => exact ⟨src, rfl⟩

/-- C5. When the node reached before a non-terminal segment is consumed is not a Body, an
ObjectExpression, a TupleExpression or a BlockGroup, `Search` fails with invalid-target;
and when the node resolved for the terminal segment is of such a kind, `Add`, `Replace`,
`Remove` and `Set` each fail with invalid-target and leave the resource tree as it was. -/
theorem invalid_target_kind (pre : List JSONPointerPathToken) (tk last : JSONPointerPathToken)
    (r : Resource) (c : Cursor) (value : Value)
    (hs : Search (pre ++ [tk]) r = .ok c) (hc : c.target.traversable = false) :
    Search (pre ++ [tk, last]) r = .err .invalidTarget ∧
      Add (pre ++ [tk]) r value = ⟨r, .err .invalidTarget⟩ ∧
      Replace (pre ++ [tk]) r value = ⟨r, .err .invalidTarget⟩ ∧
      Remove (pre ++ [tk]) r = ⟨r, .err .invalidTarget⟩ ∧
      Set (pre ++ [tk]) r value = ⟨r, .err .invalidTarget⟩ := by
  obtain ⟨src, htgt⟩ := not_traversable c.target hc
  have hl := getLast?_snoc pre tk
  refine ⟨?_, ?_, ?_, ?_, ?_⟩
  · rw [Search_snoc, hs]
    simp only [searchStep, htgt]
  · simp only [Add, hs, hl, htgt]
  · simp only [Replace, hs, hl, htgt]
  · simp only [Remove, hs, hl, htgt]
  · simp only [Set, hs, hl, htgt]

/-- C5, witness: in `widget` the attribute `size` is the literal `1`; resolving through it
and operating on it fail with invalid-target. -/
theorem invalid_target_kind_witness :
    Search [tok "size", tok "x", tok "y"] widget = .err .invalidTarget ∧
      Add [tok "size", tok "x"] widget prodValue = ⟨widget, .err .invalidTarget⟩ ∧
      Replace [tok "size", tok "x"] widget prodValue = ⟨widget, .err .invalidTarget⟩ ∧
      Remove [tok "size", tok "x"] widget = ⟨widget, .err .invalidTarget⟩ ∧
      Set [tok "size", tok "x"] widget prodValue = ⟨widget, .err .invalidTarget⟩ :=
  invalid_target_kind [tok "size"] (tok "x") (tok "y") widget
    ⟨.expr (.other "1"), some (.body widgetBody), [.attrExpr "size"], []⟩ prodValue rfl rfl


/-! ## Add -/

theorem lookup_append_singleton (attrs : List (String × Attribute)) (seg k : String)
    (a : Attribute) (h : attrs.lookup seg = none) :
    (attrs ++ [(seg, a)]).lookup k = if k = seg then some a else attrs.lookup k := by
  induction attrs with
  | nil =>
    by_cases hk : k = seg
    · simp [List.lookup, hk]
    · have hb : (k == seg) = false := by simpa using hk
      simp [List.lookup, hk, hb]
  | cons p rest ih =>
    obtain ⟨k', a'⟩ := p
    by_cases hseg : seg = k'
    · subst hseg
      simp [List.lookup] at h
    · have hb : (seg == k') = false := by simpa using hseg
      have hrest : rest.lookup seg = none := by
        simpa [List.lookup, hb] using h
      by_cases hk : k = k'
      · subst hk
        have hne : ¬ k = seg := fun e => hseg e.symm
        simp [List.lookup, hne]
      · have hb2 : (k == k') = false := by simpa using hk
        simp only [List.cons_append, List.lookup, hb2]
        exact ih hrest

theorem any_key_eq_false (seg : String) (items : List (ObjectConsItem Expression))
    (h : ∀ it ∈ items, it.KeyExpr.rootName? ≠ some seg) :
    items.any (fun it => decide (it.KeyExpr.rootName? = some seg)) = false := by
  rw [List.any_eq_false]
  intro it hit
  simpa using h it hit

theorem any_key_eq_true (seg : String) (items : List (ObjectConsItem Expression))
    (h : ∃ it ∈ items, it.KeyExpr.rootName? = some seg) :
    items.any (fun it => decide (it.KeyExpr.rootName? = some seg)) = true := by
  rw [List.any_eq_true]
  obtain ⟨it, hit, hk⟩ := h
  exact ⟨it, hit, by simpa using hk⟩

/-- C6. `Add` with an Attribute value inserts if and only if absent.  On a Body target
without attribute `seg` it succeeds and the body's attributes become the original ones
plus `seg` bound to the value's expression, the blocks being unchanged; on an
ObjectExpression target with no item keyed `seg` it succeeds and the items become the
original items followed by the new item (`seg`, value expression); in both cases the same
path resolves to the extended node afterwards; when the attribute or the key exists `Add`
fails with already-exists and the tree is unchanged. -/
theorem Add_attribute_value (op : JSONPointerPathOperator) (r : Resource) (c : Cursor)
    (tk : JSONPointerPathToken) (value : Value) (va : HclAttribute)
    (hs : Search op r = .ok c) (hl : op.getLast? = some tk)
    (hv : value.Attribute = some va) :
    (∀ t, c.target = .body t →
        (t.Attributes.lookup tk.Value = none →
          Add op r value =
              ⟨r.put c.loc (.body ⟨t.Attributes ++
                  [(tk.Value, ⟨tk.Value, va.Expr, va.Range, va.NameRange⟩)], t.Blocks⟩), .ok ()⟩ ∧
            (∃ q, Search op (Add op r value).resource =
              .ok ⟨.body ⟨t.Attributes ++
                  [(tk.Value, ⟨tk.Value, va.Expr, va.Range, va.NameRange⟩)], t.Blocks⟩,
                q, c.loc, c.parentLoc⟩) ∧
            ∀ k, (t.Attributes ++
                  [(tk.Value, (⟨tk.Value, va.Expr, va.Range, va.NameRange⟩ : Attribute))]).lookup k =
                if k = tk.Value then some ⟨tk.Value, va.Expr, va.Range, va.NameRange⟩
                else t.Attributes.lookup k) ∧
        (∀ a, t.Attributes.lookup tk.Value = some a →
          Add op r value = ⟨r, .err .alreadyExists⟩)) ∧
      (∀ items, c.target = .expr (.ObjectConsExpr items) →
        ((∀ it ∈ items, it.KeyExpr.rootName? ≠ some tk.Value) →
          Add op r value =
              ⟨r.put c.loc (.expr (.ObjectConsExpr (items ++ [⟨.traversal tk.Value [], va.Expr⟩]))),
                .ok ()⟩ ∧
            ∃ q, Search op (Add op r value).resource =
              .ok ⟨.expr (.ObjectConsExpr (items ++ [⟨.traversal tk.Value [], va.Expr⟩])),
                q, c.loc, c.parentLoc⟩) ∧
        ((∃ it ∈ items, it.KeyExpr.rootName? = some tk.Value) →
          Add op r value = ⟨r, .err .alreadyExists⟩)) := by
  refine ⟨?_, ?_⟩
  · intro t ht
    refine ⟨?_, ?_⟩
    · intro hnone
      have hadd : Add op r value =
          ⟨r.put c.loc (.body ⟨t.Attributes ++
              [(tk.Value, ⟨tk.Value, va.Expr, va.Range, va.NameRange⟩)], t.Blocks⟩), .ok ()⟩ := by
        simp only [Add, hs, hl, ht, hv, hnone]
        rfl
      refine ⟨hadd, ?_, fun k => lookup_append_singleton _ _ _ _ hnone⟩
      rw [hadd]
      exact Search_put op r c _ hs (by rw [ht]; trivial)
    · intro a ha
      simp only [Add, hs, hl, ht, hv, ha]
      rfl
  · intro items ht
    refine ⟨?_, ?_⟩
    · intro hno
      have hadd : Add op r value =
          ⟨r.put c.loc (.expr (.ObjectConsExpr (items ++ [⟨.traversal tk.Value [], va.Expr⟩]))),
            .ok ()⟩ := by
        simp only [Add, hs, hl, ht, hv, any_key_eq_false _ _ hno]
        rfl
      refine ⟨hadd, ?_⟩
      rw [hadd]
      exact Search_put op r c _ hs (by rw [ht]; trivial)
    · intro hex
      simp only [Add, hs, hl, ht, hv, any_key_eq_true _ _ hex]
      rfl

/-- C6, witness: on `widget`, `Add` of `"prod"` at `env` appends the attribute `env` to the
body, at `size` it fails because the attribute exists, and at `meta`, `region` it appends
the item `region` to the object `meta`. -/
theorem Add_attribute_value_witness :
    Add [tok "env"] widget prodValue =
        ⟨⟨"widget", "w", .native ⟨widgetBody.Attributes ++
            [("env", ⟨"env", .other "\"prod\"", rng 20, rng 20⟩)], widgetBody.Blocks⟩⟩, .ok ()⟩ ∧
      Add [tok "size"] widget prodValue = ⟨widget, .err .alreadyExists⟩ ∧
      Add [tok "meta", tok "region"] widget prodValue =
        ⟨widget.put [.attrExpr "meta"] (.expr (.ObjectConsExpr
          [⟨.traversal "owner" [], .other "ops"⟩, ⟨.traversal "region" [], .other "\"prod\""⟩])),
          .ok ()⟩ :=
  have h := (Add_attribute_value [tok "env"] widget ⟨.body widgetBody, none, [], []⟩ (tok "env")
    prodValue ⟨"value", .other "\"prod\"", rng 20, rng 20⟩ rfl rfl rfl).1 widgetBody rfl
  have h2 := (Add_attribute_value [tok "size"] widget ⟨.body widgetBody, none, [], []⟩
    (tok "size") prodValue ⟨"value", .other "\"prod\"", rng 20, rng 20⟩ rfl rfl rfl).1
    widgetBody rfl
  have h3 := (Add_attribute_value [tok "meta", tok "region"] widget
    ⟨.expr (.ObjectConsExpr [⟨.traversal "owner" [], .other "ops"⟩]), some (.body widgetBody),
      [.attrExpr "meta"], []⟩
    (tok "region") prodValue ⟨"value", .other "\"prod\"", rng 20, rng 20⟩ rfl rfl rfl).2
    [⟨.traversal "owner" [], .other "ops"⟩] rfl
  ⟨(h.1 rfl).1, h2.2 _ rfl, (h3.1 (by
    intro it hit
    simp only [List.mem_singleton] at hit
    subst hit
    decide)).1⟩


theorem blockExists_eq (seg : String) (blocks : List Block)
    (hwf : ∀ blk ∈ blocks, blk.Type_ = dynamicBlockType → 0 < blk.Labels.length) :
    blockExists seg blocks = .ok (blocks.any (occupies seg)) := by
  induction blocks with
  | nil => rfl
  | cons blk rest ih =>
    have hrest := ih (fun b hb => hwf b (List.mem_cons_of_mem _ hb))
    unfold blockExists
    by_cases hd : blk.Type_ = dynamicBlockType
    · have hl := hwf blk (List.mem_cons_self _ _) hd
      simp only [hd, if_true]
      cases hlab : blk.Labels with
      | nil => rw [hlab] at hl; simp at hl
      | cons l ls =>
        by_cases hs : l = seg
        · simp [List.any_cons, occupies, hd, hlab, hs]
        · simp [List.any_cons, occupies, hd, hlab, hs, hrest]
    · simp only [hd, if_false]
      by_cases ht : blk.Type_ = seg
      · have hocc : occupies seg blk = true := by
          unfold occupies
          rw [if_neg hd]
          simpa using ht
        simp [List.any_cons, hocc, ht]
      · have hocc : occupies seg blk = false := by
          unfold occupies
          rw [if_neg hd]
          simpa using ht
        simp [List.any_cons, hocc, ht, hrest]

/-- C7 (as stated, refuted). The body of `widgetDynamic` has a block whose type is the
segment `dynamic`, so the rule as worded demands already-exists; `Add` looks at a `dynamic`
block through its label only (`foo`), finds the slot free, succeeds and appends a second
block of type `dynamic`. -/
theorem Add_block_dynamic_segment_succeeds :
    widgetDynamic.Config = .native ⟨[], [dynamicFoo]⟩ ∧
      occupiesAsStated "dynamic" dynamicFoo = true ∧
      Add [tok "dynamic"] widgetDynamic envBlockValue =
        ⟨⟨"widget", "w", .native ⟨[], [dynamicFoo,
            ⟨"dynamic", [], ⟨[attr "env" "\"prod\"" 21], []⟩, rng 20, []⟩]⟩⟩, .ok ()⟩ ∧
      (Add [tok "dynamic"] widgetDynamic envBlockValue).status ≠ .err .alreadyExists :=
  ⟨rfl, by decide, rfl, by decide⟩

/-- C7 (amended). `Add` with a Block value (and no Attribute value) on a Body target whose
`dynamic` blocks are labelled is dynamic-aware: if the body already has a block that is not
of type `dynamic` and whose type is `seg`, or a `dynamic` block whose first label is `seg`,
`Add` fails with already-exists and the tree is unchanged; otherwise it succeeds and the
block list becomes the original list followed by one new block whose type is `seg` and
whose labels and body are those of the value block, the attributes being unchanged, and
the same path resolves to the extended body afterwards. -/
theorem Add_block_value (op : JSONPointerPathOperator) (r : Resource) (c : Cursor)
    (tk : JSONPointerPathToken) (value : Value) (vb : HclBlock) (t : Body)
    (hs : Search op r = .ok c) (hl : op.getLast? = some tk)
    (hva : value.Attribute = none) (hvb : value.Block = some vb)
    (hc : c.target = .body t) (hwf : t.DynamicsLabelled) :
    ((∃ blk ∈ t.Blocks, occupies tk.Value blk = true) →
        Add op r value = ⟨r, .err .alreadyExists⟩) ∧
      ((∀ blk ∈ t.Blocks, occupies tk.Value blk = false) →
        Add op r value =
            ⟨r.put c.loc (.body ⟨t.Attributes, t.Blocks ++
                [⟨tk.Value, vb.Labels, vb.Body, vb.TypeRange, vb.LabelRanges⟩]⟩), .ok ()⟩ ∧
          ∃ q, Search op (Add op r value).resource =
            .ok ⟨.body ⟨t.Attributes, t.Blocks ++
                [⟨tk.Value, vb.Labels, vb.Body, vb.TypeRange, vb.LabelRanges⟩]⟩,
              q, c.loc, c.parentLoc⟩) := by
  have hex := blockExists_eq tk.Value t.Blocks hwf
  refine ⟨?_, ?_⟩
  · intro h
    have hany : t.Blocks.any (occupies tk.Value) = true := List.any_eq_true.mpr h
    rw [hany] at hex
    simp only [Add, hs, hl, hc, hva, hvb, hex]
  · intro h
    have hany : t.Blocks.any (occupies tk.Value) = false := by
      rw [List.any_eq_false]
      intro blk hblk
      simp [h blk hblk]
    rw [hany] at hex
    have hadd : Add op r value =
        ⟨r.put c.loc (.body ⟨t.Attributes, t.Blocks ++
            [⟨tk.Value, vb.Labels, vb.Body, vb.TypeRange, vb.LabelRanges⟩]⟩), .ok ()⟩ := by
      simp only [Add, hs, hl, hc, hva, hvb, hex]
    refine ⟨hadd, ?_⟩
    rw [hadd]
    exact Search_put op r c _ hs (by rw [hc]; trivial)

theorem widgetBody_labelled : widgetBody.DynamicsLabelled := by
  intro blk hblk hd
  exact (widgetBody_wellFormed blk hblk hd).1

/-- C7, witness: on `widget`, `Add /foo` with a block value fails because the block
`dynamic "foo"` holds the slot, and `Add /rule` appends the block `rule`. -/
theorem Add_block_value_witness :
    Add [tok "foo"] widget envBlockValue = ⟨widget, .err .alreadyExists⟩ ∧
      Add [tok "rule"] widget envBlockValue =
        ⟨⟨"widget", "w", .native ⟨widgetBody.Attributes, widgetBody.Blocks ++
            [⟨"rule", [], ⟨[attr "env" "\"prod\"" 21], []⟩, rng 20, []⟩]⟩⟩, .ok ()⟩ :=
  have h1 := Add_block_value [tok "foo"] widget ⟨.body widgetBody, none, [], []⟩ (tok "foo")
    envBlockValue ⟨"value", [], ⟨[attr "env" "\"prod\"" 21], []⟩, rng 20, []⟩ widgetBody
    rfl rfl rfl rfl rfl widgetBody_labelled
  have h2 := Add_block_value [tok "rule"] widget ⟨.body widgetBody, none, [], []⟩ (tok "rule")
    envBlockValue ⟨"value", [], ⟨[attr "env" "\"prod\"" 21], []⟩, rng 20, []⟩ widgetBody
    rfl rfl rfl rfl rfl widgetBody_labelled
  ⟨h1.1 ⟨dynamicFoo, by simp [widgetBody], by decide⟩,
    (h2.2 (by
      intro blk hblk
      simp only [widgetBody, List.mem_cons, List.mem_singleton, List.not_mem_nil, or_false] at hblk
      rcases hblk with h | h <;> subst h <;> decide)).1⟩


/-- C8. `Add` on a TupleExpression target is append-only: with the terminal segment `-1`
and an Attribute value it succeeds and the element list becomes the original list followed
by the value expression (length `n + 1`, the first `n` elements unchanged), which is what
the same path resolves to afterwards; with any other
integer terminal segment, an in-range index included, it fails with illegal-index and the
tuple is unchanged. -/
theorem Add_tuple_append_only (op : JSONPointerPathOperator) (r : Resource) (c : Cursor)
    (tk : JSONPointerPathToken) (value : Value) (va : HclAttribute) (exprs : List Expression)
    (hs : Search op r = .ok c) (hl : op.getLast? = some tk)
    (hv : value.Attribute = some va) (hc : c.target = .expr (.TupleConsExpr exprs)) :
    ParseInt "-1" = some (-1) ∧
      (ParseInt tk.Value = some (-1) →
        Add op r value =
            ⟨r.put c.loc (.expr (.TupleConsExpr (exprs ++ [va.Expr]))), .ok ()⟩ ∧
          (∃ q, Search op (Add op r value).resource =
            .ok ⟨.expr (.TupleConsExpr (exprs ++ [va.Expr])), q, c.loc, c.parentLoc⟩) ∧
          (exprs ++ [va.Expr]).length = exprs.length + 1 ∧
          (exprs ++ [va.Expr]).take exprs.length = exprs) ∧
      (∀ i : Int, ParseInt tk.Value = some i → i ≠ -1 →
        Add op r value = ⟨r, .err .illegalIndexer⟩) := by
  refine ⟨by decide, ?_, ?_⟩
  · intro hp
    have hadd : Add op r value =
        ⟨r.put c.loc (.expr (.TupleConsExpr (exprs ++ [va.Expr]))), .ok ()⟩ := by
      simp only [Add, hs, hl, hc, hv, hp]
      rfl
    refine ⟨hadd, ?_, by simp, by simp⟩
    rw [hadd]
    exact Search_put op r c _ hs (by rw [hc]; trivial)
  · intro i hp hi
    simp only [Add, hs, hl, hc, hv, hp]
    rw [if_pos hi]

/-- C8, witness: on `widget`, `Add` at `ports`, `-1` appends to the tuple `ports`, and
`Add` at `ports`, `0` is refused although the index is in range. -/
theorem Add_tuple_append_only_witness :
    Add [tok "ports", tok "-1"] widget prodValue =
        ⟨widget.put [.attrExpr "ports"]
          (.expr (.TupleConsExpr [.other "80", .other "443", .other "\"prod\""])), .ok ()⟩ ∧
      Add [tok "ports", tok "0"] widget prodValue = ⟨widget, .err .illegalIndexer⟩ :=
  have h1 := Add_tuple_append_only [tok "ports", tok "-1"] widget
    ⟨.expr (.TupleConsExpr [.other "80", .other "443"]), some (.body widgetBody),
      [.attrExpr "ports"], []⟩ (tok "-1") prodValue
    ⟨"value", .other "\"prod\"", rng 20, rng 20⟩ [.other "80", .other "443"] rfl rfl rfl rfl
  have h2 := Add_tuple_append_only [tok "ports", tok "0"] widget
    ⟨.expr (.TupleConsExpr [.other "80", .other "443"]), some (.body widgetBody),
      [.attrExpr "ports"], []⟩ (tok "0") prodValue
    ⟨"value", .other "\"prod\"", rng 20, rng 20⟩ [.other "80", .other "443"] rfl rfl rfl rfl
  ⟨(h1.2.1 (by decide)).1, h2.2.2 0 (by decide) (by decide)⟩

/-! ## Add on a block group -/

theorem spliceAttributes_fresh (src dst : List (String × Attribute))
    (hfresh : ∀ p ∈ src, dst.lookup p.1 = none) (hnodup : (src.map Prod.fst).Nodup) :
    spliceAttributes src dst = (dst ++ src, none) := by
  induction src generalizing dst with
  | nil => simp [spliceAttributes]
  | cons p rest ih =>
    obtain ⟨k, a⟩ := p
    have hk : dst.lookup k = none := hfresh (k, a) (List.mem_cons_self _ _)
    simp only [List.map_cons, List.nodup_cons] at hnodup
    unfold spliceAttributes
    simp only [hk, Option.isSome_none, Bool.false_eq_true, if_false]
    rw [ih (dst ++ [(k, a)]) ?_ hnodup.2]
    · simp
    · intro q hq
      rw [lookup_append_singleton _ _ _ _ hk]
      have hne : ¬ q.1 = k := by
        intro e
        exact hnodup.1 (e ▸ List.mem_map_of_mem Prod.fst hq)
      rw [if_neg hne]
      exact hfresh q (List.mem_cons_of_mem _ hq)

/-- The operation `Add` on a block group with a Block value, where the terminal index addresses an
existing body none of whose attributes is named like an attribute of the value block: the
attributes of the value block are added to that body and its blocks are appended; an
index at or beyond the length fails with path-not-found. -/
theorem Add_group_splice (op : JSONPointerPathOperator) (r : Resource) (c : Cursor)
    (tk : JSONPointerPathToken) (value : Value) (vb : HclBlock) (t : List Body) (i : Int)
    (hs : Search op r = .ok c) (hl : op.getLast? = some tk)
    (hv : value.Block = some vb) (hc : c.target = .bodies t)
    (hp : ParseInt tk.Value = some i) :
    (∀ (k : Nat) (hk : k < t.length), (i = k ∨ (i = -1 ∧ k = t.length - 1)) →
        (∀ p ∈ vb.Body.Attributes, (t.get ⟨k, hk⟩).Attributes.lookup p.1 = none) →
        (vb.Body.Attributes.map Prod.fst).Nodup →
        Add op r value =
          ⟨r.put c.loc (.bodies (t.set k
              ⟨(t.get ⟨k, hk⟩).Attributes ++ vb.Body.Attributes,
                (t.get ⟨k, hk⟩).Blocks ++ vb.Body.Blocks⟩)), .ok ()⟩) ∧
      ((t.length : Int) ≤ i → Add op r value = ⟨r, .err .pathNotFound⟩) := by
  refine ⟨?_, ?_⟩
  · intro k hk hi hfresh hnodup
    have hr : resolveIndex t.length i = .ok k := by
      rcases hi with h | ⟨h1, h2⟩
      · rw [h, resolveIndex_inRange _ _ (by omega) (by omega)]; simp
      · rw [h1, resolveIndex_last _ (by omega), h2]
    have hget : t[k]? = some (t.get ⟨k, hk⟩) := by
      rw [List.getElem?_eq_getElem hk]; rfl
    simp only [Add, hs, hl, hc, hv, hp, hr, hget, spliceAttributes_fresh _ _ hfresh hnodup]
  · intro hi
    simp only [Add, hs, hl, hc, hv, hp, resolveIndex_beyond _ _ hi]

/-- C9 (code at the failing input). The path of the segments `tags`, `-2` resolves to the block group of
`tags`; the terminal index `-2` passes the only bounds check (`len - 1 < idx`) and reaches
`t[idx]`, so `Add` panics with an index out of range instead of returning
path-not-found. -/
theorem Add_group_negative_index_panics :
    Search [tok "tags", tok "-2"] widget =
        .ok ⟨.bodies [tagsBlock.Body], some (.body widgetBody), [.blocks "tags"], []⟩ ∧
      ParseInt "-2" = some (-2) ∧
      Add [tok "tags", tok "-2"] widget envBlockValue = ⟨widget, .panic .indexOutOfRange⟩ ∧
      (Add [tok "tags", tok "-2"] widget envBlockValue).status ≠ .err .pathNotFound :=
  ⟨rfl, by decide, rfl, by decide⟩


/-! ## Replace on a terminal that does not exist -/

theorem matchingBlocks_none (seg : String) (blocks : List Block) (j : Nat) (acc : List Nat)
    (hwf : ∀ blk ∈ blocks, blk.Type_ = dynamicBlockType → 0 < blk.Labels.length)
    (hno : ∀ blk ∈ blocks, occupies seg blk = false) :
    matchingBlocks seg blocks j acc = .ok acc := by
  induction blocks generalizing j with
  | nil => rfl
  | cons blk rest ih =>
    have hrest := ih (j + 1) (fun b hb => hwf b (List.mem_cons_of_mem _ hb))
      (fun b hb => hno b (List.mem_cons_of_mem _ hb))
    have hocc := hno blk (List.mem_cons_self _ _)
    unfold matchingBlocks
    unfold occupies at hocc
    by_cases hd : blk.Type_ = dynamicBlockType
    · have hl := hwf blk (List.mem_cons_self _ _) hd
      rw [if_pos hd] at hocc
      simp only [hd, if_true]
      cases hlab : blk.Labels with
      | nil => rw [hlab] at hl; simp at hl
      | cons l ls =>
        have hs : l ≠ seg := by
          intro e
          rw [hlab, e] at hocc
          simp at hocc
        simp only [hs, ne_eq, not_false_eq_true, if_true]
        exact hrest
    · rw [if_neg hd] at hocc
      have ht : ¬ blk.Type_ = seg := by simpa using hocc
      simp only [hd, ht, if_false]
      exact hrest

theorem findLastItem_none (seg : String) (items : List (ObjectConsItem Expression)) (i : Nat)
    (hno : ∀ it ∈ items, it.KeyExpr.rootName? ≠ some seg) :
    findLastItem seg items i none = none := by
  induction items generalizing i with
  | nil => rfl
  | cons it rest ih =>
    unfold findLastItem
    rw [if_neg (hno it (List.mem_cons_self _ _))]
    exact ih (i + 1) (fun x hx => hno x (List.mem_cons_of_mem _ hx))

/-- The operation `Replace` on a terminal that does not exist fails with path-not-found and leaves the
tree unchanged in these cases: a Body without attribute `seg` (Attribute value), a Body
with labelled `dynamic` blocks and no block occupying the slot `seg` (Block value), an
ObjectExpression with no item keyed `seg`, a TupleExpression or BlockGroup of length `n`
with an index `i ≥ n`. -/
theorem Replace_absent (op : JSONPointerPathOperator) (r : Resource) (c : Cursor)
    (tk : JSONPointerPathToken) (value : Value)
    (hs : Search op r = .ok c) (hl : op.getLast? = some tk) :
    (∀ t va, c.target = .body t → value.Attribute = some va →
        t.Attributes.lookup tk.Value = none →
        Replace op r value = ⟨r, .err .pathNotFound⟩) ∧
      (∀ t vb, c.target = .body t → value.Attribute = none → value.Block = some vb →
        t.DynamicsLabelled → (∀ blk ∈ t.Blocks, occupies tk.Value blk = false) →
        Replace op r value = ⟨r, .err .pathNotFound⟩) ∧
      (∀ items va, c.target = .expr (.ObjectConsExpr items) → value.Attribute = some va →
        (∀ it ∈ items, it.KeyExpr.rootName? ≠ some tk.Value) →
        Replace op r value = ⟨r, .err .pathNotFound⟩) ∧
      (∀ exprs va i, c.target = .expr (.TupleConsExpr exprs) → value.Attribute = some va →
        ParseInt tk.Value = some i → (exprs.length : Int) ≤ i →
        Replace op r value = ⟨r, .err .pathNotFound⟩) ∧
      (∀ t vb i, c.target = .bodies t → value.Block = some vb →
        ParseInt tk.Value = some i → (t.length : Int) ≤ i →
        Replace op r value = ⟨r, .err .pathNotFound⟩) := by
  refine ⟨?_, ?_, ?_, ?_, ?_⟩
  · intro t va hc hv hnone
    simp only [Replace, hs, hl, hc, hv, hnone]
    rfl
  · intro t vb hc hva hvb hwf hno
    simp only [Replace, hs, hl, hc, hva, hvb, matchingBlocks_none _ _ 0 [] hwf hno]
    rfl
  · intro items va hc hv hno
    simp only [Replace, hs, hl, hc, hv, findLastItem_none _ _ 0 hno]
  · intro exprs va i hc hv hp hi
    simp only [Replace, hs, hl, hc, hv, hp, resolveIndex_beyond _ _ hi]
  · intro t vb i hc hv hp hi
    simp only [Replace, hs, hl, hc, hv, hp, resolveIndex_beyond _ _ hi]

/-- C10 (code at the failing inputs). A terminal index below `-1` on a tuple or a block
group, and `-1` on the empty tuple, address no element, yet they pass the only bounds
check (`len - 1 < idx`) and reach the index expression: `Replace` panics with an index out
of range instead of returning path-not-found. -/
theorem Replace_negative_index_panics :
    ParseInt "-2" = some (-2) ∧
      Replace [tok "ports", tok "-2"] widget prodValue = ⟨widget, .panic .indexOutOfRange⟩ ∧
      Replace [tok "tags", tok "-2"] widget envBlockValue = ⟨widget, .panic .indexOutOfRange⟩ ∧
      ParseInt "-1" = some (-1) ∧
      Replace [tok "list", tok "-1"] widgetEmptyList prodValue =
        ⟨widgetEmptyList, .panic .indexOutOfRange⟩ ∧
      (Replace [tok "ports", tok "-2"] widget prodValue).status ≠ .err .pathNotFound :=
  ⟨by decide, rfl, rfl, by decide, rfl, by decide⟩


/-! ## Add followed by Remove -/

theorem lookup_eq_none_filter (attrs : List (String × Attribute)) (seg : String)
    (h : attrs.lookup seg = none) : attrs.filter (fun p => decide (p.1 ≠ seg)) = attrs := by
  induction attrs with
  | nil => rfl
  | cons p rest ih =>
    obtain ⟨k, a⟩ := p
    by_cases hk : seg = k
    · subst hk
      simp [List.lookup] at h
    · have hb : (seg == k) = false := by simpa using hk
      have hrest : rest.lookup seg = none := by simpa [List.lookup, hb] using h
      have hk' : k ≠ seg := fun e => hk e.symm
      simp only [List.filter_cons, hk', ne_eq, not_false_eq_true, decide_True, if_true]
      rw [ih hrest]

theorem filter_append_singleton (attrs : List (String × Attribute)) (seg : String)
    (a : Attribute) (h : attrs.lookup seg = none) :
    (attrs ++ [(seg, a)]).filter (fun p => decide (p.1 ≠ seg)) = attrs := by
  rw [List.filter_append, lookup_eq_none_filter attrs seg h]
  simp

/-- C19. `Add` followed by `Remove` at the same attribute path restores the original: for a
Body target without attribute `seg` and an Attribute value, `Add` succeeds, the following
`Remove` with the same path succeeds, and the resource is the original one again, so the
body has the same attributes (names and expressions) and the same block list. -/
theorem Add_then_Remove_attribute (op : JSONPointerPathOperator) (r : Resource) (c : Cursor)
    (tk : JSONPointerPathToken) (value : Value) (va : HclAttribute) (t : Body)
    (hs : Search op r = .ok c) (hl : op.getLast? = some tk)
    (hv : value.Attribute = some va) (hc : c.target = .body t)
    (hnone : t.Attributes.lookup tk.Value = none) :
    (Add op r value).status = .ok () ∧
      Remove op (Add op r value).resource = ⟨r, .ok ()⟩ ∧
      Search op (Remove op (Add op r value).resource).resource = .ok c := by
  have hadd : Add op r value =
      ⟨r.put c.loc (.body ⟨t.Attributes ++
          [(tk.Value, ⟨tk.Value, va.Expr, va.Range, va.NameRange⟩)], t.Blocks⟩), .ok ()⟩ := by
    simp only [Add, hs, hl, hc, hv, hnone]
    rfl
  have hshape : Node.sameShape c.target (.body ⟨t.Attributes ++
      [(tk.Value, ⟨tk.Value, va.Expr, va.Range, va.NameRange⟩)], t.Blocks⟩) := by
    rw [hc]; trivial
  obtain ⟨q, hq⟩ := Search_put op r c _ hs hshape
  have hlook := lookup_append_singleton t.Attributes tk.Value tk.Value
    ⟨tk.Value, va.Expr, va.Range, va.NameRange⟩ hnone
  rw [if_pos rfl] at hlook
  have hrem : Remove op (Add op r value).resource = ⟨r, .ok ()⟩ := by
    rw [hadd]
    simp only [Remove, hq, hl, hlook, Option.isSome_some, if_true,
      filter_append_singleton _ _ _ hnone]
    have hback : Node.sameShape c.target (.body ⟨t.Attributes, t.Blocks⟩) := by
      rw [hc]; trivial
    rw [Resource.put_twice op r c _ _ hs hshape hback]
    have ht : (Node.body ⟨t.Attributes, t.Blocks⟩) = c.target := by
      rw [hc]
      cases t
      rfl
    rw [ht, Search_put_self op r c hs]
  refine ⟨by rw [hadd], hrem, ?_⟩
  rw [hrem]
  exact hs

/-- C19, witness: on `widget`, adding the attribute `env` and removing it again gives
back `widget`. -/
theorem Add_then_Remove_attribute_witness :
    (Add [tok "env"] widget prodValue).status = .ok () ∧
      Remove [tok "env"] (Add [tok "env"] widget prodValue).resource = ⟨widget, .ok ()⟩ :=
  have h := Add_then_Remove_attribute [tok "env"] widget ⟨.body widgetBody, none, [], []⟩
    (tok "env") prodValue ⟨"value", .other "\"prod\"", rng 20, rng 20⟩ widgetBody
    rfl rfl rfl rfl rfl
  ⟨h.1, h.2.1⟩


/-! ## Remove on a body -/

theorem lookup_filter_ne (attrs : List (String × Attribute)) (seg k : String) :
    (attrs.filter (fun p => decide (p.1 ≠ seg))).lookup k =
      if k = seg then none else attrs.lookup k := by
  induction attrs with
  | nil => by_cases hk : k = seg <;> simp [List.lookup, hk]
  | cons p rest ih =>
    obtain ⟨k', a⟩ := p
    by_cases hseg : k' = seg
    · subst hseg
      simp only [List.filter_cons, ne_eq, not_true_eq_false, decide_False, Bool.false_eq_true,
        if_false, ih]
      by_cases hk : k = k'
      · simp [hk]
      · have hb : (k == k') = false := by simpa using hk
        simp [hk, List.lookup, hb]
    · simp only [List.filter_cons, ne_eq, hseg, not_false_eq_true, decide_True, if_true]
      by_cases hk : k = k'
      · subst hk
        simp [List.lookup, hseg]
      · have hb : (k == k') = false := by simpa using hk
        simp only [List.lookup, hb, ih]

theorem removeBlocks_eq (seg : String) (blocks : List Block) (acc : List Block)
    (hwf : ∀ blk ∈ blocks, blk.Type_ = dynamicBlockType → 0 < blk.Labels.length) :
    removeBlocks seg blocks acc = .ok (acc ++ blocks.filter (fun blk => !occupies seg blk)) := by
  induction blocks generalizing acc with
  | nil => simp [removeBlocks]
  | cons blk rest ih =>
    have hrest := fun acc' => ih acc' (fun b hb => hwf b (List.mem_cons_of_mem _ hb))
    unfold removeBlocks
    by_cases hd : blk.Type_ = dynamicBlockType
    · have hl := hwf blk (List.mem_cons_self _ _) hd
      simp only [hd, if_true]
      cases hlab : blk.Labels with
      | nil => rw [hlab] at hl; simp at hl
      | cons l ls =>
        by_cases hs : l = seg
        · have hocc : occupies seg blk = true := by
            unfold occupies
            rw [if_pos hd, hlab]
            simp [hs]
          simp only [hs, if_true, hrest, List.filter_cons, hocc, Bool.not_true,
            Bool.false_eq_true, if_false]
        · have hocc : occupies seg blk = false := by
            unfold occupies
            rw [if_pos hd, hlab]
            simp [hs]
          simp only [hs, if_false, hrest, List.filter_cons, hocc, Bool.not_false, if_true]
          simp
    · simp only [hd, if_false]
      by_cases ht : blk.Type_ = seg
      · have hocc : occupies seg blk = true := by
          unfold occupies
          rw [if_neg hd]
          simpa using ht
        simp only [ht, if_true, hrest, List.filter_cons, hocc, Bool.not_true,
          Bool.false_eq_true, if_false]
      · have hocc : occupies seg blk = false := by
          unfold occupies
          rw [if_neg hd]
          simpa using ht
        simp only [ht, if_false, hrest, List.filter_cons, hocc, Bool.not_false, if_true]
        simp

/-- C12 (as stated, refuted). The body of `widgetDynamic` has no attribute `dynamic` and one
block whose type is the segment `dynamic`, which the rule as worded removes; `Remove` looks
at a `dynamic` block through its label only (`foo`), keeps it and leaves the resource as it
was. -/
theorem Remove_dynamic_segment_keeps_block :
    widgetDynamic.Config = .native ⟨[], [dynamicFoo]⟩ ∧
      occupiesAsStated "dynamic" dynamicFoo = true ∧
      [dynamicFoo].filter (fun blk => !occupiesAsStated "dynamic" blk) = [] ∧
      Remove [tok "dynamic"] widgetDynamic = ⟨widgetDynamic, .ok ()⟩ :=
  ⟨rfl, by decide, rfl, rfl⟩

/-- C12 (amended). `Remove` on a Body target whose `dynamic` blocks are labelled never
fails: if the body has an attribute named `seg`, exactly that attribute is deleted and the
block list is unchanged; otherwise the attributes are unchanged and the block list becomes
the original list, in the original order, without every block that is not of type
`dynamic` and whose type is `seg` and without every `dynamic` block whose first label is
`seg` (a `dynamic` block is matched by its first label only, also when `seg` is
`dynamic`); when no block matches the resource is unchanged and no error is reported. -/
theorem Remove_body (op : JSONPointerPathOperator) (r : Resource) (c : Cursor)
    (tk : JSONPointerPathToken) (t : Body)
    (hs : Search op r = .ok c) (hl : op.getLast? = some tk) (hc : c.target = .body t)
    (hwf : t.DynamicsLabelled) :
    (∀ a, t.Attributes.lookup tk.Value = some a →
        Remove op r =
            ⟨r.put c.loc (.body ⟨t.Attributes.filter (fun p => decide (p.1 ≠ tk.Value)),
              t.Blocks⟩), .ok ()⟩ ∧
          ∀ k, (t.Attributes.filter (fun p => decide (p.1 ≠ tk.Value))).lookup k =
            if k = tk.Value then none else t.Attributes.lookup k) ∧
      (t.Attributes.lookup tk.Value = none →
        Remove op r =
          ⟨r.put c.loc (.body ⟨t.Attributes,
            t.Blocks.filter (fun blk => !occupies tk.Value blk)⟩), .ok ()⟩) ∧
      (t.Attributes.lookup tk.Value = none →
        (∀ blk ∈ t.Blocks, occupies tk.Value blk = false) →
        Remove op r = ⟨r, .ok ()⟩) := by
  have hrb := removeBlocks_eq tk.Value t.Blocks [] hwf
  rw [List.nil_append] at hrb
  have hnone : t.Attributes.lookup tk.Value = none →
      Remove op r =
        ⟨r.put c.loc (.body ⟨t.Attributes,
          t.Blocks.filter (fun blk => !occupies tk.Value blk)⟩), .ok ()⟩ := by
    intro ha
    simp only [Remove, hs, hl, hc, ha, hrb]
    rfl
  refine ⟨?_, hnone, ?_⟩
  · intro a ha
    refine ⟨?_, fun k => lookup_filter_ne _ _ k⟩
    simp only [Remove, hs, hl, hc, ha]
    rfl
  · intro ha hno
    rw [hnone ha]
    have hfilter : t.Blocks.filter (fun blk => !occupies tk.Value blk) = t.Blocks := by
      rw [List.filter_eq_self]
      intro blk hblk
      simp [hno blk hblk]
    have ht : (Node.body ⟨t.Attributes, t.Blocks⟩) = c.target := by
      rw [hc]
      cases t
      rfl
    rw [hfilter, ht, Search_put_self op r c hs]

/-- C12, witness: on `widget`, removing `tags` leaves the block `dynamic "foo"` only,
removing `foo` leaves the block `tags` only, and removing `nothing` changes nothing. -/
theorem Remove_body_witness :
    Remove [tok "tags"] widget = ⟨⟨"widget", "w", .native ⟨widgetBody.Attributes, [dynamicFoo]⟩⟩, .ok ()⟩ ∧
      Remove [tok "foo"] widget = ⟨⟨"widget", "w", .native ⟨widgetBody.Attributes, [tagsBlock]⟩⟩, .ok ()⟩ ∧
      Remove [tok "nothing"] widget = ⟨widget, .ok ()⟩ :=
  have h1 := Remove_body [tok "tags"] widget ⟨.body widgetBody, none, [], []⟩ (tok "tags")
    widgetBody rfl rfl rfl widgetBody_labelled
  have h2 := Remove_body [tok "foo"] widget ⟨.body widgetBody, none, [], []⟩ (tok "foo")
    widgetBody rfl rfl rfl widgetBody_labelled
  have h3 := Remove_body [tok "nothing"] widget ⟨.body widgetBody, none, [], []⟩ (tok "nothing")
    widgetBody rfl rfl rfl widgetBody_labelled
  ⟨h1.2.1 rfl, h2.2.1 rfl, h3.2.2 rfl (by
    intro blk hblk
    simp only [widgetBody, List.mem_cons, List.mem_singleton, List.not_mem_nil, or_false] at hblk
    rcases hblk with h | h <;> subst h <;> decide)⟩


/-! ## Remove on an object, a tuple and a block group -/

theorem findItem_le_length (seg : String) (items : List (ObjectConsItem Expression)) :
    findItem seg items ≤ items.length := by
  induction items with
  | nil => simp [findItem]
  | cons it rest ih =>
    unfold findItem
    split
    · simp
    · simp only [List.length_cons]; omega

theorem findItem_eq_length_iff (seg : String) (items : List (ObjectConsItem Expression)) :
    findItem seg items = items.length ↔ ∀ it ∈ items, it.KeyExpr.rootName? ≠ some seg := by
  induction items with
  | nil => simp [findItem]
  | cons it rest ih =>
    unfold findItem
    by_cases hk : it.KeyExpr.rootName? = some seg
    · simp [hk]
    · simp only [hk, if_false, List.length_cons, Nat.add_right_cancel_iff, ih, List.mem_cons,
        forall_eq_or_imp, ne_eq, not_false_eq_true, true_and]

/-- The operation `Remove` on an ObjectExpression or TupleExpression target: the first item
keyed `seg`, resp. the element an index `0 ≤ i < n` or `-1` addresses, is taken out of the
sequence, which loses one element and keeps the others in order; an absent key and an index
`i ≥ n` give path-not-found with the resource unchanged. -/
theorem Remove_sequence (op : JSONPointerPathOperator) (r : Resource) (c : Cursor)
    (tk : JSONPointerPathToken) (hs : Search op r = .ok c) (hl : op.getLast? = some tk) :
    (∀ items, c.target = .expr (.ObjectConsExpr items) →
        ((∃ it ∈ items, it.KeyExpr.rootName? = some tk.Value) →
          Remove op r =
              ⟨r.put c.loc (.expr (.ObjectConsExpr (items.eraseIdx (findItem tk.Value items)))),
                .ok ()⟩ ∧
            (items.eraseIdx (findItem tk.Value items)).length = items.length - 1) ∧
        ((∀ it ∈ items, it.KeyExpr.rootName? ≠ some tk.Value) →
          Remove op r = ⟨r, .err .pathNotFound⟩)) ∧
      (∀ exprs i, c.target = .expr (.TupleConsExpr exprs) → ParseInt tk.Value = some i →
        (∀ k : Nat, k < exprs.length → (i = k ∨ (i = -1 ∧ k = exprs.length - 1)) →
          Remove op r =
              ⟨r.put c.loc (.expr (.TupleConsExpr (exprs.eraseIdx k))), .ok ()⟩ ∧
            (exprs.eraseIdx k).length = exprs.length - 1) ∧
        ((exprs.length : Int) ≤ i → Remove op r = ⟨r, .err .pathNotFound⟩)) := by
  refine ⟨?_, ?_⟩
  · intro items hc
    refine ⟨?_, ?_⟩
    · intro hex
      have hne : ¬ findItem tk.Value items = items.length := by
        rw [findItem_eq_length_iff]
        intro hall
        obtain ⟨it, hit, hk⟩ := hex
        exact hall it hit hk
      have hlt : findItem tk.Value items < items.length :=
        Nat.lt_of_le_of_ne (findItem_le_length _ _) hne
      refine ⟨?_, List.length_eraseIdx_of_lt hlt⟩
      simp only [Remove, hs, hl, hc, if_neg hne]
    · intro hno
      have heq := (findItem_eq_length_iff tk.Value items).mpr hno
      simp only [Remove, hs, hl, hc, if_pos heq]
  · intro exprs i hc hp
    refine ⟨?_, ?_⟩
    · intro k hk hi
      have hr : resolveIndex exprs.length i = .ok k := by
        rcases hi with h | ⟨h1, h2⟩
        · rw [h, resolveIndex_inRange _ _ (by omega) (by omega)]; simp
        · rw [h1, resolveIndex_last _ (by omega), h2]
      refine ⟨?_, List.length_eraseIdx_of_lt hk⟩
      simp only [Remove, hs, hl, hc, hp, hr]
    · intro hi
      simp only [Remove, hs, hl, hc, hp, resolveIndex_beyond _ _ hi]

/-- C13 (code at the failing inputs). A terminal index below `-1` on a tuple, and `-1` on
the empty tuple, are out of range, yet they pass the only bounds check (`len - 1 < idx`)
and reach the slice expression: `Remove` panics instead of returning path-not-found. -/
theorem Remove_negative_index_panics :
    ParseInt "-2" = some (-2) ∧
      Remove [tok "ports", tok "-2"] widget = ⟨widget, .panic .indexOutOfRange⟩ ∧
      ParseInt "-1" = some (-1) ∧
      Remove [tok "list", tok "-1"] widgetEmptyList =
        ⟨widgetEmptyList, .panic .indexOutOfRange⟩ ∧
      (Remove [tok "ports", tok "-2"] widget).status ≠ .err .pathNotFound :=
  ⟨by decide, rfl, by decide, rfl, by decide⟩

/-- C14 (code at the failing input). In `widgetTwoTags` the path of the segments `tags`,
`0` addresses the body of the first `tags` block.  The loop that rebuilds the block list of
the owning body has cases for `dynamic` and for the group's type only, so the block
`lifecycle` is not appended either: after `Remove` the owning body has lost two blocks,
the addressed one and `lifecycle`. -/
theorem Remove_member_drops_other_types :
    widgetTwoTags.Config = .native ⟨[], [tagsBlock, tagsBlockB, lifecycleBlock]⟩ ∧
      Search [tok "tags", tok "0"] widgetTwoTags =
        .ok ⟨.bodies [tagsBlock.Body, tagsBlockB.Body],
          some (.body ⟨[], [tagsBlock, tagsBlockB, lifecycleBlock]⟩), [.blocks "tags"], []⟩ ∧
      Remove [tok "tags", tok "0"] widgetTwoTags =
        ⟨⟨"widget", "t", .native ⟨[], [tagsBlockB]⟩⟩, .ok ()⟩ ∧
      removeMember "tags" 0 [tagsBlock, tagsBlockB, lifecycleBlock] 0 [] = .ok [tagsBlockB] :=
  ⟨rfl, rfl, rfl, rfl⟩


/-! ## Set on a tuple and on a block group -/

/-- The operation `Set` on a TupleExpression target with an Attribute value: an index
`0 ≤ i < n`, or `-1` on a non-empty tuple, overwrites the element and keeps the length; an
index `i ≥ n` appends the value. -/
theorem Set_tuple (op : JSONPointerPathOperator) (r : Resource) (c : Cursor)
    (tk : JSONPointerPathToken) (value : Value) (va : HclAttribute) (exprs : List Expression)
    (i : Int) (hs : Search op r = .ok c) (hl : op.getLast? = some tk)
    (hv : value.Attribute = some va) (hc : c.target = .expr (.TupleConsExpr exprs))
    (hp : ParseInt tk.Value = some i) :
    (∀ k : Nat, k < exprs.length → (i = k ∨ (i = -1 ∧ k = exprs.length - 1)) →
        Set op r value = ⟨r.put c.loc (.expr (.TupleConsExpr (exprs.set k va.Expr))), .ok ()⟩ ∧
          (exprs.set k va.Expr).length = exprs.length) ∧
      ((exprs.length : Int) ≤ i →
        Set op r value = ⟨r.put c.loc (.expr (.TupleConsExpr (exprs ++ [va.Expr]))), .ok ()⟩ ∧
          (exprs ++ [va.Expr]).length = exprs.length + 1) := by
  refine ⟨?_, ?_⟩
  · intro k hk hi
    have hr : resolveIndex exprs.length i = .ok k := by
      rcases hi with h | ⟨h1, h2⟩
      · rw [h, resolveIndex_inRange _ _ (by omega) (by omega)]; simp
      · rw [h1, resolveIndex_last _ (by omega), h2]
    refine ⟨?_, by simp⟩
    simp only [Set, hs, hl, hc, hv, hp, hr]
  · intro hi
    refine ⟨?_, by simp⟩
    simp only [Set, hs, hl, hc, hv, hp, resolveIndex_beyond _ _ hi]

/-- C16 (code at the failing inputs). On the empty tuple the index `-1` becomes
`len - 1 = -1`, passes the check `len - 1 < idx` and reaches the assignment
`t.Exprs[idx] = ...`; an index below `-1` does the same on any tuple.  `Set` panics with
an index out of range where the value is to be appended. -/
theorem Set_tuple_negative_index_panics :
    ParseInt "-1" = some (-1) ∧
      Set [tok "list", tok "-1"] widgetEmptyList prodValue =
        ⟨widgetEmptyList, .panic .indexOutOfRange⟩ ∧
      ParseInt "-2" = some (-2) ∧
      Set [tok "ports", tok "-2"] widget prodValue = ⟨widget, .panic .indexOutOfRange⟩ ∧
      (Set [tok "list", tok "-1"] widgetEmptyList prodValue).status ≠ .ok () :=
  ⟨by decide, rfl, by decide, rfl, by decide⟩

/-- C17 (as stated, refuted). The block group of `tags` in `widget` has one body; `Set` at
the index `1`, beyond the range, with a Block value returns path-not-found and leaves the
owning body with its two blocks: nothing is appended. -/
theorem Set_group_beyond_range_fails :
    Search [tok "tags", tok "1"] widget =
        .ok ⟨.bodies [tagsBlock.Body], some (.body widgetBody), [.blocks "tags"], []⟩ ∧
      ParseInt "1" = some 1 ∧
      Set [tok "tags", tok "1"] widget envBlockValue = ⟨widget, .err .pathNotFound⟩ ∧
      (Set [tok "tags", tok "1"] widget envBlockValue).status ≠ .ok () :=
  ⟨rfl, by decide, rfl, by decide⟩

/-- C17 (amended). `Set` on a BlockGroup target with a Block value: if the terminal index
addresses an existing body (`0 ≤ i < n`, or `-1` for the last), `Set` succeeds, that body's
attributes and blocks are overwritten with those of the value block, the other bodies of
the group are unchanged and the same path resolves to the updated group afterwards; if the
index is at or beyond the length of the group, `Set` fails with path-not-found and the
tree is unchanged. -/
theorem Set_group (op : JSONPointerPathOperator) (r : Resource) (c : Cursor)
    (tk : JSONPointerPathToken) (value : Value) (vb : HclBlock) (t : List Body) (i : Int)
    (hs : Search op r = .ok c) (hl : op.getLast? = some tk)
    (hv : value.Block = some vb) (hc : c.target = .bodies t)
    (hp : ParseInt tk.Value = some i) :
    (∀ k : Nat, k < t.length → (i = k ∨ (i = -1 ∧ k = t.length - 1)) →
        Set op r value =
            ⟨r.put c.loc (.bodies (t.set k ⟨vb.Body.Attributes, vb.Body.Blocks⟩)), .ok ()⟩ ∧
          (∃ q, Search op (Set op r value).resource =
            .ok ⟨.bodies (t.set k ⟨vb.Body.Attributes, vb.Body.Blocks⟩), q, c.loc,
              c.parentLoc⟩) ∧
          (t.set k ⟨vb.Body.Attributes, vb.Body.Blocks⟩)[k]? =
            some ⟨vb.Body.Attributes, vb.Body.Blocks⟩ ∧
          ∀ j, j ≠ k → (t.set k ⟨vb.Body.Attributes, vb.Body.Blocks⟩)[j]? = t[j]?) ∧
      ((t.length : Int) ≤ i → Set op r value = ⟨r, .err .pathNotFound⟩) := by
  refine ⟨?_, ?_⟩
  · intro k hk hi
    have hr : resolveIndex t.length i = .ok k := by
      rcases hi with h | ⟨h1, h2⟩
      · rw [h, resolveIndex_inRange _ _ (by omega) (by omega)]; simp
      · rw [h1, resolveIndex_last _ (by omega), h2]
    have hset : Set op r value =
        ⟨r.put c.loc (.bodies (t.set k ⟨vb.Body.Attributes, vb.Body.Blocks⟩)), .ok ()⟩ := by
      simp only [Set, hs, hl, hc, hv, hp, hr]
    refine ⟨hset, ?_, getElem?_set_same t k _ hk, ?_⟩
    · rw [hset]
      exact Search_put op r c _ hs (by rw [hc]; simp [Node.sameShape])
    · intro j hj
      rw [List.getElem?_set_ne (fun e => hj e.symm)]
  · intro hi
    simp only [Set, hs, hl, hc, hv, hp, resolveIndex_beyond _ _ hi]

/-- C17, witness: on `widget`, `Set` at `tags`, `0` with the block value overwrites the
body of the block `tags`. -/
theorem Set_group_witness :
    Set [tok "tags", tok "0"] widget envBlockValue =
      ⟨⟨"widget", "w", .native ⟨widgetBody.Attributes,
        [{ tagsBlock with Body := ⟨[attr "env" "\"prod\"" 21], []⟩ }, dynamicFoo]⟩⟩, .ok ()⟩ :=
  ((Set_group [tok "tags", tok "0"] widget
    ⟨.bodies [tagsBlock.Body], some (.body widgetBody), [.blocks "tags"], []⟩ (tok "0")
    envBlockValue ⟨"value", [], ⟨[attr "env" "\"prod\"" 21], []⟩, rng 20, []⟩
    [tagsBlock.Body] 0 rfl rfl rfl rfl (by decide)).1 0 (by decide) (Or.inl rfl)).1


/-! ## Replace on an object -/

theorem findLastItem_acc (seg : String) (items : List (ObjectConsItem Expression)) (i : Nat)
    (acc : Option Nat) :
    findLastItem seg items i acc =
      match findLastItem seg items i none with
      | some idx => some idx
      | none => acc := by
  induction items generalizing i acc with
  | nil => cases acc <;> rfl
  | cons it rest ih =>
    unfold findLastItem
    by_cases hk : it.KeyExpr.rootName? = some seg
    · simp only [hk, if_true]
      rw [ih (i + 1) (some i)]
      cases findLastItem seg rest (i + 1) none <;> rfl
    · simp only [hk, if_false]
      exact ih (i + 1) acc

/-- The index `findLastItem` returns is the position, counted from `i`, of an item keyed
`seg`, and no later item is keyed `seg`. -/
theorem findLastItem_some (seg : String) (items : List (ObjectConsItem Expression)) (i idx : Nat)
    (h : findLastItem seg items i none = some idx) :
    i ≤ idx ∧ ∃ it, items[idx - i]? = some it ∧ it.KeyExpr.rootName? = some seg := by
  induction items generalizing i with
  | nil => simp [findLastItem] at h
  | cons it rest ih =>
    unfold findLastItem at h
    by_cases hk : it.KeyExpr.rootName? = some seg
    · simp only [hk, if_true] at h
      rw [findLastItem_acc] at h
      cases hrest : findLastItem seg rest (i + 1) none with
      | none =>
        rw [hrest] at h
        simp only [Option.some.injEq] at h
        subst h
        exact ⟨Nat.le_refl _, it, by simp, hk⟩
      | some j =>
        rw [hrest] at h
        simp only [Option.some.injEq] at h
        subst h
        obtain ⟨hle, it', hit', hk'⟩ := ih (i + 1) hrest
        refine ⟨by omega, it', ?_, hk'⟩
        have : j - i = (j - (i + 1)) + 1 := by omega
        rw [this, List.getElem?_cons_succ]
        exact hit'
    · simp only [hk, if_false] at h
      obtain ⟨hle, it', hit', hk'⟩ := ih (i + 1) h
      refine ⟨by omega, it', ?_, hk'⟩
      have : idx - i = (idx - (i + 1)) + 1 := by omega
      rw [this, List.getElem?_cons_succ]
      exact hit'

theorem findLastItem_isSome (seg : String) (items : List (ObjectConsItem Expression)) (i : Nat)
    (h : ∃ it ∈ items, it.KeyExpr.rootName? = some seg) :
    ∃ idx, findLastItem seg items i none = some idx := by
  induction items generalizing i with
  | nil => simp at h
  | cons it rest ih =>
    unfold findLastItem
    by_cases hk : it.KeyExpr.rootName? = some seg
    · simp only [hk, if_true]
      rw [findLastItem_acc]
      cases findLastItem seg rest (i + 1) none with
      | none => exact ⟨i, rfl⟩
      | some j => exact ⟨j, rfl⟩
    · simp only [hk, if_false]
      obtain ⟨x, hx, hkx⟩ := h
      rcases List.mem_cons.mp hx with e | hmem
      · subst e; exact absurd hkx hk
      · exact ih (i + 1) ⟨x, hmem, hkx⟩

/-- The operation `Replace` on an ObjectExpression target whose items include the key
`seg`, with an Attribute value `v`: it succeeds and overwrites the value of the last item
keyed `seg`; the number, the order and the keys of the items stay, and every other item
is unchanged. -/
theorem Replace_object_present (op : JSONPointerPathOperator) (r : Resource) (c : Cursor)
    (tk : JSONPointerPathToken) (value : Value) (va : HclAttribute)
    (items : List (ObjectConsItem Expression))
    (hs : Search op r = .ok c) (hl : op.getLast? = some tk)
    (hv : value.Attribute = some va) (hc : c.target = .expr (.ObjectConsExpr items))
    (hex : ∃ it ∈ items, it.KeyExpr.rootName? = some tk.Value) :
    ∃ idx it, findLastItem tk.Value items 0 none = some idx ∧ items[idx]? = some it ∧
      it.KeyExpr.rootName? = some tk.Value ∧
      Replace op r value =
        ⟨r.put c.loc (.expr (.ObjectConsExpr (items.set idx { it with ValueExpr := va.Expr }))),
          .ok ()⟩ ∧
      (items.set idx { it with ValueExpr := va.Expr }).map (fun x => x.KeyExpr) =
        items.map (fun x => x.KeyExpr) ∧
      (items.set idx { it with ValueExpr := va.Expr }).length = items.length ∧
      ∀ j, j ≠ idx → (items.set idx { it with ValueExpr := va.Expr })[j]? = items[j]? := by
  obtain ⟨idx, hidx⟩ := findLastItem_isSome tk.Value items 0 hex
  obtain ⟨_, it, hit, hk⟩ := findLastItem_some tk.Value items 0 idx hidx
  simp only [Nat.sub_zero] at hit
  refine ⟨idx, it, hidx, hit, hk, ?_, map_key_set items idx it va.Expr hit, by simp, ?_⟩
  · simp only [Replace, hs, hl, hc, hv, hidx, hit]
  · intro j hj
    rw [List.getElem?_set_ne (fun e => hj e.symm)]

/-- C11 (code at the failing input). In `widgetDupKeys` the object `meta` has two items
keyed `owner`.  `Replace` at `meta`, `owner` succeeds and overwrites the last of them,
while `Search` descends into the first one: the item the resolver selects for `owner`
still has its old value `ops`, not the value written. -/
theorem Replace_object_overwrites_last_match :
    Replace [tok "meta", tok "owner"] widgetDupKeys prodValue =
        ⟨⟨"widget", "d", .native ⟨[("meta", ⟨"meta", .ObjectConsExpr
          [⟨.traversal "owner" [], .other "ops"⟩, ⟨.traversal "owner" [], .other "\"prod\""⟩],
          rng 1, rng 1⟩)], []⟩⟩, .ok ()⟩ ∧
      Search [tok "meta", tok "owner", tok "x"]
          (Replace [tok "meta", tok "owner"] widgetDupKeys prodValue).resource =
        .ok ⟨.expr (.other "ops"),
          some (.expr (.ObjectConsExpr
            [⟨.traversal "owner" [], .other "ops"⟩, ⟨.traversal "owner" [], .other "\"prod\""⟩])),
          [.attrExpr "meta", .item 0], [.attrExpr "meta"]⟩ ∧
      findItem "owner"
          [⟨.traversal "owner" [], .other "ops"⟩, ⟨.traversal "owner" [], .other "dev"⟩] = 0 ∧
      findLastItem "owner"
          [⟨.traversal "owner" [], .other "ops"⟩, ⟨.traversal "owner" [], .other "dev"⟩]
          0 none = some 1 :=
  ⟨rfl, rfl, rfl, rfl⟩


/-! ## Set on a body and on an object -/

theorem occupies_dynamic (seg : String) (blk : Block) (l : String) (ls : List String)
    (hd : blk.Type_ = dynamicBlockType) (hlab : blk.Labels = l :: ls) :
    occupies seg blk = decide (l = seg) := by
  unfold occupies
  rw [if_pos hd, hlab]
  simp

theorem occupies_typed (seg : String) (blk : Block) (hd : ¬ blk.Type_ = dynamicBlockType) :
    occupies seg blk = decide (blk.Type_ = seg) := by
  unfold occupies
  rw [if_neg hd]

theorem matchingBlocks_eq (seg : String) (blocks : List Block) (j : Nat) (acc : List Nat)
    (hwf : ∀ blk ∈ blocks, blk.Type_ = dynamicBlockType → 0 < blk.Labels.length) :
    matchingBlocks seg blocks j acc = .ok (acc ++ occupiedIndexes seg blocks j) := by
  induction blocks generalizing j acc with
  | nil => simp [matchingBlocks, occupiedIndexes]
  | cons blk rest ih =>
    have hrest := fun j' acc' => ih j' acc' (fun b hb => hwf b (List.mem_cons_of_mem _ hb))
    unfold matchingBlocks occupiedIndexes
    by_cases hd : blk.Type_ = dynamicBlockType
    · have hl := hwf blk (List.mem_cons_self _ _) hd
      simp only [hd, if_true]
      cases hlab : blk.Labels with
      | nil => rw [hlab] at hl; simp at hl
      | cons l ls =>
        rw [occupies_dynamic seg blk l ls hd hlab]
        by_cases hs : l = seg
        · simp [hs, hrest]
        · simp [hs, hrest]
    · simp only [hd, if_false]
      rw [occupies_typed seg blk hd]
      by_cases ht : blk.Type_ = seg
      · simp [ht, hrest]
      · simp [ht, hrest]

theorem occupiedIndexes_eq_nil_iff (seg : String) (blocks : List Block) (j : Nat) :
    occupiedIndexes seg blocks j = [] ↔ ∀ blk ∈ blocks, occupies seg blk = false := by
  induction blocks generalizing j with
  | nil => simp [occupiedIndexes]
  | cons blk rest ih =>
    unfold occupiedIndexes
    by_cases ho : occupies seg blk = true
    · simp [ho]
    · have ho' : occupies seg blk = false := by simpa using ho
      simp [ho', ih]

theorem getElem?_append_length {α : Type} (pre : List α) (x : α) (rest : List α) :
    (pre ++ x :: rest)[pre.length]? = some x := by
  induction pre with
  | nil => simp
  | cons y ys ih => simpa using ih

theorem set_append_length {α : Type} (pre : List α) (x y : α) (rest : List α) :
    (pre ++ x :: rest).set pre.length y = pre ++ y :: rest := by
  induction pre with
  | nil => simp
  | cons z zs ih => simp [ih]

/-- Overwriting the blocks that occupy the slot `seg`, in closed form, when every
`dynamic` block among them has a nested block. -/
theorem overwriteBlocks_occupied (seg : String) (new : Body) (pre rest : List Block)
    (hwf : ∀ blk ∈ rest, occupies seg blk = true → blk.Type_ = dynamicBlockType →
      0 < blk.Body.Blocks.length) :
    overwriteBlocks new (occupiedIndexes seg rest pre.length) (pre ++ rest) =
      (pre ++ rest.map (overwriteOne seg new), .ok ()) := by
  induction rest generalizing pre with
  | nil => simp [occupiedIndexes, overwriteBlocks]
  | cons blk rest ih =>
    have hrest : ∀ b ∈ rest, occupies seg b = true → b.Type_ = dynamicBlockType →
        0 < b.Body.Blocks.length := fun b hb => hwf b (List.mem_cons_of_mem _ hb)
    have hnext : ∀ x : Block, overwriteBlocks new (occupiedIndexes seg rest (pre.length + 1))
        (pre ++ x :: rest) = (pre ++ x :: rest.map (overwriteOne seg new), .ok ()) := by
      intro x
      have := ih (pre ++ [x]) hrest
      simpa using this
    unfold occupiedIndexes
    by_cases ho : occupies seg blk = true
    · simp only [ho, if_true, List.map_cons]
      unfold overwriteBlocks
      simp only [getElem?_append_length]
      by_cases hd : blk.Type_ = dynamicBlockType
      · have hb := hwf blk (List.mem_cons_self _ _) ho hd
        simp only [hd, if_true]
        cases hblocks : blk.Body.Blocks with
        | nil => rw [hblocks] at hb; simp at hb
        | cons inner inners =>
          simp only [set_append_length, hnext]
          simp [overwriteOne, ho, hd, hblocks]
      · simp only [hd, if_false, set_append_length, hnext]
        simp [overwriteOne, ho, hd]
    · have ho' : occupies seg blk = false := by simpa using ho
      simp only [ho', Bool.false_eq_true, if_false, List.map_cons, hnext]
      simp [overwriteOne, ho']


/-- C15. On Body and ObjectExpression targets `Set` is `Add`-or-`Replace` and never fails
on existence.  For a Body target with an Attribute value, for a Body target (with well
formed `dynamic` blocks) with a Block value, and for an ObjectExpression target with an
Attribute value: `Set` succeeds; whenever `Add` succeeds the outcome of `Set` is the
outcome of `Add`; whenever `Replace` succeeds the outcome of `Set` is the outcome of
`Replace`; and one of `Add` and `Replace` does succeed. -/
theorem Set_is_Add_or_Replace (op : JSONPointerPathOperator) (r : Resource) (c : Cursor)
    (tk : JSONPointerPathToken) (value : Value)
    (hs : Search op r = .ok c) (hl : op.getLast? = some tk) :
    (∀ t va, c.target = .body t → value.Attribute = some va →
        (Set op r value).status = .ok () ∧
          ((Add op r value).status = .ok () → Set op r value = Add op r value) ∧
          ((Replace op r value).status = .ok () → Set op r value = Replace op r value) ∧
          ((Add op r value).status = .ok () ∨ (Replace op r value).status = .ok ())) ∧
      (∀ t vb, c.target = .body t → value.Attribute = none → value.Block = some vb →
        t.DynamicsWellFormed →
        (Set op r value).status = .ok () ∧
          ((Add op r value).status = .ok () → Set op r value = Add op r value) ∧
          ((Replace op r value).status = .ok () → Set op r value = Replace op r value) ∧
          ((Add op r value).status = .ok () ∨ (Replace op r value).status = .ok ())) ∧
      (∀ items va, c.target = .expr (.ObjectConsExpr items) → value.Attribute = some va →
        (Set op r value).status = .ok () ∧
          ((Add op r value).status = .ok () → Set op r value = Add op r value) ∧
          ((Replace op r value).status = .ok () → Set op r value = Replace op r value) ∧
          ((Add op r value).status = .ok () ∨ (Replace op r value).status = .ok ())) := by
  refine ⟨?_, ?_, ?_⟩
  · intro t va hc hv
    cases hlook : t.Attributes.lookup tk.Value with
    | none =>
      have hset : Set op r value = ⟨r.put c.loc (.body { t with Attributes := t.Attributes ++
          [(tk.Value, ⟨tk.Value, va.Expr, va.Range, va.NameRange⟩)] }), .ok ()⟩ := by
        simp only [Set, hs, hl, hc, hv, hlook]
        rfl
      have hadd : Add op r value = ⟨r.put c.loc (.body { t with Attributes := t.Attributes ++
          [(tk.Value, ⟨tk.Value, va.Expr, va.Range, va.NameRange⟩)] }), .ok ()⟩ := by
        simp only [Add, hs, hl, hc, hv, hlook]
        rfl
      have hrep : Replace op r value = ⟨r, .err .pathNotFound⟩ := by
        simp only [Replace, hs, hl, hc, hv, hlook]
        rfl
      refine ⟨by rw [hset], fun _ => by rw [hset, hadd], ?_, Or.inl (by rw [hadd])⟩
      intro h
      rw [hrep] at h
      cases h
    | some a =>
      have hset : Set op r value = ⟨r.put c.loc (.body { t with
          Attributes := setAttributeExpr tk.Value va.Expr t.Attributes }), .ok ()⟩ := by
        simp only [Set, hs, hl, hc, hv, hlook]
        rfl
      have hrep : Replace op r value = ⟨r.put c.loc (.body { t with
          Attributes := setAttributeExpr tk.Value va.Expr t.Attributes }), .ok ()⟩ := by
        simp only [Replace, hs, hl, hc, hv, hlook]
        rfl
      have hadd : Add op r value = ⟨r, .err .alreadyExists⟩ := by
        simp only [Add, hs, hl, hc, hv, hlook]
        rfl
      refine ⟨by rw [hset], ?_, fun _ => by rw [hset, hrep], Or.inr (by rw [hrep])⟩
      intro h
      rw [hadd] at h
      cases h
  · intro t vb hc hva hvb hwf
    have hlab : ∀ blk ∈ t.Blocks, blk.Type_ = dynamicBlockType → 0 < blk.Labels.length :=
      fun blk hblk hd => (hwf blk hblk hd).1
    have hmatch := matchingBlocks_eq tk.Value t.Blocks 0 [] hlab
    rw [List.nil_append] at hmatch
    have hexists := blockExists_eq tk.Value t.Blocks hlab
    have hover := overwriteBlocks_occupied tk.Value vb.Body [] t.Blocks
      (fun blk hblk _ hd => (hwf blk hblk hd).2)
    simp only [List.length_nil, List.nil_append] at hover
    by_cases hnil : occupiedIndexes tk.Value t.Blocks 0 = []
    · have hno := (occupiedIndexes_eq_nil_iff tk.Value t.Blocks 0).mp hnil
      have hany : t.Blocks.any (occupies tk.Value) = false := by
        rw [List.any_eq_false]
        intro blk hblk
        simp [hno blk hblk]
      rw [hany] at hexists
      have hset : Set op r value = ⟨r.put c.loc (.body { t with Blocks := t.Blocks ++
          [⟨tk.Value, vb.Labels, vb.Body, vb.TypeRange, vb.LabelRanges⟩] }), .ok ()⟩ := by
        simp only [Set, hs, hl, hc, hva, hvb, hmatch, hnil]
        rfl
      have hadd : Add op r value = ⟨r.put c.loc (.body { t with Blocks := t.Blocks ++
          [⟨tk.Value, vb.Labels, vb.Body, vb.TypeRange, vb.LabelRanges⟩] }), .ok ()⟩ := by
        simp only [Add, hs, hl, hc, hva, hvb, hexists]
      have hrep : Replace op r value = ⟨r, .err .pathNotFound⟩ := by
        simp only [Replace, hs, hl, hc, hva, hvb, hmatch, hnil]
        rfl
      refine ⟨by rw [hset], fun _ => by rw [hset, hadd], ?_, Or.inl (by rw [hadd])⟩
      intro h
      rw [hrep] at h
      cases h
    · have hlen : ¬ (occupiedIndexes tk.Value t.Blocks 0).length = 0 := by
        intro h0
        exact hnil (List.length_eq_zero.mp h0)
      have hany : t.Blocks.any (occupies tk.Value) = true := by
        rw [List.any_eq_true]
        by_contra hcon
        apply hnil
        rw [occupiedIndexes_eq_nil_iff]
        intro blk hblk
        by_contra ho
        exact hcon ⟨blk, hblk, by simpa using ho⟩
      rw [hany] at hexists
      have hset : Set op r value = ⟨r.put c.loc (.body { t with
          Blocks := t.Blocks.map (overwriteOne tk.Value vb.Body) }), .ok ()⟩ := by
        simp only [Set, hs, hl, hc, hva, hvb, hmatch, if_neg hlen, hover]
      have hrep : Replace op r value = ⟨r.put c.loc (.body { t with
          Blocks := t.Blocks.map (overwriteOne tk.Value vb.Body) }), .ok ()⟩ := by
        simp only [Replace, hs, hl, hc, hva, hvb, hmatch, if_neg hlen, hover]
      have hadd : Add op r value = ⟨r, .err .alreadyExists⟩ := by
        simp only [Add, hs, hl, hc, hva, hvb, hexists]
      refine ⟨by rw [hset], ?_, fun _ => by rw [hset, hrep], Or.inr (by rw [hrep])⟩
      intro h
      rw [hadd] at h
      cases h
  · intro items va hc hv
    by_cases hex : ∃ it ∈ items, it.KeyExpr.rootName? = some tk.Value
    · obtain ⟨idx, hidx⟩ := findLastItem_isSome tk.Value items 0 hex
      obtain ⟨_, it, hit, _⟩ := findLastItem_some tk.Value items 0 idx hidx
      simp only [Nat.sub_zero] at hit
      have hset : Set op r value = ⟨r.put c.loc (.expr (.ObjectConsExpr
          (items.set idx { it with ValueExpr := va.Expr }))), .ok ()⟩ := by
        simp only [Set, hs, hl, hc, hv, hidx, hit]
      have hrep : Replace op r value = ⟨r.put c.loc (.expr (.ObjectConsExpr
          (items.set idx { it with ValueExpr := va.Expr }))), .ok ()⟩ := by
        simp only [Replace, hs, hl, hc, hv, hidx, hit]
      have hadd : Add op r value = ⟨r, .err .alreadyExists⟩ := by
        simp only [Add, hs, hl, hc, hv, any_key_eq_true _ _ hex]
        rfl
      refine ⟨by rw [hset], ?_, fun _ => by rw [hset, hrep], Or.inr (by rw [hrep])⟩
      intro h
      rw [hadd] at h
      cases h
    · have hno : ∀ it ∈ items, it.KeyExpr.rootName? ≠ some tk.Value := by
        intro it hit hk
        exact hex ⟨it, hit, hk⟩
      have hnone := findLastItem_none tk.Value items 0 hno
      have hset : Set op r value = ⟨r.put c.loc (.expr (.ObjectConsExpr
          (items ++ [⟨.traversal tk.Value [], va.Expr⟩]))), .ok ()⟩ := by
        simp only [Set, hs, hl, hc, hv, hnone]
      have hadd : Add op r value = ⟨r.put c.loc (.expr (.ObjectConsExpr
          (items ++ [⟨.traversal tk.Value [], va.Expr⟩]))), .ok ()⟩ := by
        simp only [Add, hs, hl, hc, hv, any_key_eq_false _ _ hno]
        rfl
      have hrep : Replace op r value = ⟨r, .err .pathNotFound⟩ := by
        simp only [Replace, hs, hl, hc, hv, hnone]
      refine ⟨by rw [hset], fun _ => by rw [hset, hadd], ?_, Or.inl (by rw [hadd])⟩
      intro h
      rw [hrep] at h
      cases h


/-- C15, witness: on `widget`, `Set` at the absent attribute `env` is `Add`, `Set` at the
present attribute `size` is `Replace`, and `Set` with a block value at the present block
`tags` is `Replace`. -/
theorem Set_is_Add_or_Replace_witness :
    (Set [tok "env"] widget prodValue).status = .ok () ∧
      Set [tok "env"] widget prodValue = Add [tok "env"] widget prodValue ∧
      Set [tok "size"] widget prodValue = Replace [tok "size"] widget prodValue ∧
      Set [tok "tags"] widget envBlockValue = Replace [tok "tags"] widget envBlockValue :=
  have h1 := (Set_is_Add_or_Replace [tok "env"] widget ⟨.body widgetBody, none, [], []⟩
    (tok "env") prodValue rfl rfl).1 widgetBody ⟨"value", .other "\"prod\"", rng 20, rng 20⟩
    rfl rfl
  have h2 := (Set_is_Add_or_Replace [tok "size"] widget ⟨.body widgetBody, none, [], []⟩
    (tok "size") prodValue rfl rfl).1 widgetBody ⟨"value", .other "\"prod\"", rng 20, rng 20⟩
    rfl rfl
  have h3 := (Set_is_Add_or_Replace [tok "tags"] widget ⟨.body widgetBody, none, [], []⟩
    (tok "tags") envBlockValue rfl rfl).2.1 widgetBody
    ⟨"value", [], ⟨[attr "env" "\"prod\"" 21], []⟩, rng 20, []⟩ rfl rfl rfl widgetBody_wellFormed
  ⟨h1.1, h1.2.1 (by decide), h2.2.2.1 (by decide), h3.2.2.1 (by decide)⟩


/-! ## Applying Set twice -/

theorem findLastItem_of_keys (seg : String) (items items' : List (ObjectConsItem Expression))
    (i : Nat) (acc : Option Nat)
    (h : items.map (fun it => it.KeyExpr) = items'.map (fun it => it.KeyExpr)) :
    findLastItem seg items i acc = findLastItem seg items' i acc := by
  induction items generalizing items' i acc with
  | nil =>
    cases items' with
    | nil => rfl
    | cons x xs => simp at h
  | cons it rest ih =>
    cases items' with
    | nil => simp at h
    | cons x xs =>
      simp only [List.map_cons, List.cons.injEq] at h
      unfold findLastItem
      rw [h.1, ih xs (i + 1) (some i) h.2, ih xs (i + 1) acc h.2]

theorem findLastItem_append_key (seg : String) (items : List (ObjectConsItem Expression))
    (new : ObjectConsItem Expression) (i : Nat) (acc : Option Nat)
    (hk : new.KeyExpr.rootName? = some seg) :
    findLastItem seg (items ++ [new]) i acc = some (i + items.length) := by
  induction items generalizing i acc with
  | nil => simp [findLastItem, hk]
  | cons it rest ih =>
    simp only [List.cons_append, List.length_cons]
    unfold findLastItem
    split
    · rw [ih]; congr 1; omega
    · rw [ih]; congr 1; omega

theorem matchingBlocks_labelled (seg : String) (blocks : List Block) (j : Nat)
    (acc res : List Nat) (h : matchingBlocks seg blocks j acc = .ok res) :
    ∀ blk ∈ blocks, blk.Type_ = dynamicBlockType → 0 < blk.Labels.length := by
  induction blocks generalizing j acc with
  | nil => intro blk hblk; simp at hblk
  | cons b rest ih =>
    unfold matchingBlocks at h
    intro blk hblk hd
    by_cases hbd : b.Type_ = dynamicBlockType
    · simp only [hbd, if_true] at h
      cases hlab : b.Labels with
      | nil => rw [hlab] at h; cases h
      | cons l ls =>
        rw [hlab] at h
        simp only at h
        have hrest : ∀ x ∈ rest, x.Type_ = dynamicBlockType → 0 < x.Labels.length := by
          split at h
          · exact ih _ _ h
          · exact ih _ _ h
        rcases List.mem_cons.mp hblk with e | hmem
        · subst e; rw [hlab]; simp
        · exact hrest blk hmem hd
    · simp only [hbd, if_false] at h
      have hrest : ∀ x ∈ rest, x.Type_ = dynamicBlockType → 0 < x.Labels.length := by
        split at h
        · exact ih _ _ h
        · exact ih _ _ h
      rcases List.mem_cons.mp hblk with e | hmem
      · subst e; exact absurd hd hbd
      · exact hrest blk hmem hd

/-- When the overwriting loop runs through without a panic, every `dynamic` block that
occupies the slot has a nested block. -/
theorem overwriteBlocks_ok_nested (seg : String) (new : Body) (pre rest : List Block)
    (h : (overwriteBlocks new (occupiedIndexes seg rest pre.length) (pre ++ rest)).2 = .ok ()) :
    ∀ blk ∈ rest, occupies seg blk = true → blk.Type_ = dynamicBlockType →
      0 < blk.Body.Blocks.length := by
  induction rest generalizing pre with
  | nil => intro blk hblk; simp at hblk
  | cons b rest ih =>
    have hstep : ∀ x : Block,
        (overwriteBlocks new (occupiedIndexes seg rest (pre.length + 1)) (pre ++ x :: rest)).2 =
          .ok () →
        ∀ blk ∈ rest, occupies seg blk = true → blk.Type_ = dynamicBlockType →
          0 < blk.Body.Blocks.length := by
      intro x hx
      have := ih (pre ++ [x]) (by simpa using hx)
      exact this
    unfold occupiedIndexes at h
    intro blk hblk ho hd
    by_cases hob : occupies seg b = true
    · simp only [hob, if_true] at h
      unfold overwriteBlocks at h
      simp only [getElem?_append_length] at h
      by_cases hbd : b.Type_ = dynamicBlockType
      · simp only [hbd, if_true] at h
        cases hblocks : b.Body.Blocks with
        | nil => rw [hblocks] at h; cases h
        | cons inner inners =>
          rw [hblocks] at h
          simp only [set_append_length] at h
          rcases List.mem_cons.mp hblk with e | hmem
          · subst e; rw [hblocks]; simp
          · exact hstep _ h blk hmem ho hd
      · simp only [hbd, if_false, set_append_length] at h
        rcases List.mem_cons.mp hblk with e | hmem
        · subst e; exact absurd hd hbd
        · exact hstep _ h blk hmem ho hd
    · have hob' : occupies seg b = false := by simpa using hob
      simp only [hob', Bool.false_eq_true, if_false] at h
      rcases List.mem_cons.mp hblk with e | hmem
      · subst e; rw [ho] at hob'; cases hob'
      · exact hstep _ h blk hmem ho hd

theorem occupies_overwriteOne (seg seg' : String) (new : Body) (blk : Block) :
    occupies seg' (overwriteOne seg new blk) = occupies seg' blk := by
  unfold overwriteOne
  split
  · split
    · split
      · rfl
      · rfl
    · rfl
  · rfl

theorem overwriteOne_idem (seg : String) (new : Body) (blk : Block) :
    overwriteOne seg new (overwriteOne seg new blk) = overwriteOne seg new blk := by
  by_cases ho : occupies seg blk = true
  · by_cases hd : blk.Type_ = dynamicBlockType
    · cases hblocks : blk.Body.Blocks with
      | nil =>
        have e : overwriteOne seg new blk = blk := by
          simp [overwriteOne, ho, hd, hblocks]
        rw [e, e]
      | cons inner inners =>
        have e : overwriteOne seg new blk =
            { blk with Body := { blk.Body with Blocks := { inner with Body := new } :: inners } } := by
          simp [overwriteOne, ho, hd, hblocks]
        have ho2 := occupies_overwriteOne seg seg new blk
        rw [e] at ho2
        rw [e]
        simp [overwriteOne, ho2, ho, hd]
    · have e : overwriteOne seg new blk = { blk with Body := new } := by
        simp [overwriteOne, ho, hd]
      have ho2 := occupies_overwriteOne seg seg new blk
      rw [e] at ho2
      rw [e]
      simp [overwriteOne, ho2, ho, hd]
  · have ho' : occupies seg blk = false := by simpa using ho
    have e : overwriteOne seg new blk = blk := by
      simp [overwriteOne, ho']
    rw [e, e]

theorem overwriteOne_of_not_occupies (seg : String) (new : Body) (blk : Block)
    (h : occupies seg blk = false) : overwriteOne seg new blk = blk := by
  simp [overwriteOne, h]


/-- The second application of an operation that rewrites the target to the node it
already is leaves the resource as it is. -/
theorem put_same_target (op : JSONPointerPathOperator) (r1 : Resource) (n : Node)
    (q : Option Node) (loc ploc : Location) (h : Search op r1 = .ok ⟨n, q, loc, ploc⟩) :
    r1.put loc n = r1 :=
  Search_put_self op r1 ⟨n, q, loc, ploc⟩ h

theorem Set_twice_body_attribute (op : JSONPointerPathOperator) (r : Resource) (c : Cursor)
    (tk : JSONPointerPathToken) (value : Value) (va : HclAttribute) (t : Body)
    (hs : Search op r = .ok c) (hl : op.getLast? = some tk)
    (hv : value.Attribute = some va) (hc : c.target = .body t) :
    Set op (Set op r value).resource value = ⟨(Set op r value).resource, .ok ()⟩ := by
  cases hlook : t.Attributes.lookup tk.Value with
  | none =>
    have hset : Set op r value = ⟨r.put c.loc (.body ⟨t.Attributes ++
        [(tk.Value, ⟨tk.Value, va.Expr, va.Range, va.NameRange⟩)], t.Blocks⟩), .ok ()⟩ := by
      simp only [Set, hs, hl, hc, hv, hlook]
      rfl
    obtain ⟨q, hq⟩ := Search_put op r c (.body ⟨t.Attributes ++
        [(tk.Value, ⟨tk.Value, va.Expr, va.Range, va.NameRange⟩)], t.Blocks⟩) hs
        (by rw [hc]; trivial)
    have hlook1 := lookup_append_singleton t.Attributes tk.Value tk.Value
      ⟨tk.Value, va.Expr, va.Range, va.NameRange⟩ hlook
    rw [if_pos rfl] at hlook1
    have hself := setAttributeExpr_self tk.Value _ _ hlook1
    simp only at hself
    rw [hset]
    simp only [Set, hq, hl, hv, hlook1, Option.isNone_some, Bool.false_eq_true, if_false, hself]
    rw [put_same_target op _ _ q c.loc c.parentLoc hq]
  | some a =>
    have hset : Set op r value = ⟨r.put c.loc (.body ⟨setAttributeExpr tk.Value va.Expr
        t.Attributes, t.Blocks⟩), .ok ()⟩ := by
      simp only [Set, hs, hl, hc, hv, hlook]
      rfl
    obtain ⟨q, hq⟩ := Search_put op r c (.body ⟨setAttributeExpr tk.Value va.Expr
        t.Attributes, t.Blocks⟩) hs (by rw [hc]; trivial)
    have hlook1 := lookup_setAttributeExpr tk.Value va.Expr t.Attributes a hlook
    rw [hset]
    simp only [Set, hq, hl, hv, hlook1, Option.isNone_some, Bool.false_eq_true, if_false,
      setAttributeExpr_twice]
    rw [put_same_target op _ _ q c.loc c.parentLoc hq]


theorem overwriteOne_type (seg : String) (new : Body) (blk : Block) :
    (overwriteOne seg new blk).Type_ = blk.Type_ := by
  unfold overwriteOne
  split
  · split
    · split <;> rfl
    · rfl
  · rfl

theorem overwriteOne_labels (seg : String) (new : Body) (blk : Block) :
    (overwriteOne seg new blk).Labels = blk.Labels := by
  unfold overwriteOne
  split
  · split
    · split <;> rfl
    · rfl
  · rfl

theorem overwriteOne_nested (seg : String) (new : Body) (blk : Block)
    (hd : blk.Type_ = dynamicBlockType) (h : 0 < blk.Body.Blocks.length) :
    0 < (overwriteOne seg new blk).Body.Blocks.length := by
  by_cases ho : occupies seg blk = true
  · cases hblocks : blk.Body.Blocks with
    | nil => rw [hblocks] at h; simp at h
    | cons inner inners => simp [overwriteOne, ho, hd, hblocks]
  · have ho' : occupies seg blk = false := by simpa using ho
    rw [overwriteOne_of_not_occupies seg new blk ho']
    exact h

theorem map_overwriteOne_of_none (seg : String) (new : Body) (blocks : List Block)
    (h : ∀ blk ∈ blocks, occupies seg blk = false) :
    blocks.map (overwriteOne seg new) = blocks := by
  induction blocks with
  | nil => rfl
  | cons blk rest ih =>
    simp only [List.map_cons]
    rw [overwriteOne_of_not_occupies seg new blk (h blk (List.mem_cons_self _ _)),
      ih (fun b hb => h b (List.mem_cons_of_mem _ hb))]

theorem occupiedIndexes_map (seg : String) (new : Body) (blocks : List Block) (j : Nat) :
    occupiedIndexes seg (blocks.map (overwriteOne seg new)) j = occupiedIndexes seg blocks j := by
  induction blocks generalizing j with
  | nil => rfl
  | cons blk rest ih =>
    simp only [List.map_cons]
    unfold occupiedIndexes
    rw [occupies_overwriteOne, ih]

theorem Set_twice_body_block (op : JSONPointerPathOperator) (r : Resource) (c : Cursor)
    (tk : JSONPointerPathToken) (value : Value) (vb : HclBlock) (t : Body)
    (hs : Search op r = .ok c) (hl : op.getLast? = some tk)
    (hva : value.Attribute = none) (hvb : value.Block = some vb) (hc : c.target = .body t)
    (hok : (Set op r value).status = .ok ()) (hseg : tk.Value ≠ dynamicBlockType) :
    Set op (Set op r value).resource value = ⟨(Set op r value).resource, .ok ()⟩ := by
  cases hm : matchingBlocks tk.Value t.Blocks 0 [] with
  | err e => simp [Set, hs, hl, hc, hva, hvb, hm] at hok
  | panic p => simp [Set, hs, hl, hc, hva, hvb, hm] at hok
  | ok idxs =>
    have hlab := matchingBlocks_labelled tk.Value t.Blocks 0 [] idxs hm
    have hmatch := matchingBlocks_eq tk.Value t.Blocks 0 [] hlab
    rw [List.nil_append] at hmatch
    by_cases hnil : occupiedIndexes tk.Value t.Blocks 0 = []
    · have hno := (occupiedIndexes_eq_nil_iff tk.Value t.Blocks 0).mp hnil
      have hset : Set op r value = ⟨r.put c.loc (.body ⟨t.Attributes, t.Blocks ++
          [⟨tk.Value, vb.Labels, vb.Body, vb.TypeRange, vb.LabelRanges⟩]⟩), .ok ()⟩ := by
        simp only [Set, hs, hl, hc, hva, hvb, hmatch, hnil]
        rfl
      obtain ⟨q, hq⟩ := Search_put op r c (.body ⟨t.Attributes, t.Blocks ++
          [⟨tk.Value, vb.Labels, vb.Body, vb.TypeRange, vb.LabelRanges⟩]⟩) hs
          (by rw [hc]; trivial)
      have hnew : occupies tk.Value
          (⟨tk.Value, vb.Labels, vb.Body, vb.TypeRange, vb.LabelRanges⟩ : Block) = true := by
        unfold occupies
        rw [if_neg hseg]
        simp
      have hlab1 : ∀ blk ∈ t.Blocks ++
          [(⟨tk.Value, vb.Labels, vb.Body, vb.TypeRange, vb.LabelRanges⟩ : Block)],
          blk.Type_ = dynamicBlockType → 0 < blk.Labels.length := by
        intro blk hblk hd
        rcases List.mem_append.mp hblk with h | h
        · exact hlab blk h hd
        · simp only [List.mem_singleton] at h
          subst h
          exact absurd hd hseg
      have hmatch1 := matchingBlocks_eq tk.Value _ 0 [] hlab1
      rw [List.nil_append] at hmatch1
      have hlen1 : ¬ (occupiedIndexes tk.Value (t.Blocks ++
          [(⟨tk.Value, vb.Labels, vb.Body, vb.TypeRange, vb.LabelRanges⟩ : Block)]) 0).length
            = 0 := by
        intro h0
        have := (occupiedIndexes_eq_nil_iff tk.Value _ 0).mp (List.length_eq_zero.mp h0)
          ⟨tk.Value, vb.Labels, vb.Body, vb.TypeRange, vb.LabelRanges⟩ (by simp)
        rw [hnew] at this
        cases this
      have hover := overwriteBlocks_occupied tk.Value vb.Body [] (t.Blocks ++
          [(⟨tk.Value, vb.Labels, vb.Body, vb.TypeRange, vb.LabelRanges⟩ : Block)])
        (by
          intro blk hblk ho hd
          rcases List.mem_append.mp hblk with h | h
          · rw [hno blk h] at ho; cases ho
          · simp only [List.mem_singleton] at h
            subst h
            exact absurd hd hseg)
      simp only [List.length_nil, List.nil_append] at hover
      have hmap : (t.Blocks ++
          [(⟨tk.Value, vb.Labels, vb.Body, vb.TypeRange, vb.LabelRanges⟩ : Block)]).map
            (overwriteOne tk.Value vb.Body) =
          t.Blocks ++ [⟨tk.Value, vb.Labels, vb.Body, vb.TypeRange, vb.LabelRanges⟩] := by
        rw [List.map_append]
        rw [map_overwriteOne_of_none tk.Value vb.Body t.Blocks hno]
        simp [overwriteOne, hnew, hseg]
      rw [hset]
      simp only [Set, hq, hl, hva, hvb, hmatch1, if_neg hlen1, hover, hmap]
      rw [put_same_target op _ _ q c.loc c.parentLoc hq]
    · have hlen : ¬ (occupiedIndexes tk.Value t.Blocks 0).length = 0 := by
        intro h0
        exact hnil (List.length_eq_zero.mp h0)
      have hst : (overwriteBlocks vb.Body (occupiedIndexes tk.Value t.Blocks 0) t.Blocks).2 =
          .ok () := by
        simp only [Set, hs, hl, hc, hva, hvb, hmatch, if_neg hlen] at hok
        exact hok
      have hnested := overwriteBlocks_ok_nested tk.Value vb.Body [] t.Blocks
        (by simpa using hst)
      have hover := overwriteBlocks_occupied tk.Value vb.Body [] t.Blocks hnested
      simp only [List.length_nil, List.nil_append] at hover
      have hset : Set op r value = ⟨r.put c.loc (.body ⟨t.Attributes,
          t.Blocks.map (overwriteOne tk.Value vb.Body)⟩), .ok ()⟩ := by
        simp only [Set, hs, hl, hc, hva, hvb, hmatch, if_neg hlen, hover]
      obtain ⟨q, hq⟩ := Search_put op r c (.body ⟨t.Attributes,
          t.Blocks.map (overwriteOne tk.Value vb.Body)⟩) hs (by rw [hc]; trivial)
      have hlab1 : ∀ blk ∈ t.Blocks.map (overwriteOne tk.Value vb.Body),
          blk.Type_ = dynamicBlockType → 0 < blk.Labels.length := by
        intro blk hblk hd
        obtain ⟨b0, hb0, e⟩ := List.mem_map.mp hblk
        subst e
        rw [overwriteOne_labels]
        rw [overwriteOne_type] at hd
        exact hlab b0 hb0 hd
      have hmatch1 := matchingBlocks_eq tk.Value _ 0 [] hlab1
      rw [List.nil_append, occupiedIndexes_map] at hmatch1
      have hnested1 : ∀ blk ∈ t.Blocks.map (overwriteOne tk.Value vb.Body),
          occupies tk.Value blk = true → blk.Type_ = dynamicBlockType →
            0 < blk.Body.Blocks.length := by
        intro blk hblk ho hd
        obtain ⟨b0, hb0, e⟩ := List.mem_map.mp hblk
        subst e
        rw [occupies_overwriteOne] at ho
        rw [overwriteOne_type] at hd
        exact overwriteOne_nested tk.Value vb.Body b0 hd (hnested b0 hb0 ho hd)
      have hover1 := overwriteBlocks_occupied tk.Value vb.Body []
        (t.Blocks.map (overwriteOne tk.Value vb.Body)) hnested1
      simp only [List.length_nil, List.nil_append, occupiedIndexes_map, List.map_map] at hover1
      have hidem : (overwriteOne tk.Value vb.Body ∘ overwriteOne tk.Value vb.Body) =
          overwriteOne tk.Value vb.Body := by
        funext blk
        exact overwriteOne_idem tk.Value vb.Body blk
      rw [hidem] at hover1
      rw [hset]
      simp only [Set, hq, hl, hva, hvb, hmatch1, if_neg hlen, hover1]
      rw [put_same_target op _ _ q c.loc c.parentLoc hq]


theorem Set_twice_object (op : JSONPointerPathOperator) (r : Resource) (c : Cursor)
    (tk : JSONPointerPathToken) (value : Value) (va : HclAttribute)
    (items : List (ObjectConsItem Expression))
    (hs : Search op r = .ok c) (hl : op.getLast? = some tk)
    (hv : value.Attribute = some va) (hc : c.target = .expr (.ObjectConsExpr items)) :
    Set op (Set op r value).resource value = ⟨(Set op r value).resource, .ok ()⟩ := by
  cases hfind : findLastItem tk.Value items 0 none with
  | none =>
    have hset : Set op r value = ⟨r.put c.loc (.expr (.ObjectConsExpr
        (items ++ [⟨.traversal tk.Value [], va.Expr⟩]))), .ok ()⟩ := by
      simp only [Set, hs, hl, hc, hv, hfind]
    obtain ⟨q, hq⟩ := Search_put op r c (.expr (.ObjectConsExpr
        (items ++ [⟨.traversal tk.Value [], va.Expr⟩]))) hs (by rw [hc]; trivial)
    have hfind1 := findLastItem_append_key tk.Value items ⟨.traversal tk.Value [], va.Expr⟩
      0 none rfl
    rw [Nat.zero_add] at hfind1
    have hget : (items ++ [(⟨.traversal tk.Value [], va.Expr⟩ : ObjectConsItem Expression)])[
        items.length]? = some ⟨.traversal tk.Value [], va.Expr⟩ :=
      getElem?_append_length items _ []
    have hsame : (items ++ [(⟨.traversal tk.Value [], va.Expr⟩ : ObjectConsItem Expression)]).set
        items.length ⟨.traversal tk.Value [], va.Expr⟩ =
        items ++ [⟨.traversal tk.Value [], va.Expr⟩] :=
      set_append_length items _ _ []
    rw [hset]
    simp only [Set, hq, hl, hv, hfind1, hget, hsame]
    rw [put_same_target op _ _ q c.loc c.parentLoc hq]
  | some idx =>
    obtain ⟨_, it, hit, _⟩ := findLastItem_some tk.Value items 0 idx hfind
    simp only [Nat.sub_zero] at hit
    have hlt : idx < items.length := (List.getElem?_eq_some_iff.mp hit).1
    have hset : Set op r value = ⟨r.put c.loc (.expr (.ObjectConsExpr
        (items.set idx { it with ValueExpr := va.Expr }))), .ok ()⟩ := by
      simp only [Set, hs, hl, hc, hv, hfind, hit]
    obtain ⟨q, hq⟩ := Search_put op r c (.expr (.ObjectConsExpr
        (items.set idx { it with ValueExpr := va.Expr }))) hs (by rw [hc]; trivial)
    have hfind1 : findLastItem tk.Value (items.set idx { it with ValueExpr := va.Expr }) 0 none =
        some idx := by
      rw [findLastItem_of_keys tk.Value _ items 0 none (map_key_set items idx it va.Expr hit)]
      exact hfind
    have hget : (items.set idx { it with ValueExpr := va.Expr })[idx]? =
        some { it with ValueExpr := va.Expr } := getElem?_set_same items idx _ hlt
    rw [hset]
    simp only [Set, hq, hl, hv, hfind1, hget, List.set_set]
    rw [put_same_target op _ _ q c.loc c.parentLoc hq]

theorem Set_twice_tuple (op : JSONPointerPathOperator) (r : Resource) (c : Cursor)
    (tk : JSONPointerPathToken) (value : Value) (va : HclAttribute) (exprs : List Expression)
    (i : Int) (hs : Search op r = .ok c) (hl : op.getLast? = some tk)
    (hv : value.Attribute = some va) (hc : c.target = .expr (.TupleConsExpr exprs))
    (hp : ParseInt tk.Value = some i) (hok : (Set op r value).status = .ok ())
    (hbound : i ≤ exprs.length) :
    Set op (Set op r value).resource value = ⟨(Set op r value).resource, .ok ()⟩ := by
  cases hr : resolveIndex exprs.length i with
  | panic p => simp [Set, hs, hl, hc, hv, hp, hr] at hok
  | err e =>
    have hi : i = exprs.length := by
      unfold resolveIndex at hr
      by_cases h1 : i = -1
      · simp only [h1, if_true] at hr
        rw [if_neg (by omega)] at hr
        split at hr <;> cases hr
      · simp only [h1, if_false] at hr
        by_cases h2 : (exprs.length : Int) - 1 < i
        · omega
        · rw [if_neg h2] at hr
          split at hr <;> cases hr
    have hset : Set op r value =
        ⟨r.put c.loc (.expr (.TupleConsExpr (exprs ++ [va.Expr]))), .ok ()⟩ := by
      simp only [Set, hs, hl, hc, hv, hp, hr]
    obtain ⟨q, hq⟩ := Search_put op r c (.expr (.TupleConsExpr (exprs ++ [va.Expr]))) hs
      (by rw [hc]; trivial)
    have hr1 : resolveIndex (exprs ++ [va.Expr]).length i = .ok exprs.length := by
      rw [hi, resolveIndex_inRange _ _ (by omega) (by simp)]
      simp
    have hsame : (exprs ++ [va.Expr]).set exprs.length va.Expr = exprs ++ [va.Expr] :=
      set_append_length exprs _ _ []
    rw [hset]
    simp only [Set, hq, hl, hv, hp, hr1, hsame]
    rw [put_same_target op _ _ q c.loc c.parentLoc hq]
  | ok idx =>
    have hset : Set op r value =
        ⟨r.put c.loc (.expr (.TupleConsExpr (exprs.set idx va.Expr))), .ok ()⟩ := by
      simp only [Set, hs, hl, hc, hv, hp, hr]
    obtain ⟨q, hq⟩ := Search_put op r c (.expr (.TupleConsExpr (exprs.set idx va.Expr))) hs
      (by rw [hc]; trivial)
    have hr1 : resolveIndex (exprs.set idx va.Expr).length i = .ok idx := by
      rw [List.length_set]; exact hr
    rw [hset]
    simp only [Set, hq, hl, hv, hp, hr1, List.set_set]
    rw [put_same_target op _ _ q c.loc c.parentLoc hq]

theorem Set_twice_group (op : JSONPointerPathOperator) (r : Resource) (c : Cursor)
    (tk : JSONPointerPathToken) (value : Value) (vb : HclBlock) (t : List Body)
    (hs : Search op r = .ok c) (hl : op.getLast? = some tk)
    (hv : value.Block = some vb) (hc : c.target = .bodies t)
    (hok : (Set op r value).status = .ok ()) :
    Set op (Set op r value).resource value = ⟨(Set op r value).resource, .ok ()⟩ := by
  cases hp : ParseInt tk.Value with
  | none => simp [Set, hs, hl, hc, hv, hp] at hok
  | some i =>
    cases hr : resolveIndex t.length i with
    | panic p => simp [Set, hs, hl, hc, hv, hp, hr] at hok
    | err e => simp [Set, hs, hl, hc, hv, hp, hr] at hok
    | ok idx =>
      have hset : Set op r value =
          ⟨r.put c.loc (.bodies (t.set idx ⟨vb.Body.Attributes, vb.Body.Blocks⟩)), .ok ()⟩ := by
        simp only [Set, hs, hl, hc, hv, hp, hr]
      obtain ⟨q, hq⟩ := Search_put op r c
        (.bodies (t.set idx ⟨vb.Body.Attributes, vb.Body.Blocks⟩)) hs
        (by rw [hc]; simp [Node.sameShape])
      have hr1 : resolveIndex (t.set idx ⟨vb.Body.Attributes, vb.Body.Blocks⟩).length i =
          .ok idx := by
        rw [List.length_set]; exact hr
      rw [hset]
      simp only [Set, hq, hl, hv, hp, hr1, List.set_set]
      rw [put_same_target op _ _ q c.loc c.parentLoc hq]


/-- C18 (as stated, refuted). On `widget` the tuple `ports` has two elements.  `Set` at the
index `5`, beyond the length, appends the value; the identical `Set` on the result appends
it once more, so the tree after the second application has a longer tuple than the tree
after the first.  And `Set` with a block value at the segment `dynamic` on `widgetDynamic`
appends a `dynamic` block without label, on which the identical `Set` panics. -/
theorem Set_twice_appends_twice :
    Set [tok "ports", tok "5"] widget prodValue =
        ⟨widget.put [.attrExpr "ports"]
          (.expr (.TupleConsExpr [.other "80", .other "443", .other "\"prod\""])), .ok ()⟩ ∧
      Set [tok "ports", tok "5"] (Set [tok "ports", tok "5"] widget prodValue).resource prodValue =
        ⟨widget.put [.attrExpr "ports"] (.expr (.TupleConsExpr
          [.other "80", .other "443", .other "\"prod\"", .other "\"prod\""])), .ok ()⟩ ∧
      (Set [tok "ports", tok "5"]
          (Set [tok "ports", tok "5"] widget prodValue).resource prodValue).resource ≠
        (Set [tok "ports", tok "5"] widget prodValue).resource ∧
      (Set [tok "dynamic"] widgetDynamic envBlockValue).status = .ok () ∧
      (Set [tok "dynamic"] (Set [tok "dynamic"] widgetDynamic envBlockValue).resource
          envBlockValue).status = .panic .indexOutOfRange :=
  ⟨rfl, rfl, fun h => absurd (congrArg portsLength h) (by decide), by decide, by decide⟩

/-- C18 (amended). `Set` is idempotent whenever it succeeds, for all four target kinds,
except where the first application creates a slot the second one does not address: for
every resource, path and value, if `Set` succeeds, a tuple index is not greater than the
length of the tuple (an index equal to the length included), and the segment is not
`dynamic` when a Block value is set on a Body, then the identical `Set` on the resulting
tree succeeds and yields that same tree. -/
theorem Set_idempotent (op : JSONPointerPathOperator) (r : Resource) (c : Cursor)
    (tk : JSONPointerPathToken) (value : Value)
    (hs : Search op r = .ok c) (hl : op.getLast? = some tk)
    (hok : (Set op r value).status = .ok ())
    (htuple : ∀ exprs i, c.target = .expr (.TupleConsExpr exprs) →
      ParseInt tk.Value = some i → i ≤ exprs.length)
    (hdyn : ∀ t vb, c.target = .body t → value.Attribute = none → value.Block = some vb →
      tk.Value ≠ dynamicBlockType) :
    Set op (Set op r value).resource value = ⟨(Set op r value).resource, .ok ()⟩ := by
  cases hc : c.target with
  | body t =>
    cases hva : value.Attribute with
    | some va => exact Set_twice_body_attribute op r c tk value va t hs hl hva hc
    | none =>
      cases hvb : value.Block with
      | some vb =>
        exact Set_twice_body_block op r c tk value vb t hs hl hva hvb hc hok
          (hdyn t vb hc hva hvb)
      | none =>
        have hset : Set op r value = ⟨r, .ok ()⟩ := by
          simp only [Set, hs, hl, hc, hva, hvb]
        rw [hset]
        exact hset
  | bodies t =>
    cases hvb : value.Block with
    | none => simp [Set, hs, hl, hc, hvb] at hok
    | some vb => exact Set_twice_group op r c tk value vb t hs hl hvb hc hok
  | expr e =>
    cases e with
    | ObjectConsExpr items =>
      cases hva : value.Attribute with
      | none => simp [Set, hs, hl, hc, hva] at hok
      | some va => exact Set_twice_object op r c tk value va items hs hl hva hc
    | TupleConsExpr exprs =>
      cases hva : value.Attribute with
      | none => simp [Set, hs, hl, hc, hva] at hok
      | some va =>
        cases hp : ParseInt tk.Value with
        | none => simp [Set, hs, hl, hc, hva, hp] at hok
        | some i =>
          exact Set_twice_tuple op r c tk value va exprs i hs hl hva hc hp hok
            (htuple exprs i hc hp)
    | other src => simp [Set, hs, hl, hc] at hok

/-- C18, witness: on `widget`, `Set` at the index `2` of the two-element tuple `ports`
appends the value, and the identical `Set` on the result overwrites the element just
appended. -/
theorem Set_idempotent_witness :
    (Set [tok "ports", tok "2"] widget prodValue).status = .ok () ∧
      Set [tok "ports", tok "2"] (Set [tok "ports", tok "2"] widget prodValue).resource
          prodValue =
        ⟨(Set [tok "ports", tok "2"] widget prodValue).resource, .ok ()⟩ :=
  ⟨by decide,
    Set_idempotent [tok "ports", tok "2"] widget
      ⟨.expr (.TupleConsExpr [.other "80", .other "443"]), some (.body widgetBody),
        [.attrExpr "ports"], []⟩ (tok "2") prodValue rfl rfl (by decide)
      (by
        intro exprs i h1 h2
        have hi : ParseInt (tok "2").Value = some 2 := by decide
        rw [hi] at h2
        simp only [Node.expr.injEq, Expression.TupleConsExpr.injEq] at h1
        simp only [Option.some.injEq] at h2
        subst h1
        subst h2
        decide)
      (by
        intro t vb _ h
        cases h)⟩


/-! ## The index -1 and the last element -/

theorem digitChar_spec (d : Nat) (h : d < 10) :
    ('0' ≤ digitChar d ∧ digitChar d ≤ '9') ∧ (digitChar d).toNat - '0'.toNat = d ∧
      digitChar d ≠ '+' ∧ digitChar d ≠ '-' := by
  interval_cases d <;> decide

theorem parseDigits_append (l : List Char) (c : Char) (acc : Nat) :
    parseDigits (l ++ [c]) acc =
      match parseDigits l acc with
      | some v => if '0' ≤ c ∧ c ≤ '9' then some (v * 10 + (c.toNat - '0'.toNat)) else none
      | none => none := by
  induction l generalizing acc with
  | nil =>
    simp only [List.nil_append, parseDigits]
  | cons x xs ih =>
    simp only [List.cons_append, parseDigits]
    split
    · exact ih _
    · rfl

theorem parseDigits_decimalRev (fuel n : Nat) (hf : 0 < fuel) (hn : n < 10 ^ fuel) :
    parseDigits (decimalRev fuel n).reverse 0 = some n := by
  induction fuel generalizing n with
  | zero => omega
  | succ fuel ih =>
    have hd := digitChar_spec (n % 10) (Nat.mod_lt _ (by decide))
    unfold decimalRev
    rw [List.reverse_cons, parseDigits_append]
    have hrest : parseDigits (if n / 10 = 0 then [] else decimalRev fuel (n / 10)).reverse 0 =
        some (n / 10) := by
      by_cases h0 : n / 10 = 0
      · simp [h0, parseDigits]
      · rw [if_neg h0]
        have hlt : n / 10 < 10 ^ fuel := by
          rw [Nat.div_lt_iff_lt_mul (by decide)]
          rw [pow_succ] at hn
          exact hn
        have hf' : 0 < fuel := by
          rcases Nat.eq_zero_or_pos fuel with e | e
          · subst e
            simp at hlt
            exact absurd hlt h0
          · exact e
        exact ih (n / 10) hf' hlt
    rw [hrest]
    simp only [hd.1, and_self, if_true, hd.2.1]
    congr 1
    omega

theorem decimalRev_digits (fuel n : Nat) :
    ∀ c ∈ decimalRev fuel n, c ≠ '+' ∧ c ≠ '-' := by
  induction fuel generalizing n with
  | zero => intro c hc; simp [decimalRev] at hc
  | succ fuel ih =>
    intro c hc
    unfold decimalRev at hc
    rcases List.mem_cons.mp hc with e | hmem
    · subst e
      exact (digitChar_spec (n % 10) (Nat.mod_lt _ (by decide))).2.2
    · split at hmem
      · simp at hmem
      · exact ih _ c hmem

/-- The decimal numeral of a number below `2 ^ 63` parses as that number. -/
theorem ParseInt_decimal (n : Nat) (h : n < 2 ^ 63) : ParseInt (decimal n) = some (n : Int) := by
  have hparse := parseDigits_decimalRev (n + 1) n (by omega) (Nat.lt_pow_self (by decide) _ |>.trans_le
    (Nat.pow_le_pow_right (by decide) (Nat.le_succ n)))
  have hdig := decimalRev_digits (n + 1) n
  unfold ParseInt decimal
  simp only [String.toList]
  cases hl : (decimalRev (n + 1) n).reverse with
  | nil =>
    rw [hl] at hparse
    simp [parseDigits] at hparse
    subst hparse
    simp [decimalRev] at hl
  | cons c cs =>
    have hc : c ∈ decimalRev (n + 1) n := by
      have : c ∈ (decimalRev (n + 1) n).reverse := by rw [hl]; simp
      simpa using this
    obtain ⟨hplus, hminus⟩ := hdig c hc
    rw [hl] at hparse
    simp only [hplus, hminus, or_self, if_false, hparse]
    rw [if_neg (by omega)]


theorem Search_last_irrelevant (pre : List JSONPointerPathToken) (a b : JSONPointerPathToken)
    (r : Resource) : Search (pre ++ [a]) r = Search (pre ++ [b]) r := by
  unfold Search
  rw [List.dropLast_concat, List.dropLast_concat]

theorem dropLast_getLast?_snoc (pre : List JSONPointerPathToken) (a : JSONPointerPathToken) :
    (pre ++ [a]).dropLast.getLast? = pre.getLast? := by
  rw [List.dropLast_concat]

/-- C20. Index `-1` addresses the last element: for a non-empty TupleExpression or BlockGroup
of length `n` (at most `2 ^ 63`, as every Go slice), the segment `-1` behaves identically to
the decimal segment `n - 1` (same outcome and same resulting tree), as an intermediate
segment of `Search` and as the terminal segment of `Replace`, `Remove` and `Set` on a tuple
or block group and of `Add` on a block group. -/
theorem last_index_alias (pre : List JSONPointerPathToken) (tk tk' last : JSONPointerPathToken)
    (r : Resource) (c : Cursor) (value : Value) (n : Nat)
    (hs : Search (pre ++ [tk]) r = .ok c) (hlen : c.target.seqLength? = some n)
    (hn : 0 < n) (hbound : n ≤ 2 ^ 63)
    (hneg : tk.Value = "-1") (hdec : tk'.Value = decimal (n - 1)) :
    Search (pre ++ [tk, last]) r = Search (pre ++ [tk', last]) r ∧
      Replace (pre ++ [tk]) r value = Replace (pre ++ [tk']) r value ∧
      Remove (pre ++ [tk]) r = Remove (pre ++ [tk']) r ∧
      Set (pre ++ [tk]) r value = Set (pre ++ [tk']) r value ∧
      ((∃ t, c.target = .bodies t) →
        Add (pre ++ [tk]) r value = Add (pre ++ [tk']) r value) := by
  have hs' : Search (pre ++ [tk']) r = .ok c := by
    rw [Search_last_irrelevant pre tk' tk r]; exact hs
  have hl := getLast?_snoc pre tk
  have hl' := getLast?_snoc pre tk'
  have hd := dropLast_getLast?_snoc pre tk
  have hd' := dropLast_getLast?_snoc pre tk'
  have hp : ParseInt tk.Value = some (-1) := by rw [hneg]; decide
  have hp' : ParseInt tk'.Value = some (((n - 1 : Nat) : Int)) := by
    rw [hdec]; exact ParseInt_decimal (n - 1) (by omega)
  have hr : resolveIndex n (-1) = .ok (n - 1) := resolveIndex_last n hn
  have hr' : resolveIndex n (((n - 1 : Nat) : Int)) = .ok (n - 1) := by
    rw [resolveIndex_inRange _ _ (by omega) (by omega)]
    simp
  have hstep : searchStep c tk.Value = searchStep c tk'.Value := by
    cases hc : c.target with
    | body t => rw [hc] at hlen; cases hlen
    | bodies t =>
      rw [hc] at hlen
      simp only [Node.seqLength?, Option.some.injEq] at hlen
      subst hlen
      simp only [searchStep, hc, hp, hp', hr, hr']
    | expr e =>
      cases e with
      | ObjectConsExpr items => rw [hc] at hlen; cases hlen
      | other src => rw [hc] at hlen; cases hlen
      | TupleConsExpr exprs =>
        rw [hc] at hlen
        simp only [Node.seqLength?, Option.some.injEq] at hlen
        subst hlen
        simp only [searchStep, hc, hp, hp', hr, hr']
  refine ⟨?_, ?_, ?_, ?_, ?_⟩
  · rw [Search_snoc, Search_snoc, hs, hs']
    exact hstep
  · cases hc : c.target with
    | body t => rw [hc] at hlen; cases hlen
    | bodies t =>
      rw [hc] at hlen
      simp only [Node.seqLength?, Option.some.injEq] at hlen
      subst hlen
      simp only [Replace, hs, hs', hl, hl', hc, hp, hp', hr, hr']
    | expr e =>
      cases e with
      | ObjectConsExpr items => rw [hc] at hlen; cases hlen
      | other src => rw [hc] at hlen; cases hlen
      | TupleConsExpr exprs =>
        rw [hc] at hlen
        simp only [Node.seqLength?, Option.some.injEq] at hlen
        subst hlen
        simp only [Replace, hs, hs', hl, hl', hc, hp, hp', hr, hr']
  · cases hc : c.target with
    | body t => rw [hc] at hlen; cases hlen
    | bodies t =>
      rw [hc] at hlen
      simp only [Node.seqLength?, Option.some.injEq] at hlen
      subst hlen
      simp only [Remove, hs, hs', hl, hl', hd, hd', hc, hp, hp', hr, hr']
    | expr e =>
      cases e with
      | ObjectConsExpr items => rw [hc] at hlen; cases hlen
      | other src => rw [hc] at hlen; cases hlen
      | TupleConsExpr exprs =>
        rw [hc] at hlen
        simp only [Node.seqLength?, Option.some.injEq] at hlen
        subst hlen
        simp only [Remove, hs, hs', hl, hl', hc, hp, hp', hr, hr']
  · cases hc : c.target with
    | body t => rw [hc] at hlen; cases hlen
    | bodies t =>
      rw [hc] at hlen
      simp only [Node.seqLength?, Option.some.injEq] at hlen
      subst hlen
      simp only [Set, hs, hs', hl, hl', hc, hp, hp', hr, hr']
    | expr e =>
      cases e with
      | ObjectConsExpr items => rw [hc] at hlen; cases hlen
      | other src => rw [hc] at hlen; cases hlen
      | TupleConsExpr exprs =>
        rw [hc] at hlen
        simp only [Node.seqLength?, Option.some.injEq] at hlen
        subst hlen
        simp only [Set, hs, hs', hl, hl', hc, hp, hp', hr, hr']
  · intro ⟨t, hc⟩
    rw [hc] at hlen
    simp only [Node.seqLength?, Option.some.injEq] at hlen
    subst hlen
    simp only [Add, hs, hs', hl, hl', hc, hp, hp', hr, hr']


/-- C20, witness: on the three-element tuple `ports` of `widgetThreePorts` the segment `-1`
behaves as the segment `2`. -/
theorem last_index_alias_witness :
    decimal 2 = "2" ∧
      Search [tok "ports", tok "-1", tok "x"] widgetThreePorts =
        Search [tok "ports", tok "2", tok "x"] widgetThreePorts ∧
      Replace [tok "ports", tok "-1"] widgetThreePorts prodValue =
        Replace [tok "ports", tok "2"] widgetThreePorts prodValue ∧
      Remove [tok "ports", tok "-1"] widgetThreePorts =
        Remove [tok "ports", tok "2"] widgetThreePorts ∧
      Set [tok "ports", tok "-1"] widgetThreePorts prodValue =
        Set [tok "ports", tok "2"] widgetThreePorts prodValue :=
  have h := last_index_alias [tok "ports"] (tok "-1") (tok "2") (tok "x") widgetThreePorts
    ⟨.expr (.TupleConsExpr [.other "80", .other "443", .other "8080"]),
      some (.body ⟨[("ports", ⟨"ports",
        .TupleConsExpr [.other "80", .other "443", .other "8080"], rng 1, rng 1⟩)], []⟩),
      [.attrExpr "ports"], []⟩ prodValue 3 rfl rfl (by decide) (by decide) rfl (by decide)
  ⟨by decide, h.1, h.2.1, h.2.2.1, h.2.2.2.1⟩


/-! ## Value kinds -/

/-- A path whose resolution ends at a node that is not a Body has at least one token: with
no token `Search` returns the resource body itself. -/
theorem Search_getLast (op : JSONPointerPathOperator) (r : Resource) (c : Cursor)
    (hs : Search op r = .ok c) (hc : ∀ b, c.target ≠ .body b) :
    ∃ tk, op.getLast? = some tk := by
  cases op with
  | nil =>
    exfalso
    unfold Search at hs
    cases hcfg : r.Config with
    | foreign => simp [hcfg] at hs
    | native b =>
      simp only [hcfg, List.dropLast_nil, List.map_nil, searchLoop, Result.ok.injEq] at hs
      exact hc b (by rw [← hs])
  | cons tk rest =>
    cases h : (tk :: rest).getLast? with
    | none => simp at h
    | some x => exact ⟨x, rfl⟩

/-- C21. Value-kind mismatch on expression and block-group targets.  When the path resolves
to an ObjectExpression or a TupleExpression and the value carries no Attribute (it is a
Block), each of `Add`, `Replace` and `Set` fails with the error "want patch attribute but
got patch block"; when the path resolves to a BlockGroup and the value carries no Block (it
is an Attribute), each fails with "want patch block but got patch attribute".  The outcome is
the same for every terminal segment, also for one that is not an index, and the resource is
unchanged. -/
theorem value_kind_mismatch (op : JSONPointerPathOperator) (r : Resource) (c : Cursor)
    (value : Value) (hs : Search op r = .ok c) :
    ((((∃ items, c.target = .expr (.ObjectConsExpr items)) ∨
          (∃ exprs, c.target = .expr (.TupleConsExpr exprs))) ∧ value.Attribute = none) →
        Add op r value = ⟨r, .err .wantAttribute⟩ ∧
          Replace op r value = ⟨r, .err .wantAttribute⟩ ∧
          Set op r value = ⟨r, .err .wantAttribute⟩) ∧
      (((∃ bs, c.target = .bodies bs) ∧ value.Block = none) →
        Add op r value = ⟨r, .err .wantBlock⟩ ∧
          Replace op r value = ⟨r, .err .wantBlock⟩ ∧
          Set op r value = ⟨r, .err .wantBlock⟩) := by
  refine ⟨?_, ?_⟩
  · rintro ⟨ht, hv⟩
    rcases ht with ⟨items, ht⟩ | ⟨exprs, ht⟩
    · obtain ⟨tk, hl⟩ := Search_getLast op r c hs (by rw [ht]; intro b hb; cases hb)
      refine ⟨?_, ?_, ?_⟩
      · simp only [Add, hs, hl, ht, hv]
      · simp only [Replace, hs, hl, ht, hv]
      · simp only [Set, hs, hl, ht, hv]
    · obtain ⟨tk, hl⟩ := Search_getLast op r c hs (by rw [ht]; intro b hb; cases hb)
      refine ⟨?_, ?_, ?_⟩
      · simp only [Add, hs, hl, ht, hv]
      · simp only [Replace, hs, hl, ht, hv]
      · simp only [Set, hs, hl, ht, hv]
  · rintro ⟨⟨bs, ht⟩, hv⟩
    obtain ⟨tk, hl⟩ := Search_getLast op r c hs (by rw [ht]; intro b hb; cases hb)
    refine ⟨?_, ?_, ?_⟩
    · simp only [Add, hs, hl, ht, hv]
    · simp only [Replace, hs, hl, ht, hv]
    · simp only [Set, hs, hl, ht, hv]

/-- C21, witness: on `widget` a Block value at the object `meta` and at the tuple `ports`
(with the terminal segment `x`, which is no index) is refused with want-attribute, and an
Attribute value at the block group `tags` is refused with want-block. -/
theorem value_kind_mismatch_witness :
    (Add [tok "meta", tok "owner"] widget envBlockValue = ⟨widget, .err .wantAttribute⟩ ∧
        Replace [tok "meta", tok "owner"] widget envBlockValue = ⟨widget, .err .wantAttribute⟩ ∧
        Set [tok "meta", tok "owner"] widget envBlockValue = ⟨widget, .err .wantAttribute⟩) ∧
      (Add [tok "ports", tok "x"] widget envBlockValue = ⟨widget, .err .wantAttribute⟩ ∧
        Replace [tok "ports", tok "x"] widget envBlockValue = ⟨widget, .err .wantAttribute⟩ ∧
        Set [tok "ports", tok "x"] widget envBlockValue = ⟨widget, .err .wantAttribute⟩) ∧
      (Add [tok "tags", tok "x"] widget prodValue = ⟨widget, .err .wantBlock⟩ ∧
        Replace [tok "tags", tok "x"] widget prodValue = ⟨widget, .err .wantBlock⟩ ∧
        Set [tok "tags", tok "x"] widget prodValue = ⟨widget, .err .wantBlock⟩) :=
  ⟨(value_kind_mismatch [tok "meta", tok "owner"] widget
      ⟨.expr (.ObjectConsExpr [⟨.traversal "owner" [], .other "ops"⟩]), some (.body widgetBody),
        [.attrExpr "meta"], []⟩ envBlockValue rfl).1 ⟨.inl ⟨_, rfl⟩, rfl⟩,
    (value_kind_mismatch [tok "ports", tok "x"] widget
      ⟨.expr (.TupleConsExpr [.other "80", .other "443"]), some (.body widgetBody),
        [.attrExpr "ports"], []⟩ envBlockValue rfl).1 ⟨.inr ⟨_, rfl⟩, rfl⟩,
    (value_kind_mismatch [tok "tags", tok "x"] widget
      ⟨.bodies [tagsBlock.Body], some (.body widgetBody), [.blocks "tags"], []⟩
      prodValue rfl).2 ⟨⟨_, rfl⟩, rfl⟩⟩

/-! ## Add through a block -/

/-- The path of the segments `tags`, `0` and a terminal segment resolves, in a body without
attribute `tags` whose group of `tags` blocks starts with the body `bd`, to `bd`. -/
theorem Search_tags_first (r : Resource) (b bd : Body) (bds : List Body)
    (last : JSONPointerPathToken)
    (hcfg : r.Config = .native b) (hattr : b.Attributes.lookup "tags" = none)
    (hgrp : collectBodies "tags" b.Blocks [] = .ok (bd :: bds)) :
    Search [tok "tags", tok "0", last] r =
      .ok ⟨.body bd, some (.body b), [.blocks "tags", .member 0], []⟩ := by
  have hp : ParseInt "0" = some 0 := by decide
  have hr : resolveIndex (bd :: bds).length 0 = .ok 0 := by
    unfold resolveIndex
    simp only [List.length_cons]
    have h1 : ¬ ((0 : Int) = -1) := by decide
    simp only [h1, if_false]
    have h2 : ¬ (((bds.length + 1 : Nat) : Int) - 1 < 0) := by push_cast; omega
    simp only [h2, if_false]
    simp
  simp only [Search, hcfg, List.dropLast, List.map, searchLoop, searchStep, tok, hattr, hgrp,
    List.length_cons, Nat.add_one_ne_zero, if_false, hp]
  simp only [List.length_cons] at hr
  simp only [hr, List.getElem?_cons_zero]
  rfl

/-- The path of the segments `tags` and a terminal segment resolves, in a body without
attribute `tags` that has blocks for `tags`, to the block group. -/
theorem Search_tags_group (r : Resource) (b bd : Body) (bds : List Body)
    (last : JSONPointerPathToken)
    (hcfg : r.Config = .native b) (hattr : b.Attributes.lookup "tags" = none)
    (hgrp : collectBodies "tags" b.Blocks [] = .ok (bd :: bds)) :
    Search [tok "tags", last] r =
      .ok ⟨.bodies (bd :: bds), some (.body b), [.blocks "tags"], []⟩ := by
  simp only [Search, hcfg, List.dropLast, List.map, searchLoop, searchStep, tok, hattr, hgrp,
    List.length_cons, Nat.add_one_ne_zero, if_false]
  rfl

/-- C22 (as stated, refuted). The body of `widget` has the block `tags { team = "a" }`,
without attribute `env`.  The path with the segments `tags`, `env` resolves `tags` to the
block group, not to the body of the block, and `Add` with the Attribute value `"prod"`
fails with "want patch block but got patch attribute"; the resource is unchanged. -/
theorem Add_tags_env_fails :
    NewJSONPointerPathOperator "/tags/env" = .ok [tok "tags", tok "env"] ∧
      Search [tok "tags", tok "env"] widget =
        .ok ⟨.bodies [tagsBlock.Body], some (.body widgetBody), [.blocks "tags"], []⟩ ∧
      tagsBlock.Body.Attributes.lookup "env" = none ∧
      Add [tok "tags", tok "env"] widget prodValue = ⟨widget, .err .wantBlock⟩ ∧
      (Add [tok "tags", tok "env"] widget prodValue).status ≠ .ok () :=
  ⟨by decide, rfl, rfl, rfl, by decide⟩

/-- C22 (amended). End-to-end `Add` through a block.  For a resource whose body has no
attribute `tags` and whose first `tags` block contains no attribute `env`, the operation
add with the path of the segments `tags`, `0`, `env` and an Attribute value succeeds;
afterwards the body of that block has the attribute `env` with the value's expression next
to its former attributes, and everything else in the resource is unchanged: the resource is
the original one with that one body replaced.  With the path of the segments `tags`, `env`
the target is the block group and add fails with want-block, the resource unchanged. -/
theorem Add_through_block (r : Resource) (b bd : Body) (bds : List Body) (value : Value)
    (va : HclAttribute)
    (hcfg : r.Config = .native b) (hattr : b.Attributes.lookup "tags" = none)
    (hgrp : collectBodies "tags" b.Blocks [] = .ok (bd :: bds))
    (henv : bd.Attributes.lookup "env" = none)
    (hv : value.Attribute = some va) (hvb : value.Block = none) :
    NewJSONPointerPathOperator "/tags/0/env" = .ok [tok "tags", tok "0", tok "env"] ∧
      Add [tok "tags", tok "0", tok "env"] r value =
        ⟨r.put [.blocks "tags", .member 0] (.body ⟨bd.Attributes ++
            [("env", ⟨"env", va.Expr, va.Range, va.NameRange⟩)], bd.Blocks⟩), .ok ()⟩ ∧
      (Add [tok "tags", tok "0", tok "env"] r value).resource =
        ⟨r.Type_, r.Name, .native ⟨b.Attributes, scatterBodies "tags" b.Blocks
          (⟨bd.Attributes ++ [("env", ⟨"env", va.Expr, va.Range, va.NameRange⟩)], bd.Blocks⟩ ::
            bds)⟩⟩ ∧
      (∃ q, Search [tok "tags", tok "0", tok "env"]
          (Add [tok "tags", tok "0", tok "env"] r value).resource =
        .ok ⟨.body ⟨bd.Attributes ++
            [("env", ⟨"env", va.Expr, va.Range, va.NameRange⟩)], bd.Blocks⟩, q,
          [.blocks "tags", .member 0], []⟩) ∧
      (∀ k, (bd.Attributes ++
            [("env", (⟨"env", va.Expr, va.Range, va.NameRange⟩ : Attribute))]).lookup k =
          if k = "env" then some ⟨"env", va.Expr, va.Range, va.NameRange⟩
          else bd.Attributes.lookup k) ∧
      Add [tok "tags", tok "env"] r value = ⟨r, .err .wantBlock⟩ := by
  have hs := Search_tags_first r b bd bds (tok "env") hcfg hattr hgrp
  have hg := Search_tags_group r b bd bds (tok "env") hcfg hattr hgrp
  have hl : [tok "tags", tok "0", tok "env"].getLast? = some (tok "env") := rfl
  have hl2 : [tok "tags", tok "env"].getLast? = some (tok "env") := rfl
  have henv2 : bd.Attributes.lookup (tok "env").Value = none := henv
  have hadd : Add [tok "tags", tok "0", tok "env"] r value =
      ⟨r.put [.blocks "tags", .member 0] (.body ⟨bd.Attributes ++
          [("env", ⟨"env", va.Expr, va.Range, va.NameRange⟩)], bd.Blocks⟩), .ok ()⟩ := by
    simp only [Add, hs, hl, hv, henv2]
    rfl
  refine ⟨by decide, hadd, ?_, ?_, fun k => lookup_append_singleton _ _ _ _ henv, ?_⟩
  · rw [hadd]
    simp only [Resource.put, hcfg, Node.put, hgrp, List.getElem?_cons_zero, List.set_cons_zero]
  · rw [hadd]
    exact Search_put [tok "tags", tok "0", tok "env"] r _ _ hs trivial
  · simp only [Add, hg, hl2, hvb]

/-- C22, witness: on `widget` the operation add at the segments `tags`, `0`, `env` with
the value `"prod"` puts `env = "prod"` into the block `tags` and leaves the attributes and
the block `dynamic "foo"` as they were; at the segments `tags`, `env` it fails. -/
theorem Add_through_block_witness :
    NewJSONPointerPathOperator "/tags/0/env" = .ok [tok "tags", tok "0", tok "env"] ∧
      Add [tok "tags", tok "0", tok "env"] widget prodValue =
        ⟨⟨"widget", "w", .native ⟨widgetBody.Attributes,
          [⟨"tags", [], ⟨[attr "team" "\"a\"" 3,
              ("env", ⟨"env", .other "\"prod\"", rng 20, rng 20⟩)], []⟩, rng 2, []⟩,
            dynamicFoo]⟩⟩, .ok ()⟩ ∧
      Add [tok "tags", tok "env"] widget prodValue = ⟨widget, .err .wantBlock⟩ :=
  have h := Add_through_block widget widgetBody tagsBlock.Body [] prodValue
    ⟨"value", .other "\"prod\"", rng 20, rng 20⟩ rfl rfl rfl rfl rfl rfl
  ⟨h.1, h.2.1, h.2.2.2.2.2⟩

/-! ## Add twice -/

theorem blockExists_append (seg : String) (xs ys : List Block)
    (h : blockExists seg xs = .ok false) :
    blockExists seg (xs ++ ys) = blockExists seg ys := by
  induction xs with
  | nil => rfl
  | cons blk rest ih =>
    unfold blockExists at h
    simp only [List.cons_append]
    conv_lhs => unfold blockExists
    by_cases hd : blk.Type_ = dynamicBlockType
    · simp only [hd, if_true] at h ⊢
      cases hlab : blk.Labels with
      | nil => simp [hlab] at h
      | cons l ls =>
        simp only [hlab] at h ⊢
        by_cases hl : l = seg
        · simp [hl] at h
        · simp only [hl, if_false] at h ⊢
          exact ih h
    · simp only [hd, if_false] at h ⊢
      by_cases ht : blk.Type_ = seg
      · simp [ht] at h
      · simp only [ht, if_false] at h ⊢
        exact ih h

/-- C23 (as stated, refuted). On `widgetDynamic` the operation add at the segment `dynamic`
with a Block value succeeds and appends a block of type `dynamic` without label; the
identical add on the patched resource does not fail with already-exists: it looks at the
new `dynamic` block through its first label, which does not exist, and panics. -/
theorem Add_twice_dynamic_segment :
    (Add [tok "dynamic"] widgetDynamic envBlockValue).status = .ok () ∧
      (Add [tok "dynamic"] widgetDynamic envBlockValue).resource =
        ⟨"widget", "w", .native ⟨[], [dynamicFoo,
            ⟨"dynamic", [], ⟨[attr "env" "\"prod\"" 21], []⟩, rng 20, []⟩]⟩⟩ ∧
      Add [tok "dynamic"] (Add [tok "dynamic"] widgetDynamic envBlockValue).resource
          envBlockValue =
        ⟨(Add [tok "dynamic"] widgetDynamic envBlockValue).resource, .panic .indexOutOfRange⟩ ∧
      (Add [tok "dynamic"] (Add [tok "dynamic"] widgetDynamic envBlockValue).resource
          envBlockValue).status ≠ .err .alreadyExists :=
  ⟨by decide, rfl, rfl, by decide⟩

/-- C23 (amended). `Add` is not idempotent on named slots: for a Body target with an
Attribute value, a Body target with a Block value and a terminal segment other than
`dynamic`, and an ObjectExpression target with an Attribute value, if `Add` succeeds then
the identical `Add` on the patched tree fails with already-exists and leaves that tree
unchanged. -/
theorem Add_twice_fails (op : JSONPointerPathOperator) (r : Resource) (c : Cursor)
    (tk : JSONPointerPathToken) (value : Value)
    (hs : Search op r = .ok c) (hl : op.getLast? = some tk)
    (hok : (Add op r value).status = .ok ())
    (hkind : (∃ t, c.target = .body t ∧
          (value.Attribute.isSome ∨
            (value.Block.isSome ∧ tk.Value ≠ dynamicBlockType))) ∨
        (∃ items, c.target = .expr (.ObjectConsExpr items))) :
    Add op (Add op r value).resource value =
      ⟨(Add op r value).resource, .err .alreadyExists⟩ := by
  rcases hkind with ⟨t, ht, hval⟩ | ⟨items, ht⟩
  · cases hva : value.Attribute with
    | some va =>
      cases hlook : t.Attributes.lookup tk.Value with
      | some a =>
        exfalso
        simp only [Add, hs, hl, ht, hva, hlook] at hok
        simp at hok
      | none =>
        have hadd : Add op r value =
            ⟨r.put c.loc (.body ⟨t.Attributes ++
                [(tk.Value, ⟨tk.Value, va.Expr, va.Range, va.NameRange⟩)], t.Blocks⟩),
              .ok ()⟩ := by
          simp only [Add, hs, hl, ht, hva, hlook]
          rfl
        obtain ⟨q, hq⟩ := Search_put op r c (.body ⟨t.Attributes ++
            [(tk.Value, ⟨tk.Value, va.Expr, va.Range, va.NameRange⟩)], t.Blocks⟩) hs
            (by rw [ht]; trivial)
        rw [hadd]
        have hnew : (t.Attributes ++
            [(tk.Value, (⟨tk.Value, va.Expr, va.Range, va.NameRange⟩ : Attribute))]).lookup
              tk.Value = some ⟨tk.Value, va.Expr, va.Range, va.NameRange⟩ := by
          rw [lookup_append_singleton _ _ _ _ hlook]
          simp
        simp only [Add, hq, hl, hva, hnew]
        rfl
    | none =>
      rw [hva] at hval
      rcases hval with hval | ⟨hvb, hnd⟩
      · simp at hval
      · cases hvb' : value.Block with
        | none => rw [hvb'] at hvb; simp at hvb
        | some vb =>
          cases hex : blockExists tk.Value t.Blocks with
          | panic p =>
            exfalso
            simp only [Add, hs, hl, ht, hva, hvb', hex] at hok
            simp at hok
          | err e =>
            exfalso
            simp only [Add, hs, hl, ht, hva, hvb', hex] at hok
            simp at hok
          | ok found =>
            cases found with
            | true =>
              exfalso
              simp only [Add, hs, hl, ht, hva, hvb', hex] at hok
              simp at hok
            | false =>
              have hadd : Add op r value =
                  ⟨r.put c.loc (.body ⟨t.Attributes, t.Blocks ++
                      [⟨tk.Value, vb.Labels, vb.Body, vb.TypeRange, vb.LabelRanges⟩]⟩),
                    .ok ()⟩ := by
                simp only [Add, hs, hl, ht, hva, hvb', hex]
              obtain ⟨q, hq⟩ := Search_put op r c (.body ⟨t.Attributes, t.Blocks ++
                  [⟨tk.Value, vb.Labels, vb.Body, vb.TypeRange, vb.LabelRanges⟩]⟩) hs
                  (by rw [ht]; trivial)
              rw [hadd]
              have hnew : blockExists tk.Value (t.Blocks ++
                  [(⟨tk.Value, vb.Labels, vb.Body, vb.TypeRange, vb.LabelRanges⟩ : Block)]) =
                    .ok true := by
                rw [blockExists_append _ _ _ hex]
                simp only [blockExists, hnd, if_false, if_true]
              simp only [Add, hq, hl, hva, hvb', hnew]
  · cases hva : value.Attribute with
    | none =>
      exfalso
      simp only [Add, hs, hl, ht, hva] at hok
      simp at hok
    | some va =>
      by_cases hany : items.any (fun it => decide (it.KeyExpr.rootName? = some tk.Value)) = true
      · exfalso
        simp only [Add, hs, hl, ht, hva, hany] at hok
        simp at hok
      · have hadd : Add op r value =
            ⟨r.put c.loc (.expr (.ObjectConsExpr
                (items ++ [⟨.traversal tk.Value [], va.Expr⟩]))), .ok ()⟩ := by
          simp only [Add, hs, hl, ht, hva, hany]
          rfl
        obtain ⟨q, hq⟩ := Search_put op r c (.expr (.ObjectConsExpr
            (items ++ [⟨.traversal tk.Value [], va.Expr⟩]))) hs (by rw [ht]; trivial)
        rw [hadd]
        have hnew : (items ++ [(⟨.traversal tk.Value [], va.Expr⟩ :
            ObjectConsItem Expression)]).any
              (fun it => decide (it.KeyExpr.rootName? = some tk.Value)) = true := by
          simp [KeyExpr.rootName?]
        simp only [Add, hq, hl, hva, hnew]
        rfl

/-- C23, witness: on `widget` the operation add of `env = "prod"` succeeds once and fails
with already-exists on the patched resource, which it leaves as it is. -/
theorem Add_twice_fails_witness :
    (Add [tok "env"] widget prodValue).status = .ok () ∧
      Add [tok "env"] (Add [tok "env"] widget prodValue).resource prodValue =
        ⟨(Add [tok "env"] widget prodValue).resource, .err .alreadyExists⟩ :=
  ⟨by decide, Add_twice_fails [tok "env"] widget ⟨.body widgetBody, none, [], []⟩ (tok "env")
    prodValue rfl rfl (by decide) (.inl ⟨widgetBody, rfl, .inl rfl⟩)⟩

/-! ## Override merge -/

theorem lookup_mapAssign {α : Type} (k n : String) (v : α) (m : List (String × α)) :
    (mapAssign k v m).lookup n = if n = k then some v else m.lookup n := by
  induction m with
  | nil =>
    by_cases h : n = k
    · simp [mapAssign, List.lookup, h]
    · have hb : (n == k) = false := by simpa using h
      simp [mapAssign, List.lookup, h, hb]
  | cons e rest ih =>
    obtain ⟨k', v'⟩ := e
    unfold mapAssign
    by_cases hk : k = k'
    · subst hk
      simp only [if_true]
      by_cases h : n = k
      · subst h
        simp [List.lookup]
      · have hb : (n == k) = false := by simpa using h
        simp [List.lookup, h, hb]
    · simp only [hk, if_false]
      by_cases h : n = k'
      · subst h
        have hne : ¬ n = k := fun e => hk e.symm
        simp [List.lookup, hne]
      · have hb : (n == k') = false := by simpa using h
        simp only [List.lookup, hb]
        exact ih

theorem keys_mapAssign {α : Type} (k : String) (v : α) (m : List (String × α)) :
    (mapAssign k v m).map Prod.fst =
      if k ∈ m.map Prod.fst then m.map Prod.fst else m.map Prod.fst ++ [k] := by
  induction m with
  | nil => simp [mapAssign]
  | cons e rest ih =>
    obtain ⟨k', v'⟩ := e
    unfold mapAssign
    by_cases hk : k = k'
    · subst hk
      simp
    · simp only [hk, if_false, List.map_cons, ih, List.mem_cons, false_or]
      by_cases hm : k ∈ rest.map Prod.fst
      · simp [hm]
      · simp [hm]

theorem nodup_keys_mapAssign {α : Type} (k : String) (v : α) (m : List (String × α))
    (h : (m.map Prod.fst).Nodup) : ((mapAssign k v m).map Prod.fst).Nodup := by
  rw [keys_mapAssign]
  by_cases hm : k ∈ m.map Prod.fst
  · simp only [hm, if_true]
    exact h
  · simp only [hm, if_false]
    rw [List.nodup_append]
    refine ⟨h, List.nodup_singleton k, ?_⟩
    intro a ha hb
    rw [List.mem_singleton] at hb
    subst hb
    exact hm ha

theorem lookup_eq_none_of_not_mem_keys {α : Type} (k : String) (m : List (String × α))
    (h : k ∉ m.map Prod.fst) : m.lookup k = none := by
  induction m with
  | nil => rfl
  | cons e rest ih =>
    obtain ⟨k', v'⟩ := e
    simp only [List.map_cons, List.mem_cons, not_or] at h
    have hb : (k == k') = false := by simpa using h.1
    simp only [List.lookup, hb]
    exact ih h.2

/-- Assigning the entries of a map `src` to a map `dst`: a name of `src` gets the value of
`src`, any other name keeps the value it has in `dst`. -/
theorem lookup_assignAll {α : Type} (dst src : List (String × α)) (n : String)
    (hnodup : (src.map Prod.fst).Nodup) :
    (assignAll dst src).lookup n =
      match src.lookup n with
      | some a => some a
      | none => dst.lookup n := by
  induction src generalizing dst with
  | nil => rfl
  | cons e rest ih =>
    obtain ⟨k, v⟩ := e
    simp only [List.map_cons, List.nodup_cons] at hnodup
    have hrest := ih (mapAssign k v dst) hnodup.2
    have hstep : assignAll dst ((k, v) :: rest) = assignAll (mapAssign k v dst) rest := rfl
    rw [hstep, hrest]
    by_cases h : n = k
    · subst h
      rw [lookup_eq_none_of_not_mem_keys n rest hnodup.1, lookup_mapAssign]
      simp [List.lookup]
    · have hb : (n == k) = false := by simpa using h
      rw [lookup_mapAssign]
      simp only [h, if_false, List.lookup, hb]

theorem nodup_keys_assignAll {α : Type} (dst src : List (String × α))
    (h : (dst.map Prod.fst).Nodup) : ((assignAll dst src).map Prod.fst).Nodup := by
  induction src generalizing dst with
  | nil => exact h
  | cons e rest ih => exact ih (mapAssign e.1 e.2 dst) (nodup_keys_mapAssign _ _ _ h)

/-- The set of names the override contributes, when its `dynamic` blocks are labelled: the
identities of its blocks. -/
theorem overrideTypes_eq (blocks : List Block) (obts : List String)
    (hwf : ∀ blk ∈ blocks, blk.Type_ = dynamicBlockType → 0 < blk.Labels.length) :
    ∃ ids, overrideTypes blocks obts = .ok (obts ++ ids) ∧
      ids.map some = blocks.map blockIdentity := by
  induction blocks generalizing obts with
  | nil => exact ⟨[], by simp [overrideTypes], rfl⟩
  | cons blk rest ih =>
    have hrest := fun acc => ih acc (fun b hb => hwf b (List.mem_cons_of_mem _ hb))
    unfold overrideTypes
    by_cases hd : blk.Type_ = "dynamic"
    · have hl := hwf blk (List.mem_cons_self _ _) hd
      simp only [hd, if_true]
      cases hlab : blk.Labels with
      | nil => rw [hlab] at hl; simp at hl
      | cons l ls =>
        obtain ⟨ids, hids, hmap⟩ := hrest (obts ++ [l])
        refine ⟨l :: ids, ?_, ?_⟩
        · simp only [hids, List.append_assoc, List.singleton_append]
        · simp [blockIdentity, hd, hlab, hmap]
    · simp only [hd, if_false]
      obtain ⟨ids, hids, hmap⟩ := hrest (obts ++ [blk.Type_])
      refine ⟨blk.Type_ :: ids, ?_, ?_⟩
      · simp only [hids, List.append_assoc, List.singleton_append]
      · simp [blockIdentity, hd, hmap]

theorem keepBaseBlocks_eq (obts : List String) (blocks blks : List Block)
    (hwf : ∀ blk ∈ blocks, blk.Type_ = dynamicBlockType → 0 < blk.Labels.length) :
    keepBaseBlocks obts blocks blks =
      .ok (blks ++ blocks.filter (fun blk => !skipped obts blk)) := by
  induction blocks generalizing blks with
  | nil => simp [keepBaseBlocks]
  | cons blk rest ih =>
    have hrest := fun acc => ih acc (fun b hb => hwf b (List.mem_cons_of_mem _ hb))
    unfold keepBaseBlocks
    by_cases hd : blk.Type_ = "dynamic"
    · have hl := hwf blk (List.mem_cons_self _ _) hd
      simp only [hd, if_true]
      cases hlab : blk.Labels with
      | nil => rw [hlab] at hl; simp at hl
      | cons l ls =>
        simp only []
        by_cases hm : l ∈ obts
        · simp only [hm, if_true, hrest]
          simp [List.filter_cons, skipped, hd, hlab, hm]
        · simp only [hm, if_false]
          by_cases ht : "dynamic" ∈ obts
          · simp only [ht, if_true, hrest]
            simp [List.filter_cons, skipped, hd, hlab, hm, ht]
          · simp only [ht, if_false, hrest]
            simp [List.filter_cons, skipped, hd, hlab, hm, ht]
    · simp only [hd, if_false]
      by_cases ht : blk.Type_ ∈ obts
      · simp only [ht, if_true, hrest]
        simp [List.filter_cons, skipped, hd, ht]
      · simp only [ht, if_false, hrest]
        simp [List.filter_cons, skipped, hd, ht]

/-- The merge of two resolved bodies whose `dynamic` blocks are labelled returns a body:
the attributes of the base with those of the override assigned to them, and the blocks of
the base that the loop does not skip followed by the blocks of the override. -/
theorem mergeInto_eq (bb ob : Body) (hB : bb.DynamicsLabelled) (hO : ob.DynamicsLabelled) :
    ∃ ids, ids.map some = ob.Blocks.map blockIdentity ∧
      mergeInto bb ob = .ok (.native ⟨assignAll bb.Attributes ob.Attributes,
        bb.Blocks.filter (fun blk => !skipped ids blk) ++ ob.Blocks⟩) := by
  obtain ⟨ids, hids, hmap⟩ := overrideTypes_eq ob.Blocks [] hO
  refine ⟨ids, hmap, ?_⟩
  simp only [List.nil_append] at hids
  simp only [mergeInto, hids, keepBaseBlocks_eq ids bb.Blocks [] hB, List.nil_append]

/-- C24. Override-merge of attributes.  For a base that resolves to the body `B` and an
override that resolves to the body `O` (the `dynamic` blocks of both labelled), `mergeBody`
returns a body whose attribute map has exactly the names of `B` together with the names of
`O`; every name of `O` maps to the attribute of `O`, and every name of `B` that `O` does not
have maps to the attribute of `B`.  The names of `O` are distinct, as the keys of a map
are, and so are those of the merged map when those of `B` are. -/
theorem mergeBody_attributes (base override : HclBody) (B O : Body)
    (hb : mergeBody base = .ok (.native B)) (ho : mergeBody override = .ok (.native O))
    (hB : B.DynamicsLabelled) (hO : O.DynamicsLabelled)
    (hnodup : (O.Attributes.map Prod.fst).Nodup) :
    ∃ M, mergeBody (.MergeBody base override) = .ok (.native M) ∧
      (∀ n, (M.Attributes.lookup n).isSome ↔
        ((B.Attributes.lookup n).isSome ∨ (O.Attributes.lookup n).isSome)) ∧
      (∀ n a, O.Attributes.lookup n = some a → M.Attributes.lookup n = some a) ∧
      (∀ n, O.Attributes.lookup n = none → M.Attributes.lookup n = B.Attributes.lookup n) ∧
      ((B.Attributes.map Prod.fst).Nodup → (M.Attributes.map Prod.fst).Nodup) := by
  obtain ⟨ids, _, hm⟩ := mergeInto_eq B O hB hO
  have hmerge : mergeBody (.MergeBody base override) =
      .ok (.native ⟨assignAll B.Attributes O.Attributes,
        B.Blocks.filter (fun blk => !skipped ids blk) ++ O.Blocks⟩) := by
    simp only [mergeBody, hb, ho, hm]
  refine ⟨⟨assignAll B.Attributes O.Attributes,
    B.Blocks.filter (fun blk => !skipped ids blk) ++ O.Blocks⟩, hmerge, ?_, ?_, ?_, ?_⟩
  · intro n
    simp only [lookup_assignAll _ _ n hnodup]
    cases O.Attributes.lookup n <;> simp
  · intro n a ha
    simp only [lookup_assignAll _ _ n hnodup, ha]
  · intro n ha
    simp only [lookup_assignAll _ _ n hnodup, ha]
  · intro h
    exact nodup_keys_assignAll _ _ h

theorem baseBody_labelled : baseBody.DynamicsLabelled := by
  intro blk hblk hd
  simp only [baseBody, List.mem_cons, List.mem_singleton, List.not_mem_nil, or_false] at hblk
  rcases hblk with h | h <;> subst h <;> exact absurd hd (by decide)

theorem overrideBody_labelled : overrideBody.DynamicsLabelled := by
  intro blk hblk hd
  simp only [overrideBody, List.mem_singleton] at hblk
  subst hblk
  exact absurd hd (by decide)

/-- C24, witness: merging the override `size = 2`, `tier = "gold"` into the base
`size = 1`, `zone = "a"` gives the attributes `size = 2`, `zone = "a"`, `tier = "gold"`. -/
theorem mergeBody_attributes_witness :
    ∃ M, mergeBody (.MergeBody (.native baseBody) (.native overrideBody)) = .ok (.native M) ∧
      (∀ n, (M.Attributes.lookup n).isSome ↔
        ((baseBody.Attributes.lookup n).isSome ∨ (overrideBody.Attributes.lookup n).isSome)) ∧
      (∀ n a, overrideBody.Attributes.lookup n = some a → M.Attributes.lookup n = some a) ∧
      (∀ n, overrideBody.Attributes.lookup n = none →
        M.Attributes.lookup n = baseBody.Attributes.lookup n) ∧
      ((baseBody.Attributes.map Prod.fst).Nodup → (M.Attributes.map Prod.fst).Nodup) :=
  mergeBody_attributes (.native baseBody) (.native overrideBody) baseBody overrideBody rfl rfl
    baseBody_labelled overrideBody_labelled (by decide)

/-- The merge of `overrideBody` into `baseBody`, evaluated. -/
theorem mergeBody_sample :
    mergeBody (.MergeBody (.native baseBody) (.native overrideBody)) =
      .ok (.native ⟨[attr "size" "2" 41, attr "zone" "\"a\"" 2, attr "tier" "\"gold\"" 42],
        [lifecycleBlock, tagsBlockB]⟩) := rfl

theorem skipped_eq_identity (ids : List String) (blk : Block)
    (hl : blk.Type_ = dynamicBlockType → 0 < blk.Labels.length)
    (hnd : "dynamic" ∉ ids) :
    skipped ids blk = (ids.map some).contains (blockIdentity blk) := by
  by_cases hd : blk.Type_ = "dynamic"
  · have hlen := hl hd
    cases hlab : blk.Labels with
    | nil => rw [hlab] at hlen; simp at hlen
    | cons l ls =>
      by_cases hm : l ∈ ids
      · simp [skipped, blockIdentity, hd, hlab, hm]
      · simp [skipped, blockIdentity, hd, hlab, hm, hnd]
  · by_cases hm : blk.Type_ ∈ ids
    · simp [skipped, blockIdentity, hd, hm]
    · simp [skipped, blockIdentity, hd, hm]

/-- Override-merge of blocks, where the override has no `dynamic` block labelled `dynamic`:
`mergeBody` returns a body whose block list is the list the specification describes, the
blocks of the base whose identity does not occur in the override followed by the blocks of
the override. -/
theorem mergeBody_blocks (base override : HclBody) (B O : Body)
    (hb : mergeBody base = .ok (.native B)) (ho : mergeBody override = .ok (.native O))
    (hB : B.DynamicsLabelled) (hO : O.DynamicsLabelled)
    (hnd : ∀ blk ∈ O.Blocks, blockIdentity blk ≠ some "dynamic") :
    ∃ M, mergeBody (.MergeBody base override) = .ok (.native M) ∧
      M.Blocks = mergedBlocksAsStated B.Blocks O.Blocks := by
  obtain ⟨ids, hmap, hm⟩ := mergeInto_eq B O hB hO
  have hmerge : mergeBody (.MergeBody base override) =
      .ok (.native ⟨assignAll B.Attributes O.Attributes,
        B.Blocks.filter (fun blk => !skipped ids blk) ++ O.Blocks⟩) := by
    simp only [mergeBody, hb, ho, hm]
  refine ⟨_, hmerge, ?_⟩
  have hnot : "dynamic" ∉ ids := by
    intro hin
    have h1 : some "dynamic" ∈ ids.map some := List.mem_map.mpr ⟨_, hin, rfl⟩
    rw [hmap] at h1
    obtain ⟨blk, hblk, hid⟩ := List.mem_map.mp h1
    exact hnd blk hblk hid
  simp only [mergedBlocksAsStated, ← hmap]
  congr 1
  apply List.filter_congr
  intro blk hblk
  rw [skipped_eq_identity ids blk (hB blk hblk) hnot]

/-- C25 (code at the failing input). The base has the block `dynamic "foo"`, of identity
`foo`, and the override the block `dynamic "dynamic"`, of identity `dynamic`.  No block of
the override has the identity `foo`, so the merged list is to keep the base block; the loop
over the base blocks tests a `dynamic` block whose label is not in the set once more by
its type, the literal word `dynamic`, finds it in the set and drops the block. -/
theorem mergeBody_drops_dynamic_base_block :
    blockIdentity dynamicFoo = some "foo" ∧
      blockIdentity dynamicDynamic = some "dynamic" ∧
      mergedBlocksAsStated [dynamicFoo] [dynamicDynamic] = [dynamicFoo, dynamicDynamic] ∧
      mergeBody (.MergeBody (.native ⟨[], [dynamicFoo]⟩) (.native ⟨[], [dynamicDynamic]⟩)) =
        .ok (.native ⟨[], [dynamicDynamic]⟩) ∧
      keepBaseBlocks ["dynamic"] [dynamicFoo] [] = .ok [] :=
  ⟨rfl, rfl, rfl, rfl, rfl⟩

/-! ## Dispatcher -/

theorem operateResources_keys (coe : Bool) (op : Operation) (po : JSONPointerPathOperator)
    (ress done : TerraformResources) :
    (operateResources coe op po ress done).resources.map Prod.fst =
      done.map Prod.fst ++ ress.map Prod.fst := by
  induction ress generalizing done with
  | nil => simp [operateResources]
  | cons e rest ih =>
    obtain ⟨rn, r⟩ := e
    unfold operateResources
    cases hcall : callMode op.Mode po r op.Value with
    | none => simp
    | some out =>
      simp only []
      cases hst : out.status with
      | panic p => simp
      | err x =>
        cases coe with
        | false => simp
        | true => simp [ih]
      | ok u => simp [ih]

theorem operateLoop_keys (coe : Bool) (s : String) (ops : List Operation)
    (ress : TerraformResources) :
    (operateLoop coe s ops ress).resources.map Prod.fst = ress.map Prod.fst := by
  induction ops generalizing ress with
  | nil => rfl
  | cons op rest ih =>
    unfold operateLoop
    cases hget : getPathOperator op.Path s with
    | err e => rfl
    | panic p => rfl
    | ok po =>
      simp only []
      have hk := operateResources_keys coe op po ress []
      simp only [List.map_nil, List.nil_append] at hk
      cases hst : (operateResources coe op po ress []).status with
      | ok u => simp only [ih, hk]
      | err e => exact hk
      | panic p => exact hk

theorem Operate_keys (ress : TerraformResources) (patch : Option Patch) (s : String) :
    (Operate ress patch s).resources.map Prod.fst = ress.map Prod.fst := by
  cases patch with
  | none => rfl
  | some p => exact operateLoop_keys _ _ _ _

theorem selected_eq (p : Patch) (r : Resource) : selected p r = matchesAsStated p r := by
  unfold selected matchesAsStated
  by_cases ht : r.Type_ ∈ p.ResourceTypes
  · by_cases hn : p.ResourceNames = []
    · simp [ht, hn]
    · by_cases hm : r.Name ∈ p.ResourceNames
      · simp [ht, hn, hm]
      · simp [ht, hn, hm]
  · simp [ht]

theorem lookup_of_mem_nodup {α : Type} (m : List (String × α)) (k : String) (v : α)
    (hnodup : (m.map Prod.fst).Nodup) (h : (k, v) ∈ m) : m.lookup k = some v := by
  induction m with
  | nil => simp at h
  | cons e rest ih =>
    obtain ⟨k', v'⟩ := e
    simp only [List.map_cons, List.nodup_cons] at hnodup
    simp only [List.mem_cons, Prod.mk.injEq] at h
    rcases h with ⟨hk, hv⟩ | h
    · subst hk; subst hv
      simp [List.lookup]
    · have hne : k ≠ k' := by
        intro hkk
        subst hkk
        exact hnodup.1 (List.mem_map.mpr ⟨(k, v), h, rfl⟩)
      have hb : (k == k') = false := by simpa using hne
      simp only [List.lookup, hb]
      exact ih hnodup.2 h

theorem withRess_originalRess (p : Patch) (m : Module) (ress : TerraformResources) :
    originalRess p (withRess p m ress) = ress := by
  unfold originalRess withRess
  by_cases h : p.ResourceMode = "data" <;> simp [h]

theorem applyPatches_single (s : String) (p : Patch) (m : Module) :
    applyPatches s [p] m = applyPatch s p m := by
  simp only [applyPatches]
  cases h : (applyPatch s p m).2 with
  | ok u =>
    cases u
    simp only []
    exact Prod.ext rfl h.symm
  | err e => rfl
  | panic q => rfl

/-- C26. `Apply` operates on exactly the matching resources.  For a patch and a Terraform
configuration whose resource maps have distinct keys: the test of `Apply` is the one
stated (type among the patch's types, names empty or containing the name); the map handed
to `Operate` holds exactly the matching entries of the map of the patch's kind (data
resources when the mode is `data`, managed resources otherwise); afterwards a matching
entry has the resource `Operate` left for it, an entry that does not match has its
resource unchanged, and the map of the other kind is unchanged; and `Apply` with a nil tap
`Config` returns the Terraform configuration unchanged. -/
theorem Apply_selects (s : String) (p : Patch) (tfCfg : TerraformConfig)
    (hk : tfCfg.Module.KeysDistinct) :
    (∀ r, selected p r = matchesAsStated p r) ∧
      (originalRess p tfCfg.Module =
        if p.ResourceMode = "data" then tfCfg.Module.DataResources
        else tfCfg.Module.ManagedResources) ∧
      ((Operate ((originalRess p tfCfg.Module).filter (fun e => selected p e.2))
          (some p) s).resources.map Prod.fst =
        ((originalRess p tfCfg.Module).filter (fun e => matchesAsStated p e.2)).map Prod.fst) ∧
      (∀ rn r, (rn, r) ∈ originalRess p tfCfg.Module →
        (matchesAsStated p r = true →
          (originalRess p (Apply tfCfg (some ⟨s, [p]⟩)).config.Module).lookup rn =
            (Operate ((originalRess p tfCfg.Module).filter (fun e => selected p e.2))
              (some p) s).resources.lookup rn) ∧
        (matchesAsStated p r = false →
          (originalRess p (Apply tfCfg (some ⟨s, [p]⟩)).config.Module).lookup rn = some r)) ∧
      ((if p.ResourceMode = "data" then
          (Apply tfCfg (some ⟨s, [p]⟩)).config.Module.ManagedResources =
            tfCfg.Module.ManagedResources
        else (Apply tfCfg (some ⟨s, [p]⟩)).config.Module.DataResources =
            tfCfg.Module.DataResources)) ∧
      Apply tfCfg none = ⟨tfCfg, .ok ()⟩ := by
  have hsel : (fun e : String × Resource => selected p e.2) =
      (fun e => matchesAsStated p e.2) := by
    funext e
    exact selected_eq p e.2
  have happly : (Apply tfCfg (some ⟨s, [p]⟩)).config.Module = (applyPatch s p tfCfg.Module).1 := by
    simp only [Apply, applyPatches_single]
  have hkeys := Operate_keys ((originalRess p tfCfg.Module).filter (fun e => selected p e.2))
    (some p) s
  have horig : ((originalRess p tfCfg.Module).map Prod.fst).Nodup := by
    unfold originalRess
    by_cases h : p.ResourceMode = "data"
    · simp only [h, if_true]; exact hk.2
    · simp only [h, if_false]; exact hk.1
  have hfilt : (((originalRess p tfCfg.Module).filter
      (fun e => selected p e.2)).map Prod.fst).Nodup :=
    (List.filter_sublist _).map Prod.fst |>.nodup horig
  refine ⟨selected_eq p, rfl, ?_, ?_, ?_, rfl⟩
  · rw [hkeys, hsel]
  · intro rn r hmem
    have hlook := lookup_of_mem_nodup _ rn r horig hmem
    have hne : (originalRess p tfCfg.Module).length ≠ 0 := by
      intro h0
      rw [List.length_eq_zero] at h0
      rw [h0] at hmem
      simp at hmem
    have hres : originalRess p (applyPatch s p tfCfg.Module).1 =
        assignAll (originalRess p tfCfg.Module)
          (Operate ((originalRess p tfCfg.Module).filter (fun e => selected p e.2))
            (some p) s).resources := by
      simp only [applyPatch, hne, if_false]
      cases (Operate ((originalRess p tfCfg.Module).filter (fun e => selected p e.2))
            (some p) s).status <;> exact withRess_originalRess _ _ _
    rw [happly, hres]
    have hnd : ((Operate ((originalRess p tfCfg.Module).filter (fun e => selected p e.2))
        (some p) s).resources.map Prod.fst).Nodup := by
      rw [hkeys]; exact hfilt
    rw [lookup_assignAll _ _ rn hnd]
    refine ⟨?_, ?_⟩
    · intro hm
      have hin : rn ∈ (Operate ((originalRess p tfCfg.Module).filter (fun e => selected p e.2))
          (some p) s).resources.map Prod.fst := by
        rw [hkeys]
        exact List.mem_map.mpr ⟨(rn, r), List.mem_filter.mpr ⟨hmem, by
          simpa [selected_eq] using hm⟩, rfl⟩
      cases hl : (Operate ((originalRess p tfCfg.Module).filter (fun e => selected p e.2))
          (some p) s).resources.lookup rn with
      | some v => rfl
      | none =>
        exfalso
        obtain ⟨e, he, hfst⟩ := List.mem_map.mp hin
        have := lookup_of_mem_nodup _ e.1 e.2 hnd he
        rw [hfst, hl] at this
        cases this
    · intro hm
      have hnotin : rn ∉ (Operate ((originalRess p tfCfg.Module).filter
          (fun e => selected p e.2)) (some p) s).resources.map Prod.fst := by
        rw [hkeys]
        intro hin
        obtain ⟨e, he, hfst⟩ := List.mem_map.mp hin
        obtain ⟨he1, he2⟩ := List.mem_filter.mp he
        have hl2 := lookup_of_mem_nodup _ e.1 e.2 horig he1
        rw [hfst, hlook] at hl2
        have : r = e.2 := Option.some.inj hl2
        subst this
        rw [selected_eq, hm] at he2
        cases he2
      rw [lookup_eq_none_of_not_mem_keys rn _ hnotin]
      exact hlook
  · rw [happly]
    unfold applyPatch
    by_cases h0 : (originalRess p tfCfg.Module).length = 0
    · simp only [h0, if_true]
      by_cases h : p.ResourceMode = "data" <;> simp [h]
    · simp only [h0, if_false]
      cases (Operate ((originalRess p tfCfg.Module).filter (fun e => selected p e.2))
            (some p) s).status <;>
        by_cases h : p.ResourceMode = "data" <;> simp [h, withRess]

theorem sampleModule_keys : sampleModule.KeysDistinct := by
  unfold Module.KeysDistinct sampleModule
  constructor <;> decide

/-- C26, witness: with the patch for the managed resources of type `widget`, `Apply` gives
`widget.w` the resource `Operate` leaves for it, keeps `gadget.g` as it is and does not
touch the data resources. -/
theorem Apply_selects_witness :
    sampleModule.KeysDistinct ∧
      ((originalRess envPatch
          (Apply ⟨sampleModule⟩ (some ⟨"json_pointer", [envPatch]⟩)).config.Module).lookup
            "widget.w" =
        (Operate [("widget.w", widget)] (some envPatch) "json_pointer").resources.lookup
          "widget.w") ∧
      ((originalRess envPatch
          (Apply ⟨sampleModule⟩ (some ⟨"json_pointer", [envPatch]⟩)).config.Module).lookup
            "gadget.g" = some gadget) ∧
      (Apply ⟨sampleModule⟩ (some ⟨"json_pointer", [envPatch]⟩)).config.Module.DataResources =
        sampleModule.DataResources :=
  have h := Apply_selects "json_pointer" envPatch ⟨sampleModule⟩ sampleModule_keys
  ⟨sampleModule_keys,
    (h.2.2.2.1 "widget.w" widget (by simp [originalRess, envPatch, sampleModule])).1 (by decide),
    (h.2.2.2.1 "gadget.g" gadget (by simp [originalRess, envPatch, sampleModule])).2 (by decide),
    h.2.2.2.2.1⟩

/-- The sample patch applied to the sample module, evaluated: `widget.w` gets the attribute
`env`, everything else is as before. -/
theorem Apply_sample :
    Apply ⟨sampleModule⟩ (some ⟨"json_pointer", [envPatch]⟩) =
      ⟨⟨⟨[("widget.w", ⟨"widget", "w", .native ⟨widgetBody.Attributes ++
            [("env", ⟨"env", .other "\"prod\"", rng 20, rng 20⟩)], widgetBody.Blocks⟩⟩),
          ("gadget.g", gadget)], [("data.widget.e", widgetEmptyList)]⟩⟩, .ok ()⟩ := rfl

/-! ## Dispatcher: a patch with one operation -/

/-- A valid path has a path operator under the syntax `json_pointer`. -/
theorem getPathOperator_valid (op : Operation) (h : op.Valid) :
    getPathOperator op.Path "json_pointer" = .ok (TokenizeJSONPointerPath op.Path) := by
  have hne : (TokenizeJSONPointerPath op.Path).length ≠ 0 := by
    intro h0
    exact h.2 (List.length_eq_zero.mp h0)
  simp only [getPathOperator, NewJSONPointerPathOperator, hne, if_true, if_false]

/-- A known mode is dispatched to its operation. -/
theorem applyOperation_valid (op : Operation) (r : Resource) (h : op.Valid) :
    ∃ out, applyOperation op r = some out := by
  unfold applyOperation callMode
  rcases h.1 with hm | hm | hm | hm <;> simp [hm]

/-- One pass of an operation over the resources with continue-on-error: when no call
panics, every resource is left as its call leaves it and the pass ends normally. -/
theorem operateResources_lenient (op : Operation) (hv : op.Valid)
    (ress done : TerraformResources)
    (hp : ∀ e ∈ ress, ∀ out, applyOperation op e.2 = some out → out.panicked = false) :
    operateResources true op (TokenizeJSONPointerPath op.Path) ress done =
      ⟨done ++ ress.map (fun e => (e.1, applied op e.2)), .ok ()⟩ := by
  induction ress generalizing done with
  | nil => simp [operateResources]
  | cons e rest ih =>
    obtain ⟨rn, r⟩ := e
    obtain ⟨out, hout⟩ := applyOperation_valid op r hv
    have hnp := hp (rn, r) (List.mem_cons_self _ _) out hout
    have hrest := fun d => ih d (fun e he => hp e (List.mem_cons_of_mem _ he))
    have hcall : callMode op.Mode (TokenizeJSONPointerPath op.Path) r op.Value = some out := hout
    have happ : applied op r = out.resource := by simp only [applied, hout]
    unfold operateResources
    simp only [hcall]
    cases hst : out.status with
    | panic p => simp [Outcome.panicked, hst] at hnp
    | err x => simp [hrest, happ]
    | ok u => simp [hrest, happ]

/-- One pass of an operation over the resources with continue-on-error never ends with an
error. -/
theorem operateResources_lenient_status (op : Operation) (hv : op.Valid)
    (ress done : TerraformResources) (x : DispatchError) :
    (operateResources true op (TokenizeJSONPointerPath op.Path) ress done).status ≠ .err x := by
  induction ress generalizing done with
  | nil => simp [operateResources]
  | cons e rest ih =>
    obtain ⟨rn, r⟩ := e
    obtain ⟨out, hout⟩ := applyOperation_valid op r hv
    have hcall : callMode op.Mode (TokenizeJSONPointerPath op.Path) r op.Value = some out := hout
    unfold operateResources
    simp only [hcall]
    cases hst : out.status with
    | panic p => simp
    | err y => simpa using ih _
    | ok u => simpa using ih _

/-- A patch with one operation and `ContinueOnError = true`, the operation with a known
mode and a path with at least one token, under the path syntax `json_pointer`: `Operate`
never returns an error; and when no call panics it returns without error and leaves every
resource as the call of the operation on it leaves it, whether the operation failed on this
or on any other resource. -/
theorem Operate_one_operation_lenient (tfRess : TerraformResources) (p : Patch)
    (op : Operation) (hcoe : p.ContinueOnError = true) (hops : p.Operations = [op])
    (hv : op.Valid) :
    (∀ x, (Operate tfRess (some p) "json_pointer").status ≠ .err x) ∧
      ((∀ e ∈ tfRess, ∀ out, applyOperation op e.2 = some out → out.panicked = false) →
        Operate tfRess (some p) "json_pointer" =
          ⟨tfRess.map (fun e => (e.1, applied op e.2)), .ok ()⟩) := by
  have hop : Operate tfRess (some p) "json_pointer" =
      (match (operateResources true op (TokenizeJSONPointerPath op.Path) tfRess []).status with
        | .ok _ => ⟨(operateResources true op (TokenizeJSONPointerPath op.Path)
            tfRess []).resources, .ok ()⟩
        | _ => operateResources true op (TokenizeJSONPointerPath op.Path) tfRess []) := by
    simp only [Operate, hcoe, hops, operateLoop, getPathOperator_valid op hv]
  refine ⟨?_, ?_⟩
  · intro x
    rw [hop]
    cases hst : (operateResources true op (TokenizeJSONPointerPath op.Path) tfRess []).status with
    | ok u =>
      simp only []
      intro h
      cases h
    | err y => exact absurd hst (operateResources_lenient_status op hv tfRess [] y)
    | panic q =>
      simp only [hst]
      intro h
      cases h
  · intro hp
    rw [hop, operateResources_lenient op hv tfRess [] hp]
    simp

theorem listOperation_valid : listOperation.Valid :=
  ⟨.inl rfl, by decide⟩

/-- The patch with the one operation add at `list` and continue-on-error on three
resources, evaluated: the operation fails on the second resource, which has the attribute
already; the first and the third get the attribute and `Operate` returns without error. -/
theorem Operate_lenient_sample :
    (Add [tok "list"] widgetEmptyList prodValue).status = .err .alreadyExists ∧
      Operate threeWidgets (some lenientPatch) "json_pointer" =
        ⟨[("widget.w", ⟨"widget", "w", .native ⟨widgetBody.Attributes ++
              [("list", ⟨"list", .other "\"prod\"", rng 20, rng 20⟩)], widgetBody.Blocks⟩⟩),
          ("widget.e", widgetEmptyList),
          ("widget.p", ⟨"widget", "p", .native ⟨[("ports", ⟨"ports",
              .TupleConsExpr [.other "80", .other "443", .other "8080"], rng 1, rng 1⟩),
              ("list", ⟨"list", .other "\"prod\"", rng 20, rng 20⟩)], []⟩⟩)], .ok ()⟩ :=
  ⟨by decide, rfl⟩
/-- One pass of an operation over the resources without continue-on-error: it ends normally
only when every call succeeds, and then every resource is left as its call leaves it; it
ends with an error or a panic only when a call does. -/
theorem operateResources_strict (op : Operation) (hv : op.Valid)
    (ress done : TerraformResources) :
    ((operateResources false op (TokenizeJSONPointerPath op.Path) ress done).status = .ok () →
        (∀ e ∈ ress, ∃ out, applyOperation op e.2 = some out ∧ out.status = .ok ()) ∧
          (operateResources false op (TokenizeJSONPointerPath op.Path) ress done).resources =
            done ++ ress.map (fun e => (e.1, applied op e.2))) ∧
      (∀ x, (operateResources false op (TokenizeJSONPointerPath op.Path) ress done).status =
          .err x →
        ∃ e ∈ ress, ∃ out f, applyOperation op e.2 = some out ∧ out.status = .err f) ∧
      (∀ q, (operateResources false op (TokenizeJSONPointerPath op.Path) ress done).status =
          .panic q →
        ∃ e ∈ ress, ∃ out, applyOperation op e.2 = some out ∧ out.status = .panic q) := by
  induction ress generalizing done with
  | nil =>
    refine ⟨?_, ?_, ?_⟩
    · intro _
      exact ⟨by simp, by simp [operateResources]⟩
    · intro x h
      simp [operateResources] at h
    · intro q h
      simp [operateResources] at h
  | cons e rest ih =>
    obtain ⟨rn, r⟩ := e
    obtain ⟨out, hout⟩ := applyOperation_valid op r hv
    have hcall : callMode op.Mode (TokenizeJSONPointerPath op.Path) r op.Value = some out := hout
    have happ : applied op r = out.resource := by simp only [applied, hout]
    unfold operateResources
    simp only [hcall]
    cases hst : out.status with
    | panic p =>
      refine ⟨?_, ?_, ?_⟩
      · intro h
        simp at h
      · intro x h
        simp at h
      · intro q h
        simp only [Returned.panic.injEq] at h
        subst h
        exact ⟨(rn, r), List.mem_cons_self _ _, out, hout, hst⟩
    | err f =>
      refine ⟨?_, ?_, ?_⟩
      · intro h
        simp at h
      · intro x _
        exact ⟨(rn, r), List.mem_cons_self _ _, out, f, hout, hst⟩
      · intro q h
        simp at h
    | ok u =>
      cases u
      obtain ⟨h1, h2, h3⟩ := ih (done ++ [(rn, out.resource)])
      refine ⟨?_, ?_, ?_⟩
      · intro h
        obtain ⟨ha, hb⟩ := h1 h
        refine ⟨?_, ?_⟩
        · intro e he
          rcases List.mem_cons.mp he with he | he
          · subst he
            exact ⟨out, hout, hst⟩
          · exact ha e he
        · simp only [hb, List.map_cons, happ, List.append_assoc, List.singleton_append]
      · intro x h
        obtain ⟨e, he, hx⟩ := h2 x h
        exact ⟨e, List.mem_cons_of_mem _ he, hx⟩
      · intro q h
        obtain ⟨e, he, hx⟩ := h3 q h
        exact ⟨e, List.mem_cons_of_mem _ he, hx⟩

/-- A patch with one operation and `ContinueOnError = false`, the operation with a known
mode and a path with at least one token, under the path syntax `json_pointer`: `Operate`
returns without error exactly when the operation succeeds on every resource, and then
every resource is as the operation leaves it; when no call panics, `Operate` returns an
error exactly when the operation fails on some resource. -/
theorem Operate_one_operation_strict (tfRess : TerraformResources) (p : Patch)
    (op : Operation) (hcoe : p.ContinueOnError = false) (hops : p.Operations = [op])
    (hv : op.Valid) :
    ((Operate tfRess (some p) "json_pointer").status = .ok () ↔
        ∀ e ∈ tfRess, ∃ out, applyOperation op e.2 = some out ∧ out.status = .ok ()) ∧
      ((Operate tfRess (some p) "json_pointer").status = .ok () →
        (Operate tfRess (some p) "json_pointer").resources =
          tfRess.map (fun e => (e.1, applied op e.2))) ∧
      ((∀ e ∈ tfRess, ∀ out, applyOperation op e.2 = some out → out.panicked = false) →
        ((∃ x, (Operate tfRess (some p) "json_pointer").status = .err x) ↔
          ∃ e ∈ tfRess, ∃ out f, applyOperation op e.2 = some out ∧ out.status = .err f)) := by
  obtain ⟨l1, l2, l3⟩ := operateResources_strict op hv tfRess []
  have hop : Operate tfRess (some p) "json_pointer" =
      (match (operateResources false op (TokenizeJSONPointerPath op.Path) tfRess []).status with
        | .ok _ => ⟨(operateResources false op (TokenizeJSONPointerPath op.Path)
            tfRess []).resources, .ok ()⟩
        | _ => operateResources false op (TokenizeJSONPointerPath op.Path) tfRess []) := by
    simp only [Operate, hcoe, hops, operateLoop, getPathOperator_valid op hv]
  have hstatus : (Operate tfRess (some p) "json_pointer").status =
      (operateResources false op (TokenizeJSONPointerPath op.Path) tfRess []).status := by
    rw [hop]
    cases hst : (operateResources false op (TokenizeJSONPointerPath op.Path) tfRess []).status with
    | ok u => cases u; rfl
    | err y => simp only [hst]
    | panic q => simp only [hst]
  have hress : (Operate tfRess (some p) "json_pointer").resources =
      (operateResources false op (TokenizeJSONPointerPath op.Path) tfRess []).resources := by
    rw [hop]
    cases hst : (operateResources false op (TokenizeJSONPointerPath op.Path) tfRess []).status with
    | ok u => rfl
    | err y => rfl
    | panic q => rfl
  rw [hstatus, hress]
  -- a call that succeeds on every resource ends the pass normally
  have hall : (∀ e ∈ tfRess, ∃ out, applyOperation op e.2 = some out ∧ out.status = .ok ()) →
      (operateResources false op (TokenizeJSONPointerPath op.Path) tfRess []).status
        = .ok () := by
    intro h
    cases hst : (operateResources false op (TokenizeJSONPointerPath op.Path) tfRess []).status with
    | ok u => rfl
    | err x =>
      obtain ⟨e, he, out, f, hout, hf⟩ := l2 x hst
      obtain ⟨out', hout', hok⟩ := h e he
      rw [hout] at hout'
      cases hout'
      rw [hf] at hok
      cases hok
    | panic q =>
      obtain ⟨e, he, out, hout, hf⟩ := l3 q hst
      obtain ⟨out', hout', hok⟩ := h e he
      rw [hout] at hout'
      cases hout'
      rw [hf] at hok
      cases hok
  refine ⟨⟨fun h => (l1 h).1, hall⟩, ?_, ?_⟩
  · intro h
    simpa using (l1 h).2
  · intro hnp
    constructor
    · rintro ⟨x, hx⟩
      exact l2 x hx
    · rintro ⟨e, he, out, f, hout, hf⟩
      cases hst : (operateResources false op (TokenizeJSONPointerPath op.Path) tfRess []).status with
      | ok u =>
        cases u
        obtain ⟨out', hout', hok⟩ := (l1 hst).1 e he
        rw [hout] at hout'
        cases hout'
        rw [hf] at hok
        cases hok
      | err x => exact ⟨x, rfl⟩
      | panic q =>
        obtain ⟨e', he', out', hout', hf'⟩ := l3 q hst
        have := hnp e' he' out' hout'
        simp [Outcome.panicked, hf'] at this

/-- Whenever `Operate` returns an error on the selected resources of a patch, `Apply`
returns an error and no configuration. -/
theorem Apply_error_of_Operate (p : Patch) (s : String) (tfCfg : TerraformConfig)
    (ps : List Patch) (x : DispatchError)
    (hne : originalRess p tfCfg.Module ≠ [])
    (hx : (Operate ((originalRess p tfCfg.Module).filter (fun e => selected p e.2))
      (some p) s).status = .err x) :
    (Apply tfCfg (some ⟨s, p :: ps⟩)).status = .err (.operating x) ∧
      (Apply tfCfg (some ⟨s, p :: ps⟩)).returned = none := by
  have hlen : (originalRess p tfCfg.Module).length ≠ 0 := by
    intro h0
    exact hne (List.length_eq_zero.mp h0)
  have hpatch : (applyPatch s p tfCfg.Module).2 = .err (.operating x) := by
    simp only [applyPatch, hlen, if_false, hx]
  have happly : (Apply tfCfg (some ⟨s, p :: ps⟩)).status = .err (.operating x) := by
    simp only [Apply, applyPatches, hpatch]
  exact ⟨happly, by simp only [Applied.returned, happly]⟩

/-- The patch with the one operation add at `list` and without continue-on-error on three
resources, evaluated: the first resource has been
patched when the error on the second one is returned, the third one is not reached. -/
theorem Operate_strict_sample :
    Operate threeWidgets (some strictPatch) "json_pointer" =
      ⟨[("widget.w", ⟨"widget", "w", .native ⟨widgetBody.Attributes ++
            [("list", ⟨"list", .other "\"prod\"", rng 20, rng 20⟩)], widgetBody.Blocks⟩⟩),
          ("widget.e", widgetEmptyList), ("widget.p", widgetThreePorts)],
        .err (.onResource "add" "widget.e" .alreadyExists)⟩ := rfl

/-- The two operations add `extra = [1]` and add `"prod"` at the end of `extra`, applied in
turn to the resource `gadget` alone: both succeed and leave `extra = [1, "prod"]`, the
sequential composition that C27 and C28 speak of.  (In a run of `Operate` over several
resources the program stores the one tuple of the patch in each of them and appends to it
once per resource; the embedding does not follow that, see the section on the
dispatcher.) -/
theorem composition_sample :
    (applyOperation tupleOperation gadget).map (fun o => o.status) = some (.ok ()) ∧
      (applyOperation appendOperation (applied tupleOperation gadget)).map (fun o => o.status)
        = some (.ok ()) ∧
      applied appendOperation (applied tupleOperation gadget)
        = ⟨"gadget", "g", .native ⟨[attr "size" "3" 1,
            ("extra", ⟨"extra", .TupleConsExpr [.other "1", .other "\"prod\""], rng 20,
              rng 20⟩)], []⟩⟩ :=
  ⟨by decide, by decide, rfl⟩

theorem operateLoop_unknown (coe : Bool) (s : String) (hs : s ≠ "json_pointer")
    (ops : List Operation) (ress : TerraformResources) :
    operateLoop coe s ops ress =
      ⟨ress, if ops.length = 0 then .ok ()
        else .err (.gettingPathOperator (.unknownPathSyntax s))⟩ := by
  cases ops with
  | nil => rfl
  | cons op rest =>
    simp only [operateLoop, getPathOperator, hs, if_false, List.length_cons,
      Nat.add_one_ne_zero]

theorem mapAssign_self {α : Type} (k : String) (v : α) (m : List (String × α))
    (h : m.lookup k = some v) : mapAssign k v m = m := by
  induction m with
  | nil => simp at h
  | cons e rest ih =>
    obtain ⟨k', v'⟩ := e
    unfold mapAssign
    by_cases hk : k = k'
    · subst hk
      simp only [List.lookup, beq_self_eq_true, Option.some.injEq] at h
      subst h
      simp
    · have hb : (k == k') = false := by simpa using hk
      simp only [List.lookup, hb] at h
      simp only [hk, if_false, ih h]

theorem assignAll_self {α : Type} (m upd : List (String × α))
    (h : ∀ e ∈ upd, m.lookup e.1 = some e.2) : assignAll m upd = m := by
  induction upd with
  | nil => rfl
  | cons e rest ih =>
    have h1 := mapAssign_self e.1 e.2 m (h e (List.mem_cons_self _ _))
    have hstep : assignAll m (e :: rest) = assignAll (mapAssign e.1 e.2 m) rest := rfl
    rw [hstep, h1]
    exact ih (fun e' he' => h e' (List.mem_cons_of_mem _ he'))

theorem withRess_self (p : Patch) (m : Module) : withRess p m (originalRess p m) = m := by
  unfold withRess originalRess
  by_cases h : p.ResourceMode = "data" <;> simp [h]

theorem originalRess_nodup (p : Patch) (m : Module) (hk : m.KeysDistinct) :
    ((originalRess p m).map Prod.fst).Nodup := by
  unfold originalRess
  by_cases h : p.ResourceMode = "data"
  · simp only [h, if_true]; exact hk.2
  · simp only [h, if_false]; exact hk.1

/-- One patch under an unknown path syntax: the module is left as it is; the patch ends
with the error exactly when it has an operation and the map of its kind has a resource. -/
theorem applyPatch_unknown (s : String) (hs : s ≠ "json_pointer") (p : Patch) (m : Module)
    (hk : m.KeysDistinct) :
    applyPatch s p m =
      (m, if (originalRess p m).length = 0 ∨ p.Operations.length = 0 then .ok ()
        else .err (unknownSyntaxError s)) := by
  unfold applyPatch
  by_cases h0 : (originalRess p m).length = 0
  · simp [h0]
  · simp only [h0, if_false, false_or, Operate, operateLoop_unknown _ s hs]
    have hself : assignAll (originalRess p m)
        ((originalRess p m).filter (fun e => selected p e.2)) = originalRess p m := by
      apply assignAll_self
      intro e he
      exact lookup_of_mem_nodup _ e.1 e.2 (originalRess_nodup p m hk)
        (List.mem_filter.mp he).1
    rw [hself, withRess_self]
    by_cases hops : p.Operations.length = 0
    · simp [hops]
    · simp [hops, unknownSyntaxError]

theorem applyPatches_unknown (s : String) (hs : s ≠ "json_pointer") (ps : List Patch)
    (m : Module) (hk : m.KeysDistinct) :
    (applyPatches s ps m).1 = m ∧
      ((∃ p ∈ ps, p.Operations ≠ [] ∧ originalRess p m ≠ []) →
        (applyPatches s ps m).2 = .err (unknownSyntaxError s)) ∧
      ((¬ ∃ p ∈ ps, p.Operations ≠ [] ∧ originalRess p m ≠ []) →
        (applyPatches s ps m).2 = .ok ()) := by
  induction ps with
  | nil =>
    refine ⟨rfl, ?_, fun _ => rfl⟩
    rintro ⟨p, hp, _⟩
    simp at hp
  | cons p rest ih =>
    obtain ⟨i1, i2, i3⟩ := ih
    unfold applyPatches
    simp only [applyPatch_unknown s hs p m hk]
    by_cases hc : (originalRess p m).length = 0 ∨ p.Operations.length = 0
    · simp only [hc, if_true]
      have hno : ¬ (p.Operations ≠ [] ∧ originalRess p m ≠ []) := by
        rintro ⟨ha, hb⟩
        rcases hc with hc | hc
        · exact hb (List.length_eq_zero.mp hc)
        · exact ha (List.length_eq_zero.mp hc)
      refine ⟨i1, ?_, ?_⟩
      · rintro ⟨q, hq, hq2⟩
        rcases List.mem_cons.mp hq with hq | hq
        · subst hq
          exact absurd hq2 hno
        · exact i2 ⟨q, hq, hq2⟩
      · intro hnone
        exact i3 (fun ⟨q, hq, hq2⟩ => hnone ⟨q, List.mem_cons_of_mem _ hq, hq2⟩)
    · simp only [hc, if_false]
      refine ⟨trivial, fun _ => trivial, ?_⟩
      intro hnone
      exfalso
      apply hnone
      refine ⟨p, List.mem_cons_self _ _, ?_, ?_⟩
      · intro h
        exact hc (.inr (by rw [h]; rfl))
      · intro h
        exact hc (.inl (by rw [h]; rfl))

/-- C29 (as stated, refuted). The path syntax `yaml` is unknown and the patch `envPatch`
has an operation, yet `Apply` returns without error on a Terraform configuration without
resources, and on one that has data resources only: a patch whose resource map is empty is
skipped before the path syntax is looked at. -/
theorem Apply_unknown_syntax_no_error :
    envPatch.Operations.length = 1 ∧
      Apply ⟨⟨[], []⟩⟩ (some ⟨"yaml", [envPatch]⟩) = ⟨⟨⟨[], []⟩⟩, .ok ()⟩ ∧
      Apply ⟨dataOnlyModule⟩ (some ⟨"yaml", [envPatch]⟩) = ⟨⟨dataOnlyModule⟩, .ok ()⟩ ∧
      (Apply ⟨dataOnlyModule⟩ (some ⟨"yaml", [envPatch]⟩)).returned = some ⟨dataOnlyModule⟩ :=
  ⟨rfl, rfl, rfl, rfl⟩

/-- C29 (amended). An unknown path syntax is detected before any mutation.  For a tap
`Config` whose `PathSyntax` is not `json_pointer` and a Terraform configuration whose
resource maps have distinct keys, `Apply` leaves every resource as it is; it returns an
error and no configuration, whatever `ContinueOnError` is, if some patch has at least one
operation and the configuration has at least one resource of the kind of that patch (data
resources for the mode `data`, managed resources otherwise); otherwise it returns the
configuration without error. -/
theorem Apply_unknown_path_syntax (tfCfg : TerraformConfig) (cfg : Config)
    (hk : tfCfg.Module.KeysDistinct) (hs : cfg.PathSyntax ≠ "json_pointer") :
    (Apply tfCfg (some cfg)).config = tfCfg ∧
      ((∃ p ∈ cfg.Patches, p.Operations ≠ [] ∧ originalRess p tfCfg.Module ≠ []) →
        (Apply tfCfg (some cfg)).status = .err (unknownSyntaxError cfg.PathSyntax) ∧
          (Apply tfCfg (some cfg)).returned = none) ∧
      ((¬ ∃ p ∈ cfg.Patches, p.Operations ≠ [] ∧ originalRess p tfCfg.Module ≠ []) →
        (Apply tfCfg (some cfg)).status = .ok () ∧
          (Apply tfCfg (some cfg)).returned = some tfCfg) := by
  obtain ⟨h1, h2, h3⟩ := applyPatches_unknown cfg.PathSyntax hs cfg.Patches tfCfg.Module hk
  have hcfg : (Apply tfCfg (some cfg)).config = tfCfg := by
    simp only [Apply, h1]
  have hst : (Apply tfCfg (some cfg)).status =
      (applyPatches cfg.PathSyntax cfg.Patches tfCfg.Module).2 := rfl
  refine ⟨hcfg, ?_, ?_⟩
  · intro h
    have := h2 h
    refine ⟨by rw [hst, this], ?_⟩
    simp only [Applied.returned, hst, this]
  · intro h
    have := h3 h
    refine ⟨by rw [hst, this], ?_⟩
    simp only [Applied.returned, hst, this, hcfg]

/-- C29, witness: with the unknown path syntax `yaml`, `Apply` of the patch for managed
resources to the sample module, which has managed resources, returns the error and no
configuration, and the module is as before. -/
theorem Apply_unknown_path_syntax_witness :
    sampleModule.KeysDistinct ∧
      (Apply ⟨sampleModule⟩ (some ⟨"yaml", [envPatch]⟩)).config = ⟨sampleModule⟩ ∧
      (Apply ⟨sampleModule⟩ (some ⟨"yaml", [envPatch]⟩)).status =
        .err (unknownSyntaxError "yaml") ∧
      (Apply ⟨sampleModule⟩ (some ⟨"yaml", [envPatch]⟩)).returned = none :=
  have h := Apply_unknown_path_syntax ⟨sampleModule⟩ ⟨"yaml", [envPatch]⟩ sampleModule_keys
    (by decide)
  have h2 := h.2.1 ⟨envPatch, List.mem_singleton.mpr rfl, by
    simp [envPatch], by simp [originalRess, envPatch, sampleModule]⟩
  ⟨sampleModule_keys, h.1, h2.1, h2.2⟩

/-! ## Value decoding -/

/-- C30 (as stated, refuted). An operation block with both an inline `value` attribute and
a nested `value` block does not have exactly one of the two, yet value decoding succeeds:
the attribute is looked for first and the block is ignored. -/
theorem buildValue_both_present :
    exactlyOneValueAsStated ⟨[("value", prodAttribute)], [envBlock]⟩ = false ∧
      (buildValue ⟨[("value", prodAttribute)], [envBlock]⟩ bareOperation).2 = [] ∧
      (buildValue ⟨[("value", prodAttribute)], [envBlock]⟩ bareOperation).1.Value.Attribute.isSome
        = true ∧
      (buildValue ⟨[("value", prodAttribute)], [envBlock]⟩ bareOperation).1.Value.Block.isNone
        = true :=
  ⟨rfl, rfl, rfl, rfl⟩

/-- C30 (amended). Value decoding of a non-remove operation block, whose value is empty
before.  Content that the schema of `buildValue` does not allow (another argument, another
block type, a `value` block with a label) is an error.  Otherwise decoding succeeds if and
only if an inline `value` attribute is present, or none is present and exactly one nested
`value` block is: with the attribute present the Attribute variant is set to it and the
Block variant is nil, whether or not `value` blocks are present as well; with no attribute
and exactly one block the Block variant is set to it and the Attribute variant is nil; with
neither present, or with no attribute and more than one block, loading fails with an
error and the operation is left as it was. -/
theorem buildValue_spec (remain : RemainBody) (op : Operation)
    (hop : op.Value.Attribute = none ∧ op.Value.Block = none) :
    (contentDiagnostics remain ≠ [] →
        buildValue remain op = (op, contentDiagnostics remain)) ∧
      (contentDiagnostics remain = [] →
        (∀ a, remain.Attributes.lookup "value" = some a →
          buildValue remain op = (⟨op.Mode, op.Path, ⟨some a, none⟩⟩, [])) ∧
        (remain.Attributes.lookup "value" = none →
          (∀ b, remain.Blocks.filter (fun b => b.Type_ = "value") = [b] →
            buildValue remain op = (⟨op.Mode, op.Path, ⟨none, some b⟩⟩, [])) ∧
          ((remain.Blocks.filter (fun b => b.Type_ = "value")).length ≠ 1 →
            buildValue remain op = (op, [.valueRequired op.Mode]))) ∧
        ((buildValue remain op).2 = [] ↔
          ((remain.Attributes.lookup "value").isSome ∨
            (remain.Blocks.filter (fun b => b.Type_ = "value")).length = 1))) := by
  obtain ⟨mode, path, va, vb⟩ := op
  simp only at hop
  obtain ⟨ha, hb⟩ := hop
  subst ha; subst hb
  refine ⟨?_, ?_⟩
  · intro hd
    have : (contentDiagnostics remain).length ≠ 0 := fun h => hd (List.length_eq_zero.mp h)
    simp only [buildValue, this, ne_eq, not_false_eq_true, if_true]
  · intro hd
    have h0 : ¬ ((contentDiagnostics remain).length ≠ 0) := by simp [hd]
    refine ⟨?_, ?_, ?_⟩
    · intro a hlook
      simp only [buildValue, h0, if_false, hlook]
    · intro hlook
      refine ⟨?_, ?_⟩
      · intro b hblk
        simp only [buildValue, h0, if_false, hlook, hblk]
      · intro hlen
        simp only [buildValue, h0, if_false, hlook]
        cases hf : remain.Blocks.filter (fun b => b.Type_ = "value") with
        | nil => rfl
        | cons b rest =>
          cases rest with
          | nil => rw [hf] at hlen; simp at hlen
          | cons b2 rest2 => rfl
    · cases hlook : remain.Attributes.lookup "value" with
      | some a => simp [buildValue, h0, hlook]
      | none =>
        cases hf : remain.Blocks.filter (fun b => b.Type_ = "value") with
        | nil => simp [buildValue, h0, hlook, hf]
        | cons b rest =>
          cases rest with
          | nil => simp [buildValue, h0, hlook, hf]
          | cons b2 rest2 => simp [buildValue, h0, hlook, hf]

/-- C30, witness: the inline attribute alone gives the Attribute variant, the nested block
alone the Block variant, and an operation block without value fails to load. -/
theorem buildValue_spec_witness :
    buildValue ⟨[("value", prodAttribute)], []⟩ bareOperation =
        (⟨"add", "/env", ⟨some prodAttribute, none⟩⟩, []) ∧
      buildValue ⟨[], [envBlock]⟩ bareOperation = (⟨"add", "/env", ⟨none, some envBlock⟩⟩, []) ∧
      buildValue ⟨[], []⟩ bareOperation = (bareOperation, [.valueRequired "add"]) :=
  ⟨((buildValue_spec ⟨[("value", prodAttribute)], []⟩ bareOperation ⟨rfl, rfl⟩).2 rfl).1
      prodAttribute rfl,
    (((buildValue_spec ⟨[], [envBlock]⟩ bareOperation ⟨rfl, rfl⟩).2 rfl).2.1 rfl).1
      envBlock rfl,
    (((buildValue_spec ⟨[], []⟩ bareOperation ⟨rfl, rfl⟩).2 rfl).2.1 rfl).2 (by decide)⟩

/-! ## Patch loader -/

theorem operationStep_spec (b : OperationBlock) (rp : Patch) (diags : List LoadDiagnostic) :
    (∃ extra, (operationStep b rp diags).2 = diags ++ extra) ∧
      (operationStep b rp diags).1.ContinueOnError = rp.ContinueOnError ∧
      (operationStep b rp diags).1.ResourceMode = rp.ResourceMode ∧
      (operationStep b rp diags).1.ResourceTypes = rp.ResourceTypes ∧
      (operationStep b rp diags).1.ResourceNames = rp.ResourceNames := by
  unfold operationStep
  cases hdec : b.decoded with
  | none => exact ⟨⟨[.decode], rfl⟩, rfl, rfl, rfl, rfl⟩
  | some pr =>
    obtain ⟨path, remain⟩ := pr
    by_cases hr : b.Type_ ≠ "remove"
    · by_cases hv : (buildValue remain ⟨b.Type_, path, ⟨none, none⟩⟩).2.length ≠ 0
      · simp only []
        rw [if_pos hr, if_pos hv]
        exact ⟨⟨_, rfl⟩, rfl, rfl, rfl, rfl⟩
      · simp only []
        rw [if_pos hr, if_neg hv]
        exact ⟨⟨[], by simp⟩, rfl, rfl, rfl, rfl⟩
    · simp only []
      rw [if_neg hr]
      exact ⟨⟨[], by simp⟩, rfl, rfl, rfl, rfl⟩

theorem operationsLoop_spec (bs : List OperationBlock) (rp : Patch)
    (diags : List LoadDiagnostic) :
    (∃ extra, (operationsLoop bs rp diags).2 = diags ++ extra) ∧
      (operationsLoop bs rp diags).1.ContinueOnError = rp.ContinueOnError ∧
      (operationsLoop bs rp diags).1.ResourceMode = rp.ResourceMode ∧
      (operationsLoop bs rp diags).1.ResourceTypes = rp.ResourceTypes ∧
      (operationsLoop bs rp diags).1.ResourceNames = rp.ResourceNames := by
  induction bs generalizing rp diags with
  | nil => exact ⟨⟨[], by simp [operationsLoop]⟩, rfl, rfl, rfl, rfl⟩
  | cons b rest ih =>
    unfold operationsLoop
    obtain ⟨⟨e1, h1⟩, a1, a2, a3, a4⟩ := operationStep_spec b rp diags
    obtain ⟨⟨e2, h2⟩, b1, b2, b3, b4⟩ :=
      ih (operationStep b rp diags).1 (operationStep b rp diags).2
    exact ⟨⟨e1 ++ e2, by rw [h2, h1, List.append_assoc]⟩, b1.trans a1, b2.trans a2,
      b3.trans a3, b4.trans a4⟩

theorem buildOperations_spec (remain : OperationsBody) (rp : Patch) :
    (buildOperations remain rp).1.ContinueOnError = rp.ContinueOnError ∧
      (buildOperations remain rp).1.ResourceMode = rp.ResourceMode ∧
      (buildOperations remain rp).1.ResourceTypes = rp.ResourceTypes ∧
      (buildOperations remain rp).1.ResourceNames = rp.ResourceNames ∧
      (remain.Blocks = [] → (buildOperations remain rp).1.Operations = rp.Operations) := by
  unfold buildOperations
  by_cases h : remain.Diagnostics.length ≠ 0
  · rw [if_pos h]
    exact ⟨rfl, rfl, rfl, rfl, fun _ => rfl⟩
  · rw [if_neg h]
    obtain ⟨_, a1, a2, a3, a4⟩ := operationsLoop_spec remain.Blocks rp remain.Diagnostics
    refine ⟨a1, a2, a3, a4, ?_⟩
    intro hb
    simp only [hb, operationsLoop]

theorem selectorStep_spec (coe : Bool) (b : SelectorBlock) (cfg : Config)
    (diags : List LoadDiagnostic) :
    (∃ extra, (selectorStep coe b cfg diags).2 = diags ++ extra) ∧
      (selectorStep coe b cfg diags).1.PathSyntax = cfg.PathSyntax ∧
      ((selectorStep coe b cfg diags).2 = [] →
        ∀ p ∈ (selectorStep coe b cfg diags).1.Patches, p ∈ cfg.Patches ∨ PatchFrom coe [b] p) ∧
      (∀ v, b.decoded = some v → v.Remain.Blocks = [] →
        (selectorStep coe b cfg diags).2 ≠ []) := by
  unfold selectorStep
  cases hdec : b.decoded with
  | none =>
    refine ⟨⟨[.decode], rfl⟩, rfl, ?_, ?_⟩
    · intro h
      simp at h
    · intro v hv
      cases hv
  | some v =>
    obtain ⟨f1, f2, f3, f4, f5⟩ := buildOperations_spec v.Remain (newPatch coe b v)
    by_cases hb : (buildOperations v.Remain (newPatch coe b v)).2.length ≠ 0
    · simp only []
      rw [if_pos hb]
      refine ⟨⟨_, rfl⟩, rfl, ?_, ?_⟩
      · intro h
        exfalso
        apply hb
        have := congrArg List.length h
        simp only [List.length_append, List.length_nil] at this
        omega
      · intro v' _ _ h
        apply hb
        have := congrArg List.length h
        simp only [List.length_append, List.length_nil] at this
        omega
    · simp only []
      rw [if_neg hb]
      by_cases h0 : (buildOperations v.Remain (newPatch coe b v)).1.Operations.length = 0
      · rw [if_pos h0]
        refine ⟨⟨_, rfl⟩, rfl, ?_, ?_⟩
        · intro h
          simp at h
        · intro v' _ _ h
          simp at h
      · rw [if_neg h0]
        refine ⟨⟨[], by simp⟩, rfl, ?_, ?_⟩
        · intro _ p hp
          simp only [List.mem_append, List.mem_singleton] at hp
          rcases hp with hp | hp
          · exact .inl hp
          · right
            subst hp
            refine ⟨fun h => h0 (by rw [h]; rfl), by rw [f3]; simp [newPatch], b,
              List.mem_singleton.mpr rfl, v, hdec, f2, f3, f4, ?_⟩
            rw [f1]
            simp only [newPatch, BoolDeref]
        · intro v' hv' hblocks _
          have hvv : v = v' := Option.some.inj hv'
          subst hvv
          apply h0
          rw [f5 hblocks]
          rfl

theorem PatchFrom_mono (coe : Bool) (bs bs' : List SelectorBlock) (p : Patch)
    (hsub : ∀ b ∈ bs, b ∈ bs') (h : PatchFrom coe bs p) : PatchFrom coe bs' p := by
  obtain ⟨h1, h2, b, hb, rest⟩ := h
  exact ⟨h1, h2, b, hsub b hb, rest⟩

theorem patchesLoop_spec (coe : Bool) (bs : List SelectorBlock) (cfg : Config)
    (diags : List LoadDiagnostic) :
    (∃ extra, (patchesLoop coe bs cfg diags).2 = diags ++ extra) ∧
      (patchesLoop coe bs cfg diags).1.PathSyntax = cfg.PathSyntax ∧
      ((patchesLoop coe bs cfg diags).2 = [] →
        ∀ p ∈ (patchesLoop coe bs cfg diags).1.Patches, p ∈ cfg.Patches ∨ PatchFrom coe bs p) ∧
      ((∃ b ∈ bs, ∃ v, b.decoded = some v ∧ v.Remain.Blocks = []) →
        (patchesLoop coe bs cfg diags).2 ≠ []) := by
  induction bs generalizing cfg diags with
  | nil =>
    refine ⟨⟨[], by simp [patchesLoop]⟩, rfl, ?_, ?_⟩
    · intro _ p hp
      exact .inl hp
    · rintro ⟨b, hb, _⟩
      simp at hb
  | cons b rest ih =>
    unfold patchesLoop
    obtain ⟨⟨e1, h1⟩, s2, s3, s4⟩ := selectorStep_spec coe b cfg diags
    obtain ⟨⟨e2, h2⟩, l2, l3, l4⟩ :=
      ih (selectorStep coe b cfg diags).1 (selectorStep coe b cfg diags).2
    have hnil : ∀ {x y : List LoadDiagnostic}, x ++ y = [] → x = [] := by
      intro x y h
      exact (List.append_eq_nil.mp h).1
    refine ⟨⟨e1 ++ e2, by rw [h2, h1, List.append_assoc]⟩, l2.trans s2, ?_, ?_⟩
    · intro hfin p hp
      have hstep : (selectorStep coe b cfg diags).2 = [] := by
        rw [h2] at hfin
        exact hnil hfin
      rcases l3 hfin p hp with h | h
      · rcases s3 hstep p h with h' | h'
        · exact .inl h'
        · exact .inr (PatchFrom_mono coe [b] (b :: rest) p (by
            intro x hx
            rw [List.mem_singleton] at hx
            subst hx
            exact List.mem_cons_self _ _) h')
      · exact .inr (PatchFrom_mono coe rest (b :: rest) p
          (fun x hx => List.mem_cons_of_mem _ hx) h)
    · rintro ⟨x, hx, v, hv, hblocks⟩ hfin
      rcases List.mem_cons.mp hx with hxb | hxr
      · subst hxb
        apply s4 v hv hblocks
        rw [h2] at hfin
        exact hnil hfin
      · exact l4 ⟨x, hxr, v, hv, hblocks⟩ hfin

/-- The load of a document whose `PartialContent` has no error diagnostics and whose first
block `tap` decodes to `v`: the patches are built with the defaults of `v`. -/
theorem Load_decoded (doc : TapDocument) (blk : TapBlock) (rest : List TapBlock)
    (v : TapFields) (hd : doc.Diagnostics.length = 0) (htap : doc.tapBlocks = blk :: rest)
    (hv : blk.decoded = some v) :
    Load doc =
      if (buildResourcePatches doc.remain
          ⟨if v.PathSyntax = "" then "json_pointer" else v.PathSyntax, []⟩
          v.ContinueOnError).2.length ≠ 0 then
        .err (buildResourcePatches doc.remain
          ⟨if v.PathSyntax = "" then "json_pointer" else v.PathSyntax, []⟩
          v.ContinueOnError).2
      else
        .ok (some (buildResourcePatches doc.remain
          ⟨if v.PathSyntax = "" then "json_pointer" else v.PathSyntax, []⟩
          v.ContinueOnError).1) := by
  have hd' : ¬ doc.Diagnostics.length ≠ 0 := fun h => h hd
  simp only [Load, buildConfig, htap, hv]
  rw [if_neg hd']

/-- C31 (as stated, refuted). The tap configuration without a block `tap` has a selector
block that contains no operation block, yet its load does not fail with an error: it
panics, at the index expression `b[0]` of `buildConfig`. -/
theorem Load_without_tap_block :
    (∃ b ∈ taplessDocument.remain.Blocks, ∃ f, b.decoded = some f ∧ f.Remain.Blocks = []) ∧
      Load taplessDocument = .panic .indexOutOfRange ∧
      (∀ diags, Load taplessDocument ≠ .err diags) :=
  ⟨⟨emptySelector, List.mem_singleton.mpr rfl, _, rfl, rfl⟩, rfl, fun _ h => by cases h⟩

/-- C31 (amended). For a tap configuration with a block `tap`, the load does not panic;
every Patch of a successfully loaded Config has at least one Operation and a non-empty
`ResourceTypes` list, the type label of its selector block followed by the entries of
`type_alias`; its `ContinueOnError` is the selector's own `continue_on_error` when that is
set and the default of the block `tap` otherwise; and a selector block that contains no
operation block makes the load fail with an error. -/
theorem Load_patches (doc : TapDocument) (blk : TapBlock) (rest : List TapBlock)
    (htap : doc.tapBlocks = blk :: rest) :
    (∀ q, Load doc ≠ .panic q) ∧
      (∀ cfg, Load doc = .ok (some cfg) →
        ∃ v, blk.decoded = some v ∧
          ∀ p ∈ cfg.Patches, PatchFrom v.ContinueOnError doc.remain.Blocks p) ∧
      ((∃ b ∈ doc.remain.Blocks, ∃ f, b.decoded = some f ∧ f.Remain.Blocks = []) →
        ∃ diags, diags ≠ [] ∧ Load doc = .err diags) := by
  by_cases hd : doc.Diagnostics.length ≠ 0
  · -- `PartialContent` reports errors
    have hload : Load doc = .err doc.Diagnostics := by
      simp only [Load, buildConfig]
      rw [if_pos hd]
      simp only []
      rw [if_pos hd]
    have hne : doc.Diagnostics ≠ [] := fun h => hd (by rw [h]; rfl)
    refine ⟨?_, ?_, ?_⟩
    · intro q h
      rw [hload] at h
      cases h
    · intro cfg h
      rw [hload] at h
      cases h
    · intro _
      exact ⟨_, hne, hload⟩
  · have hd0 : doc.Diagnostics.length = 0 := by omega
    cases hdec : blk.decoded with
    | none =>
      have hload : Load doc = .err [.decode] := by
        simp only [Load, buildConfig, htap, hdec]
        rw [if_neg hd]
        rfl
      refine ⟨?_, ?_, ?_⟩
      · intro q h
        rw [hload] at h
        cases h
      · intro cfg h
        rw [hload] at h
        cases h
      · intro _
        exact ⟨_, by simp, hload⟩
    | some v =>
      have hload := Load_decoded doc blk rest v hd0 htap hdec
      obtain ⟨_, _, l3, l4⟩ := patchesLoop_spec v.ContinueOnError doc.remain.Blocks
        ⟨if v.PathSyntax = "" then "json_pointer" else v.PathSyntax, []⟩
        doc.remain.Diagnostics
      refine ⟨?_, ?_, ?_⟩
      · intro q h
        rw [hload] at h
        by_cases hl : (buildResourcePatches doc.remain
            ⟨if v.PathSyntax = "" then "json_pointer" else v.PathSyntax, []⟩
            v.ContinueOnError).2.length ≠ 0
        · rw [if_pos hl] at h
          cases h
        · rw [if_neg hl] at h
          cases h
      · intro cfg h
        refine ⟨v, rfl, ?_⟩
        intro p hp
        rw [hload] at h
        by_cases hl : (buildResourcePatches doc.remain
            ⟨if v.PathSyntax = "" then "json_pointer" else v.PathSyntax, []⟩
            v.ContinueOnError).2.length ≠ 0
        · rw [if_pos hl] at h
          cases h
        · rw [if_neg hl] at h
          have hcfg : (buildResourcePatches doc.remain
              ⟨if v.PathSyntax = "" then "json_pointer" else v.PathSyntax, []⟩
              v.ContinueOnError).1 = cfg := by
            injection h with h
            exact Option.some.inj h
          have hnil : (buildResourcePatches doc.remain
              ⟨if v.PathSyntax = "" then "json_pointer" else v.PathSyntax, []⟩
              v.ContinueOnError).2 = [] := by
            apply List.length_eq_zero.mp
            omega
          unfold buildResourcePatches at hcfg hnil
          by_cases hr : doc.remain.Diagnostics.length ≠ 0
          · rw [if_pos hr] at hnil
            have hd1 : doc.remain.Diagnostics = [] := hnil
            exact absurd (by rw [hd1]; rfl) hr
          · rw [if_neg hr] at hcfg hnil
            rw [← hcfg] at hp
            rcases l3 hnil p hp with h | h
            · simp at h
            · exact h
      · intro hex
        rw [hload]
        have hne : (buildResourcePatches doc.remain
            ⟨if v.PathSyntax = "" then "json_pointer" else v.PathSyntax, []⟩
            v.ContinueOnError).2 ≠ [] := by
          unfold buildResourcePatches
          by_cases hr : doc.remain.Diagnostics.length ≠ 0
          · rw [if_pos hr]
            intro h
            apply hr
            simp only [] at h
            rw [h]
            rfl
          · rw [if_neg hr]
            exact l4 hex
        have hlen : (buildResourcePatches doc.remain
            ⟨if v.PathSyntax = "" then "json_pointer" else v.PathSyntax, []⟩
            v.ContinueOnError).2.length ≠ 0 := by
          intro h
          exact hne (List.length_eq_zero.mp h)
        rw [if_pos hlen]
        exact ⟨_, hne, rfl⟩

/-- C31, witness: the sample document loads as one patch with one operation, the types
`widget`, `gadget` and the selector's own `continue_on_error`; with a selector without
operation block added, the load fails. -/
theorem Load_patches_witness :
    Load sampleDocument = .ok (some ⟨"json_pointer", [samplePatch]⟩) ∧
      (∃ v, (⟨some ⟨false, ""⟩⟩ : TapBlock).decoded = some v ∧
        ∀ p ∈ [samplePatch], PatchFrom v.ContinueOnError [sampleSelector] p) ∧
      (∃ diags, diags ≠ [] ∧ Load emptySelectorDocument = .err diags) :=
  ⟨rfl,
    (Load_patches sampleDocument ⟨some ⟨false, ""⟩⟩ [] rfl).2.1
      ⟨"json_pointer", [samplePatch]⟩ rfl,
    (Load_patches emptySelectorDocument ⟨some ⟨false, ""⟩⟩ [] rfl).2.2
      ⟨emptySelector, by simp [emptySelectorDocument], _, rfl, rfl⟩⟩

/-- The load of the document with the empty selector, evaluated. -/
theorem Load_empty_selector :
    Load emptySelectorDocument = .err [.operationRequired "data gadget"] := rfl

/-! ## The option `-chdir` -/

theorem toList_append (a b : String) : (a ++ b).toList = a.toList ++ b.toList := by
  cases a; cases b; rfl

theorem HasPrefix_append (pre s : String) : HasPrefix (pre ++ s) pre = true := by
  unfold HasPrefix
  rw [toList_append]
  exact List.isPrefixOf_iff_prefix.mpr (List.prefix_append _ _)

theorem toList_eq_nil (s : String) (h : s.toList = []) : s = "" := by
  cases s
  simp only [String.toList] at h
  subst h
  rfl

theorem chdir_option_facts (dir : String) (hdir : dir ≠ "") :
    HasPrefix ("-chdir=" ++ dir) "-" = true ∧
      ("-chdir=" ++ dir) ≠ "-chdir" ∧ ("-chdir=" ++ dir) ≠ "-chdir=" ∧
      HasPrefix ("-chdir=" ++ dir) "-chdir=" = true ∧
      String.mk (("-chdir=" ++ dir).toList.drop "-chdir=".length) = dir := by
  have hl : ("-chdir=" ++ dir).toList = "-chdir=".toList ++ dir.toList := toList_append _ _
  refine ⟨?_, ?_, ?_, HasPrefix_append _ _, ?_⟩
  · unfold HasPrefix
    rw [hl]
    rfl
  · intro h
    have h1 := congrArg (fun s => s.toList.length) h
    simp only [hl, List.length_append] at h1
    have h2 : "-chdir=".toList.length = 7 := by decide
    have h3 : "-chdir".toList.length = 6 := by decide
    omega
  · intro h
    apply hdir
    have h1 := congrArg (fun s => s.toList.length) h
    simp only [hl, List.length_append] at h1
    have h0 : dir.toList.length = 0 := by omega
    exact toList_eq_nil dir (List.length_eq_zero.mp h0)
  · rw [hl]
    have : "-chdir=".length = "-chdir=".toList.length := rfl
    rw [this, List.drop_left]
    cases dir
    rfl

/-- The loop over leading options none of which is `-chdir` or `-chdir=` goes through
them, whatever directory options are among them. -/
theorem scanChdir_leading (pre rest : List String) (i : Nat) (st : Nat × String)
    (hopt : ∀ a ∈ pre, HasPrefix a "-" = true)
    (hbare : ∀ a ∈ pre, a ≠ "-chdir" ∧ a ≠ "-chdir=") :
    ∃ st', scanChdir (pre ++ rest) i st = scanChdir rest (i + pre.length) st' ∧
      ((∀ a ∈ pre, HasPrefix a "-chdir=" = false) → st' = st) := by
  induction pre generalizing i st with
  | nil => exact ⟨st, rfl, fun _ => rfl⟩
  | cons a pre ih =>
    have ha := hopt a (List.mem_cons_self _ _)
    have hb := hbare a (List.mem_cons_self _ _)
    have hopt' : ∀ x ∈ pre, HasPrefix x "-" = true := fun x hx => hopt x (List.mem_cons_of_mem _ hx)
    have hbare' : ∀ x ∈ pre, x ≠ "-chdir" ∧ x ≠ "-chdir=" :=
      fun x hx => hbare x (List.mem_cons_of_mem _ hx)
    simp only [List.cons_append, scanChdir, ha, Bool.not_true, Bool.false_eq_true, if_false,
      hb.1, hb.2, or_self, List.length_cons]
    cases hp : HasPrefix a "-chdir="
    · simp only [Bool.false_eq_true, if_false]
      obtain ⟨st', h1, h2⟩ := ih (i + 1) st hopt' hbare'
      refine ⟨st', ?_, ?_⟩
      · exact h1.trans (by congr 1; omega)
      · intro hall
        exact h2 (fun x hx => hall x (List.mem_cons_of_mem _ hx))
    · simp only [if_true]
      obtain ⟨st', h1, _⟩ := ih (i + 1) (i, String.mk (a.toList.drop "-chdir=".length))
        hopt' hbare'
      refine ⟨st', ?_, ?_⟩
      · exact h1.trans (by congr 1; omega)
      · intro hall
        have := hall a (List.mem_cons_self _ _)
        rw [hp] at this
        cases this

/-- The loop leaves its state as it is over arguments whose leading options are neither
`-chdir` nor start with `-chdir=`. -/
theorem scanChdir_none (args : List String) (i : Nat) (st : Nat × String)
    (h : ∀ a ∈ leadingOptions args, a ≠ "-chdir" ∧ HasPrefix a "-chdir=" = false) :
    scanChdir args i st = some st := by
  induction args generalizing i with
  | nil => rfl
  | cons a rest ih =>
    unfold scanChdir
    by_cases ha : HasPrefix a "-" = true
    · have hlead : leadingOptions (a :: rest) = a :: leadingOptions rest := by
        simp [leadingOptions, List.takeWhile, ha]
      rw [hlead] at h
      have h1 := h a (List.mem_cons_self _ _)
      have hne : a ≠ "-chdir=" := by
        intro heq
        have := h1.2
        rw [heq] at this
        exact absurd this (by decide)
      simp only [ha, Bool.not_true, Bool.false_eq_true, if_false, h1.1, hne, or_self, h1.2]
      exact ih (i + 1) (fun x hx => h x (List.mem_cons_of_mem _ hx))
    · simp [ha]

/-- The loop ends with the error when a leading option is `-chdir` or `-chdir=`. -/
theorem scanChdir_error (args : List String) (i : Nat) (st : Nat × String)
    (h : ∃ a ∈ leadingOptions args, a = "-chdir" ∨ a = "-chdir=") :
    scanChdir args i st = none := by
  induction args generalizing i st with
  | nil =>
    obtain ⟨a, ha, _⟩ := h
    simp [leadingOptions] at ha
  | cons a rest ih =>
    obtain ⟨x, hx, hbare⟩ := h
    unfold scanChdir
    by_cases ha : HasPrefix a "-" = true
    · have hlead : leadingOptions (a :: rest) = a :: leadingOptions rest := by
        simp [leadingOptions, List.takeWhile, ha]
      rw [hlead] at hx
      simp only [ha, Bool.not_true, Bool.false_eq_true, if_false]
      by_cases hab : a = "-chdir" ∨ a = "-chdir="
      · simp [hab]
      · simp only [hab, if_false]
        have hx' : x ∈ leadingOptions rest := by
          rcases List.mem_cons.mp hx with hxa | hxr
          · subst hxa
            exact absurd hbare hab
          · exact hxr
        by_cases hp : HasPrefix a "-chdir=" = true
        · simp only [hp, if_true]
          exact ih _ _ ⟨x, hx', hbare⟩
        · simp only [hp, if_false]
          exact ih _ _ ⟨x, hx', hbare⟩
    · have hlead : leadingOptions (a :: rest) = [] := by
        simp [leadingOptions, List.takeWhile, ha]
      rw [hlead] at hx
      simp at hx

/-- The function `extractChdirOption` on arguments with one directory option to take.  When
an option `-chdir=DIR` with a non-empty `DIR` stands among leading options none of which is
`-chdir` or `-chdir=`, and no later argument before the first non-option argument is
`-chdir` or starts with `-chdir=`, it returns `DIR` and the argument list without that
option, all other arguments in their original order; when no leading option is `-chdir` or
starts with `-chdir=` it returns the empty string and the arguments unchanged; and when a
leading option is `-chdir` or `-chdir=` it fails with the error. -/
theorem extractChdirOption_spec :
    (∀ (pre post : List String) (dir : String), dir ≠ "" →
        (∀ a ∈ pre, HasPrefix a "-" = true ∧ a ≠ "-chdir" ∧ a ≠ "-chdir=") →
        (∀ a ∈ leadingOptions post, a ≠ "-chdir" ∧ HasPrefix a "-chdir=" = false) →
        extractChdirOption (pre ++ ("-chdir=" ++ dir) :: post) = (dir, pre ++ post, none)) ∧
      (∀ args : List String,
        (∀ a ∈ leadingOptions args, a ≠ "-chdir" ∧ HasPrefix a "-chdir=" = false) →
        extractChdirOption args = ("", args, none)) ∧
      (∀ args : List String,
        (∃ a ∈ leadingOptions args, a = "-chdir" ∨ a = "-chdir=") →
        extractChdirOption args = ("", args, some .missingDirectory)) := by
  refine ⟨?_, ?_, ?_⟩
  · intro pre post dir hdir hpre hpost
    obtain ⟨f1, f2, f3, f4, f5⟩ := chdir_option_facts dir hdir
    obtain ⟨st', hscan, _⟩ := scanChdir_leading pre (("-chdir=" ++ dir) :: post) 0 (0, "")
      (fun a ha => (hpre a ha).1) (fun a ha => (hpre a ha).2)
    have hstep : scanChdir (("-chdir=" ++ dir) :: post) (0 + pre.length) st' =
        some (pre.length, dir) := by
      simp only [scanChdir, f1, Bool.not_true, Bool.false_eq_true, if_false, f2, f3, or_self,
        f4, if_true, f5, Nat.zero_add]
      exact scanChdir_none post _ _ hpost
    have hlen : (pre ++ ("-chdir=" ++ dir) :: post).length ≠ 0 := by simp
    simp only [extractChdirOption, hlen, if_false, hscan, hstep, hdir]
    by_cases h0 : pre.length = 0
    · have : pre = [] := List.length_eq_zero.mp h0
      subst this
      simp
    · simp only [h0, if_false]
      rw [List.take_left, List.drop_append_eq_append_drop]
      simp
  · intro args h
    by_cases h0 : args.length = 0
    · simp [extractChdirOption, h0]
    · simp only [extractChdirOption, h0, if_false, scanChdir_none args 0 (0, "") h, if_true]
  · intro args h
    have h0 : args.length ≠ 0 := by
      intro h0
      obtain ⟨a, ha, _⟩ := h
      rw [List.length_eq_zero.mp h0] at ha
      simp [leadingOptions] at ha
    simp only [extractChdirOption, h0, if_false, scanChdir_error args 0 (0, "") h]

/-- The option is taken out from between two other options and before the subcommand;
without it the arguments are returned as they are; a bare `-chdir` is an error. -/
theorem extractChdirOption_spec_witness :
    extractChdirOption ["-v", "-chdir=work", "-x", "plan", "-out=p"] =
        ("work", ["-v", "-x", "plan", "-out=p"], none) ∧
      extractChdirOption ["-v", "plan", "-chdir=work"] =
        ("", ["-v", "plan", "-chdir=work"], none) ∧
      extractChdirOption ["-v", "-chdir", "plan"] =
        ("", ["-v", "-chdir", "plan"], some .missingDirectory) :=
  ⟨extractChdirOption_spec.1 ["-v"] ["-x", "plan", "-out=p"] "work" (by decide)
      (by
        intro a ha
        simp only [List.mem_singleton] at ha
        subst ha
        decide)
      (by
        intro a ha
        have hl : leadingOptions ["-x", "plan", "-out=p"] = ["-x"] := by decide
        rw [hl, List.mem_singleton] at ha
        subst ha
        decide),
    extractChdirOption_spec.2.1 ["-v", "plan", "-chdir=work"] (by
        intro a ha
        have hl : leadingOptions ["-v", "plan", "-chdir=work"] = ["-v"] := by decide
        rw [hl, List.mem_singleton] at ha
        subst ha
        decide),
    extractChdirOption_spec.2.2 ["-v", "-chdir", "plan"] ⟨"-chdir", by decide, .inl rfl⟩⟩

/-- C35 (code at the failing input). With two directory options before the subcommand the
function returns the directory `b` of the last option and removes only that one: the
argument list it returns still includes the option `-chdir=a`. -/
theorem extractChdirOption_twice :
    extractChdirOption ["-chdir=a", "-chdir=b", "plan"] = ("b", ["-chdir=a", "plan"], none) := by
  decide

/-! ## Body slots and value kinds -/

/-- C36 (as stated, refuted). On `widget` the segment `size` names an attribute and the
segment `tags` names a block.  `Add` with a Block value at `size` does not fail: it appends a
block of type `size` next to the attribute; `Add` with an Attribute value at `tags` does not
fail either: it adds an attribute `tags` next to the block.  `Replace` fails in both cases,
with path-not-found. -/
theorem Add_body_other_kind_succeeds :
    (widgetBody.Attributes.lookup "size").isSome = true ∧
      widgetBody.Blocks.any (occupies "tags") = true ∧
      Add [tok "size"] widget envBlockValue =
        ⟨⟨"widget", "w", .native ⟨widgetBody.Attributes, widgetBody.Blocks ++
            [⟨"size", [], ⟨[attr "env" "\"prod\"" 21], []⟩, rng 20, []⟩]⟩⟩, .ok ()⟩ ∧
      Add [tok "tags"] widget prodValue =
        ⟨⟨"widget", "w", .native ⟨widgetBody.Attributes ++
            [("tags", ⟨"tags", .other "\"prod\"", rng 20, rng 20⟩)], widgetBody.Blocks⟩⟩,
          .ok ()⟩ ∧
      Replace [tok "size"] widget envBlockValue = ⟨widget, .err .pathNotFound⟩ ∧
      Replace [tok "tags"] widget prodValue = ⟨widget, .err .pathNotFound⟩ :=
  ⟨rfl, by decide, rfl, rfl, rfl, rfl⟩

/-- C36 (amended). On a Body target no value-kind mismatch is reported, the kind of the
value selects the kind of slot.  With a Block value at a segment that names an attribute
and no block, `Add` and `Set` succeed and append a block of that type, the attributes
unchanged, and `Replace` fails with path-not-found and leaves the resource unchanged; with
an Attribute value at a segment that names a block and no attribute, `Add` and `Set`
succeed and add the attribute, the blocks unchanged, and `Replace` fails with
path-not-found and leaves the resource unchanged. -/
theorem body_slot_by_value_kind (op : JSONPointerPathOperator) (r : Resource) (c : Cursor)
    (tk : JSONPointerPathToken) (value : Value) (t : Body)
    (hs : Search op r = .ok c) (hl : op.getLast? = some tk) (hc : c.target = .body t)
    (hwf : t.DynamicsLabelled) :
    (∀ vb a, value.Attribute = none → value.Block = some vb →
        t.Attributes.lookup tk.Value = some a →
        (∀ blk ∈ t.Blocks, occupies tk.Value blk = false) →
        Add op r value =
            ⟨r.put c.loc (.body ⟨t.Attributes, t.Blocks ++
                [⟨tk.Value, vb.Labels, vb.Body, vb.TypeRange, vb.LabelRanges⟩]⟩), .ok ()⟩ ∧
          Set op r value = Add op r value ∧
          Replace op r value = ⟨r, .err .pathNotFound⟩) ∧
      (∀ va blk, value.Attribute = some va →
        t.Attributes.lookup tk.Value = none →
        blk ∈ t.Blocks → occupies tk.Value blk = true →
        Add op r value =
            ⟨r.put c.loc (.body ⟨t.Attributes ++
                [(tk.Value, ⟨tk.Value, va.Expr, va.Range, va.NameRange⟩)], t.Blocks⟩), .ok ()⟩ ∧
          Set op r value = Add op r value ∧
          Replace op r value = ⟨r, .err .pathNotFound⟩) := by
  refine ⟨?_, ?_⟩
  · intro vb a hva hvb _ hno
    have hany : t.Blocks.any (occupies tk.Value) = false := by
      rw [List.any_eq_false]
      intro blk hblk
      simp [hno blk hblk]
    have hex := blockExists_eq tk.Value t.Blocks hwf
    rw [hany] at hex
    have hm := matchingBlocks_none tk.Value t.Blocks 0 [] hwf hno
    refine ⟨?_, ?_, ?_⟩
    · simp only [Add, hs, hl, hc, hva, hvb, hex]
    · simp only [Add, Set, hs, hl, hc, hva, hvb, hex, hm, List.length_nil, if_true]
    · simp only [Replace, hs, hl, hc, hva, hvb, hm, List.length_nil, if_true]
  · intro va blk hva hlook _ _
    refine ⟨?_, ?_, ?_⟩
    · simp only [Add, hs, hl, hc, hva, hlook]
      rfl
    · simp only [Add, Set, hs, hl, hc, hva, hlook]
      rfl
    · simp only [Replace, hs, hl, hc, hva, hlook]
      rfl

/-- C36, witness: on `widget`, `Set` with a Block value at the attribute `size` appends a
block, and `Set` with an Attribute value at the block `tags` adds an attribute. -/
theorem body_slot_by_value_kind_witness :
    (Set [tok "size"] widget envBlockValue = Add [tok "size"] widget envBlockValue ∧
        Replace [tok "size"] widget envBlockValue = ⟨widget, .err .pathNotFound⟩) ∧
      (Set [tok "tags"] widget prodValue = Add [tok "tags"] widget prodValue ∧
        Replace [tok "tags"] widget prodValue = ⟨widget, .err .pathNotFound⟩) :=
  have h1 := (body_slot_by_value_kind [tok "size"] widget ⟨.body widgetBody, none, [], []⟩
    (tok "size") envBlockValue widgetBody rfl rfl rfl widgetBody_labelled).1
    ⟨"value", [], ⟨[attr "env" "\"prod\"" 21], []⟩, rng 20, []⟩ (attr "size" "1" 1).2 rfl rfl rfl
    (by
      intro blk hblk
      simp only [widgetBody, List.mem_cons, List.mem_singleton, List.not_mem_nil,
        or_false] at hblk
      rcases hblk with h | h <;> subst h <;> decide)
  have h2 := (body_slot_by_value_kind [tok "tags"] widget ⟨.body widgetBody, none, [], []⟩
    (tok "tags") prodValue widgetBody rfl rfl rfl widgetBody_labelled).2
    ⟨"value", .other "\"prod\"", rng 20, rng 20⟩ tagsBlock rfl rfl
    (by simp [widgetBody]) (by decide)
  ⟨⟨h1.2.1, h1.2.2⟩, ⟨h2.2.1, h2.2.2⟩⟩

/-! ## Failure atomicity -/

theorem overwriteBlocks_not_err (new : Body) (js : List Nat) (blks : List Block) (e : Failure) :
    (overwriteBlocks new js blks).2 ≠ .err e := by
  induction js generalizing blks with
  | nil => simp [overwriteBlocks]
  | cons j js ih =>
    unfold overwriteBlocks
    cases hj : blks[j]? with
    | none => simp
    | some blk =>
      simp only []
      by_cases hd : blk.Type_ = dynamicBlockType
      · simp only [hd, if_true]
        cases hb : blk.Body.Blocks with
        | nil => simp
        | cons inner inners => exact ih _
      · simp only [hd, if_false]
        exact ih _

/-- An error of `Replace` leaves the resource as it was. -/
theorem Replace_error_unchanged (op : JSONPointerPathOperator) (r : Resource) (value : Value)
    (e : Failure) :
    (Replace op r value).status = .err e → (Replace op r value).resource = r := by
  unfold Replace
  dsimp only
  repeat' split
  all_goals first
    | (intro _; rfl)
    | (intro h; simp at h; done)
    | (intro h
       exact absurd h (overwriteBlocks_not_err _ _ _ e))

/-- An error of `Remove` leaves the resource as it was. -/
theorem Remove_error_unchanged (op : JSONPointerPathOperator) (r : Resource) (e : Failure) :
    (Remove op r).status = .err e → (Remove op r).resource = r := by
  unfold Remove
  dsimp only
  repeat' split
  all_goals first
    | (intro _; rfl)
    | (intro h; simp at h)

/-- An error of `Set` leaves the resource as it was. -/
theorem Set_error_unchanged (op : JSONPointerPathOperator) (r : Resource) (value : Value)
    (e : Failure) :
    (Set op r value).status = .err e → (Set op r value).resource = r := by
  unfold Set
  dsimp only
  repeat' split
  all_goals first
    | (intro _; rfl)
    | (intro h; simp at h; done)
    | (intro h
       exact absurd h (overwriteBlocks_not_err _ _ _ e))

/-- An error of `Add` other than `attribute ... already exists` leaves the resource as it
was. -/
theorem Add_error_unchanged (op : JSONPointerPathOperator) (r : Resource) (value : Value)
    (e : Failure) :
    (Add op r value).status = .err e → (∀ k, e ≠ .attributeAlreadyExists k) →
      (Add op r value).resource = r := by
  unfold Add
  dsimp only
  repeat' split
  all_goals first
    | (intro _ _; rfl)
    | (intro h; simp at h; done)
    | (intro h hne
       simp only [Result.err.injEq] at h
       exact absurd h.symm (hne _))

/-- C37 (code at the failing input). The value block has the attributes `env`, which the
first `tags` block of `widget` does not have, and `team`, which it has.  `Add` at the
segments `tags`, `0` inserts `env` into the addressed body, then meets `team` and returns
the error "attribute team already exists": the resource is not as it was before the call,
the body of the block has gained the attribute `env`. -/
theorem Add_group_partial_mutation :
    tagsBlock.Body.Attributes.lookup "env" = none ∧
      (tagsBlock.Body.Attributes.lookup "team").isSome = true ∧
      Add [tok "tags", tok "0"] widget mixedBlockValue =
        ⟨⟨"widget", "w", .native ⟨widgetBody.Attributes,
          [⟨"tags", [], ⟨[attr "team" "\"a\"" 3, attr "env" "\"prod\"" 21], []⟩, rng 2, []⟩,
            dynamicFoo]⟩⟩, .err (.attributeAlreadyExists "team")⟩ ∧
      Search [tok "tags", tok "x"]
          (Add [tok "tags", tok "0"] widget mixedBlockValue).resource =
        .ok ⟨.bodies [⟨[attr "team" "\"a\"" 3, attr "env" "\"prod\"" 21], []⟩],
          some (.body (⟨widgetBody.Attributes,
            [⟨"tags", [], ⟨[attr "team" "\"a\"" 3, attr "env" "\"prod\"" 21], []⟩, rng 2, []⟩,
              dynamicFoo]⟩)), [.blocks "tags"], []⟩ ∧
      Search [tok "tags", tok "x"] widget =
        .ok ⟨.bodies [⟨[attr "team" "\"a\"" 3], []⟩], some (.body widgetBody),
          [.blocks "tags"], []⟩ :=
  ⟨rfl, rfl, rfl, rfl, rfl⟩

/-! ## Associativity of the override merge -/

/-- The merge of two resolved bodies whose `dynamic` blocks are labelled, none of the
override with the label `dynamic`: the block list is the one the specification describes. -/
theorem mergeInto_stated (bb ob : Body) (hB : bb.DynamicsLabelled) (hO : ob.DynamicsLabelled)
    (hnd : ∀ blk ∈ ob.Blocks, blockIdentity blk ≠ some "dynamic") :
    mergeInto bb ob = .ok (.native ⟨assignAll bb.Attributes ob.Attributes,
      mergedBlocksAsStated bb.Blocks ob.Blocks⟩) := by
  obtain ⟨ids, hmap, hm⟩ := mergeInto_eq bb ob hB hO
  rw [hm]
  have hnot : "dynamic" ∉ ids := by
    intro hin
    have h1 : some "dynamic" ∈ ids.map some := List.mem_map.mpr ⟨_, hin, rfl⟩
    rw [hmap] at h1
    obtain ⟨blk, hblk, hid⟩ := List.mem_map.mp h1
    exact hnd blk hblk hid
  have hf : bb.Blocks.filter (fun blk => !skipped ids blk) =
      bb.Blocks.filter (fun blk => !(ob.Blocks.map blockIdentity).contains (blockIdentity blk)) := by
    apply List.filter_congr
    intro blk hblk
    rw [skipped_eq_identity ids blk (hB blk hblk) hnot, hmap]
  simp only [mergedBlocksAsStated, hf]

theorem mem_mergedBlocksAsStated (base over : List Block) (blk : Block)
    (h : blk ∈ mergedBlocksAsStated base over) : blk ∈ base ∨ blk ∈ over := by
  simp only [mergedBlocksAsStated, List.mem_append, List.mem_filter] at h
  rcases h with h | h
  · exact .inl h.1
  · exact .inr h

/-- The block merge of the specification is associative. -/
theorem mergedBlocksAsStated_assoc (A B C : List Block) :
    mergedBlocksAsStated (mergedBlocksAsStated A B) C =
      mergedBlocksAsStated A (mergedBlocksAsStated B C) := by
  simp only [mergedBlocksAsStated, List.filter_append, List.append_assoc, List.filter_filter,
    List.map_append]
  congr 1
  apply List.filter_congr
  intro a _
  by_cases hb : blockIdentity a ∈ B.map blockIdentity
  · by_cases hc : blockIdentity a ∈ C.map blockIdentity
    · simp [hb, hc]
    · obtain ⟨b, hbm, hbe⟩ := List.mem_map.mp hb
      have : ∃ x, (x ∈ B ∧ ¬ blockIdentity x ∈ C.map blockIdentity) ∧
          blockIdentity x = blockIdentity a := ⟨b, ⟨hbm, by rw [hbe]; exact hc⟩, hbe⟩
      simp only [List.mem_map] at hc hb
      simp [hb, hc]
      obtain ⟨x, ⟨hx1, hx2⟩, hx3⟩ := this
      exact ⟨x, ⟨hx1, by simpa using hx2⟩, hx3⟩
  · by_cases hc : blockIdentity a ∈ C.map blockIdentity
    · simp [hb, hc]
    · simp only [List.mem_map] at hc hb
      simp [hb, hc]
      intro x hx _ hxe
      exact hb ⟨x, hx, hxe⟩

theorem labelled_merged (A B : Body) (hA : A.DynamicsLabelled) (hB : B.DynamicsLabelled)
    (attrs : List (String × Attribute)) :
    Body.DynamicsLabelled ⟨attrs, mergedBlocksAsStated A.Blocks B.Blocks⟩ := by
  intro blk hblk hd
  rcases mem_mergedBlocksAsStated _ _ blk hblk with h | h
  · exact hA blk h hd
  · exact hB blk h hd

/-- C38. Override-merge is associative on concrete bodies.  For bodies `A`, `B`, `C` whose
`dynamic` blocks are labelled, none of them in `B` or `C` with the first label `dynamic`,
and whose attribute names are distinct, as the keys of a map are: merging `C` into the merge
of `B` into `A`, and merging into `A` the merge of `C` into `B`, both return a body, the
two bodies have the same attribute for every name and the same block list; so `mergeBody`
gives the same result for the two nestings of the layers. -/
theorem mergeBody_associative (A B C : Body)
    (hA : A.DynamicsLabelled) (hB : B.DynamicsLabelled) (hC : C.DynamicsLabelled)
    (hndB : ∀ blk ∈ B.Blocks, blockIdentity blk ≠ some "dynamic")
    (hndC : ∀ blk ∈ C.Blocks, blockIdentity blk ≠ some "dynamic")
    (hkB : (B.Attributes.map Prod.fst).Nodup) (hkC : (C.Attributes.map Prod.fst).Nodup) :
    ∃ L R, mergeBody (.MergeBody (.MergeBody (.native A) (.native B)) (.native C)) =
          .ok (.native L) ∧
        mergeBody (.MergeBody (.native A) (.MergeBody (.native B) (.native C))) =
          .ok (.native R) ∧
        (∀ n, L.Attributes.lookup n = R.Attributes.lookup n) ∧
        L.Blocks = R.Blocks := by
  have hAB := mergeInto_stated A B hA hB hndB
  have hBC := mergeInto_stated B C hB hC hndC
  have hABl := labelled_merged A B hA hB (assignAll A.Attributes B.Attributes)
  have hBCl := labelled_merged B C hB hC (assignAll B.Attributes C.Attributes)
  have hndBC : ∀ blk ∈ mergedBlocksAsStated B.Blocks C.Blocks,
      blockIdentity blk ≠ some "dynamic" := by
    intro blk hblk
    rcases mem_mergedBlocksAsStated _ _ blk hblk with h | h
    · exact hndB blk h
    · exact hndC blk h
  have hL := mergeInto_stated ⟨assignAll A.Attributes B.Attributes,
    mergedBlocksAsStated A.Blocks B.Blocks⟩ C hABl hC hndC
  have hR := mergeInto_stated A ⟨assignAll B.Attributes C.Attributes,
    mergedBlocksAsStated B.Blocks C.Blocks⟩ hA hBCl hndBC
  refine ⟨⟨assignAll (assignAll A.Attributes B.Attributes) C.Attributes,
      mergedBlocksAsStated (mergedBlocksAsStated A.Blocks B.Blocks) C.Blocks⟩,
    ⟨assignAll A.Attributes (assignAll B.Attributes C.Attributes),
      mergedBlocksAsStated A.Blocks (mergedBlocksAsStated B.Blocks C.Blocks)⟩,
    by simp only [mergeBody, hAB, hL], by simp only [mergeBody, hBC, hR], ?_, ?_⟩
  · intro n
    have hkBC : ((assignAll B.Attributes C.Attributes).map Prod.fst).Nodup :=
      nodup_keys_assignAll _ _ hkB
    simp only [lookup_assignAll _ _ n hkC, lookup_assignAll _ _ n hkB,
      lookup_assignAll _ _ n hkBC]
    cases C.Attributes.lookup n <;> cases B.Attributes.lookup n <;> rfl
  · exact mergedBlocksAsStated_assoc _ _ _

theorem tagsOnly_labelled (blk : Block) (hne : blk.Type_ ≠ dynamicBlockType)
    (attrs : List (String × Attribute)) : Body.DynamicsLabelled ⟨attrs, [blk]⟩ := by
  intro b hb hd
  simp only [List.mem_singleton] at hb
  subst hb
  exact absurd hd hne

/-- C38, witness: the three layers `baseBody`, `overrideBody` and a third body with the
attribute `zone` and a `lifecycle` block merge to the same body in both nestings. -/
theorem mergeBody_associative_witness :
    ∃ L R, mergeBody (.MergeBody (.MergeBody (.native baseBody) (.native overrideBody))
          (.native thirdBody)) = .ok (.native L) ∧
        mergeBody (.MergeBody (.native baseBody) (.MergeBody (.native overrideBody)
          (.native thirdBody))) = .ok (.native R) ∧
        (∀ n, L.Attributes.lookup n = R.Attributes.lookup n) ∧
        L.Blocks = R.Blocks :=
  mergeBody_associative baseBody overrideBody thirdBody baseBody_labelled
    overrideBody_labelled (tagsOnly_labelled lifecycleBlock (by decide) _)
    (by
      intro blk hblk
      simp only [overrideBody, List.mem_singleton] at hblk
      subst hblk
      decide)
    (by
      intro blk hblk
      simp only [thirdBody, List.mem_singleton] at hblk
      subst hblk
      decide)
    (by decide) (by decide)

/-- The two nestings of the three sample layers, evaluated. -/
theorem mergeBody_nestings_sample :
    mergeBody (.MergeBody (.MergeBody (.native baseBody) (.native overrideBody))
        (.native thirdBody)) =
      .ok (.native ⟨[attr "size" "2" 41, attr "zone" "\"b\"" 51, attr "tier" "\"gold\"" 42],
        [tagsBlockB, lifecycleBlock]⟩) ∧
      mergeBody (.MergeBody (.native baseBody) (.MergeBody (.native overrideBody)
        (.native thirdBody))) =
      .ok (.native ⟨[attr "size" "2" 41, attr "zone" "\"b\"" 51, attr "tier" "\"gold\"" 42],
        [tagsBlockB, lifecycleBlock]⟩) :=
  ⟨rfl, rfl⟩

/-! ## C33: binary operators -/

/-- C33. For a binary operation whose operator is one of the thirteen binary operators, the
generator returns the tokens of the left operand, then exactly one token, whose bytes are
the literal text of the operator, then the tokens of the right operand; the length of the
result is the two operand lengths plus one. -/
theorem tokensForExpression_binary_op (LHS RHS : HclSyntax.Expression)
    (Op : HclSyntax.Operation) (text : String) (quoted : Bool)
    (hop : operatorTextAsStated Op = some text) :
    ∃ t : HclSyntax.Token, t.Bytes = text ∧
      tokensForExpression (.BinaryOpExpr LHS Op RHS) quoted
        = tokensForExpression LHS false ++ [t] ++ tokensForExpression RHS false ∧
      (tokensForExpression (.BinaryOpExpr LHS Op RHS) quoted).length
        = (tokensForExpression LHS false).length + 1
          + (tokensForExpression RHS false).length := by
  have key : ∃ t : HclSyntax.Token, t.Bytes = text ∧ binaryOpTokens Op = [t] := by
    cases Op <;> simp [operatorTextAsStated] at hop <;> subst hop <;>
      exact ⟨_, rfl, rfl⟩
  obtain ⟨t, ht, hb⟩ := key
  refine ⟨t, ht, ?_, ?_⟩
  · rw [tokensForExpression, hb]
  · rw [tokensForExpression, hb]
    simp only [List.length_append, List.length_singleton]

/-- The sum `a + b`: the tokens are those of `a`, the token `+`, those of `b`. -/
theorem tokensForExpression_binary_op_witness :
    operatorTextAsStated .OpAdd = some "+" ∧
    ∃ t : HclSyntax.Token, t.Bytes = "+" ∧
      tokensForExpression (.BinaryOpExpr (ident "a") .OpAdd (ident "b")) false
        = tokensForExpression (ident "a") false ++ [t]
          ++ tokensForExpression (ident "b") false ∧
      (tokensForExpression (.BinaryOpExpr (ident "a") .OpAdd (ident "b")) false).length
        = (tokensForExpression (ident "a") false).length + 1
          + (tokensForExpression (ident "b") false).length :=
  ⟨rfl, tokensForExpression_binary_op (ident "a") (ident "b") .OpAdd "+" false rfl⟩

/-- The tokens of `a + b`, evaluated. -/
theorem tokensForExpression_sum :
    tokensForExpression (.BinaryOpExpr (ident "a") .OpAdd (ident "b")) false
      = [tk .TokenIdent "a", tk .TokenPlus "+", tk .TokenIdent "b"] := by decide

/-! ## C39: parentheses -/

/-- C39. The generator returns for a parenthesised expression exactly the tokens of the
expression inside, for either quoting flag, so no parenthesis token is added; hence the
product of the parenthesised sum `(a + b) * c` and the sum `a + b * c` have the same
tokens, for all expressions `a`, `b` and `c`. -/
theorem tokensForExpression_parentheses :
    (∀ (e : HclSyntax.Expression) (quoted : Bool),
      tokensForExpression (.ParenthesesExpr e) quoted = tokensForExpression e quoted) ∧
    (∀ (a b c : HclSyntax.Expression) (quoted : Bool),
      tokensForExpression
          (.BinaryOpExpr (.ParenthesesExpr (.BinaryOpExpr a .OpAdd b)) .OpMultiply c) quoted
        = tokensForExpression
          (.BinaryOpExpr a .OpAdd (.BinaryOpExpr b .OpMultiply c)) quoted) := by
  refine ⟨fun e quoted => ?_, fun a b c quoted => ?_⟩
  · rw [tokensForExpression]
  · simp only [tokensForExpression, List.append_assoc]

/-- The tokens of `(a + b) * c`, evaluated: `a + b * c`. -/
theorem tokensForExpression_parenthesised_sum :
    tokensForExpression
        (.BinaryOpExpr (.ParenthesesExpr (.BinaryOpExpr (ident "a") .OpAdd (ident "b")))
          .OpMultiply (ident "c")) false
      = [tk .TokenIdent "a", tk .TokenPlus "+", tk .TokenIdent "b", tk .TokenStar "*",
          tk .TokenIdent "c"] := by decide

/-! ## C34: template parts -/

/-- The part loop of a template distributes over concatenation of the part lists. -/
theorem templateParts_append (pre post : List HclSyntax.Expression) :
    templateParts (pre ++ post) = templateParts pre ++ templateParts post := by
  induction pre with
  | nil => simp [templateParts]
  | cons part rest ih =>
    rw [List.cons_append, templateParts, templateParts, ih, List.append_assoc]

/-- An interpolated scope traversal is kept: the interpolation start, the tokens of the
traversal, the sequence end. -/
theorem templatePart_scope_traversal (traversal : Traversal) :
    templatePart (.ScopeTraversalExpr traversal)
      = [tk .TokenTemplateInterp "$\x7b"] ++ tokensForExpression (.ScopeTraversalExpr traversal)
          false ++ [tk .TokenTemplateSeqEnd "\x7d"] := by
  rw [templatePart, tokensForExpression]

/-- A literal part is kept: the tokens of the literal in a quoted context. -/
theorem templatePart_literal (Val : CtyValue) :
    templatePart (.LiteralValueExpr Val) = TokensForLiteralValueExpr Val true := by
  rw [templatePart]

/-- C34 (code at the failing input). An interpolated function call is dropped from a template: for all
parts before and after it, and either quoting flag, the tokens of the template are those of
the template without the call; the same holds for an interpolated index expression and an
interpolated binary operation.  The template made of the literal `a-` and the call
`upper(x)` is written as the quoted literal `a-` alone, although the call itself has the
tokens `upper`, `(`, `x`, `)`. -/
theorem TokensForTemplateExpr_drops_parts :
    (∀ (pre post : List HclSyntax.Expression) (Name : String)
      (Args : List HclSyntax.Expression) (ExpandFinal quoted : Bool),
      tokensForExpression
          (.TemplateExpr (pre ++ .FunctionCallExpr Name Args ExpandFinal :: post)) quoted
        = tokensForExpression (.TemplateExpr (pre ++ post)) quoted) ∧
    (∀ (pre post : List HclSyntax.Expression) (Collection Key : HclSyntax.Expression)
      (quoted : Bool),
      tokensForExpression (.TemplateExpr (pre ++ .IndexExpr Collection Key :: post)) quoted
        = tokensForExpression (.TemplateExpr (pre ++ post)) quoted) ∧
    (∀ (pre post : List HclSyntax.Expression) (LHS RHS : HclSyntax.Expression)
      (Op : HclSyntax.Operation) (quoted : Bool),
      tokensForExpression (.TemplateExpr (pre ++ .BinaryOpExpr LHS Op RHS :: post)) quoted
        = tokensForExpression (.TemplateExpr (pre ++ post)) quoted) ∧
    TokensForExpression callTemplate
      = [⟨.TokenOQuote, "\"", 0⟩, ⟨.TokenQuotedLit, "a-", 0⟩, ⟨.TokenCQuote, "\"", 0⟩] ∧
    TokensForExpression upperCall
      = [⟨.TokenIdent, "upper", 0⟩, ⟨.TokenOParen, "(", 0⟩, ⟨.TokenIdent, "x", 0⟩,
          ⟨.TokenCParen, ")", 0⟩] := by
  refine ⟨?_, ?_, ?_, by decide, by decide⟩
  · intro pre post Name Args ExpandFinal quoted
    rw [tokensForExpression, tokensForExpression, templateParts_append, templateParts_append,
      templateParts, templatePart, List.nil_append]
    all_goals simp
  · intro pre post Collection Key quoted
    rw [tokensForExpression, tokensForExpression, templateParts_append, templateParts_append,
      templateParts, templatePart, List.nil_append]
    all_goals simp
  · intro pre post LHS RHS Op quoted
    rw [tokensForExpression, tokensForExpression, templateParts_append, templateParts_append,
      templateParts, templatePart, List.nil_append]
    all_goals simp

/-! ## C40: bracket balance -/

/-- No token type both opens and closes a pair. -/
theorem opens_not_closes (p : Pair) (t : HclSyntax.TokenType) (h : opens p t = true) :
    closes p t = false := by
  cases p <;> cases t <;> first | rfl | exact absurd h (by decide)

/-- The running depth characterises the counts: a scan from depth `d` ends at depth `e` iff
no prefix has more than `d` closing tokens in excess, and the counts differ by `e - d`. -/
theorem scan_iff (p : Pair) (ts : List HclSyntax.TokenType) :
    ∀ d e : Nat, scan p d ts = some e ↔
      (∀ n, closed p (ts.take n) ≤ d + opened p (ts.take n)) ∧
        e + closed p ts = d + opened p ts := by
  induction ts with
  | nil =>
    intro d e
    simp only [scan, closed, opened, List.take_nil, List.countP_nil, Option.some.injEq]
    constructor
    · intro h; exact ⟨fun _ => by omega, by omega⟩
    · intro h; omega
  | cons t ts ih =>
    intro d e
    have hcons : ∀ (f : HclSyntax.TokenType → Bool) (n : Nat),
        List.countP f ((t :: ts).take (n + 1))
          = List.countP f (ts.take n) + (if f t then 1 else 0) := by
      intro f n
      rw [List.take_succ_cons, List.countP_cons]
    have hall : ∀ f : HclSyntax.TokenType → Bool,
        List.countP f (t :: ts) = List.countP f ts + (if f t then 1 else 0) :=
      fun f => List.countP_cons f t ts
    cases ho : opens p t
    · cases hc : closes p t
      · -- neutral token
        rw [scan, if_neg (by simp [ho]), if_neg (by simp [hc]), ih]
        simp only [closed, opened, hall, ho, hc]
        constructor
        · rintro ⟨h1, h2⟩
          refine ⟨fun n => ?_, by simpa using h2⟩
          cases n with
          | zero => simp
          | succ m => rw [hcons, hcons]; simpa [ho, hc, closed, opened] using h1 m
        · rintro ⟨h1, h2⟩
          refine ⟨fun n => ?_, by simpa using h2⟩
          have := h1 (n + 1)
          rw [hcons, hcons] at this
          simpa [ho, hc, closed, opened] using this
      · -- closing token
        cases d with
        | zero =>
          rw [scan, if_neg (by simp [ho]), if_pos hc, if_pos rfl]
          simp only [closed, opened]
          constructor
          · intro h; cases h
          · rintro ⟨h1, _⟩
            have := h1 1
            rw [hcons, hcons] at this
            simp [ho, hc] at this
        | succ k =>
          rw [scan, if_neg (by simp [ho]), if_pos hc, if_neg (Nat.succ_ne_zero k),
            Nat.add_sub_cancel, ih]
          simp only [closed, opened, hall, ho, hc]
          constructor
          · rintro ⟨h1, h2⟩
            refine ⟨fun n => ?_, by simp only [if_true, Bool.false_eq_true, if_false]; omega⟩
            cases n with
            | zero => simp
            | succ m =>
              rw [hcons, hcons]
              have := h1 m
              simp only [closed, opened] at this
              simp only [ho, hc, if_true, Bool.false_eq_true, if_false]
              omega
          · rintro ⟨h1, h2⟩
            simp only [if_true, Bool.false_eq_true, if_false] at h2
            refine ⟨fun n => ?_, by omega⟩
            have := h1 (n + 1)
            rw [hcons, hcons] at this
            simp only [ho, hc, if_true, Bool.false_eq_true, if_false] at this
            omega
    · -- opening token
      have hc := opens_not_closes p t ho
      rw [scan, if_pos ho, ih]
      simp only [closed, opened, hall, ho, hc]
      constructor
      · rintro ⟨h1, h2⟩
        simp only [if_true, Bool.false_eq_true, if_false] at h2 ⊢
        refine ⟨fun n => ?_, by omega⟩
        cases n with
        | zero => simp
        | succ m =>
          rw [hcons, hcons]
          have := h1 m
          simp only [closed, opened] at this
          simp only [ho, hc, if_true, Bool.false_eq_true, if_false]
          omega
      · rintro ⟨h1, h2⟩
        simp only [if_true, Bool.false_eq_true, if_false] at h2 ⊢
        refine ⟨fun n => ?_, by omega⟩
        have := h1 (n + 1)
        rw [hcons, hcons] at this
        simp only [ho, hc, if_true, Bool.false_eq_true, if_false] at this
        omega

/-- Balance for a pair is a scan from depth zero that ends at depth zero. -/
theorem BalancedFor_iff_scan (p : Pair) (ts : List HclSyntax.TokenType) :
    BalancedFor p ts ↔ scan p 0 ts = some 0 := by
  rw [scan_iff]
  simp only [Nat.zero_add, BalancedFor]
  constructor
  · rintro ⟨h1, h2⟩
    refine ⟨fun n => ?_, h1⟩
    by_cases hn : n ≤ ts.length
    · exact h2 n hn
    · rw [List.take_of_length_le (by omega)]
      exact h1.le
  · rintro ⟨h1, h2⟩
    exact ⟨h2, fun n _ => h1 n⟩

/-- A balanced list leaves every depth as it was. -/
theorem scan_of_balanced (p : Pair) (ts : List HclSyntax.TokenType) (h : BalancedFor p ts)
    (d : Nat) : scan p d ts = some d := by
  have h0 := (scan_iff p ts 0 0).1 ((BalancedFor_iff_scan p ts).1 h)
  rw [scan_iff]
  refine ⟨fun n => ?_, by omega⟩
  have := h0.1 n
  omega

/-- The scan of a concatenation: the second list is scanned from where the first ends. -/
theorem scan_append (p : Pair) (a b : List HclSyntax.TokenType) :
    ∀ d, scan p d (a ++ b) = (scan p d a).bind (fun e => scan p e b) := by
  induction a with
  | nil => intro d; rfl
  | cons t ts ih =>
    intro d
    rw [List.cons_append, scan, scan]
    split
    · exact ih _
    · split
      · split
        · rfl
        · exact ih _
      · exact ih _

/-- The types of a concatenation of generator tokens. -/
theorem types_append (a b : List HclSyntax.Token) :
    HclSyntax.types (a ++ b) = HclSyntax.types a ++ HclSyntax.types b :=
  List.map_append _ a b

/-- The types of a generator token followed by more tokens. -/
theorem types_cons (t : HclSyntax.TokenType) (bytes : String) (l : List HclSyntax.Token) :
    HclSyntax.types (tk t bytes :: l) = t :: HclSyntax.types l := rfl

/-- The types of no tokens. -/
theorem types_nil : HclSyntax.types [] = [] := rfl

/-- The copy of writer tokens into generator tokens keeps the types. -/
theorem types_copy (l : List Token) :
    HclSyntax.types (l.map (fun s => tk s.Type_ s.Bytes)) = types l := by
  simp [HclSyntax.types, types, tk, List.map_map, Function.comp_def]

/-- The copy of generator tokens into writer tokens keeps the types. -/
theorem types_TokensForExpression (e : HclSyntax.Expression) :
    types (TokensForExpression e) = HclSyntax.types (tokensForExpression e false) := by
  simp [HclSyntax.types, types, TokensForExpression, List.map_map, Function.comp_def]

/-- The token of a binary operator is no bracket. -/
theorem scan_binaryOpTokens (p : Pair) (Op : HclSyntax.Operation) (d : Nat) :
    scan p d (HclSyntax.types (binaryOpTokens Op)) = some d := by
  cases Op <;> cases p <;> rfl

/-- The token of a unary operator is no bracket. -/
theorem scan_unaryOpTokens (p : Pair) (Op : HclSyntax.Operation) (d : Nat) :
    scan p d (HclSyntax.types (unaryOpTokens Op)) = some d := by
  cases Op <;> cases p <;> rfl

/-- The tokens of a `for` expression leave every depth as it was when the tokens of its
four operands do. -/
theorem scan_forExpr (p : Pair) (KeyVar ValVar : String)
    (coll key val cond : List HclSyntax.Token) (keyNil condNil Group : Bool)
    (h1 : ∀ d, scan p d (HclSyntax.types coll) = some d)
    (h2 : ∀ d, scan p d (HclSyntax.types key) = some d)
    (h3 : ∀ d, scan p d (HclSyntax.types val) = some d)
    (h4 : ∀ d, scan p d (HclSyntax.types cond) = some d) (d : Nat) :
    scan p d (HclSyntax.types (
      (if keyNil then [tk .TokenOBrack "["] else [tk .TokenOBrace "\x7b"])
      ++ [tk .TokenNewline "\n"]
      ++ [tk .TokenIdent "for", tk .TokenIdent KeyVar]
      ++ (if ValVar ≠ "" then [tk .TokenComma ",", tk .TokenIdent ValVar] else [])
      ++ [tk .TokenIdent "in"]
      ++ coll
      ++ [tk .TokenColon ":"]
      ++ (if !keyNil then key ++ [tk .TokenFatArrow "=>"] else [])
      ++ val
      ++ (if Group then [tk .TokenEllipsis "..."] else [])
      ++ (if !condNil then [tk .TokenNewline "\n", tk .TokenIdent "if"] ++ cond else [])
      ++ [tk .TokenNewline "\n"]
      ++ (if keyNil then [tk .TokenCBrack "]"] else [tk .TokenCBrace "\x7d"]))) = some d := by
  have e1 : ∀ d, scan p d (HclSyntax.types
      (if ValVar ≠ "" then [tk .TokenComma ",", tk .TokenIdent ValVar] else [])) = some d := by
    intro d; split_ifs <;> cases p <;> rfl
  have e2 : ∀ d, scan p d (HclSyntax.types
      (if Group then [tk .TokenEllipsis "..."] else [])) = some d := by
    intro d; split_ifs <;> cases p <;> rfl
  have e3 : ∀ d, scan p d (HclSyntax.types
      (if !condNil then [tk .TokenNewline "\n", tk .TokenIdent "if"] ++ cond else []))
        = some d := by
    intro d
    cases condNil
    · have : ∀ d, scan p d (HclSyntax.types [tk .TokenNewline "\n", tk .TokenIdent "if"])
          = some d := by intro d; cases p <;> rfl
      simp only [Bool.not_false, if_true, types_append, scan_append, this, h4,
        Option.some_bind]
    · cases p <;> rfl
  have e4 : ∀ d, scan p d (HclSyntax.types [tk .TokenNewline "\n"]) = some d := by
    intro d; cases p <;> rfl
  have e5 : ∀ d, scan p d (HclSyntax.types [tk .TokenIdent "for", tk .TokenIdent KeyVar])
      = some d := by intro d; cases p <;> rfl
  have e6 : ∀ d, scan p d (HclSyntax.types [tk .TokenIdent "in"]) = some d := by
    intro d; cases p <;> rfl
  have e7 : ∀ d, scan p d (HclSyntax.types [tk .TokenColon ":"]) = some d := by
    intro d; cases p <;> rfl
  have e8 : ∀ d, scan p d (HclSyntax.types [tk .TokenFatArrow "=>"]) = some d := by
    intro d; cases p <;> rfl
  cases keyNil
  · simp only [Bool.false_eq_true, if_false, Bool.not_false, if_true, types_append,
      scan_append, e1, e2, e3, e4, e5, e6, e7, e8, h1, h2, h3, Option.some_bind]
    cases p <;> rfl
  · simp only [if_true, Bool.not_true, Bool.false_eq_true, if_false, types_append,
      scan_append, e1, e2, e3, e4, e5, e6, e7, e8, h1, h3, Option.some_bind]
    cases p <;> rfl

mutual
/-- The tokens of an expression leave the depth of every pair as it was, given the
assumption on the helpers. -/
theorem tokensForExpression_scan : ∀ (e : HclSyntax.Expression) (quoted : Bool),
    helpersBalanced e = true →
    ∀ (p : Pair) (d : Nat), scan p d (HclSyntax.types (tokensForExpression e quoted)) = some d
  | .nil, _, _, _, _ => rfl
  | .AnonSymbolExpr, _, _, _, _ => rfl
  | .ExprSyntaxError, _, _, _, _ => rfl
  | .BinaryOpExpr LHS Op RHS, _, h, p, d => by
    simp only [helpersBalanced, Bool.and_eq_true] at h
    have h1 := tokensForExpression_scan LHS false h.1 p
    have h2 := tokensForExpression_scan RHS false h.2 p
    rw [tokensForExpression]
    simp only [types_append, scan_append, h1, h2, scan_binaryOpTokens, Option.some_bind]
  | .ConditionalExpr Condition TrueResult FalseResult, _, h, p, d => by
    simp only [helpersBalanced, Bool.and_eq_true] at h
    have h1 := tokensForExpression_scan Condition false h.1.1 p
    have h2 := tokensForExpression_scan TrueResult false h.1.2 p
    have h3 := tokensForExpression_scan FalseResult false h.2 p
    rw [tokensForExpression]
    simp only [types_append, scan_append, h1, h2, h3, Option.some_bind]
    cases p <;> rfl
  | .ForExpr KeyVar ValVar CollExpr KeyExpr ValExpr CondExpr Group, _, h, p, d => by
    simp only [helpersBalanced, Bool.and_eq_true] at h
    have h1 := tokensForExpression_scan CollExpr false h.1.1.1 p
    have h2 := tokensForExpression_scan KeyExpr false h.1.1.2 p
    have h3 := tokensForExpression_scan ValExpr false h.1.2 p
    have h4 := tokensForExpression_scan CondExpr false h.2 p
    rw [tokensForExpression]
    exact scan_forExpr p KeyVar ValVar _ _ _ _ KeyExpr.isNil CondExpr.isNil Group h1 h2 h3 h4 d
  | .FunctionCallExpr Name Args ExpandFinal, _, h, p, d => by
    simp only [helpersBalanced] at h
    have h1 := functionCallArgs_scan Args ExpandFinal Args.length 0 h p
    rw [tokensForExpression]
    simp only [types_append, scan_append, h1, Option.some_bind]
    cases p <;> rfl
  | .IndexExpr Collection Key, _, h, p, d => by
    simp only [helpersBalanced, Bool.and_eq_true] at h
    have h1 := tokensForExpression_scan Collection true h.1 p
    have h2 := tokensForExpression_scan Key false h.2 p
    rw [tokensForExpression]
    simp only [types_append, scan_append, h1, h2, Option.some_bind]
    cases p <;> rfl
  | .LiteralValueExpr Val, quoted, h, p, d => by
    simp only [helpersBalanced, Bool.and_eq_true, decide_eq_true_eq] at h
    rw [tokensForExpression]
    cases quoted
    · exact scan_of_balanced p _ (h.1 p) d
    · exact scan_of_balanced p _ (h.2 p) d
  | .ObjectConsExpr Items, _, h, p, d => by
    simp only [helpersBalanced] at h
    have h1 := objectConsItems_scan Items h p
    rw [tokensForExpression]
    by_cases hl : Items.length > 0 <;>
      simp only [hl, if_true, if_false, types_append, scan_append, h1, Option.some_bind] <;>
      cases p <;> rfl
  | .ObjectConsKeyExpr Wrapped _, _, h, p, d => by
    simp only [helpersBalanced] at h
    rw [tokensForExpression]
    exact tokensForExpression_scan Wrapped false h p d
  | .RelativeTraversalExpr Source Traversal, _, h, p, d => by
    simp only [helpersBalanced, Bool.and_eq_true, decide_eq_true_eq] at h
    have h1 := tokensForExpression_scan Source true h.1 p
    rw [tokensForExpression]
    simp only [types_append, scan_append, h1, Option.some_bind, types_copy]
    exact scan_of_balanced p _ (h.2 p) d
  | .ScopeTraversalExpr Traversal, _, h, p, d => by
    simp only [helpersBalanced, decide_eq_true_eq] at h
    rw [tokensForExpression, TokensForScopeTraversalExpr, types_copy]
    exact scan_of_balanced p _ (h p) d
  | .SplatExpr Source Each, _, h, p, d => by
    simp only [helpersBalanced, Bool.and_eq_true] at h
    have h1 := tokensForExpression_scan Source true h.1 p
    rw [tokensForExpression]
    simp only [types_append, scan_append, h1, Option.some_bind]
    cases p <;> rfl
  | .TemplateExpr Parts, quoted, h, p, d => by
    simp only [helpersBalanced] at h
    have h1 := templateParts_scan Parts h p
    rw [tokensForExpression]
    cases quoted <;>
      simp only [Bool.not_false, Bool.not_true, if_true, Bool.false_eq_true, if_false, types_append, scan_append, h1, Option.some_bind] <;>
      cases p <;> rfl
  | .TemplateJoinExpr Tuple, _, h, p, d => by
    simp only [helpersBalanced] at h
    have h1 := tokensForExpression_scan Tuple false h p
    rw [tokensForExpression]
    simp only [types_append, scan_append, h1, Option.some_bind]
    cases p <;> rfl
  | .TemplateWrapExpr Wrapped, _, h, p, d => by
    simp only [helpersBalanced] at h
    have h1 := tokensForExpression_scan Wrapped false h p
    rw [tokensForExpression]
    simp only [types_append, scan_append, h1, Option.some_bind]
    cases p <;> rfl
  | .TupleConsExpr Exprs, _, h, p, d => by
    simp only [helpersBalanced] at h
    have h1 := tupleConsExprs_scan Exprs 0 h p
    rw [tokensForExpression]
    simp only [types_append, scan_append, h1, Option.some_bind]
    cases p <;> rfl
  | .UnaryOpExpr Op Val, _, h, p, d => by
    simp only [helpersBalanced] at h
    have h1 := tokensForExpression_scan Val false h p
    rw [tokensForExpression]
    simp only [types_append, scan_append, h1, scan_unaryOpTokens, Option.some_bind]
  | .ParenthesesExpr Expression, quoted, h, p, d => by
    simp only [helpersBalanced] at h
    rw [tokensForExpression]
    exact tokensForExpression_scan Expression quoted h p d
/-- The argument loop of a call leaves every depth as it was. -/
theorem functionCallArgs_scan : ∀ (l : List HclSyntax.Expression) (ExpandFinal : Bool)
    (len i : Nat), helpersBalancedAll l = true →
    ∀ (p : Pair) (d : Nat),
      scan p d (HclSyntax.types (functionCallArgs ExpandFinal len l i)) = some d
  | [], _, _, _, _, _, _ => rfl
  | arg :: rest, ExpandFinal, len, i, h, p, d => by
    simp only [helpersBalancedAll, Bool.and_eq_true] at h
    have h1 := tokensForExpression_scan arg false h.1 p
    have h2 := functionCallArgs_scan rest ExpandFinal len (i + 1) h.2 p
    rw [functionCallArgs]
    split_ifs <;>
      simp only [types_append, scan_append, h1, h2, Option.some_bind] <;>
      cases p <;> rfl
/-- The item loop of an object constructor leaves every depth as it was. -/
theorem objectConsItems_scan : ∀ (l : List (HclSyntax.ObjectConsItem HclSyntax.Expression)),
    helpersBalancedItems l = true →
    ∀ (p : Pair) (d : Nat), scan p d (HclSyntax.types (objectConsItems l)) = some d
  | [], _, _, _ => rfl
  | ⟨KeyExpr, ValueExpr⟩ :: rest, h, p, d => by
    simp only [helpersBalancedItems, Bool.and_eq_true] at h
    have h1 := tokensForExpression_scan KeyExpr false h.1.1 p
    have h2 := tokensForExpression_scan ValueExpr false h.1.2 p
    have h3 := objectConsItems_scan rest h.2 p
    rw [objectConsItems]
    simp only [types_append, scan_append, h1, h2, h3, Option.some_bind]
    cases p <;> rfl
/-- The element loop of a tuple constructor leaves every depth as it was. -/
theorem tupleConsExprs_scan : ∀ (l : List HclSyntax.Expression) (i : Nat),
    helpersBalancedAll l = true →
    ∀ (p : Pair) (d : Nat), scan p d (HclSyntax.types (tupleConsExprs l i)) = some d
  | [], _, _, _, _ => rfl
  | e :: rest, i, h, p, d => by
    simp only [helpersBalancedAll, Bool.and_eq_true] at h
    have h1 := tokensForExpression_scan e false h.1 p
    have h2 := tupleConsExprs_scan rest (i + 1) h.2 p
    rw [tupleConsExprs]
    split_ifs <;>
      simp only [types_append, scan_append, h1, h2, Option.some_bind] <;>
      cases p <;> rfl
/-- The part loop of a template leaves every depth as it was. -/
theorem templateParts_scan : ∀ (l : List HclSyntax.Expression),
    helpersBalancedAll l = true →
    ∀ (p : Pair) (d : Nat), scan p d (HclSyntax.types (templateParts l)) = some d
  | [], _, _, _ => rfl
  | part :: rest, h, p, d => by
    simp only [helpersBalancedAll, Bool.and_eq_true] at h
    have h1 := templatePart_scan part h.1 p
    have h2 := templateParts_scan rest h.2 p
    rw [templateParts]
    simp only [types_append, scan_append, h1, h2, Option.some_bind]
/-- The tokens of one template part leave every depth as it was. -/
theorem templatePart_scan : ∀ (e : HclSyntax.Expression), helpersBalanced e = true →
    ∀ (p : Pair) (d : Nat), scan p d (HclSyntax.types (templatePart e)) = some d
  | .LiteralValueExpr Val, h, p, d => by
    simp only [helpersBalanced, Bool.and_eq_true, decide_eq_true_eq] at h
    rw [templatePart]
    exact scan_of_balanced p _ (h.2 p) d
  | .ScopeTraversalExpr Traversal, h, p, d => by
    simp only [helpersBalanced, decide_eq_true_eq] at h
    have h1 := fun d => scan_of_balanced p _ (h p) d
    rw [templatePart, TokensForScopeTraversalExpr]
    simp only [types_append, scan_append, types_copy, h1, Option.some_bind]
    cases p <;> rfl
  | .ConditionalExpr Condition TrueResult FalseResult, h, p, d => by
    simp only [helpersBalanced, Bool.and_eq_true] at h
    have h1 := tokensForExpression_scan Condition true h.1.1 p
    have h2 := tokensForExpression_scan TrueResult true h.1.2 p
    have h3 := tokensForExpression_scan FalseResult true h.2 p
    rw [templatePart]
    split_ifs <;>
      simp only [types_append, scan_append, h1, h2, h3, Option.some_bind] <;>
      cases p <;> rfl
  | .nil, _, _, _ => rfl
  | .AnonSymbolExpr, _, _, _ => rfl
  | .ExprSyntaxError, _, _, _ => rfl
  | .BinaryOpExpr _ _ _, _, _, _ => rfl
  | .ForExpr _ _ _ _ _ _ _, _, _, _ => rfl
  | .FunctionCallExpr _ _ _, _, _, _ => rfl
  | .IndexExpr _ _, _, _, _ => rfl
  | .ObjectConsExpr _, _, _, _ => rfl
  | .ObjectConsKeyExpr _ _, _, _, _ => rfl
  | .RelativeTraversalExpr _ _, _, _, _ => rfl
  | .SplatExpr _ _, _, _, _ => rfl
  | .TemplateExpr _, _, _, _ => rfl
  | .TemplateJoinExpr _, _, _, _ => rfl
  | .TemplateWrapExpr _, _, _, _ => rfl
  | .TupleConsExpr _, _, _, _ => rfl
  | .UnaryOpExpr _ _, _, _, _ => rfl
  | .ParenthesesExpr _, _, _, _ => rfl
end

/-- C40. Given that the literal-value helper and the traversal helper return balanced
token lists for the literals and the traversals of the expression tree, the tokens that
`TokensForExpression` returns for the tree have, for each of the pairs `( )`, `[ ]`, `{ }`
and template sequence start and end, as many closing as opening tokens, and no prefix of
them has more closing than opening tokens of the pair.  The function is defined by structural
recursion on the tree, so it returns for every tree; for an expression kind without a case
(and for the nil expression) it returns no tokens. -/
theorem TokensForExpression_balanced (e : HclSyntax.Expression)
    (h : helpersBalanced e = true) :
    (∀ p : Pair,
      closed p (types (TokensForExpression e)) = opened p (types (TokensForExpression e)) ∧
      ∀ pre : List Token, pre <+: TokensForExpression e →
        closed p (types pre) ≤ opened p (types pre)) ∧
    TokensForExpression .ExprSyntaxError = [] ∧ TokensForExpression .nil = [] := by
  refine ⟨fun p => ?_, rfl, rfl⟩
  have hs := tokensForExpression_scan e false h p 0
  rw [← types_TokensForExpression] at hs
  have hb := (scan_iff p _ 0 0).1 hs
  refine ⟨by omega, fun pre hpre => ?_⟩
  have hn := hb.1 pre.length
  have : types pre = (types (TokensForExpression e)).take pre.length := by
    rw [List.prefix_iff_eq_take.1 hpre, types, types, List.map_take, List.length_take,
      Nat.min_eq_left (hpre.length_le)]
  rw [this]
  omega

/-- The index expression `m["k"][0]` is balanced. -/
theorem TokensForExpression_balanced_witness :
    helpersBalanced indexSample = true ∧
    ((∀ p : Pair,
      closed p (types (TokensForExpression indexSample))
        = opened p (types (TokensForExpression indexSample)) ∧
      ∀ pre : List Token, pre <+: TokensForExpression indexSample →
        closed p (types pre) ≤ opened p (types pre)) ∧
    TokensForExpression .ExprSyntaxError = [] ∧ TokensForExpression .nil = []) :=
  ⟨by decide, TokensForExpression_balanced indexSample (by decide)⟩

/-- The tokens of `m["k"][0]`, evaluated: the collection of an index is written in a quoted
context, the key is not. -/
theorem TokensForExpression_indexSample :
    TokensForExpression indexSample
      = [⟨.TokenIdent, "m", 0⟩, ⟨.TokenOBrack, "[", 0⟩, ⟨.TokenOQuote, "\"", 0⟩,
          ⟨.TokenQuotedLit, "k", 0⟩, ⟨.TokenCQuote, "\"", 0⟩, ⟨.TokenCBrack, "]", 0⟩,
          ⟨.TokenOBrack, "[", 0⟩, ⟨.TokenNumberLit, "0", 0⟩, ⟨.TokenCBrack, "]", 0⟩] := by
  decide

/-! ## C32: declaration order of the writer -/

/-- A character is determined by its code point. -/
theorem toNat_injective (a b : Char) (h : a.toNat = b.toNat) : a = b := by
  have h1 : Char.ofNat a.toNat = Char.ofNat b.toNat := by rw [h]
  simpa [Char.ofNat_toNat] using h1

/-- No sequence is below itself. -/
theorem charsLess_irrefl : ∀ a : List Char, charsLess a a = false
  | [] => rfl
  | a :: as => by
    rw [charsLess, if_neg (Nat.lt_irrefl _), if_neg (Nat.lt_irrefl _)]
    exact charsLess_irrefl as

/-- The comparison of sequences is transitive. -/
theorem charsLess_trans : ∀ a b c : List Char,
    charsLess a b = true → charsLess b c = true → charsLess a c = true
  | _, [], _, h, _ => by cases ‹List Char› <;> simp [charsLess] at h
  | _, _ :: _, [], _, h => by simp [charsLess] at h
  | [], _ :: _, _ :: _, _, _ => rfl
  | a :: as, b :: bs, c :: cs, h1, h2 => by
    rw [charsLess] at h1 h2 ⊢
    by_cases hab : a.toNat < b.toNat
    · by_cases hbc : b.toNat < c.toNat
      · rw [if_pos (Nat.lt_trans hab hbc)]
      · rw [if_neg hbc] at h2
        by_cases hcb : c.toNat < b.toNat
        · rw [if_pos hcb] at h2; cases h2
        · rw [if_pos (by omega)]
    · rw [if_neg hab] at h1
      by_cases hba : b.toNat < a.toNat
      · rw [if_pos hba] at h1; cases h1
      · rw [if_neg hba] at h1
        by_cases hbc : b.toNat < c.toNat
        · rw [if_pos (by omega)]
        · rw [if_neg hbc] at h2
          by_cases hcb : c.toNat < b.toNat
          · rw [if_pos hcb] at h2; cases h2
          · rw [if_neg hcb] at h2
            rw [if_neg (by omega), if_neg (by omega)]
            exact charsLess_trans as bs cs h1 h2

/-- Two sequences neither of which is below the other are equal. -/
theorem charsLess_total : ∀ a b : List Char,
    charsLess a b = false → charsLess b a = false → a = b
  | [], [], _, _ => rfl
  | [], _ :: _, h, _ => by simp [charsLess] at h
  | _ :: _, [], _, h => by simp [charsLess] at h
  | a :: as, b :: bs, h1, h2 => by
    rw [charsLess] at h1 h2
    by_cases hab : a.toNat < b.toNat
    · rw [if_pos hab] at h1; cases h1
    · rw [if_neg hab] at h1 h2
      by_cases hba : b.toNat < a.toNat
      · rw [if_pos hba] at h2; cases h2
      · rw [if_neg hba] at h1 h2
        have hc : a = b := toNat_injective a b (by omega)
        rw [hc, charsLess_total as bs h1 h2]

/-- No range is below itself. -/
theorem rangeLess_irrefl (a : Range) : rangeLess a a = false := by
  simp [rangeLess]

/-- The comparator is transitive. -/
theorem rangeLess_trans (a b c : Range) (h1 : rangeLess a b = true)
    (h2 : rangeLess b c = true) : rangeLess a c = true := by
  simp only [rangeLess, beq_iff_eq] at h1 h2 ⊢
  by_cases hab : a.Filename = b.Filename
  · by_cases hbc : b.Filename = c.Filename
    · rw [if_pos hab] at h1; rw [if_pos hbc] at h2; rw [if_pos (hab.trans hbc)]
      simp only [decide_eq_true_eq] at h1 h2 ⊢
      omega
    · rw [if_neg hbc] at h2
      rw [if_neg (by rw [hab]; exact hbc), hab]
      exact h2
  · rw [if_neg hab] at h1
    by_cases hbc : b.Filename = c.Filename
    · rw [if_neg (by rw [← hbc]; exact hab), ← hbc]
      exact h1
    · rw [if_neg hbc] at h2
      have h3 := charsLess_trans _ _ _ h1 h2
      by_cases hac : a.Filename = c.Filename
      · rw [hac, charsLess_irrefl] at h3; cases h3
      · rw [if_neg hac]; exact h3

/-- Two ranges neither of which is below the other are equal. -/
theorem rangeLess_total (a b : Range) (h1 : rangeLess a b = false)
    (h2 : rangeLess b a = false) : a = b := by
  simp only [rangeLess, beq_iff_eq] at h1 h2
  obtain ⟨fa, la⟩ := a
  obtain ⟨fb, lb⟩ := b
  simp only at h1 h2
  by_cases hab : fa = fb
  · subst hab
    rw [if_pos rfl] at h1 h2
    simp only [decide_eq_false_iff_not] at h1 h2
    have : la = lb := by omega
    rw [this]
  · rw [if_neg hab] at h1
    rw [if_neg (fun h => hab h.symm)] at h2
    have := charsLess_total _ _ h1 h2
    exact absurd (String.ext this) hab

/-- Not being above is the non-decreasing order of file name, then line. -/
theorem rangeLess_false_iff (a b : Range) : rangeLess b a = false ↔ rangeLE a b := by
  simp only [rangeLess, rangeLE, beq_iff_eq]
  by_cases hab : a.Filename = b.Filename
  · rw [if_pos hab.symm, hab]
    simp only [decide_eq_false_iff_not, stringLess, charsLess_irrefl, Bool.false_eq_true,
      false_or, true_and]
    omega
  · rw [if_neg (fun h => hab h.symm)]
    constructor
    · intro h
      left
      cases h2 : stringLess a.Filename b.Filename
      · exact absurd (String.ext (charsLess_total _ _ h2 h)) hab
      · rfl
    · rintro (h | ⟨h, _⟩)
      · cases h2 : stringLess b.Filename a.Filename
        · rfl
        · have := charsLess_trans _ _ _ h h2
          rw [charsLess_irrefl] at this; cases this
      · exact absurd h hab

/-- The comparator is asymmetric. -/
theorem rangeLess_asymm (a b : Range) (h : rangeLess a b = true) : rangeLess b a = false := by
  cases h2 : rangeLess b a
  · rfl
  · have := rangeLess_trans a b a h h2
    rw [rangeLess_irrefl] at this; cases this

/-- The result of `sort.Slice` is a permutation of the slice. -/
theorem sortSlice_perm {α : Type} (less : α → α → Bool) (l : List α) :
    (sortSlice less l).Perm l :=
  List.perm_insertionSort _ l

/-- The result of `sort.Slice` with the comparator of the writer is in non-decreasing order of
the ranges: file name first, then line. -/
theorem sortSlice_sorted {α : Type} (key : α → Range) (l : List α) :
    (sortSlice (fun a b => rangeLess (key a) (key b)) l).Pairwise
      (fun a b => rangeLE (key a) (key b)) := by
  have htotal : IsTotal α (fun a b => rangeLess (key b) (key a) = false) :=
    ⟨fun a b => by
      cases h : rangeLess (key b) (key a)
      · exact Or.inl rfl
      · exact Or.inr (rangeLess_asymm _ _ h)⟩
  have htrans : IsTrans α (fun a b => rangeLess (key b) (key a) = false) :=
    ⟨fun a b c hab hbc => by
      cases hca : rangeLess (key c) (key a)
      · rfl
      · cases hbc2 : rangeLess (key b) (key c)
        · have := rangeLess_total _ _ hbc2 hbc
          rw [this] at hab
          rw [hab] at hca; cases hca
        · have := rangeLess_trans _ _ _ hbc2 hca
          rw [hab] at this; cases this⟩
  have hs := @List.sorted_insertionSort α (fun a b => rangeLess (key b) (key a) = false) _
    htotal htrans l
  exact List.Pairwise.imp (fun h => (rangeLess_false_iff _ _).1 h) hs

/-- Two lists with the same elements, both in non-decreasing order of ranges that are
pairwise distinct, are equal: the order leaves no choice. -/
theorem sorted_perm_unique {α : Type} (key : α → Range) (l1 l2 : List α)
    (hperm : l1.Perm l2)
    (h1 : l1.Pairwise (fun a b => rangeLE (key a) (key b)))
    (h2 : l2.Pairwise (fun a b => rangeLE (key a) (key b)))
    (hk : (l1.map key).Nodup) : l1 = l2 := by
  have hk2 : (l2.map key).Nodup := (hperm.map key).nodup_iff.1 hk
  have hanti : IsAntisymm α (fun a b => rangeLE (key a) (key b) ∧ key a ≠ key b) :=
    ⟨fun a b hab hba => absurd
      (rangeLess_total _ _ ((rangeLess_false_iff _ _).2 hba.1) ((rangeLess_false_iff _ _).2 hab.1))
      hab.2⟩
  have s1 : l1.Pairwise (fun a b => rangeLE (key a) (key b) ∧ key a ≠ key b) :=
    h1.and (List.pairwise_map.1 hk)
  have s2 : l2.Pairwise (fun a b => rangeLE (key a) (key b) ∧ key a ≠ key b) :=
    h2.and (List.pairwise_map.1 hk2)
  exact @List.eq_of_perm_of_sorted α _ hanti l1 l2 hperm s1 s2

/-- With pairwise distinct ranges the sorted slice does not depend on the order of the
slice. -/
theorem sortSlice_order_irrelevant {α : Type} (key : α → Range) (l l' : List α)
    (hperm : l'.Perm l) (hk : (l.map key).Nodup) :
    sortSlice (fun a b => rangeLess (key a) (key b)) l'
      = sortSlice (fun a b => rangeLess (key a) (key b)) l := by
  apply sorted_perm_unique key
  · exact (sortSlice_perm _ l').trans (hperm.trans (sortSlice_perm _ l).symm)
  · exact sortSlice_sorted key l'
  · exact sortSlice_sorted key l
  · exact ((sortSlice_perm _ l').trans hperm |>.map key).nodup_iff.2 hk

/-- The values of a map in another iteration order are a permutation of its values. -/
theorem values_perm {α : Type} (m m' : List (String × α)) (h : m'.Perm m) :
    (m'.map Prod.snd).Perm (m.map Prod.snd) := h.map _

/-- A body without the attribute: `SetAttributeRaw` adds it at the end. -/
theorem SetAttributeRaw_fresh (b : WriteBody) (name : String) (tokens : List Token)
    (h : b.any (WriteItem.isAttribute name) = false) :
    SetAttributeRaw b name tokens = b ++ [.attr name tokens] := by
  rw [SetAttributeRaw, if_neg (by rw [h]; exact Bool.false_ne_true)]

/-- The block loop adds one block per source block at the end, in list order. -/
theorem appendBlocks_eq : ∀ (blocks : List (HclSyntax.BlockOf HclSyntax.Body))
    (b : WriteBody), appendBlocks b blocks = b ++ blocks.map blockItem
  | [], b => by simp [appendBlocks]
  | ⟨t, labels, body⟩ :: rest, b => by
    rw [appendBlocks, appendBlocks_eq rest]
    simp [AppendNewBlock, blockItem]

/-- A loop whose passes add items at the end adds the items of the passes in the order of
the loop. -/
theorem foldl_items {α : Type} (step : WriteBody → α → WriteBody)
    (h : ∀ wb d, step wb d = wb ++ step [] d) :
    ∀ (ds : List α) (wb : WriteBody), ds.foldl step wb = wb ++ ds.flatMap (step [])
  | [], wb => by simp
  | d :: rest, wb => by
    rw [List.foldl_cons, foldl_items step h rest, h wb d, List.flatMap_cons,
      List.append_assoc]

/-- A pass of the provider loop adds its items at the end. -/
theorem writeProvider_items (wb : WriteBody) (p : Configs.Provider) :
    writeProvider wb p = wb ++ writeProvider [] p := by
  simp [writeProvider, AppendNewline, AppendNewBlock]

/-- A pass of the variable loop adds its items at the end. -/
theorem writeVariable_items (wb : WriteBody) (v : Configs.Variable) :
    writeVariable wb v = wb ++ writeVariable [] v := by
  simp [writeVariable, AppendNewline, AppendUnstructuredTokens]

/-- A pass of the resource loop adds its items at the end. -/
theorem writeResource_items (blockType : String) (wb : WriteBody) (r : Configs.Resource) :
    writeResource blockType wb r = wb ++ writeResource blockType [] r := by
  simp [writeResource, AppendNewline, AppendNewBlock]

/-- A pass of the module loop adds its items at the end. -/
theorem writeModuleCall_items (wb : WriteBody) (m : Configs.ModuleCall) :
    writeModuleCall wb m = wb ++ writeModuleCall [] m := by
  simp [writeModuleCall, AppendNewline, AppendNewBlock]

/-- A loop of `SetAttributeRaw` on a body that has none of the names, which are distinct:
every attribute is added at the end, in the order of the loop. -/
theorem foldl_SetAttributeRaw_fresh {α : Type} (name : α → String) (toks : α → List Token) :
    ∀ (xs : List α) (b : WriteBody), (xs.map name).Nodup →
    (∀ x ∈ xs, b.any (WriteItem.isAttribute (name x)) = false) →
    xs.foldl (fun b x => SetAttributeRaw b (name x) (toks x)) b
      = b ++ xs.map (fun x => .attr (name x) (toks x))
  | [], b, _, _ => by simp
  | a :: rest, b, hn, hf => by
    have hn' := List.nodup_cons.1 hn
    have ha := hf a (List.mem_cons_self _ _)
    rw [List.foldl_cons, SetAttributeRaw_fresh b _ _ ha,
      foldl_SetAttributeRaw_fresh name toks rest _ hn'.2 ?_]
    · simp
    · intro x hx
      rw [List.any_append, hf x (List.mem_cons_of_mem _ hx)]
      have hne : name a ≠ name x := by
        intro h
        apply hn'.1
        rw [h]
        exact List.mem_map_of_mem name hx
      simp [WriteItem.isAttribute, hne]

/-- The locals section, for locals of distinct names: one block `locals` with the locals in
the order given, or nothing when there is no local. -/
theorem writeLocals_eq (wb : WriteBody) (locals : List Configs.Local)
    (hn : (locals.map (fun l => l.Name)).Nodup) :
    writeLocals wb locals
      = wb ++ (if locals.length ≠ 0 then
          [.block "locals" [] (locals.map localItem), .newline] else []) := by
  rw [writeLocals]
  split_ifs with h
  · have := foldl_SetAttributeRaw_fresh (fun l : Configs.Local => l.Name)
      (fun l => fromHCLTokens l.Tokens true) locals [] hn (fun _ _ => rfl)
    simp only [this, AppendNewline, AppendNewBlock, List.nil_append, List.append_assoc,
      List.singleton_append]
    rfl
  · simp

/-- The output loop adds the items of the outputs, a newline between two of them. -/
theorem writeOutputs_eq (len : Nat) : ∀ (rest : List Configs.Output) (i : Nat)
    (wb : WriteBody), i + rest.length = len →
    writeOutputs len rest i wb = wb ++ outputItems rest
  | [], _, wb, _ => by simp [writeOutputs, outputItems]
  | [o], i, wb, h => by
    have hi : i = len - 1 := by simp at h; omega
    simp [writeOutputs, outputItems, AppendUnstructuredTokens, hi]
  | o :: o2 :: rest, i, wb, h => by
    have hi : i ≠ len - 1 := by simp at h; omega
    rw [writeOutputs]
    simp only [hi, ne_eq, not_false_eq_true, if_true]
    rw [writeOutputs_eq len (o2 :: rest) (i + 1) _ (by simp at h ⊢; omega)]
    simp [outputItems, AppendUnstructuredTokens, AppendNewline]

/-- With pairwise distinct ranges the sorted values of a map do not depend on the iteration
order of the map. -/
theorem sorted_values_order_irrelevant {α : Type} (key : α → Range)
    (m m' : List (String × α)) (hperm : m'.Perm m)
    (hk : (m.map (fun e => key e.2)).Nodup) :
    sortSlice (fun a b => rangeLess (key a) (key b)) (m'.map Prod.snd)
      = sortSlice (fun a b => rangeLess (key a) (key b)) (m.map Prod.snd) := by
  apply sortSlice_order_irrelevant key _ _ (hperm.map _)
  rw [List.map_map]
  exact hk

/-- The sorted values of a map are its values in non-decreasing order of the ranges. -/
theorem sorted_values_inOrder {α : Type} (key : α → Range) (m : List (String × α)) :
    InOrder key (sortSlice (fun a b => rangeLess (key a) (key b)) (m.map Prod.snd))
      (m.map Prod.snd) :=
  ⟨sortSlice_sorted key _, sortSlice_perm _ _⟩

/-- The layout of `AppendHCLBody` on a receiver that has none of the attribute names of the
body: the attributes in sorted order, then the blocks in list order, all at the end. -/
theorem appendSyntaxBody_fresh (b : WriteBody) (bd : HclSyntax.Body)
    (hnames : (bd.Attributes.map (fun e => e.2.Name)).Nodup)
    (hfresh : ∀ e ∈ bd.Attributes, b.any (WriteItem.isAttribute e.2.Name) = false) :
    appendSyntaxBody b bd
      = b ++ (sortedAttributes bd.Attributes).map attributeItem
          ++ bd.Blocks.map blockItem := by
  obtain ⟨attrs, blocks⟩ := bd
  have hperm : (sortedAttributes attrs).Perm (attrs.map Prod.snd) := sortSlice_perm _ _
  rw [appendSyntaxBody, appendBlocks_eq, setAttributes]
  rw [foldl_SetAttributeRaw_fresh (fun a : HclSyntax.Attribute => a.Name)
    (fun a => TokensForExpression a.Expr)]
  · rfl
  · rw [(hperm.map _).nodup_iff, List.map_map]
    exact hnames
  · intro x hx
    obtain ⟨e, he, rfl⟩ := List.mem_map.1 (hperm.mem_iff.1 hx)
    exact hfresh e he

/-- C32 (as stated, refuted). A receiver that already has an attribute of the body keeps it
where it stands: for the resource `aws_instance.web`, whose provider reference makes `Write`
set the attribute `provider` before it appends the body, the body of the block written has
`provider` (line 5 of the source) before `ami` (line 3), although the sorted attributes are
`ami`, `provider`. -/
theorem AppendHCLBody_existing_attribute :
    writeResource "resource" [] webInstance
      = [.block "resource" ["aws_instance", "web"]
          [.attr "provider" [⟨.TokenIdent, "aws", 0⟩], .newline,
            .attr "ami" [⟨.TokenOQuote, "\"", 0⟩, ⟨.TokenQuotedLit, "x", 0⟩,
              ⟨.TokenCQuote, "\"", 0⟩]],
          .newline] ∧
    attributeNames (AppendHCLBody
        (AppendNewline (SetAttributeValue [] "provider" (StringVal "aws")))
        (.native instanceBody)) = ["provider", "ami"] ∧
    (sortedAttributes instanceBody.Attributes).map (fun a => (a.Name, a.SrcRange.Line))
      = [("ami", 3), ("provider", 5)] :=
  ⟨rfl, rfl, rfl⟩

/-- C32 (amended). Within each of the seven categories `Write` emits the declarations in
non-decreasing order of declaration file name, then start line: the file body is the block
`terraform` followed, category by category, by the items of the declarations in that order.
`AppendHCLBody`, on a receiver that has none of the attribute names of the body, adds at the
end of the receiver the attributes of the body in non-decreasing order of source file name,
then start line, followed by its blocks in list order.  When the ranges are pairwise
distinct, the output of `Write` and of `AppendHCLBody` is the same for every iteration order
of the maps. -/
theorem Write_declaration_order (terraformBody b : WriteBody) (m m' : Configs.Module)
    (bd bd' : HclSyntax.Body)
    (hm : m.Reordered m') (hk : m.RangesDistinct)
    (hlocals : (m.Locals.map (fun e => e.2.Name)).Nodup)
    (hbd : bd'.Attributes.Perm bd.Attributes) (hblocks : bd'.Blocks = bd.Blocks)
    (hbk : (bd.Attributes.map (fun e => e.2.SrcRange)).Nodup)
    (hnames : (bd.Attributes.map (fun e => e.2.Name)).Nodup)
    (hfresh : ∀ e ∈ bd.Attributes, b.any (WriteItem.isAttribute e.2.Name) = false) :
    (InOrder (fun p => p.DeclRange) (sortedProviders m) (m.ProviderConfigs.map Prod.snd) ∧
      InOrder (fun v => v.DeclRange) (sortedVariables m) (m.Variables.map Prod.snd) ∧
      InOrder (fun l => l.DeclRange) (sortedLocals m) (m.Locals.map Prod.snd) ∧
      InOrder (fun r => r.DeclRange) (sortedResources m) (m.ManagedResources.map Prod.snd) ∧
      InOrder (fun r => r.DeclRange) (sortedDatas m) (m.DataResources.map Prod.snd) ∧
      InOrder (fun c => c.DeclRange) (sortedModules m) (m.ModuleCalls.map Prod.snd) ∧
      InOrder (fun o => o.DeclRange) (sortedOutputs m) (m.Outputs.map Prod.snd)) ∧
    Write terraformBody m
      = [.block "terraform" [] terraformBody, .newline]
        ++ (sortedProviders m).flatMap (writeProvider [])
        ++ (sortedVariables m).flatMap (writeVariable [])
        ++ (if (sortedLocals m).length ≠ 0 then
              [.block "locals" [] ((sortedLocals m).map localItem), .newline] else [])
        ++ (sortedResources m).flatMap (writeResource "resource" [])
        ++ (sortedDatas m).flatMap (writeResource "data" [])
        ++ (sortedModules m).flatMap (writeModuleCall [])
        ++ outputItems (sortedOutputs m) ∧
    InOrder (fun a => a.SrcRange) (sortedAttributes bd.Attributes)
      (bd.Attributes.map Prod.snd) ∧
    AppendHCLBody b (.native bd)
      = b ++ (sortedAttributes bd.Attributes).map attributeItem ++ bd.Blocks.map blockItem ∧
    Write terraformBody m' = Write terraformBody m ∧
    AppendHCLBody b (.native bd') = AppendHCLBody b (.native bd) := by
  obtain ⟨hm1, hm2, hm3, hm4, hm5, hm6, hm7⟩ := hm
  obtain ⟨hk1, hk2, hk3, hk4, hk5, hk6, hk7⟩ := hk
  refine ⟨⟨sorted_values_inOrder _ _, sorted_values_inOrder _ _, sorted_values_inOrder _ _,
    sorted_values_inOrder _ _, sorted_values_inOrder _ _, sorted_values_inOrder _ _,
    sorted_values_inOrder _ _⟩, ?_, sorted_values_inOrder _ _, ?_, ?_, ?_⟩
  · have hl : ((sortedLocals m).map (fun l => l.Name)).Nodup := by
      have hperm : (sortedLocals m).Perm (m.Locals.map Prod.snd) := sortSlice_perm _ _
      rw [(hperm.map _).nodup_iff, List.map_map]
      exact hlocals
    rw [Write]
    simp only [foldl_items writeProvider writeProvider_items,
      foldl_items writeVariable writeVariable_items,
      foldl_items (writeResource "resource") (writeResource_items "resource"),
      foldl_items (writeResource "data") (writeResource_items "data"),
      foldl_items writeModuleCall writeModuleCall_items,
      writeLocals_eq _ _ hl,
      writeOutputs_eq _ _ 0 _ (Nat.zero_add _)]
    simp only [AppendNewline, AppendNewBlock, List.nil_append, List.append_assoc,
      List.singleton_append, List.cons_append]
  · exact appendSyntaxBody_fresh b bd hnames hfresh
  · have e1 : sortedProviders m' = sortedProviders m :=
      sorted_values_order_irrelevant (fun p : Configs.Provider => p.DeclRange) _ _ hm1 hk1
    have e2 : sortedVariables m' = sortedVariables m :=
      sorted_values_order_irrelevant (fun p : Configs.Variable => p.DeclRange) _ _ hm2 hk2
    have e3 : sortedLocals m' = sortedLocals m :=
      sorted_values_order_irrelevant (fun p : Configs.Local => p.DeclRange) _ _ hm3 hk3
    have e4 : sortedResources m' = sortedResources m :=
      sorted_values_order_irrelevant (fun p : Configs.Resource => p.DeclRange) _ _ hm4 hk4
    have e5 : sortedDatas m' = sortedDatas m :=
      sorted_values_order_irrelevant (fun p : Configs.Resource => p.DeclRange) _ _ hm5 hk5
    have e6 : sortedModules m' = sortedModules m :=
      sorted_values_order_irrelevant (fun p : Configs.ModuleCall => p.DeclRange) _ _ hm6 hk6
    have e7 : sortedOutputs m' = sortedOutputs m :=
      sorted_values_order_irrelevant (fun p : Configs.Output => p.DeclRange) _ _ hm7 hk7
    rw [Write, Write, e1, e2, e3, e4, e5, e6, e7]
  · obtain ⟨attrs, blocks⟩ := bd
    obtain ⟨attrs', blocks'⟩ := bd'
    simp only at hbd hblocks hbk
    subst hblocks
    have e : sortedAttributes attrs' = sortedAttributes attrs :=
      sorted_values_order_irrelevant (fun a : HclSyntax.Attribute => a.SrcRange) _ _ hbd hbk
    rw [AppendHCLBody, AppendHCLBody, appendSyntaxBody, appendSyntaxBody, e]

/-- C32 (amended), witness: the sample module with its resource map in either iteration
order is written the same, and the body with `size` and `ami` is appended to a receiver that
has the attribute `provider` as `ami`, `size`, then the block `tags`, in either iteration
order of its attribute map. -/
theorem Write_declaration_order_witness :
    AppendHCLBody [.attr "provider" [⟨.TokenIdent, "aws", 0⟩], .newline] (.native plainBody)
      = [.attr "provider" [⟨.TokenIdent, "aws", 0⟩], .newline]
          ++ (sortedAttributes plainBody.Attributes).map attributeItem
          ++ plainBody.Blocks.map blockItem ∧
    Write [] writerModuleReordered = Write [] writerModule ∧
    AppendHCLBody [.attr "provider" [⟨.TokenIdent, "aws", 0⟩], .newline]
        (.native plainBodyReordered)
      = AppendHCLBody [.attr "provider" [⟨.TokenIdent, "aws", 0⟩], .newline]
        (.native plainBody) :=
  (Write_declaration_order [] [.attr "provider" [⟨.TokenIdent, "aws", 0⟩], .newline]
    writerModule writerModuleReordered plainBody plainBodyReordered
    ⟨List.Perm.refl _, List.Perm.refl _, List.Perm.refl _,
      List.Perm.swap _ _ _, List.Perm.refl _, List.Perm.refl _, List.Perm.refl _⟩
    ⟨by decide, by decide, by decide, by decide, by decide, by decide, by decide⟩
    (by decide) (List.Perm.swap _ _ _) rfl (by decide) (by decide) (by decide)).2.2.2

/-- The sample module, written: the resource of `cache.tf` comes before the resource of
`main.tf`, and the attributes of `db` are in the order of their lines. -/
theorem Write_sample :
    Write [] writerModule
      = [.block "terraform" [] [], .newline,
          .block "resource" ["aws_instance", "cache"] [], .newline,
          .block "resource" ["aws_instance", "db"]
            [.attr "ami" [⟨.TokenOQuote, "\"", 0⟩, ⟨.TokenQuotedLit, "x", 0⟩,
                ⟨.TokenCQuote, "\"", 0⟩],
              .attr "size" [⟨.TokenIdent, "n", 0⟩],
              .block "tags" [] []],
          .newline,
          .tokens [⟨.TokenIdent, "output", 0⟩, ⟨.TokenIdent, "\"id\"", 0⟩],
          .tokens [⟨.TokenOBrace, "\x7b", 0⟩, ⟨.TokenCBrace, "\x7d", 0⟩]] := rfl

end Tap
